import Mathlib

/-!
# MoNav: indexed binary heap and turn-aware contraction-hierarchy query

A shallow embedding of `plugins/contractionhierarchies/binaryheap.h` and
`plugins/contractionhierarchiesturn/turnquery.h`.

Conventions of the embedding.

* C++ `assert`s are kept: a failed assertion is `Except.error Fault.assertion`.
* An access outside a `std::vector` that no assertion guards is undefined
  behaviour in the source; it is `Except.error Fault.outOfBounds`.
* Loops are recursive functions on a fuel argument; running out of fuel is
  `Except.error Fault.fuel`.  The callers pass a fuel that the theorems show
  to be enough.
* `Key` and `NodeID` are `unsigned` in the source and natural numbers here;
  `Weight` is `int` and an integer here.  The heap itself only compares and
  copies weights.  The arithmetic of the query is done modulo `2^32`.
-/

set_option autoImplicit false

deriving instance DecidableEq for Except

namespace MoNav

/-- Ways in which a run of the embedded code can fail to produce a value. -/
inductive Fault where
  | assertion
  | outOfBounds
  | fuel
  deriving DecidableEq, Repr

/-- Read `v[i]` of a `std::vector`. -/
def rd {α : Type} (v : List α) (i : Nat) : Except Fault α :=
  match v[i]? with
  | some a => .ok a
  | none => .error .outOfBounds

/-- Write `v[i] = a` of a `std::vector`. -/
def wr {α : Type} (v : List α) (i : Nat) (a : α) : Except Fault (List α) :=
  if i < v.length then .ok (v.set i a) else .error .outOfBounds

/-- The C++ `assert( c )`. -/
def assert (c : Prop) [Decidable c] : Except Fault Unit :=
  if c then .ok () else .error .assertion

/-! ## binaryheap.h -/

/-- `ArrayStorage< NodeID, Key >`: `size` cells that the constructor leaves
uninitialised; `positions.length` is the `size` member. -/
structure ArrayStorage where
  positions : List Nat
  deriving DecidableEq, Repr

/-- `ArrayStorage::operator[]` used as an rvalue. -/
def ArrayStorage.get (a : ArrayStorage) (node : Nat) : Except Fault Nat := do
  assert (node < a.positions.length)
  rd a.positions node

/-- `ArrayStorage::operator[]` used as an lvalue. -/
def ArrayStorage.put (a : ArrayStorage) (node : Nat) (k : Nat) : Except Fault ArrayStorage := do
  assert (node < a.positions.length)
  let p ← wr a.positions node k
  pure ⟨p⟩

/-- `ArrayStorage::clear`, whose body is empty. -/
def ArrayStorage.clear (a : ArrayStorage) : ArrayStorage := a

/-- `BinaryHeap::HeapNode`. -/
structure HeapNode (δ : Type) where
  node : Nat
  key : Nat
  weight : Int
  data : δ
  deriving DecidableEq, Repr

/-- `BinaryHeap::HeapElement`. -/
structure HeapElement where
  index : Nat
  weight : Int
  deriving DecidableEq, Repr

/-- The three members of `BinaryHeap`, with the dense `ArrayStorage` index. -/
structure BinaryHeap (δ : Type) where
  insertedNodes : List (HeapNode δ)
  heap : List HeapElement
  nodeIndex : ArrayStorage
  deriving DecidableEq, Repr

namespace BinaryHeap

variable {δ : Type}

/-- `heap.resize( 1 )`: keeps `heap[0]`, value-initialises it when the vector was empty. -/
def resize1 (heap : List HeapElement) : List HeapElement :=
  match heap with
  | [] => [⟨0, 0⟩]
  | e :: _ => [e]

/-- `BinaryHeap::Clear`. -/
def Clear (s : BinaryHeap δ) : BinaryHeap δ :=
  match resize1 s.heap with
  | e :: _ => { insertedNodes := [], heap := [{ e with weight := 0 }], nodeIndex := s.nodeIndex.clear }
  | [] => { insertedNodes := [], heap := [], nodeIndex := s.nodeIndex.clear }

/-- The constructor `BinaryHeap( maxID )`; the argument is the uninitialised index array. -/
def new (garbage : List Nat) : BinaryHeap δ :=
  Clear { insertedNodes := [], heap := [], nodeIndex := ⟨garbage⟩ }

/-- `BinaryHeap::Size`. -/
def Size (s : BinaryHeap δ) : Nat := s.heap.length - 1

/-- The loop of `BinaryHeap::Upheap`; returns the heap and the final `key`. -/
def UpheapLoop (weight : Int) : Nat → BinaryHeap δ → Nat → Except Fault (BinaryHeap δ × Nat)
  | 0, _, _ => .error .fuel
  | fuel + 1, s, key => do
    let nextKey := key / 2
    let parent ← rd s.heap nextKey
    if parent.weight > weight then
      assert (nextKey ≠ 0)
      assert (nextKey < s.heap.length)
      let heap ← wr s.heap key parent
      assert (parent.index < s.insertedNodes.length)
      let r ← rd s.insertedNodes parent.index
      let ins ← wr s.insertedNodes parent.index { r with key := key }
      UpheapLoop weight fuel { s with heap := heap, insertedNodes := ins } nextKey
    else
      pure (s, key)

/-- `BinaryHeap::Upheap`. -/
def Upheap (s : BinaryHeap δ) (key : Nat) : Except Fault (BinaryHeap δ) := do
  assert (key < s.heap.length)
  let e ← rd s.heap key
  let risingIndex := e.index
  let weight := e.weight
  assert (key / 2 < s.heap.length)
  let (s1, key1) ← UpheapLoop weight (key + 1) s key
  let heap ← wr s1.heap key1 ⟨risingIndex, weight⟩
  assert (risingIndex < s1.insertedNodes.length)
  let r ← rd s1.insertedNodes risingIndex
  let ins ← wr s1.insertedNodes risingIndex { r with key := key1 }
  pure { s1 with heap := heap, insertedNodes := ins }

/-- The loop of `BinaryHeap::Downheap`; `nextKey` is always `key << 1`. -/
def DownheapLoop (weight : Int) : Nat → BinaryHeap δ → Nat → Except Fault (BinaryHeap δ × Nat)
  | 0, _, _ => .error .fuel
  | fuel + 1, s, key => do
    let nextKey := 2 * key
    if nextKey < s.heap.length then
      let nextKeyOther := nextKey + 1
      let a ← rd s.heap nextKey
      let nextKey ←
        if nextKeyOther < s.heap.length then do
          let b ← rd s.heap nextKeyOther
          pure (if a.weight > b.weight then nextKeyOther else nextKey)
        else pure nextKey
      let child ← rd s.heap nextKey
      if weight ≤ child.weight then
        pure (s, key)
      else
        let heap ← wr s.heap key child
        assert (child.index < s.insertedNodes.length)
        let r ← rd s.insertedNodes child.index
        let ins ← wr s.insertedNodes child.index { r with key := key }
        DownheapLoop weight fuel { s with heap := heap, insertedNodes := ins } nextKey
    else
      pure (s, key)

/-- `BinaryHeap::Downheap`. -/
def Downheap (s : BinaryHeap δ) (key : Nat) : Except Fault (BinaryHeap δ) := do
  assert (key < s.heap.length)
  let e ← rd s.heap key
  let droppingIndex := e.index
  let weight := e.weight
  let (s1, key1) ← DownheapLoop weight s.heap.length s key
  let heap ← wr s1.heap key1 ⟨droppingIndex, weight⟩
  assert (droppingIndex < s1.insertedNodes.length)
  let r ← rd s1.insertedNodes droppingIndex
  let ins ← wr s1.insertedNodes droppingIndex { r with key := key1 }
  pure { s1 with heap := heap, insertedNodes := ins }

/-- `BinaryHeap::Insert`. -/
def Insert (s : BinaryHeap δ) (node : Nat) (weight : Int) (data : δ) : Except Fault (BinaryHeap δ) := do
  let element : HeapElement := ⟨s.insertedNodes.length, weight⟩
  let key := s.heap.length
  let heap := s.heap ++ [element]
  let ins := s.insertedNodes ++ [⟨node, key, weight, data⟩]
  let idx ← s.nodeIndex.put node element.index
  Upheap { insertedNodes := ins, heap := heap, nodeIndex := idx } key

/-- `BinaryHeap::GetData`, read. -/
def GetData (s : BinaryHeap δ) (node : Nat) : Except Fault δ := do
  let index ← s.nodeIndex.get node
  let r ← rd s.insertedNodes index
  pure r.data

/-- `BinaryHeap::GetData` used as an lvalue: `GetData( node ) = data`. -/
def SetData (s : BinaryHeap δ) (node : Nat) (data : δ) : Except Fault (BinaryHeap δ) := do
  let index ← s.nodeIndex.get node
  let r ← rd s.insertedNodes index
  let ins ← wr s.insertedNodes index { r with data := data }
  pure { s with insertedNodes := ins }

/-- `BinaryHeap::GetKey`, read. -/
def GetKey (s : BinaryHeap δ) (node : Nat) : Except Fault Int := do
  let index ← s.nodeIndex.get node
  let r ← rd s.insertedNodes index
  pure r.weight

/-- `BinaryHeap::GetKey` used as an lvalue: `GetKey( node ) = weight`. -/
def SetKey (s : BinaryHeap δ) (node : Nat) (weight : Int) : Except Fault (BinaryHeap δ) := do
  let index ← s.nodeIndex.get node
  let r ← rd s.insertedNodes index
  let ins ← wr s.insertedNodes index { r with weight := weight }
  pure { s with insertedNodes := ins }

/-- `BinaryHeap::WasInserted`. -/
def WasInserted (s : BinaryHeap δ) (node : Nat) : Except Fault Bool := do
  let index ← s.nodeIndex.get node
  if index ≥ s.insertedNodes.length then
    pure false
  else
    let r ← rd s.insertedNodes index
    pure (r.node == node)

/-- `BinaryHeap::WasRemoved`. -/
def WasRemoved (s : BinaryHeap δ) (node : Nat) : Except Fault Bool := do
  let ins ← WasInserted s node
  assert (ins = true)
  let index ← s.nodeIndex.get node
  let r ← rd s.insertedNodes index
  pure (r.key == 0)

/-- `BinaryHeap::Min`. -/
def Min (s : BinaryHeap δ) : Except Fault Nat := do
  assert (s.heap.length > 1)
  let e ← rd s.heap 1
  let r ← rd s.insertedNodes e.index
  pure r.node

/-- `BinaryHeap::MinKey`. -/
def MinKey (s : BinaryHeap δ) : Except Fault Int := do
  assert (s.heap.length > 1)
  let e ← rd s.heap 1
  let r ← rd s.insertedNodes e.index
  pure r.weight

/-- `BinaryHeap::DeleteMin`; returns the heap and the removed id. -/
def DeleteMin (s : BinaryHeap δ) : Except Fault (BinaryHeap δ × Nat) := do
  assert (s.heap.length > 1)
  let e ← rd s.heap 1
  let removedIndex := e.index
  let last ← rd s.heap (s.heap.length - 1)
  let heap ← wr s.heap 1 last
  let s1 : BinaryHeap δ := { s with heap := heap.dropLast }
  let s2 ← if s1.heap.length > 1 then Downheap s1 1 else pure s1
  let r ← rd s2.insertedNodes removedIndex
  let ins ← wr s2.insertedNodes removedIndex { r with key := 0 }
  pure ({ s2 with insertedNodes := ins }, r.node)

/-- The `for` loop of `BinaryHeap::DeleteAll` over `heap.begin() + 1 .. heap.end()`. -/
def DeleteAllLoop : List HeapElement → List (HeapNode δ) → Except Fault (List (HeapNode δ))
  | [], ins => pure ins
  | e :: rest, ins => do
    let r ← rd ins e.index
    let ins1 ← wr ins e.index { r with key := 0 }
    DeleteAllLoop rest ins1

/-- `BinaryHeap::DeleteAll`. -/
def DeleteAll (s : BinaryHeap δ) : Except Fault (BinaryHeap δ) := do
  let ins ← DeleteAllLoop (s.heap.drop 1) s.insertedNodes
  match resize1 s.heap with
  | e :: _ => pure { s with insertedNodes := ins, heap := [{ e with weight := 0 }] }
  | [] => .error .outOfBounds

/-- `BinaryHeap::DecreaseKey`. -/
def DecreaseKey (s : BinaryHeap δ) (node : Nat) (weight : Int) : Except Fault (BinaryHeap δ) := do
  let index ← s.nodeIndex.get node
  let r ← rd s.insertedNodes index
  let key := r.key
  assert (key ≠ 0)
  let ins ← wr s.insertedNodes index { r with weight := weight }
  let e ← rd s.heap key
  let heap ← wr s.heap key { e with weight := weight }
  Upheap { s with insertedNodes := ins, heap := heap } key

end BinaryHeap

end MoNav

namespace MoNav

/-! ## turnquery.h -/

/-- Conversion to `unsigned`, 32 bits wide. -/
def u32 (n : Nat) : Nat := n % 4294967296

/-- Conversion to `int`, 32 bits wide, two's complement. -/
def i32 (z : Int) : Int := (z + 2147483648) % 4294967296 - 2147483648

/-- `std::numeric_limits< int >::max()`. -/
def INT_MAX : Int := 2147483647

/-- `(unsigned)-1`, the value of `NodeIterator( -1 )`. -/
def NONE : Nat := 4294967295

/-- `TurnQuery::RESTRICTED_TURN`. -/
def RESTRICTED_TURN : Nat := 255

/-- Modelled from the spec: `Graph::EdgeData` as section 6 gives it (`dynamicturngraph.h` is
not among the sources); the field `id` is never read by the query. -/
structure EdgeData where
  distance : Nat
  forward : Bool
  backward : Bool
  shortcut : Bool
  deriving DecidableEq, Repr

/-- Modelled from the spec: the graph capability set of section 6 that `TurnQuery` consumes
(`dynamicturngraph.h` is not among the sources).  Nodes, edges and original edges are
`unsigned`; `GetPenaltyData` returns an 8 bit value. -/
structure Graph where
  GetNumberOfNodes : Nat
  GetNumberOfOriginalEdges : Nat
  BeginEdges : Nat → Nat
  EndEdges : Nat → Nat
  GetTarget : Nat → Nat
  GetEdgeData : Nat → EdgeData
  GetFirstOriginalEdge : Nat → Nat
  GetOriginalEdgeSource : Nat → Nat
  GetOriginalEdgeTarget : Nat → Nat
  GetOriginalInDegree : Nat → Nat
  GetOriginalOutDegree : Nat → Nat
  GetPenaltyData : Nat → Nat → Nat → Nat

/-- The edge ids `BeginEdges( n ) .. EndEdges( n )` that the `for` loops over edges visit. -/
def Graph.edgesOf (g : Graph) (n : Nat) : List Nat :=
  List.range' (g.BeginEdges n) (g.EndEdges n - g.BeginEdges n)

/-- `TurnQuery::HeapData`. -/
structure HeapData where
  parentOrig : Nat
  parentEdge : Nat
  node : Nat
  originalEdge : Nat
  stalled : Bool
  deriving DecidableEq, Repr

/-- The constructor `HeapData( po, pe, n, o )`; `originalEdge` is a bit field of width 8. -/
def HeapData.new (po pe n o : Nat) : HeapData :=
  { parentOrig := po, parentEdge := pe, node := n, originalEdge := o % 256, stalled := false }

/-- `TurnQuery::StallQueueItem`. -/
structure StallQueueItem where
  node : Nat
  originalEdge : Nat
  distance : Int
  deriving DecidableEq, Repr

/-- `TurnQuery::Middle`; the members `in` and `out` are `inOrig` and `outOrig`. -/
structure Middle where
  node : Nat
  inOrig : Nat
  outOrig : Nat
  deriving DecidableEq, Repr

/-- `AllowForwardEdge::operator()`. -/
def AllowForwardEdge (forward _backward : Bool) : Bool := forward

/-- `AllowBackwardEdge::operator()`. -/
def AllowBackwardEdge (_forward backward : Bool) : Bool := backward

/-- `ComputePenaltyForward::operator()`; `o1` and `o2` are `unsigned short`. -/
def ComputePenaltyForward (g : Graph) (n o1 o2 : Nat) : Nat :=
  g.GetPenaltyData n (o1 % 65536) (o2 % 65536)

/-- `ComputePenaltyBackward::operator()`; `o1` and `o2` are `unsigned short`. -/
def ComputePenaltyBackward (g : Graph) (n o1 o2 : Nat) : Nat :=
  g.GetPenaltyData n (o2 % 65536) (o1 % 65536)

/-- `SetMiddleForward::operator()`. -/
def SetMiddleForward (n i o : Nat) : Middle := ⟨n, i, o⟩

/-- `SetMiddleBackward::operator()`. -/
def SetMiddleBackward (n i o : Nat) : Middle := ⟨n, o, i⟩

/-- The template and function-pointer arguments of one instantiation of `computeStep`. -/
structure Dir where
  edgeAllowed : Bool → Bool → Bool
  stallEdgeAllowed : Bool → Bool → Bool
  degIn : Graph → Nat → Nat
  degOut : Graph → Nat → Nat
  penaltyFunction : Graph → Nat → Nat → Nat → Nat
  middleFunction : Nat → Nat → Nat → Middle

/-- The arguments of the forward call of `computeStep` in `BidirSearch` and `UnidirSearch`. -/
def Dir.fwd : Dir :=
  { edgeAllowed := AllowForwardEdge, stallEdgeAllowed := AllowBackwardEdge,
    degIn := Graph.GetOriginalInDegree, degOut := Graph.GetOriginalOutDegree,
    penaltyFunction := ComputePenaltyForward, middleFunction := SetMiddleForward }

/-- The arguments of the backward call of `computeStep` in `BidirSearch`. -/
def Dir.bwd : Dir :=
  { edgeAllowed := AllowBackwardEdge, stallEdgeAllowed := AllowForwardEdge,
    degIn := Graph.GetOriginalOutDegree, degOut := Graph.GetOriginalInDegree,
    penaltyFunction := ComputePenaltyBackward, middleFunction := SetMiddleBackward }

/-- `TurnQuery::Heap`. -/
abbrev Heap := BinaryHeap HeapData

/-- A `for` loop over the values of a list; the body returns the new state and whether it
left the loop with `break`. -/
def forLoop {α σ : Type} (body : α → σ → Except Fault (σ × Bool)) :
    List α → σ → Except Fault σ
  | [], s => pure s
  | a :: rest, s => do
    let (s1, brk) ← body a s
    if brk then pure s1 else forLoop body rest s1

/-- The mutable members of `TurnQuery`. -/
structure TurnQuery where
  m_heapForward : Heap
  m_heapBackward : Heap
  m_stallQueue : List StallQueueItem
  m_middle : Middle
  deriving DecidableEq, Repr

namespace TurnQuery

open BinaryHeap

/-- The constructor `TurnQuery( graph )`: two heaps over uninitialised index arrays of
`GetNumberOfOriginalEdges()` cells; `Middle()` is `(-1, -1, -1)`. -/
def new (garbageForward garbageBackward : List Nat) : TurnQuery :=
  { m_heapForward := BinaryHeap.new garbageForward,
    m_heapBackward := BinaryHeap.new garbageBackward,
    m_stallQueue := [],
    m_middle := ⟨NONE, NONE, NONE⟩ }

/-- `TurnQuery::Clear`. -/
def Clear (q : TurnQuery) : TurnQuery :=
  { q with m_middle := ⟨NONE, 0, 0⟩,
           m_heapForward := q.m_heapForward.Clear,
           m_heapBackward := q.m_heapBackward.Clear }

/-- The part of both loops of `initHeap` after the local index and the key are known. -/
def seed (heap : Heap) (originalEdge : Nat) (distance : Nat) (data : HeapData) :
    Except Fault Heap := do
  let ins ← heap.WasInserted originalEdge
  if !ins then
    heap.Insert originalEdge (i32 distance) data
  else
    let key ← heap.GetKey originalEdge
    if i32 distance < key then
      let heap1 ← heap.DecreaseKey originalEdge (i32 distance)
      heap1.SetData originalEdge data
    else
      pure heap

/-- The body of the first loop of `initHeap`. -/
def initBody1 (g : Graph) (node2 : Nat) (edgeAllowed : Bool → Bool → Bool) (edge : Nat)
    (heap : Heap) : Except Fault (Heap × Bool) := do
  let edgeData := g.GetEdgeData edge
  let edgeTarget := g.GetTarget edge
  if !edgeAllowed edgeData.forward edgeData.backward || edgeData.shortcut ||
      edgeTarget != node2 then
    pure (heap, false)
  else
    let originalEdgeLocal := g.GetOriginalEdgeTarget edge
    let originalEdge := u32 (g.GetFirstOriginalEdge node2 + originalEdgeLocal)
    let data := HeapData.new NONE edge node2 originalEdgeLocal
    let heap1 ← seed heap originalEdge edgeData.distance data
    pure (heap1, false)

/-- The body of the second loop of `initHeap`. -/
def initBody2 (g : Graph) (node node2 : Nat) (edgeAllowed : Bool → Bool → Bool) (edge : Nat)
    (heap : Heap) : Except Fault (Heap × Bool) := do
  let edgeData := g.GetEdgeData edge
  let edgeTarget := g.GetTarget edge
  if !edgeAllowed edgeData.backward edgeData.forward || edgeData.shortcut ||
      edgeTarget != node then
    pure (heap, false)
  else
    let originalEdgeLocal := g.GetOriginalEdgeSource edge
    let originalEdge := u32 (g.GetFirstOriginalEdge node2 + originalEdgeLocal)
    let data := HeapData.new NONE edge node2 originalEdgeLocal
    let heap1 ← seed heap originalEdge edgeData.distance data
    pure (heap1, false)

/-- `TurnQuery::initHeap`. -/
def initHeap (g : Graph) (heap : Heap) (node node2 : Nat) (edgeAllowed : Bool → Bool → Bool) :
    Except Fault Heap := do
  let heap1 ← forLoop (initBody1 g node2 edgeAllowed) (g.edgesOf node) heap
  forLoop (initBody2 g node node2 edgeAllowed) (g.edgesOf node2) heap1

/-- The body of the meeting loop of `computeStep`; the state is `m_middle` and
`*targetDistance`. -/
def meetBody (g : Graph) (d : Dir) (heapBackward : Heap) (originalEdge : Nat) (distance : Int)
    (data : HeapData) (firstOriginal : Nat) (out : Nat) (st : Middle × Int) :
    Except Fault ((Middle × Int) × Bool) := do
  let orig := u32 (firstOriginal + out)
  let ins ← heapBackward.WasInserted orig
  let live ← if ins then do
      let od ← heapBackward.GetData orig
      pure (!od.stalled)
    else pure false
  if live then
    let penalty := d.penaltyFunction g data.node data.originalEdge out
    if penalty = RESTRICTED_TURN then
      pure (st, false)
    else
      let key ← heapBackward.GetKey orig
      let newDistance := i32 (key + penalty + distance)
      if newDistance < st.2 then
        pure ((d.middleFunction data.node originalEdge orig, newDistance), false)
      else
        pure (st, false)
  else
    pure (st, false)

/-- The body of the loop of `computeStep` that looks for a shorter distance over the
incoming original edges of `to`. -/
def shorterBody (g : Graph) (d : Dir) (heapForward : Heap) (toNode firstOriginalTo
    originalEdgeLocalTo : Nat) (edgeDistance : Nat) (i : Nat) (shorterDistance : Int) :
    Except Fault (Int × Bool) := do
  let orig := u32 (firstOriginalTo + i)
  let ins ← heapForward.WasInserted orig
  if ins then
    let penalty := d.penaltyFunction g toNode i originalEdgeLocalTo
    if penalty = RESTRICTED_TURN then
      pure (shorterDistance, false)
    else
      let key ← heapForward.GetKey orig
      pure (min shorterDistance (i32 (key + (penalty : Int) + i32 edgeDistance)), false)
  else
    pure (shorterDistance, false)

/-- The body of the loop over the edges of the popped stall item; the state is the heap and
the stall queue. -/
def stallBody (g : Graph) (d : Dir) (stallItem : StallQueueItem) (stallEdge : Nat)
    (st : Heap × List StallQueueItem) : Except Fault ((Heap × List StallQueueItem) × Bool) := do
  let (heapForward, queue) := st
  let stallEdgeData := g.GetEdgeData stallEdge
  if !d.edgeAllowed stallEdgeData.forward stallEdgeData.backward then
    pure (st, false)
  else
    let stallTo := g.GetTarget stallItem.node
    let stallOrig := u32 (g.GetFirstOriginalEdge stallTo + g.GetOriginalEdgeTarget stallEdge)
    let ins ← heapForward.WasInserted stallOrig
    if !ins then
      pure (st, false)
    else
      let sd ← heapForward.GetData stallOrig
      if sd.stalled == true then
        pure (st, false)
      else
        let penalty := d.penaltyFunction g stallItem.node stallItem.originalEdge
          (g.GetOriginalEdgeSource stallEdge)
        if penalty = RESTRICTED_TURN then
          pure (st, false)
        else
          let stallToDistance := i32 (stallItem.distance + penalty + stallEdgeData.distance)
          let key ← heapForward.GetKey stallOrig
          if stallToDistance < key then
            let removed ← heapForward.WasRemoved stallOrig
            let heap1 ← if removed then heapForward.SetKey stallOrig stallToDistance
              else heapForward.DecreaseKey stallOrig stallToDistance
            let queue1 := queue ++
              [⟨stallTo, g.GetOriginalEdgeTarget stallEdge, stallToDistance⟩]
            let sd1 ← heap1.GetData stallOrig
            let heap2 ← heap1.SetData stallOrig { sd1 with stalled := true }
            pure ((heap2, queue1), false)
          else
            pure (st, false)

/-- The loop `while ( !m_stallQueue.empty() )` of `computeStep`.  The source reads the
front item through a reference after `pop()`; the item is read before the pop here. -/
def stallLoop (g : Graph) (d : Dir) :
    Nat → Heap × List StallQueueItem → Except Fault (Heap × List StallQueueItem)
  | 0, st => match st.2 with
    | [] => pure st
    | _ :: _ => .error .fuel
  | fuel + 1, st =>
    match st.2 with
    | [] => pure st
    | stallItem :: queue => do
      let st1 ← forLoop (stallBody g d stallItem) (g.edgesOf stallItem.node) (st.1, queue)
      stallLoop g d fuel st1

/-- The relaxation of one edge at the end of the body of the edge loop of `computeStep`. -/
def relaxEdge (g : Graph) (d : Dir) (originalEdge : Nat) (distance : Int) (data : HeapData)
    (edge : Nat) (heapForward : Heap) : Except Fault Heap := do
  let edgeData := g.GetEdgeData edge
  let toNode := g.GetTarget edge
  let firstOriginalTo := g.GetFirstOriginalEdge toNode
  let originalEdgeLocalTo := g.GetOriginalEdgeTarget edge
  if d.edgeAllowed edgeData.forward edgeData.backward then
    let penalty := d.penaltyFunction g data.node data.originalEdge
      (g.GetOriginalEdgeSource edge)
    if penalty = RESTRICTED_TURN then
      pure heapForward
    else
      let orig := u32 (firstOriginalTo + originalEdgeLocalTo)
      let toData := HeapData.new originalEdge edge toNode originalEdgeLocalTo
      let toDistance := i32 (distance + penalty + edgeData.distance)
      let ins ← heapForward.WasInserted orig
      if !ins then
        heapForward.Insert orig toDistance toData
      else
        let key ← heapForward.GetKey orig
        if toDistance ≤ key then
          let heap1 ← heapForward.DecreaseKey orig toDistance
          heap1.SetData orig toData
        else
          pure heapForward
  else
    pure heapForward

/-- The body of the loop over the edges of the settled node in `computeStep`; the state is
the heap and the stall queue. -/
def edgeBody (g : Graph) (d : Dir) (stallOnDemand : Bool) (originalEdge : Nat) (distance : Int)
    (data : HeapData) (edge : Nat) (st : Heap × List StallQueueItem) :
    Except Fault ((Heap × List StallQueueItem) × Bool) := do
  let (heapForward, queue) := st
  let edgeData := g.GetEdgeData edge
  let toNode := g.GetTarget edge
  assert (edgeData.distance > 0)
  let firstOriginalTo := g.GetFirstOriginalEdge toNode
  let originalEdgeLocalTo := g.GetOriginalEdgeTarget edge
  if stallOnDemand && d.stallEdgeAllowed edgeData.forward edgeData.backward then
    let deg := d.degIn g toNode
    let shorterDistance ← forLoop
      (shorterBody g d heapForward toNode firstOriginalTo originalEdgeLocalTo edgeData.distance)
      (List.range deg) INT_MAX
    if shorterDistance < distance then
      let heap1 ← heapForward.SetKey originalEdge shorterDistance
      let sd ← heap1.GetData originalEdge
      let heap2 ← heap1.SetData originalEdge { sd with stalled := true }
      let queue1 := queue ++ [⟨data.node, data.originalEdge, shorterDistance⟩]
      let st1 ← stallLoop g d (g.GetNumberOfOriginalEdges + 1) (heap2, queue1)
      pure (st1, true)
    else
      let heap1 ← relaxEdge g d originalEdge distance data edge heapForward
      pure ((heap1, queue), false)
  else
    let heap1 ← relaxEdge g d originalEdge distance data edge heapForward
    pure ((heap1, queue), false)

/-- What `computeStep` changes: the heap it settles from, the stall queue, `m_middle` and
`*targetDistance`. -/
structure StepState where
  heapForward : Heap
  stallQueue : List StallQueueItem
  middle : Middle
  targetDistance : Int
  deriving DecidableEq, Repr

/-- `TurnQuery::computeStep`; `heapBackward` is only read. -/
def computeStep (g : Graph) (d : Dir) (stallOnDemand : Bool) (heapBackward : Heap)
    (st : StepState) : Except Fault (StepState × Nat) := do
  let (heap1, originalEdge) ← st.heapForward.DeleteMin
  let distance ← heap1.GetKey originalEdge
  let data ← heap1.GetData originalEdge
  if stallOnDemand && data.stalled then
    pure ({ st with heapForward := heap1 }, originalEdge)
  else
    let deg := d.degOut g data.node
    let firstOriginal := g.GetFirstOriginalEdge data.node
    let (middle, targetDistance) ← forLoop
      (meetBody g d heapBackward originalEdge distance data firstOriginal)
      (List.range deg) (st.middle, st.targetDistance)
    if distance > targetDistance then
      let heap2 ← heap1.DeleteAll
      pure ({ st with heapForward := heap2, middle := middle,
                      targetDistance := targetDistance }, originalEdge)
    else
      let (heap2, queue) ← forLoop
        (edgeBody g d stallOnDemand originalEdge distance data)
        (g.edgesOf data.node) (heap1, st.stallQueue)
      pure ({ heapForward := heap2, stallQueue := queue, middle := middle,
              targetDistance := targetDistance }, originalEdge)

/-- The state of the `while` loops of `BidirSearch` and `UnidirSearch`. -/
structure SearchState where
  query : TurnQuery
  targetDistance : Int
  deriving DecidableEq, Repr

/-- The forward call of `computeStep` in both searches. -/
def stepForward (g : Graph) (stallOnDemand : Bool) (s : SearchState) :
    Except Fault SearchState := do
  let (r, _) ← computeStep g Dir.fwd stallOnDemand s.query.m_heapBackward
    ⟨s.query.m_heapForward, s.query.m_stallQueue, s.query.m_middle, s.targetDistance⟩
  pure { query := { s.query with m_heapForward := r.heapForward, m_stallQueue := r.stallQueue,
                                 m_middle := r.middle },
         targetDistance := r.targetDistance }

/-- The backward call of `computeStep` in `BidirSearch`. -/
def stepBackward (g : Graph) (stallOnDemand : Bool) (s : SearchState) :
    Except Fault SearchState := do
  let (r, _) ← computeStep g Dir.bwd stallOnDemand s.query.m_heapForward
    ⟨s.query.m_heapBackward, s.query.m_stallQueue, s.query.m_middle, s.targetDistance⟩
  pure { query := { s.query with m_heapBackward := r.heapForward, m_stallQueue := r.stallQueue,
                                 m_middle := r.middle },
         targetDistance := r.targetDistance }

/-- The `while` loop of `BidirSearch`. -/
def bidirLoop (g : Graph) (stallOnDemand : Bool) : Nat → SearchState → Except Fault SearchState
  | 0, s =>
    if s.query.m_heapForward.Size + s.query.m_heapBackward.Size > 0 then .error .fuel
    else pure s
  | fuel + 1, s =>
    if s.query.m_heapForward.Size + s.query.m_heapBackward.Size > 0 then do
      let s1 ← if s.query.m_heapForward.Size > 0 then stepForward g stallOnDemand s else pure s
      let s2 ← if s1.query.m_heapBackward.Size > 0 then stepBackward g stallOnDemand s1
        else pure s1
      bidirLoop g stallOnDemand fuel s2
    else pure s

/-- The `while` loop of `UnidirSearch`. -/
def unidirLoop (g : Graph) (stallOnDemand : Bool) : Nat → SearchState → Except Fault SearchState
  | 0, s => if s.query.m_heapForward.Size > 0 then .error .fuel else pure s
  | fuel + 1, s =>
    if s.query.m_heapForward.Size > 0 then do
      let s1 ← stepForward g stallOnDemand s
      unidirLoop g stallOnDemand fuel s1
    else pure s

/-- The common start of `BidirSearch` and `UnidirSearch`: the assertions on the arguments and
the two calls of `initHeap`. -/
def initSearch (g : Graph) (q : TurnQuery) (source source2 target target2 : Nat) :
    Except Fault TurnQuery := do
  assert (source < g.GetNumberOfNodes)
  assert (source2 < g.GetNumberOfNodes)
  assert (target < g.GetNumberOfNodes)
  assert (target2 < g.GetNumberOfNodes)
  let hf ← initHeap g q.m_heapForward source source2 AllowForwardEdge
  let hb ← initHeap g q.m_heapBackward target target2 AllowBackwardEdge
  pure { q with m_heapForward := hf, m_heapBackward := hb }

/-- A bound on the number of iterations of the search loops: every iteration removes an
element of a heap, and an original edge enters each heap at most once. -/
def loopFuel (g : Graph) : Nat := 4 * g.GetNumberOfOriginalEdges + 1

/-- `TurnQuery::BidirSearch`; returns the distance and the query afterwards. -/
def BidirSearch (g : Graph) (stallOnDemand : Bool) (q : TurnQuery)
    (source source2 target target2 : Nat) : Except Fault (Int × TurnQuery) := do
  let q1 ← initSearch g q source source2 target target2
  let targetDistance := INT_MAX
  if q1.m_heapBackward.Size = 0 || q1.m_heapForward.Size = 0 then
    pure (targetDistance, q1)
  else if source = target2 && source2 = target then
    let kb ← q1.m_heapBackward.MinKey
    let kf ← q1.m_heapForward.MinKey
    assert (kb = kf)
    pure (kf, q1)
  else
    let s ← bidirLoop g stallOnDemand (loopFuel g) ⟨q1, targetDistance⟩
    pure (s.targetDistance, s.query)

/-- `TurnQuery::UnidirSearch`; returns the distance and the query afterwards. -/
def UnidirSearch (g : Graph) (stallOnDemand : Bool) (q : TurnQuery)
    (source source2 target target2 : Nat) : Except Fault (Int × TurnQuery) := do
  let q1 ← initSearch g q source source2 target target2
  let targetDistance := INT_MAX
  if q1.m_heapBackward.Size = 0 || q1.m_heapForward.Size = 0 then
    pure (targetDistance, q1)
  else if source = target2 && source2 = target then
    let kf ← q1.m_heapForward.MinKey
    let kb ← q1.m_heapBackward.MinKey
    assert (kf = kb)
    pure (kf, q1)
  else
    let s ← unidirLoop g stallOnDemand (loopFuel g) ⟨q1, targetDistance⟩
    pure (s.targetDistance, s.query)

end TurnQuery

end MoNav

namespace MoNav
namespace BinaryHeap
variable {δ : Type}

/-! ## Specification of the heap -/

/-- Index consistency (I2) in both directions, the record `x` left aside. -/
structure Idx (s : BinaryHeap δ) (x : Option Nat) : Prop where
  tree : ∀ (i : Nat) (e : HeapElement), 1 ≤ i → s.heap[i]? = some e →
    some e.index ≠ x ∧ ∃ r : HeapNode δ, s.insertedNodes[e.index]? = some r ∧ r.key = i ∧ r.weight = e.weight
  record : ∀ (k : Nat) (r : HeapNode δ), s.insertedNodes[k]? = some r → r.key ≠ 0 → some k ≠ x →
    ∃ e : HeapElement, s.heap[r.key]? = some e ∧ e.index = k
  ids : ∀ (k : Nat) (r : HeapNode δ), s.insertedNodes[k]? = some r → s.nodeIndex.positions[r.node]? = some k

/-- Heap order (I1) with the sentinel of weight 0 in slot 0. -/
def Ord (H : List HeapElement) : Prop :=
  (∃ e0 : HeapElement, H[0]? = some e0 ∧ e0.weight = 0) ∧
  ∀ (i : Nat) (e p : HeapElement), 1 ≤ i → H[i]? = some e → H[i / 2]? = some p → p.weight ≤ e.weight

/-- The representation invariant of the heap: I1 and I2 and the id index. -/
structure Inv (s : BinaryHeap δ) : Prop where
  idx : Idx s none
  ord : Ord s.heap

/-- Index consistency while `Upheap`/`Downheap` carry the entry `(ri, w)` in registers
and slot `key` of the tree is a hole. -/
structure Hole (s : BinaryHeap δ) (key ri : Nat) (w : Int) (x : Option Nat) : Prop where
  pos : 1 ≤ key ∧ key < s.heap.length
  tree : ∀ (i : Nat) (e : HeapElement), 1 ≤ i → i ≠ key → s.heap[i]? = some e →
    e.index ≠ ri ∧ some e.index ≠ x ∧
      ∃ r : HeapNode δ, s.insertedNodes[e.index]? = some r ∧ r.key = i ∧ r.weight = e.weight
  record : ∀ (k : Nat) (r : HeapNode δ), s.insertedNodes[k]? = some r → r.key ≠ 0 → k ≠ ri → some k ≠ x →
    r.key ≠ key ∧ ∃ e : HeapElement, s.heap[r.key]? = some e ∧ e.index = k
  rising : ∃ r : HeapNode δ, s.insertedNodes[ri]? = some r ∧ r.key ≠ 0 ∧ r.weight = w
  notx : some ri ≠ x
  ids : ∀ (k : Nat) (r : HeapNode δ), s.insertedNodes[k]? = some r → s.nodeIndex.positions[r.node]? = some k

/-- Heap order around a hole at `key` that is about to receive weight `w`. -/
def FillOrd (H : List HeapElement) (key : Nat) (w : Int) : Prop :=
  (∃ e0 : HeapElement, H[0]? = some e0 ∧ e0.weight = 0) ∧
  (∀ (i : Nat) (e p : HeapElement), 1 ≤ i → i ≠ key → i / 2 ≠ key → H[i]? = some e → H[i / 2]? = some p →
    p.weight ≤ e.weight) ∧
  (∀ p : HeapElement, H[key / 2]? = some p → p.weight ≤ w) ∧
  (∀ (i : Nat) (e : HeapElement), i / 2 = key → H[i]? = some e → w ≤ e.weight)

/-- Heap order while the hole moves up. -/
def UpOrd (H : List HeapElement) (key : Nat) (w : Int) : Prop :=
  (∃ e0 : HeapElement, H[0]? = some e0 ∧ e0.weight = 0) ∧
  (∀ (i : Nat) (e p : HeapElement), 1 ≤ i → i ≠ key → i / 2 ≠ key → H[i]? = some e → H[i / 2]? = some p →
    p.weight ≤ e.weight) ∧
  (∀ (i : Nat) (e : HeapElement), i / 2 = key → H[i]? = some e →
    w ≤ e.weight ∧ ∀ p : HeapElement, H[key / 2]? = some p → p.weight ≤ e.weight)

/-- Heap order while the hole moves down. -/
def DownOrd (H : List HeapElement) (key : Nat) (w : Int) : Prop :=
  (∃ e0 : HeapElement, H[0]? = some e0 ∧ e0.weight = 0) ∧
  (∀ (i : Nat) (e p : HeapElement), 1 ≤ i → i ≠ key → i / 2 ≠ key → H[i]? = some e → H[i / 2]? = some p →
    p.weight ≤ e.weight) ∧
  (∀ p : HeapElement, H[key / 2]? = some p →
    p.weight ≤ w ∧ ∀ (i : Nat) (e : HeapElement), i / 2 = key → H[i]? = some e → p.weight ≤ e.weight)

/-- What a heap operation leaves untouched in the insertion records. -/
structure Same (s s' : BinaryHeap δ) : Prop where
  index : s'.nodeIndex = s.nodeIndex
  size : s'.heap.length = s.heap.length
  recs : ∀ (k : Nat) (r : HeapNode δ), s.insertedNodes[k]? = some r →
    ∃ r' : HeapNode δ, s'.insertedNodes[k]? = some r' ∧ r'.node = r.node ∧ r'.weight = r.weight ∧
      r'.data = r.data ∧ (r'.key = 0 ↔ r.key = 0)
  count : s'.insertedNodes.length = s.insertedNodes.length

/-- What every operation other than `Clear` leaves untouched: ids, weights (unless stated
otherwise) and payloads of the insertion records. -/
structure Frame (s s' : BinaryHeap δ) : Prop where
  index : s'.nodeIndex = s.nodeIndex
  count : s'.insertedNodes.length = s.insertedNodes.length
  recs : ∀ (k : Nat) (r : HeapNode δ), s.insertedNodes[k]? = some r →
    ∃ r' : HeapNode δ, s'.insertedNodes[k]? = some r' ∧ r'.node = r.node ∧
      r'.weight = r.weight ∧ r'.data = r.data

/-- An id is live: inserted and not removed. -/
def Live (s : BinaryHeap δ) (id : Nat) : Prop :=
  WasInserted s id = .ok true ∧ WasRemoved s id = .ok false

/-- The ids of the insertion records and the id index are untouched. -/
def Nodes (s s' : BinaryHeap δ) : Prop :=
  s'.nodeIndex = s.nodeIndex ∧ s'.insertedNodes.map (·.node) = s.insertedNodes.map (·.node)

/-- The calls of a heap session. -/
inductive Op (δ : Type) where
  | insert (id : Nat) (w : Int) (d : δ)
  | deleteMin
  | decreaseKey (id : Nat) (w : Int)
  | deleteAll

/-- One call on the heap. -/
def step (s : BinaryHeap δ) : Op δ → Except Fault (BinaryHeap δ)
  | .insert id w d => Insert s id w d
  | .deleteMin => do
    let (s1, _) ← DeleteMin s
    pure s1
  | .decreaseKey id w => DecreaseKey s id w
  | .deleteAll => DeleteAll s

/-- A sequence of calls, stopping at the first fault. -/
def run : BinaryHeap δ → List (Op δ) → Except Fault (BinaryHeap δ)
  | s, [] => pure s
  | s, op :: ops => do
    let s1 ← step s op
    run s1 ops

/-- The preconditions of section 4.1 of the specification, with non-negative weights. -/
def Pre (s : BinaryHeap δ) : Op δ → Prop
  | .insert id w _ => id < s.nodeIndex.positions.length ∧ WasInserted s id = .ok false ∧ 0 ≤ w
  | .deleteMin => 0 < Size s
  | .decreaseKey id w => WasInserted s id = .ok true ∧ WasRemoved s id = .ok false ∧ 0 ≤ w ∧
      ∃ c : Int, GetKey s id = .ok c ∧ w ≤ c
  | .deleteAll => True

/-- The states reachable from `Clear` by calls that respect their preconditions. -/
inductive Reachable : BinaryHeap δ → Prop where
  | clear (s0 : BinaryHeap δ) : Reachable (Clear s0)
  | step {s s' : BinaryHeap δ} (op : Op δ) :
      Reachable s → Pre s op → step s op = .ok s' → Reachable s'

/-- Insert the pairs of a list in list order. -/
def insertAll : BinaryHeap δ → List (Nat × Int × δ) → Except Fault (BinaryHeap δ)
  | s, [] => pure s
  | s, (id, w, d) :: rest => do
    let s1 ← Insert s id w d
    insertAll s1 rest

/-- Call `DeleteMin` until `Size() == 0`, recording each id with its weight. -/
def drain : Nat → BinaryHeap δ → Except Fault (List (Nat × Int))
  | 0, s => if Size s = 0 then pure [] else .error .fuel
  | fuel + 1, s =>
    if Size s = 0 then pure []
    else do
      let (s1, id) ← DeleteMin s
      let w ← GetKey s1 id
      let out ← drain fuel s1
      pure ((id, w) :: out)

/-- What a completed sequence of calls on a cleared heap says about the id index. -/
def Traced (ops : List (Op δ)) (s : BinaryHeap δ) : Prop :=
  (∀ id, id ∈ s.insertedNodes.map (·.node) → ∃ w d, Op.insert id w d ∈ ops) ∧
  (∀ id w d, Op.insert id w d ∈ ops →
    ∃ k : Nat, s.nodeIndex.positions[id]? = some k ∧
      (s.insertedNodes.map (·.node))[k]? = some id)

/-- A three-cell heap after `Insert(1, 5, 0)`. -/
def demo1 : BinaryHeap Nat :=
  match Insert (new [9, 9, 9]) 1 5 0 with
  | .ok s => s
  | .error _ => new []

/-- The heap `demo1` after `Insert(0, 3, 7)`. -/
def demo2 : BinaryHeap Nat :=
  match Insert demo1 0 3 7 with
  | .ok s => s
  | .error _ => new []

end BinaryHeap
end MoNav

namespace MoNav
namespace BinaryHeap
variable {δ : Type}

/-- The insertion record of an id, when the id is inserted. -/
def entry (s : BinaryHeap δ) (id : Nat) : Option (HeapNode δ) :=
  match s.nodeIndex.positions[id]? with
  | none => none
  | some k =>
    match s.insertedNodes[k]? with
    | none => none
    | some r => if r.node = id then some r else none

/-- What the public observers tell about an id: nothing when it is not inserted, else its
weight, its payload and whether it is still in the tree. -/
def view (s : BinaryHeap δ) (id : Nat) : Option (Int × δ × Bool) :=
  (entry s id).map fun r => (r.weight, r.data, r.key != 0)

end BinaryHeap
end MoNav

namespace MoNav

/-! ## Specification of the query -/

/-- What the query takes for granted about the graph: ids in range, one block of original
edge ids per node, the blocks and the edge ranges of different nodes disjoint, the local
indices of an edge inside the degrees of its end points, 8 bit local indices and penalties,
and edge distances that are positive and fit `unsigned`. -/
structure WellFormed (g : Graph) : Prop where
  cap : g.GetNumberOfOriginalEdges < 4294967296
  block : ∀ n, n < g.GetNumberOfNodes →
    g.GetFirstOriginalEdge n + max (g.GetOriginalInDegree n) (g.GetOriginalOutDegree n) ≤
      g.GetNumberOfOriginalEdges
  disjoint : ∀ n, n < g.GetNumberOfNodes → ∀ m, m < g.GetNumberOfNodes →
    ∀ i, i < max (g.GetOriginalInDegree n) (g.GetOriginalOutDegree n) →
    ∀ j, j < max (g.GetOriginalInDegree m) (g.GetOriginalOutDegree m) →
    g.GetFirstOriginalEdge n + i = g.GetFirstOriginalEdge m + j → n = m
  degree : ∀ n, n < g.GetNumberOfNodes →
    g.GetOriginalInDegree n ≤ 256 ∧ g.GetOriginalOutDegree n ≤ 256
  target : ∀ n, n < g.GetNumberOfNodes → ∀ e ∈ g.edgesOf n, g.GetTarget e < g.GetNumberOfNodes
  edges : ∀ n, n < g.GetNumberOfNodes → ∀ m, m < g.GetNumberOfNodes → ∀ e ∈ g.edgesOf n,
    e ∈ g.edgesOf m → n = m
  slots : ∀ n, n < g.GetNumberOfNodes → ∀ e ∈ g.edgesOf n,
    ((g.GetEdgeData e).forward = true →
      g.GetOriginalEdgeSource e < g.GetOriginalOutDegree n ∧
      g.GetOriginalEdgeTarget e < g.GetOriginalInDegree (g.GetTarget e)) ∧
    ((g.GetEdgeData e).backward = true →
      g.GetOriginalEdgeSource e < g.GetOriginalInDegree n ∧
      g.GetOriginalEdgeTarget e < g.GetOriginalOutDegree (g.GetTarget e))
  penalty : ∀ n i o, g.GetPenaltyData n i o ≤ 255
  distance : ∀ n, n < g.GetNumberOfNodes → ∀ e ∈ g.edgesOf n,
    0 < (g.GetEdgeData e).distance ∧ (g.GetEdgeData e).distance < 4294967296

/-- Every edge is non-shortcut with `forward = true` and `backward = false`. -/
def ForwardOnly (g : Graph) : Prop :=
  ∀ n, n < g.GetNumberOfNodes → ∀ e ∈ g.edgesOf n,
    (g.GetEdgeData e).forward = true ∧ (g.GetEdgeData e).backward = false ∧
      (g.GetEdgeData e).shortcut = false

/-- No sum that the search forms leaves the range of `int`: with every edge distance at
most `D`, a path over all original edges and one more step stays below `INT_MAX`. -/
def NoOverflow (g : Graph) (D : Nat) : Prop :=
  (∀ n, n < g.GetNumberOfNodes → ∀ e ∈ g.edgesOf n, (g.GetEdgeData e).distance ≤ D) ∧
    (g.GetNumberOfOriginalEdges + 1) * (D + 255) < 2147483647

/-- `Walk g s s2 es e c`: `es` is a sequence of edges that begins with an edge from `s` to
`s2`, in which every edge starts where the one before ends and no turn has penalty 255; `e`
is its last edge and `c` the sum of its edge distances and turn penalties. -/
inductive Walk (g : Graph) (s s2 : Nat) : List Nat → Nat → Nat → Prop where
  | seed (e : Nat) : e ∈ g.edgesOf s → g.GetTarget e = s2 →
      Walk g s s2 [e] e (g.GetEdgeData e).distance
  | step (es : List Nat) (e c e' : Nat) : Walk g s s2 es e c →
      e' ∈ g.edgesOf (g.GetTarget e) →
      g.GetPenaltyData (g.GetTarget e) (g.GetOriginalEdgeTarget e)
        (g.GetOriginalEdgeSource e') ≠ 255 →
      Walk g s s2 (es ++ [e']) e'
        (c + g.GetPenaltyData (g.GetTarget e) (g.GetOriginalEdgeTarget e)
          (g.GetOriginalEdgeSource e') + (g.GetEdgeData e').distance)

/-- A walk from the edge `s -> s2` that ends with an edge `t2 -> t`, and its cost. -/
def IsPath (g : Graph) (s s2 t t2 : Nat) (es : List Nat) (c : Nat) : Prop :=
  ∃ e, Walk g s s2 es e c ∧ e ∈ g.edgesOf t2 ∧ g.GetTarget e = t

/-- `r` is the least cost of a path, or `INT_MAX` when there is no path. -/
def IsShortest (g : Graph) (s s2 t t2 : Nat) (r : Int) : Prop :=
  (∃ (es : List Nat) (c : Nat), IsPath g s s2 t t2 es c ∧ r = c ∧
    ∀ (es' : List Nat) (c' : Nat), IsPath g s s2 t t2 es' c' → c ≤ c') ∨
  ((¬ ∃ (es : List Nat) (c : Nat), IsPath g s s2 t t2 es c) ∧ r = INT_MAX)

/-- One stored edge of a table graph: target, distance, direction bits and the local
indices at its two ends. -/
structure EdgeRow where
  target : Nat
  distance : Nat
  forward : Bool
  backward : Bool
  src : Nat
  tgt : Nat

/-- One node of a table graph: its edge range, the first id of its block of original
edges and its two degrees. -/
structure NodeRow where
  beginEdges : Nat
  endEdges : Nat
  first : Nat
  inDeg : Nat
  outDeg : Nat

/-- A graph given by tables. -/
def tableGraph (nodes : List NodeRow) (edges : List EdgeRow) (numOrig : Nat)
    (pen : Nat → Nat → Nat → Nat) : Graph :=
  { GetNumberOfNodes := nodes.length
    GetNumberOfOriginalEdges := numOrig
    BeginEdges := fun n => (nodes.getD n ⟨0, 0, 0, 0, 0⟩).beginEdges
    EndEdges := fun n => (nodes.getD n ⟨0, 0, 0, 0, 0⟩).endEdges
    GetTarget := fun e => (edges.getD e ⟨0, 0, false, false, 0, 0⟩).target
    GetEdgeData := fun e =>
      ⟨(edges.getD e ⟨0, 0, false, false, 0, 0⟩).distance,
       (edges.getD e ⟨0, 0, false, false, 0, 0⟩).forward,
       (edges.getD e ⟨0, 0, false, false, 0, 0⟩).backward, false⟩
    GetFirstOriginalEdge := fun n => (nodes.getD n ⟨0, 0, 0, 0, 0⟩).first
    GetOriginalEdgeSource := fun e => (edges.getD e ⟨0, 0, false, false, 0, 0⟩).src
    GetOriginalEdgeTarget := fun e => (edges.getD e ⟨0, 0, false, false, 0, 0⟩).tgt
    GetOriginalInDegree := fun n => (nodes.getD n ⟨0, 0, 0, 0, 0⟩).inDeg
    GetOriginalOutDegree := fun n => (nodes.getD n ⟨0, 0, 0, 0, 0⟩).outDeg
    GetPenaltyData := pen }

/-- A query object over `n` original edges after `Clear`; the index arrays hold zeros. -/
def freshQuery (n : Nat) : TurnQuery :=
  (TurnQuery.new (List.replicate n 0) (List.replicate n 0)).Clear

/-- The four-node diamond of the specification: edge 0 is `0 -> 1` (10), edge 1 is
`0 -> 3` (12), edge 2 is `1 -> 2` (20), edge 3 is `3 -> 2` (25); all forward. -/
def diamond (pen : Nat → Nat → Nat → Nat) : Graph :=
  tableGraph [⟨0, 2, 0, 0, 2⟩, ⟨2, 3, 2, 1, 1⟩, ⟨3, 3, 3, 2, 0⟩, ⟨3, 4, 5, 1, 1⟩]
    [⟨1, 10, true, false, 0, 0⟩, ⟨3, 12, true, false, 1, 0⟩, ⟨2, 20, true, false, 0, 0⟩,
     ⟨2, 25, true, false, 0, 1⟩] 6 pen

/-- The penalty table with `penalty(1, in = 0 -> 1, out = 1 -> 2) = 5` and zeros elsewhere. -/
def diamondPenalty5 (n i o : Nat) : Nat := if n = 1 ∧ i = 0 ∧ o = 0 then 5 else 0

/-- The penalties of `loopGraph`: at node 4 the turns from the incoming edge `3 -> 4` into
the cheap edge to 5 and into the loop are forbidden. -/
def loopPenalty (n i o : Nat) : Nat :=
  if n = 4 ∧ i = 0 ∧ (o = 0 ∨ o = 2) then 255 else 0

/-- A forward-only graph with a chain `0 -> 1 -> 2 -> 3 -> 4`, two parallel edges `4 -> 5`
of distances 1 and 5, and a loop `4 -> 4` of distance 1. -/
def loopGraph : Graph :=
  tableGraph [⟨0, 1, 0, 0, 1⟩, ⟨1, 2, 1, 1, 1⟩, ⟨2, 3, 2, 1, 1⟩, ⟨3, 4, 3, 1, 1⟩,
      ⟨4, 7, 4, 2, 3⟩, ⟨7, 7, 7, 2, 0⟩]
    [⟨1, 10, true, false, 0, 0⟩, ⟨2, 10, true, false, 0, 0⟩, ⟨3, 10, true, false, 0, 0⟩,
     ⟨4, 10, true, false, 0, 0⟩, ⟨5, 1, true, false, 0, 0⟩, ⟨5, 5, true, false, 1, 1⟩,
     ⟨4, 1, true, false, 2, 1⟩] 9 loopPenalty

/-- A forward-only chain `0 -> 1 -> 2` whose two distances add up to more than `INT_MAX`. -/
def longGraph : Graph :=
  tableGraph [⟨0, 1, 0, 0, 1⟩, ⟨1, 2, 1, 1, 1⟩, ⟨2, 2, 2, 1, 0⟩]
    [⟨1, 2147483000, true, false, 0, 0⟩, ⟨2, 1000, true, false, 0, 0⟩] 3 (fun _ _ _ => 0)

/-- A graph in the shape of a contraction hierarchy: `0 -> 1` is stored at node 0 as a
forward edge, `1 -> 2` is stored only at the higher node 2, as a backward edge, and
`2 -> 3` is stored at node 2 as a forward edge. -/
def hierarchyGraph : Graph :=
  tableGraph [⟨0, 1, 0, 0, 1⟩, ⟨1, 1, 1, 1, 1⟩, ⟨1, 3, 2, 1, 1⟩, ⟨3, 3, 3, 1, 0⟩]
    [⟨1, 10, true, false, 0, 0⟩, ⟨1, 7, false, true, 0, 0⟩, ⟨3, 20, true, false, 0, 0⟩]
    4 (fun _ _ _ => 0)

end MoNav

namespace MoNav
namespace TurnQuery
open BinaryHeap

/-- `c` is the least cost of a walk from an edge `s -> s2` into the state in which the
edge `e` ends, the node `GetTarget e` entered at the local index `GetOriginalEdgeTarget e`:
a walk that ends with `e` costs `c`, and no walk into that state costs less. -/
def LeastW (g : Graph) (s s2 : Nat) (e c : Nat) : Prop :=
  (∃ es : List Nat, Walk g s s2 es e c) ∧
  ∀ (es' : List Nat) (e' c' : Nat), Walk g s s2 es' e' c' →
    g.GetTarget e' = g.GetTarget e →
    g.GetOriginalEdgeTarget e' = g.GetOriginalEdgeTarget e → c ≤ c'

/-- The forward search expands the state in which `e` ends, under the key `c`: the search
loop runs (the seed edge is not the final edge, and an edge `t2 -> t` exists), `c` is the
least cost of a walk into that state, and no path from an edge `s -> s2` to an edge
`t2 -> t` costs less than `c` (a state beyond the cheapest path is removed from the heap
only after `*targetDistance` has fallen below its key, and its edges are not relaxed). -/
def Opens (g : Graph) (s s2 t t2 : Nat) (e c : Nat) : Prop :=
  ¬ (s = t2 ∧ s2 = t) ∧ (∃ eb ∈ g.edgesOf t2, g.GetTarget eb = t) ∧ LeastW g s s2 e c ∧
  ∀ (es' : List Nat) (c' : Nat), IsPath g s s2 t t2 es' c' → c ≤ c'

/-- `c` is a key that the forward search can give to the state in which the edge `e` ends:
the distance of `e` when `e` is a seed edge `s -> s2`, or the key of a state that the
search expands plus the penalty of the turn into `e` and the distance of `e`. -/
def TentW (g : Graph) (s s2 t t2 : Nat) (e c : Nat) : Prop :=
  (e ∈ g.edgesOf s ∧ g.GetTarget e = s2 ∧ c = (g.GetEdgeData e).distance) ∨
  ∃ (e0 c0 : Nat), Opens g s s2 t t2 e0 c0 ∧ e ∈ g.edgesOf (g.GetTarget e0) ∧
    g.GetPenaltyData (g.GetTarget e0) (g.GetOriginalEdgeTarget e0)
      (g.GetOriginalEdgeSource e) ≠ 255 ∧
    c = c0 + g.GetPenaltyData (g.GetTarget e0) (g.GetOriginalEdgeTarget e0)
      (g.GetOriginalEdgeSource e) + (g.GetEdgeData e).distance

/-- No sum that the search on a forward-only graph can form leaves the range of `int`:
every key that the forward search can give to a state, the distance of every edge
`t2 -> t`, and the sum of a key that the forward search can give to a state of `t2`, the
penalty of an allowed turn into an edge `t2 -> t` and the distance of that edge are at most
`INT_MAX`. -/
structure InRange (g : Graph) (s s2 t t2 : Nat) : Prop where
  tent : ∀ (e c : Nat), TentW g s s2 t t2 e c → c ≤ 2147483647
  seed : ∀ e ∈ g.edgesOf t2, g.GetTarget e = t → (g.GetEdgeData e).distance ≤ 2147483647
  meet : ∀ (e c : Nat), TentW g s s2 t t2 e c → g.GetTarget e = t2 →
    ∀ eb ∈ g.edgesOf t2, g.GetTarget eb = t →
    g.GetPenaltyData t2 (g.GetOriginalEdgeTarget e) (g.GetOriginalEdgeSource eb) ≠ 255 →
    c + g.GetPenaltyData t2 (g.GetOriginalEdgeTarget e) (g.GetOriginalEdgeSource eb) +
      (g.GetEdgeData eb).distance ≤ 2147483647

/-- The hypotheses under which the search on a forward-only graph is analysed: the graph is
well formed and forward-only, no edge leads from `t2` back to `t2`, the sums that the
search can form stay in the range of `int`, and the four nodes exist. -/
structure Setting (g : Graph) (s s2 t t2 : Nat) : Prop where
  wf : WellFormed g
  fo : ForwardOnly g
  noLoop : ∀ e ∈ g.edgesOf t2, g.GetTarget e ≠ t2
  range : InRange g s s2 t t2
  hs : s < g.GetNumberOfNodes
  hs2 : s2 < g.GetNumberOfNodes
  ht : t < g.GetNumberOfNodes
  ht2 : t2 < g.GetNumberOfNodes

/-- The edges out of the node of a settled state have been relaxed: their target states are
in the heap with a key that is not above the key of the state plus turn and edge cost. -/
def Relaxed (g : Graph) (hf : Heap) (c : Int) (d : HeapData) : Prop :=
  ∀ e ∈ g.edgesOf d.node,
    g.GetPenaltyData d.node d.originalEdge (g.GetOriginalEdgeSource e) ≠ 255 →
    ∃ (c' : Int) (d' : HeapData) (l' : Bool),
      view hf (g.GetFirstOriginalEdge (g.GetTarget e) + g.GetOriginalEdgeTarget e) =
        some (c', d', l') ∧
      c' ≤ c + g.GetPenaltyData d.node d.originalEdge (g.GetOriginalEdgeSource e) +
        (g.GetEdgeData e).distance

/-- The meeting check of a settled state at `t2` has been made against every edge
`t2 -> t`. -/
def Met (g : Graph) (t t2 : Nat) (T : Int) (c : Int) (d : HeapData) : Prop :=
  d.node = t2 → ∀ e ∈ g.edgesOf t2, g.GetTarget e = t →
    g.GetPenaltyData t2 d.originalEdge (g.GetOriginalEdgeSource e) ≠ 255 →
    T ≤ c + g.GetPenaltyData t2 d.originalEdge (g.GetOriginalEdgeSource e) +
      (g.GetEdgeData e).distance

/-- The key `k` with weight `c` and payload `d` stands for a walk of cost `c` whose last
edge is the original edge `k`, and `c` is a key that the search can give to that state. -/
def IsState (g : Graph) (s s2 t t2 : Nat) (k : Nat) (c : Int) (d : HeapData) : Prop :=
  ∃ (es : List Nat) (e cost : Nat), Walk g s s2 es e cost ∧ c = cost ∧
    d.node = g.GetTarget e ∧ d.originalEdge = g.GetOriginalEdgeTarget e ∧
    k = g.GetFirstOriginalEdge (g.GetTarget e) + g.GetOriginalEdgeTarget e ∧
    d.stalled = false ∧ TentW g s s2 t t2 e cost

/-- What the parent fields of the payload `d` of the forward state `k` of weight `c` say:
`parentEdge` is an edge into the state; for a seed, `parentOrig` is `NONE` and `c` is the
distance of the edge; otherwise `parentOrig` is the state at the end of a walk that
`parentEdge` extends to a walk of cost `c`. -/
def Parent (g : Graph) (s s2 : Nat) (k : Nat) (c : Int) (d : HeapData) : Prop :=
  k = g.GetFirstOriginalEdge (g.GetTarget d.parentEdge) + g.GetOriginalEdgeTarget d.parentEdge ∧
  ((d.parentOrig = NONE ∧ d.parentEdge ∈ g.edgesOf s ∧ g.GetTarget d.parentEdge = s2 ∧
      c = (g.GetEdgeData d.parentEdge).distance) ∨
    (d.parentOrig ≠ NONE ∧ ∃ (es : List Nat) (e cost : Nat), Walk g s s2 es e cost ∧
      d.parentOrig = g.GetFirstOriginalEdge (g.GetTarget e) + g.GetOriginalEdgeTarget e ∧
      d.parentEdge ∈ g.edgesOf (g.GetTarget e) ∧
      g.GetPenaltyData (g.GetTarget e) (g.GetOriginalEdgeTarget e)
        (g.GetOriginalEdgeSource d.parentEdge) ≠ 255 ∧
      c = cost + g.GetPenaltyData (g.GetTarget e) (g.GetOriginalEdgeTarget e)
        (g.GetOriginalEdgeSource d.parentEdge) + (g.GetEdgeData d.parentEdge).distance))

/-- The invariant of the forward heap during a search on a forward-only graph. -/
structure FwdInv (g : Graph) (s s2 t t2 : Nat) (T : Int) (hf : Heap) : Prop where
  inv : Inv hf
  cap : hf.nodeIndex.positions.length = g.GetNumberOfOriginalEdges
  entries : ∀ (k : Nat) (c : Int) (d : HeapData) (l : Bool), view hf k = some (c, d, l) →
    IsState g s s2 t t2 k c d
  mono : ∀ (k : Nat) (c : Int) (d : HeapData) (k' : Nat) (c' : Int) (d' : HeapData),
    view hf k = some (c, d, false) → view hf k' = some (c', d', true) → c ≤ c'
  expanded : ∀ (k : Nat) (c : Int) (d : HeapData), view hf k = some (c, d, false) → c ≤ T →
    Relaxed g hf c d ∧ Met g t t2 T c d
  seeds : ∀ e ∈ g.edgesOf s, g.GetTarget e = s2 →
    ∃ (c : Int) (d : HeapData) (l : Bool),
      view hf (g.GetFirstOriginalEdge s2 + g.GetOriginalEdgeTarget e) = some (c, d, l) ∧
      c ≤ (g.GetEdgeData e).distance
  parents : ∀ (k : Nat) (c : Int) (d : HeapData) (l : Bool), view hf k = some (c, d, l) →
    Parent g s s2 k c d

/-- The invariant of the backward heap during a search on a forward-only graph: it holds
the seeds and nothing else. -/
structure BwdInv (g : Graph) (t t2 : Nat) (hb : Heap) : Prop where
  inv : Inv hb
  cap : hb.nodeIndex.positions.length = g.GetNumberOfOriginalEdges
  entries : ∀ (k : Nat) (c : Int) (d : HeapData) (l : Bool), view hb k = some (c, d, l) →
    d.stalled = false ∧ d.node = t2 ∧
    ∃ e ∈ g.edgesOf t2, g.GetTarget e = t ∧
      k = g.GetFirstOriginalEdge t2 + g.GetOriginalEdgeSource e ∧
      c = (g.GetEdgeData e).distance ∧ d.originalEdge = g.GetOriginalEdgeSource e
  seeds : ∀ e ∈ g.edgesOf t2, g.GetTarget e = t →
    ∃ (c : Int) (d : HeapData) (l : Bool),
      view hb (g.GetFirstOriginalEdge t2 + g.GetOriginalEdgeSource e) = some (c, d, l) ∧
      c ≤ (g.GetEdgeData e).distance
  payload : ∀ (k : Nat) (c : Int) (d : HeapData) (l : Bool), view hb k = some (c, d, l) →
    d.parentOrig = NONE ∧ d.parentEdge ∈ g.edgesOf t2 ∧ g.GetTarget d.parentEdge = t ∧
      k = g.GetFirstOriginalEdge t2 + g.GetOriginalEdgeSource d.parentEdge ∧
      c = (g.GetEdgeData d.parentEdge).distance

/-- `m_middle` names the two states whose meeting gave the cost `c`: the forward state at
the end of a walk into `t2` and the backward state of an edge `t2 -> t`, the turn between
them being allowed. -/
def MidOK (g : Graph) (s s2 t t2 : Nat) (mid : Middle) (c : Nat) : Prop :=
  ∃ (ws : List Nat) (e cost eb : Nat), Walk g s s2 ws e cost ∧ g.GetTarget e = t2 ∧
    eb ∈ g.edgesOf t2 ∧ g.GetTarget eb = t ∧
    g.GetPenaltyData t2 (g.GetOriginalEdgeTarget e) (g.GetOriginalEdgeSource eb) ≠ 255 ∧
    c = cost + g.GetPenaltyData t2 (g.GetOriginalEdgeTarget e) (g.GetOriginalEdgeSource eb) +
      (g.GetEdgeData eb).distance ∧
    mid = ⟨t2, g.GetFirstOriginalEdge t2 + g.GetOriginalEdgeTarget e,
      g.GetFirstOriginalEdge t2 + g.GetOriginalEdgeSource eb⟩

/-- `*targetDistance` is `INT_MAX` or the cost of a path, found at the meeting that
`m_middle` names. -/
def TargetOK (g : Graph) (s s2 t t2 : Nat) (mid : Middle) (T : Int) : Prop :=
  T = INT_MAX ∨ ∃ (es : List Nat) (c : Nat), IsPath g s s2 t t2 es c ∧ T = c ∧
    MidOK g s s2 t t2 mid c

end TurnQuery
end MoNav

namespace MoNav
namespace TurnQuery
open BinaryHeap

/-- The invariant of the loop over the edges of the node settled by a forward step: `hf1`
is the heap after `DeleteMin`, `data` and `cost` are payload and key of the settled state,
`done` are the edges visited so far and `h` is the heap now. -/
structure RelaxInv (g : Graph) (s s2 t t2 : Nat) (hf1 : Heap) (data : HeapData) (cost : Nat)
    (done : List Nat) (h : Heap) : Prop where
  inv : Inv h
  cap : h.nodeIndex.positions.length = g.GetNumberOfOriginalEdges
  entries : ∀ (k : Nat) (c : Int) (d : HeapData) (l : Bool), view h k = some (c, d, l) →
    IsState g s s2 t t2 k c d
  count : hf1.insertedNodes.length ≤ h.insertedNodes.length
  measure : Size h + 2 * hf1.insertedNodes.length ≤ Size hf1 + 2 * h.insertedNodes.length
  pres : ∀ (k : Nat) (c : Int) (d : HeapData), view hf1 k = some (c, d, false) →
    view h k = some (c, d, false)
  grow : ∀ (k : Nat) (c : Int) (d : HeapData) (l : Bool), view hf1 k = some (c, d, l) →
    ∃ (c' : Int) (d' : HeapData) (l' : Bool), view h k = some (c', d', l') ∧ c' ≤ c
  live : ∀ (k : Nat) (c : Int) (d : HeapData), view h k = some (c, d, true) → (cost : Int) ≤ c
  remset : ∀ (k : Nat) (c : Int) (d : HeapData), view h k = some (c, d, false) →
    view hf1 k = some (c, d, false)
  relaxed : ∀ e ∈ done,
    g.GetPenaltyData data.node data.originalEdge (g.GetOriginalEdgeSource e) ≠ 255 →
    ∃ (c' : Int) (d' : HeapData) (l' : Bool),
      view h (g.GetFirstOriginalEdge (g.GetTarget e) + g.GetOriginalEdgeTarget e) =
        some (c', d', l') ∧
      c' ≤ cost + g.GetPenaltyData data.node data.originalEdge (g.GetOriginalEdgeSource e) +
        (g.GetEdgeData e).distance
  parents : ∀ (k : Nat) (c : Int) (d : HeapData) (l : Bool), view h k = some (c, d, l) →
    Parent g s s2 k c d

end TurnQuery
end MoNav

namespace MoNav
namespace TurnQuery
open BinaryHeap

/-- The invariant of the `while` loops of both searches on a forward-only graph. -/
structure SearchInv (g : Graph) (s s2 t t2 : Nat) (st : SearchState) : Prop where
  fwd : FwdInv g s s2 t t2 st.targetDistance st.query.m_heapForward
  bwd : BwdInv g t t2 st.query.m_heapBackward
  target : TargetOK g s s2 t t2 st.query.m_middle st.targetDistance

/-- What bounds the number of forward steps still to come: twice the number of original
edges not yet inserted, plus the size of the forward heap. -/
def forwardMeasure (g : Graph) (st : SearchState) : Nat :=
  2 * (g.GetNumberOfOriginalEdges - st.query.m_heapForward.insertedNodes.length) +
    Size st.query.m_heapForward

/-- The invariant of the loops of `initHeap`: the heap holds one live entry per local index
`slot e` of a visited edge `e` with `good e`, under the key `first + slot e`, with the least
distance of these edges as weight. -/
structure SeedInv (g : Graph) (node2 : Nat) (slot : Nat → Nat) (good : Nat → Prop)
    (done : List Nat) (h : Heap) : Prop where
  inv : Inv h
  cap : h.nodeIndex.positions.length = g.GetNumberOfOriginalEdges
  size : Size h = h.insertedNodes.length
  entries : ∀ (k : Nat) (c : Int) (d : HeapData) (l : Bool), view h k = some (c, d, l) →
    l = true ∧ d.stalled = false ∧ d.node = node2 ∧
    ∃ e ∈ done, good e ∧ k = g.GetFirstOriginalEdge node2 + slot e ∧
      c = (g.GetEdgeData e).distance ∧ d.originalEdge = slot e
  seeds : ∀ e ∈ done, good e →
    ∃ (c : Int) (d : HeapData) (l : Bool),
      view h (g.GetFirstOriginalEdge node2 + slot e) = some (c, d, l) ∧
      c ≤ (g.GetEdgeData e).distance
  payload : ∀ (k : Nat) (c : Int) (d : HeapData) (l : Bool), view h k = some (c, d, l) →
    d.parentOrig = NONE ∧ d.parentEdge ∈ done ∧ good d.parentEdge ∧
      k = g.GetFirstOriginalEdge node2 + slot d.parentEdge ∧
      c = (g.GetEdgeData d.parentEdge).distance

end TurnQuery
end MoNav

namespace MoNav

/-- `TurnQuery::Path`. -/
structure Path where
  up : List Nat
  down : List Nat
  deriving DecidableEq, Repr

namespace TurnQuery
open BinaryHeap

/-- One of the two `do ... while ( orig != (unsigned)-1 )` loops of `GetPath`: follows the
parent pointers from `orig` and appends the parent edges to `acc`.  A chain that visits no
state twice has at most as many links as the heap has insertion records, which is what the
callers pass as fuel. -/
def chainLoop (heap : Heap) : Nat → Nat → List Nat → Except Fault (List Nat)
  | 0, _, _ => .error .fuel
  | fuel + 1, orig, acc => do
    let ins ← heap.WasInserted orig
    assert (ins = true)
    let data ← heap.GetData orig
    let acc1 := acc ++ [data.parentEdge]
    if data.parentOrig != NONE then chainLoop heap fuel data.parentOrig acc1
    else pure acc1

/-- `TurnQuery::GetPath`. -/
def GetPath (q : TurnQuery) (path : Path) : Except Fault Path := do
  assert (q.m_middle.node ≠ NONE)
  let up ← chainLoop q.m_heapForward (q.m_heapForward.insertedNodes.length + 1)
    q.m_middle.inOrig path.up
  let down ← chainLoop q.m_heapBackward (q.m_heapBackward.insertedNodes.length + 1)
    q.m_middle.outOrig path.down
  pure { up := up, down := down }

end TurnQuery
end MoNav

namespace MoNav

/-- A graph on which stall-on-demand fires.  Edges 0 (`0 -> 1`, 10), 1 (`1 -> 2`, 20),
2 (`1 -> 3`, 1), 3 (`1 -> 4`, 50), 5 (`2 -> 4`, 5) and 6 (`4 -> 5`, 1) are forward edges;
edge 4 is stored at node 2 with target 3 and distance 1 as a backward edge, so it stands
for `3 -> 2`.  Node 4 has two incoming original edges, edge 5 being the second one.  The
blocks of original edges of the nodes 0, 1, 2, 4 begin at 0, 1, 4, 6; those of the nodes 3
and 5 begin at `y` and `t`. -/
def stallGraph (y t : Nat) : Graph :=
  tableGraph [⟨0, 1, 0, 0, 1⟩, ⟨1, 4, 1, 1, 3⟩, ⟨4, 6, 4, 2, 1⟩, ⟨6, 6, y, 1, 1⟩, ⟨6, 7, 6, 2, 1⟩,
      ⟨7, 7, t, 1, 0⟩]
    [⟨1, 10, true, false, 0, 0⟩, ⟨2, 20, true, false, 0, 0⟩, ⟨3, 1, true, false, 1, 0⟩,
     ⟨4, 50, true, false, 2, 0⟩, ⟨3, 1, false, true, 1, 0⟩, ⟨4, 5, true, false, 0, 1⟩,
     ⟨5, 1, true, false, 0, 0⟩] 10 (fun _ _ _ => 0)

namespace TurnQuery
open BinaryHeap

/-- The body of the loop over the edges of a popped stall item as section 4.4 of the
specification words it: `sTo = target(se)` and `sId = FirstOriginalEdge(sTo) +
GetOriginalEdgeTarget(se)`; the state `sId` is skipped when it is not inserted, already
stalled or behind a restricted turn, and otherwise, when `sDist = nDist + penalty +
se.distance` is below its key, its key is lowered (in place when it was removed, by
`DecreaseKey` otherwise), its payload is marked stalled and `(sTo, GetOriginalEdgeTarget(se),
sDist)` is enqueued. -/
def stallBodySpec (g : Graph) (d : Dir) (stallItem : StallQueueItem) (se : Nat)
    (st : Heap × List StallQueueItem) : Except Fault ((Heap × List StallQueueItem) × Bool) := do
  let (forward, queue) := st
  let seData := g.GetEdgeData se
  if !d.edgeAllowed seData.forward seData.backward then
    pure (st, false)
  else
    let sTo := g.GetTarget se
    let sId := u32 (g.GetFirstOriginalEdge sTo + g.GetOriginalEdgeTarget se)
    let ins ← forward.WasInserted sId
    if !ins then
      pure (st, false)
    else
      let sd ← forward.GetData sId
      if sd.stalled == true then
        pure (st, false)
      else
        let penalty := d.penaltyFunction g stallItem.node stallItem.originalEdge
          (g.GetOriginalEdgeSource se)
        if penalty = RESTRICTED_TURN then
          pure (st, false)
        else
          let sDist := i32 (stallItem.distance + penalty + seData.distance)
          let key ← forward.GetKey sId
          if sDist < key then
            let removed ← forward.WasRemoved sId
            let heap1 ← if removed then forward.SetKey sId sDist
              else forward.DecreaseKey sId sDist
            let queue1 := queue ++ [⟨sTo, g.GetOriginalEdgeTarget se, sDist⟩]
            let sd1 ← heap1.GetData sId
            let heap2 ← heap1.SetData sId { sd1 with stalled := true }
            pure ((heap2, queue1), false)
          else
            pure (st, false)

end TurnQuery
end MoNav

namespace MoNav

/-- A forward-only chain `0 -> 1 -> 2` whose first distance does not fit `int` and whose
only turn is restricted. -/
def hugeGraph : Graph :=
  tableGraph [⟨0, 1, 0, 0, 1⟩, ⟨1, 2, 1, 1, 1⟩, ⟨2, 2, 2, 1, 0⟩]
    [⟨1, 3000000000, true, false, 0, 0⟩, ⟨2, 1000, true, false, 0, 0⟩] 3 (fun _ _ _ => 255)

end MoNav

namespace MoNav
namespace TurnQuery
open BinaryHeap

/-- The heap after `initHeap` has stored the pairs `items` of a key and a distance, in any
graph: every entry is live and carries the distance of an item with its key, and every
item has an entry under its key whose weight is not above its distance. -/
structure SeedList (cap : Nat) (items : List (Nat × Nat)) (h : Heap) : Prop where
  inv : Inv h
  cap : h.nodeIndex.positions.length = cap
  entries : ∀ (k : Nat) (c : Int) (d : HeapData) (l : Bool), view h k = some (c, d, l) →
    l = true ∧ ∃ w : Nat, (k, w) ∈ items ∧ c = w
  seeds : ∀ (k w : Nat), (k, w) ∈ items →
    ∃ (c : Int) (d : HeapData) (l : Bool), view h k = some (c, d, l) ∧ c ≤ w

/-- The non-shortcut edge `e` realises the oriented edge `s -> s2`: it is stored at `s`
with target `s2` and `forward = true`, or at `s2` with target `s` and `backward = true`. -/
def Realises (g : Graph) (s s2 e : Nat) : Prop :=
  (g.GetEdgeData e).shortcut = false ∧
    ((e ∈ g.edgesOf s ∧ g.GetTarget e = s2 ∧ (g.GetEdgeData e).forward = true) ∨
     (e ∈ g.edgesOf s2 ∧ g.GetTarget e = s ∧ (g.GetEdgeData e).backward = true))

/-- When the first loop of `initHeap` stores the edge `e`. -/
def Act1 (g : Graph) (node2 : Nat) (edgeAllowed : Bool → Bool → Bool) (e : Nat) : Prop :=
  edgeAllowed (g.GetEdgeData e).forward (g.GetEdgeData e).backward = true ∧
    (g.GetEdgeData e).shortcut = false ∧ g.GetTarget e = node2

/-- When the second loop of `initHeap` stores the edge `e`. -/
def Act2 (g : Graph) (node : Nat) (edgeAllowed : Bool → Bool → Bool) (e : Nat) : Prop :=
  edgeAllowed (g.GetEdgeData e).backward (g.GetEdgeData e).forward = true ∧
    (g.GetEdgeData e).shortcut = false ∧ g.GetTarget e = node

end TurnQuery
end MoNav

namespace MoNav

/-- `x` does not run out of fuel, and its result, if it has one, satisfies `P`.  A failed
assertion or an access out of bounds ends the run and is allowed. -/
def Safe {α : Type} (P : α → Prop) (x : Except Fault α) : Prop :=
  x ≠ .error .fuel ∧ ∀ a, x = .ok a → P a

namespace BinaryHeap
variable {δ : Type}

/-- What the operations that only move entries in the tree or change weights leave
untouched: the id index, ids and payloads of the insertion records, and the size of the
tree. -/
structure Kept (s s' : BinaryHeap δ) : Prop where
  index : s'.nodeIndex = s.nodeIndex
  recs : s'.insertedNodes.map (fun r => (r.node, r.data)) =
    s.insertedNodes.map (fun r => (r.node, r.data))
  size : s'.heap.length = s.heap.length

/-- The part of the representation invariant that no assertion-free call can break: every
insertion record is found through the id index, the index has `cap` cells, and the tree
holds no more entries than there are records. -/
structure RawInv (cap : Nat) (s : BinaryHeap δ) : Prop where
  ids : ∀ (k : Nat) (r : HeapNode δ), s.insertedNodes[k]? = some r →
    s.nodeIndex.positions[r.node]? = some k
  cap : s.nodeIndex.positions.length = cap
  size : s.heap.length ≤ s.insertedNodes.length + 1

/-- Progress of a heap from `s` to `s'`: records are only added, and the tree grows by at
most the number of records added. -/
def Prog (s s' : BinaryHeap δ) : Prop :=
  s.insertedNodes.length ≤ s'.insertedNodes.length ∧
    s'.heap.length + s.insertedNodes.length ≤ s.heap.length + s'.insertedNodes.length

end BinaryHeap

namespace TurnQuery
open BinaryHeap

/-- No payload of the heap is marked stalled. -/
def NoStall (h : Heap) : Prop := ∀ r ∈ h.insertedNodes, r.data.stalled = false

/-- The number of payloads that are not marked stalled. -/
def unstalled (h : Heap) : Nat := h.insertedNodes.countP (fun r => !r.data.stalled)

end TurnQuery
end MoNav

namespace MoNav
namespace TurnQuery
open BinaryHeap

/-- What a seeding or relaxing call does to a heap of `cap` cells: the raw invariant holds
afterwards, the heap has made progress, and no payload has become stalled. -/
structure Grow (cap : Nat) (h h' : Heap) : Prop where
  inv : RawInv cap h'
  prog : Prog h h'
  nostall : NoStall h → NoStall h'

/-- What the stall BFS does to a heap and the stall queue: the raw invariant holds
afterwards, no record and no tree entry is added or removed, and every item added to the
queue is paid for by a payload that became stalled. -/
structure Stalls (cap : Nat) (st st' : Heap × List StallQueueItem) : Prop where
  inv : RawInv cap st'.1
  count : st'.1.insertedNodes.length = st.1.insertedNodes.length
  size : st'.1.heap.length = st.1.heap.length
  paid : st'.2.length + unstalled st'.1 ≤ st.2.length + unstalled st.1

end TurnQuery
end MoNav

namespace MoNav
namespace TurnQuery
open BinaryHeap

/-- What one call of `computeStep` does to the heap it settles from: the raw invariant
holds afterwards, records are only added, the tree has lost one entry more than records
were added, and without stall-on-demand no payload has become stalled. -/
structure Settles (cap : Nat) (sod : Bool) (h h' : Heap) : Prop where
  inv : RawInv cap h'
  count : h.insertedNodes.length ≤ h'.insertedNodes.length
  measure : h'.heap.length + h.insertedNodes.length + 1 ≤
    h.heap.length + h'.insertedNodes.length
  nostall : sod = false → NoStall h → NoStall h'

end TurnQuery
end MoNav

namespace MoNav
namespace TurnQuery
open BinaryHeap

/-- The invariant of the `while` loops of both searches on any graph: the raw invariant of
both heaps, and an empty stall queue between two steps. -/
structure LoopInv (g : Graph) (s : SearchState) : Prop where
  fwd : RawInv g.GetNumberOfOriginalEdges s.query.m_heapForward
  bwd : RawInv g.GetNumberOfOriginalEdges s.query.m_heapBackward
  queue : s.query.m_stallQueue = []

/-- A bound on the number of settling steps that a heap of `cap` cells can still make: the
ids not inserted yet, plus the entries in the tree. -/
def stepsLeft (cap : Nat) (h : Heap) : Nat := (cap - h.insertedNodes.length) + Size h

end TurnQuery
end MoNav

namespace MoNav

end MoNav

namespace MoNav
namespace TurnQuery
open BinaryHeap

/-! ## The search on graphs with forward and backward edges -/

/-- `GWalk g d node node2 n i es c`: `es` is a chain of edges that the search of direction
`d`, seeded for the oriented edge between `node` and `node2`, can follow: it begins with an
edge that `initHeap` stores, every further edge is allowed by `d`, is stored at the node
that the chain has reached, and is entered by a turn that is not restricted.  The chain
ends in the state with local index `i` at node `n`, and `c` is the sum of its edge
distances and turn penalties. -/
inductive GWalk (g : Graph) (d : Dir) (node node2 : Nat) : Nat → Nat → List Nat → Nat → Prop where
  | seed1 (e : Nat) : e ∈ g.edgesOf node → Act1 g node2 d.edgeAllowed e →
      GWalk g d node node2 node2 (g.GetOriginalEdgeTarget e) [e] (g.GetEdgeData e).distance
  | seed2 (e : Nat) : e ∈ g.edgesOf node2 → Act2 g node d.edgeAllowed e →
      GWalk g d node node2 node2 (g.GetOriginalEdgeSource e) [e] (g.GetEdgeData e).distance
  | step (n i : Nat) (es : List Nat) (c e : Nat) : GWalk g d node node2 n i es c →
      e ∈ g.edgesOf n →
      d.edgeAllowed (g.GetEdgeData e).forward (g.GetEdgeData e).backward = true →
      d.penaltyFunction g n i (g.GetOriginalEdgeSource e) ≠ 255 →
      GWalk g d node node2 (g.GetTarget e) (g.GetOriginalEdgeTarget e) (es ++ [e])
        (c + d.penaltyFunction g n i (g.GetOriginalEdgeSource e) + (g.GetEdgeData e).distance)

end TurnQuery

end MoNav

namespace MoNav

/-- The result of `x`, if it has one, satisfies `P`. -/
def Ok {α : Type} (P : α → Prop) (x : Except Fault α) : Prop :=
  ∀ a, x = .ok a → P a

end MoNav
namespace MoNav
namespace TurnQuery
open BinaryHeap

/-! ## Parent pointers on any graph -/

/-- The number of ids that were inserted and have left the tree. -/
def removedCount (h : Heap) : Nat := h.insertedNodes.length - Size h

/-- Parent pointers lead to removed ids, and `rank`, the order in which ids left the tree,
falls along them: the rank of a removed id is below the number of removed ids, the
`parentOrig` of an inserted id is `NONE` or a removed id, and the parent of a removed id
has a smaller rank. -/
def ChainR (h : Heap) (rank : Nat → Nat) : Prop :=
  ∀ (k : Nat) (c : Int) (d : HeapData) (l : Bool), view h k = some (c, d, l) →
    (l = false → rank k < removedCount h) ∧
    (d.parentOrig ≠ NONE → ∃ (cp : Int) (dp : HeapData),
      view h d.parentOrig = some (cp, dp, false) ∧ (l = false → rank d.parentOrig < rank k))

/-- What every call that returns keeps of a heap of the query on any graph: the
representation invariant, a tree no larger than the list of records, and parent pointers
that lead to removed ids without a cycle. -/
structure CInv (h : Heap) : Prop where
  inv : Inv h
  size : Size h ≤ h.insertedNodes.length
  chain : ∃ rank : Nat → Nat, ChainR h rank

/-- From `h` to `h'` an inserted id stays inserted and a removed id stays removed. -/
def Ext (h h' : Heap) : Prop :=
  ∀ (k : Nat) (c : Int) (d : HeapData) (l : Bool), view h k = some (c, d, l) →
    ∃ (c' : Int) (d' : HeapData) (l' : Bool), view h' k = some (c', d', l') ∧
      (l = false → l' = false)

/-- The id `k` was inserted and has left the tree. -/
def Removed (h : Heap) (k : Nat) : Prop :=
  ∃ (c : Int) (d : HeapData), view h k = some (c, d, false)

/-- The meeting that `m_middle` records, if it records one, names an id inserted in the
forward heap and an id inserted in the backward heap. -/
def MiddleInserted (hf hb : Heap) (mid : Middle) : Prop :=
  mid.node = NONE ∨ ((view hf mid.inOrig).isSome ∧ (view hb mid.outOrig).isSome)

/-- The parent pointers of a heap have no cycle: a rank falls along them, and they lead to
inserted ids. -/
def Acyclic (h : Heap) : Prop :=
  ∃ rank : Nat → Nat, ∀ (k : Nat) (d : HeapData), h.WasInserted k = .ok true →
    h.GetData k = .ok d → d.parentOrig ≠ NONE →
    h.WasInserted d.parentOrig = .ok true ∧ rank d.parentOrig < rank k

end TurnQuery
end MoNav
namespace MoNav
namespace TurnQuery
open BinaryHeap

/-- A heap during and after `initHeap`, as far as weights go, on any graph: every entry is
in the tree and its weight is one of the weights `W` stored so far, and for every weight
stored so far there is an entry that is not above it. -/
structure WSeed (W : Int → Prop) (h : Heap) : Prop where
  inv : Inv h
  live : ∀ (k : Nat) (c : Int) (d : HeapData) (l : Bool), view h k = some (c, d, l) →
    l = true ∧ W c
  seen : ∀ w : Int, W w →
    ∃ (k : Nat) (c : Int) (d : HeapData) (l : Bool), view h k = some (c, d, l) ∧ c ≤ w

/-- The weights that `initHeap` stores for the arguments `node`, `node2` and `ea`: the
distances, converted to `int`, of the edges that its two loops do not pass over. -/
def SeedWeight (g : Graph) (node node2 : Nat) (ea : Bool → Bool → Bool) (w : Int) : Prop :=
  (∃ e ∈ g.edgesOf node, Act1 g node2 ea e ∧ w = i32 (g.GetEdgeData e).distance) ∨
    (∃ e ∈ g.edgesOf node2, Act2 g node ea e ∧ w = i32 (g.GetEdgeData e).distance)

end TurnQuery

/-- The query that `BidirSearch(0, 1, 3, 2)` leaves on `hierarchyGraph`: the forward heap
holds the state of the edge `0 -> 1`, the backward heap the state of the edge `2 -> 3` and,
with that state as parent, the state of the edge `1 -> 2`; the meeting is at node 1. -/
def hierarchyResult : TurnQuery :=
  { m_heapForward :=
      { insertedNodes := [⟨1, 0, 10, ⟨NONE, 0, 1, 0, false⟩⟩],
        heap := [⟨0, 0⟩], nodeIndex := ⟨[0, 0, 0, 0]⟩ },
    m_heapBackward :=
      { insertedNodes := [⟨2, 0, 20, ⟨NONE, 2, 2, 0, false⟩⟩, ⟨1, 0, 27, ⟨2, 1, 1, 0, false⟩⟩],
        heap := [⟨0, 0⟩], nodeIndex := ⟨[0, 1, 0, 0]⟩ },
    m_stallQueue := [],
    m_middle := ⟨1, 1, 1⟩ }

/-- The query that the two calls of `initHeap` leave for `BidirSearch(0, 1, 1, 0)` on the
diamond without penalties: each heap holds the edge `0 -> 1` of distance 10, the forward
heap under the key 2 and the backward heap under the key 0. -/
def diamondSeeded : TurnQuery :=
  { m_heapForward :=
      { insertedNodes := [⟨2, 1, 10, ⟨NONE, 0, 1, 0, false⟩⟩],
        heap := [⟨0, 0⟩, ⟨0, 10⟩], nodeIndex := ⟨[0, 0, 0, 0, 0, 0]⟩ },
    m_heapBackward :=
      { insertedNodes := [⟨0, 1, 10, ⟨NONE, 0, 0, 0, false⟩⟩],
        heap := [⟨0, 0⟩, ⟨0, 10⟩], nodeIndex := ⟨[0, 0, 0, 0, 0, 0]⟩ },
    m_stallQueue := [],
    m_middle := ⟨NONE, 0, 0⟩ }

end MoNav

namespace MoNav
namespace TurnQuery
open BinaryHeap

/-! ## The search with stall-on-demand left out -/

/-- The body of the meeting loop of `computeStep` with the test of the `stalled` flag left
out: every inserted state of the other heap is a candidate. -/
def meetBodyNoStall (g : Graph) (d : Dir) (heapBackward : Heap) (originalEdge : Nat)
    (distance : Int) (data : HeapData) (firstOriginal : Nat) (out : Nat) (st : Middle × Int) :
    Except Fault ((Middle × Int) × Bool) := do
  let orig := u32 (firstOriginal + out)
  let ins ← heapBackward.WasInserted orig
  if ins then
    let penalty := d.penaltyFunction g data.node data.originalEdge out
    if penalty = RESTRICTED_TURN then
      pure (st, false)
    else
      let key ← heapBackward.GetKey orig
      let newDistance := i32 (key + penalty + distance)
      if newDistance < st.2 then
        pure ((d.middleFunction data.node originalEdge orig, newDistance), false)
      else
        pure (st, false)
  else
    pure (st, false)

/-- The body of the edge loop of `computeStep` with the stall-on-demand branch left out:
the assertion on the distance of the edge and the relaxation of the edge.  No key is
compared with a shorter distance, no key and no `stalled` flag is written, the stall queue
is not touched and the stall BFS is not called. -/
def edgeBodyNoStall (g : Graph) (d : Dir) (originalEdge : Nat) (distance : Int)
    (data : HeapData) (edge : Nat) (st : Heap × List StallQueueItem) :
    Except Fault ((Heap × List StallQueueItem) × Bool) := do
  let (heapForward, queue) := st
  let edgeData := g.GetEdgeData edge
  assert (edgeData.distance > 0)
  let heap1 ← relaxEdge g d originalEdge distance data edge heapForward
  pure ((heap1, queue), false)

/-- `computeStep` with everything that belongs to stall-on-demand left out: the settled
state is not tested for `stalled`, and the loops run `meetBodyNoStall` and
`edgeBodyNoStall`. -/
def computeStepNoStall (g : Graph) (d : Dir) (heapBackward : Heap) (st : StepState) :
    Except Fault (StepState × Nat) := do
  let (heap1, originalEdge) ← st.heapForward.DeleteMin
  let distance ← heap1.GetKey originalEdge
  let data ← heap1.GetData originalEdge
  let deg := d.degOut g data.node
  let firstOriginal := g.GetFirstOriginalEdge data.node
  let (middle, targetDistance) ← forLoop
    (meetBodyNoStall g d heapBackward originalEdge distance data firstOriginal)
    (List.range deg) (st.middle, st.targetDistance)
  if distance > targetDistance then
    let heap2 ← heap1.DeleteAll
    pure ({ st with heapForward := heap2, middle := middle,
                    targetDistance := targetDistance }, originalEdge)
  else
    let (heap2, queue) ← forLoop
      (edgeBodyNoStall g d originalEdge distance data)
      (g.edgesOf data.node) (heap1, st.stallQueue)
    pure ({ heapForward := heap2, stallQueue := queue, middle := middle,
            targetDistance := targetDistance }, originalEdge)

/-- The forward call of `computeStepNoStall`. -/
def stepForwardNoStall (g : Graph) (s : SearchState) : Except Fault SearchState := do
  let (r, _) ← computeStepNoStall g Dir.fwd s.query.m_heapBackward
    ⟨s.query.m_heapForward, s.query.m_stallQueue, s.query.m_middle, s.targetDistance⟩
  pure { query := { s.query with m_heapForward := r.heapForward, m_stallQueue := r.stallQueue,
                                 m_middle := r.middle },
         targetDistance := r.targetDistance }

/-- The `while` loop of `UnidirSearch` over `stepForwardNoStall`. -/
def unidirLoopNoStall (g : Graph) : Nat → SearchState → Except Fault SearchState
  | 0, s => if s.query.m_heapForward.Size > 0 then .error .fuel else pure s
  | fuel + 1, s =>
    if s.query.m_heapForward.Size > 0 then do
      let s1 ← stepForwardNoStall g s
      unidirLoopNoStall g fuel s1
    else pure s

/-- `UnidirSearch` with stall-on-demand left out of every step. -/
def UnidirSearchNoStall (g : Graph) (q : TurnQuery) (source source2 target target2 : Nat) :
    Except Fault (Int × TurnQuery) := do
  let q1 ← initSearch g q source source2 target target2
  let targetDistance := INT_MAX
  if q1.m_heapBackward.Size = 0 || q1.m_heapForward.Size = 0 then
    pure (targetDistance, q1)
  else if source = target2 && source2 = target then
    let kf ← q1.m_heapForward.MinKey
    let kb ← q1.m_heapBackward.MinKey
    assert (kf = kb)
    pure (kf, q1)
  else
    let s ← unidirLoopNoStall g (loopFuel g) ⟨q1, targetDistance⟩
    pure (s.targetDistance, s.query)

/-- The states that the `while` loop of `UnidirSearch` passes through when it starts in
`st0`: `st0` itself and, from a state whose forward heap is not empty, the state that the
forward step returns. -/
inductive UnidirReach (g : Graph) (stallOnDemand : Bool) (st0 : SearchState) :
    SearchState → Prop where
  | start : UnidirReach g stallOnDemand st0 st0
  | step {st st' : SearchState} : UnidirReach g stallOnDemand st0 st →
      0 < st.query.m_heapForward.Size → stepForward g stallOnDemand st = .ok st' →
      UnidirReach g stallOnDemand st0 st'

end TurnQuery
end MoNav

namespace MoNav

/-- A forward-only graph with two ways from node 1 to node 3: the edge `1 -> 3` of distance
2147483000, which enters node 3 at the local index 0, and the edges `1 -> 2 -> 3` of
distance 10 each, which enter node 3 at the local index 1.  The edge `3 -> 4` has distance
1000, the edge `0 -> 1` distance 10 and the edge `1 -> 5` distance 5000.  The cheapest path
from the edge `0 -> 1` to the edge `3 -> 4` costs 1030; the path over the long edge costs
2147484010, more than `INT_MAX`. -/
def tentGraph : Graph :=
  tableGraph [⟨0, 1, 0, 0, 1⟩, ⟨1, 4, 1, 1, 3⟩, ⟨4, 5, 4, 1, 1⟩, ⟨5, 6, 5, 2, 1⟩, ⟨6, 6, 7, 1, 0⟩,
      ⟨6, 6, 8, 1, 0⟩]
    [⟨1, 10, true, false, 0, 0⟩, ⟨3, 2147483000, true, false, 0, 0⟩, ⟨2, 10, true, false, 1, 0⟩,
     ⟨5, 5000, true, false, 2, 0⟩, ⟨3, 10, true, false, 0, 1⟩, ⟨4, 1000, true, false, 0, 0⟩]
    9 (fun _ _ _ => 0)

/-- A forward-only graph with the path `0 -> 1 -> 2 -> 4` of cost 30 and a side edge
`1 -> 3` of distance 2147483640: relaxing the side edge from the state of the edge
`0 -> 1`, whose key is 10, forms the sum 2147483650, more than `INT_MAX`. -/
def farGraph : Graph :=
  tableGraph [⟨0, 1, 0, 0, 1⟩, ⟨1, 3, 1, 1, 2⟩, ⟨3, 4, 3, 1, 1⟩, ⟨4, 4, 4, 1, 0⟩, ⟨4, 4, 5, 1, 0⟩]
    [⟨1, 10, true, false, 0, 0⟩, ⟨2, 10, true, false, 0, 0⟩, ⟨3, 2147483640, true, false, 1, 0⟩,
     ⟨4, 10, true, false, 0, 0⟩] 6 (fun _ _ _ => 0)

/-- A forward-only graph of two separate edges, `0 -> 1` of distance 10 and `2 -> 3` of
distance 3000000000, which is more than `INT_MAX`; no edge leaves node 1 or node 3. -/
def seedGraph : Graph :=
  tableGraph [⟨0, 1, 0, 0, 1⟩, ⟨1, 1, 1, 1, 0⟩, ⟨1, 2, 2, 0, 1⟩, ⟨2, 2, 3, 1, 0⟩]
    [⟨1, 10, true, false, 0, 0⟩, ⟨3, 3000000000, true, false, 0, 0⟩] 4 (fun _ _ _ => 0)

/-- The penalty table that forbids every turn at node 4. -/
def restrictedAt4 (n _i _o : Nat) : Nat := if n = 4 then 255 else 0

/-- The graph `stallGraph y t` with every turn at node 4 forbidden.  Node 4 is the only
node at which a chain of forward-allowed edges from the edge `0 -> 1` and a chain of
backward-allowed edges from the edge `4 -> 5` can meet. -/
def stallGraphR (y t : Nat) : Graph :=
  { stallGraph y t with GetPenaltyData := restrictedAt4 }

end MoNav

namespace MoNav

/-! ## Theorems about the heap -/

section Basics
variable {α : Type}

theorem rd_ok {v : List α} {i : Nat} {a : α} (h : v[i]? = some a) : rd v i = .ok a := by
  simp [rd, h]

theorem wr_ok {v : List α} {i : Nat} (a : α) (h : i < v.length) :
    wr v i a = .ok (v.set i a) := by
  simp [wr, h]

theorem assert_ok {c : Prop} [Decidable c] (h : c) : assert c = .ok () := by
  simp [assert, h]

theorem assert_fail {c : Prop} [Decidable c] (h : ¬ c) : assert c = .error .assertion := by
  simp [assert, h]

theorem lt_of_get {v : List α} {i : Nat} {a : α} (h : v[i]? = some a) : i < v.length :=
  (List.getElem?_eq_some.1 h).1

theorem get_of_lt {v : List α} {i : Nat} (h : i < v.length) : ∃ a, v[i]? = some a :=
  ⟨v[i], List.getElem?_eq_getElem h⟩

theorem get_set_iff {v : List α} {i j : Nat} {a b : α} :
    (v.set i a)[j]? = some b ↔ (i = j ∧ i < v.length ∧ a = b) ∨ (i ≠ j ∧ v[j]? = some b) := by
  rw [List.getElem?_set]
  by_cases h : i = j
  · by_cases h2 : i < v.length <;> simp [h, h2]
  · simp [h]

theorem get_set_self {v : List α} {i : Nat} (a : α) (h : i < v.length) :
    (v.set i a)[i]? = some a := by
  simp [List.getElem?_set, h]

theorem get_set_other {v : List α} {i j : Nat} (a : α) (h : i ≠ j) :
    (v.set i a)[j]? = v[j]? := by
  simp [List.getElem?_set, h]

end Basics

namespace BinaryHeap
variable {δ : Type}

theorem Same_refl (s : BinaryHeap δ) : Same s s :=
  ⟨rfl, rfl, fun _ r h => ⟨r, h, rfl, rfl, rfl, Iff.rfl⟩, rfl⟩

theorem Same_trans {s t u : BinaryHeap δ} (h1 : Same s t) (h2 : Same t u) : Same s u := by
  refine ⟨h2.index.trans h1.index, h2.size.trans h1.size, ?_, h2.count.trans h1.count⟩
  intro k r hr
  obtain ⟨r1, hr1, a1, b1, c1, d1⟩ := h1.recs k r hr
  obtain ⟨r2, hr2, a2, b2, c2, d2⟩ := h2.recs k r1 hr1
  exact ⟨r2, hr2, a2.trans a1, b2.trans b1, c2.trans c1, d2.trans d1⟩

/-- One iteration of either loop: the entry at `j` is copied into the hole. -/
theorem Hole_move {s : BinaryHeap δ} {key ri : Nat} {w : Int} {x : Option Nat}
    (h : Hole s key ri w x) {j : Nat} {p : HeapElement} {r : HeapNode δ}
    (hj : 1 ≤ j) (hjk : j ≠ key) (hp : s.heap[j]? = some p)
    (hr : s.insertedNodes[p.index]? = some r) :
    Hole { s with heap := s.heap.set key p,
                  insertedNodes := s.insertedNodes.set p.index { r with key := key } }
      j ri w x ∧
    Same s { s with heap := s.heap.set key p,
                    insertedNodes := s.insertedNodes.set p.index { r with key := key } } := by
  obtain ⟨hpri, hpx, r0, hr0, hr0k, hr0w⟩ := h.tree j p hj hjk hp
  have hrr : r0 = r := by rw [hr0] at hr; exact Option.some.inj hr
  subst hrr
  have hpl := lt_of_get hr
  constructor
  · refine ⟨⟨hj, by simpa using lt_of_get hp⟩, ?_, ?_, ?_, h.notx, ?_⟩
    · intro i e hi hij he
      simp only [get_set_iff] at he
      rcases he with ⟨hki, _, hpe⟩ | ⟨hki, he⟩
      · subst hpe
        refine ⟨hpri, hpx, _, get_set_self _ hpl, hki, hr0w⟩
      · obtain ⟨a, b, r1, hr1, hr1k, hr1w⟩ := h.tree i e hi (Ne.symm hki) he
        refine ⟨a, b, r1, ?_, hr1k, hr1w⟩
        rw [get_set_other]
        · exact hr1
        · intro hpe
          rw [hpe, hr1] at hr
          have := Option.some.inj hr
          subst this
          omega
    · intro k r1 hr1 hk0 hkri hkx
      simp only [get_set_iff] at hr1
      rcases hr1 with ⟨hpk, _, hrr⟩ | ⟨hpk, hr1⟩
      · subst hrr
        refine ⟨fun hh => hjk hh.symm, p, ?_, hpk⟩
        exact get_set_self _ h.pos.2
      · obtain ⟨a, e, he, hek⟩ := h.record k r1 hr1 hk0 hkri hkx
        refine ⟨?_, e, ?_, hek⟩
        · intro hh
          rw [hh, hp] at he
          have := Option.some.inj he
          subst this
          exact hpk hek
        · rw [get_set_other _ (Ne.symm a)]
          exact he
    · obtain ⟨rr, hrr, a, b⟩ := h.rising
      refine ⟨rr, ?_, a, b⟩
      rw [get_set_other _ hpri]
      exact hrr
    · intro k r1 hr1
      simp only [get_set_iff] at hr1
      rcases hr1 with ⟨hpk, _, hrr⟩ | ⟨hpk, hr1⟩
      · subst hrr
        subst hpk
        exact h.ids _ r0 hr
      · exact h.ids _ _ hr1
  · refine ⟨rfl, by simp, ?_, by simp⟩
    intro k r1 hr1
    by_cases hk : p.index = k
    · subst hk
      rw [hr] at hr1
      have := Option.some.inj hr1
      subst this
      refine ⟨_, get_set_self _ hpl, rfl, rfl, rfl, ?_⟩
      have hk1 := h.pos.1
      simp only
      constructor <;> intro hh <;> omega
    · exact ⟨r1, by rw [get_set_other _ hk]; exact hr1, rfl, rfl, rfl, Iff.rfl⟩

end BinaryHeap
end MoNav

namespace MoNav
namespace BinaryHeap
variable {δ : Type}

/-- The end of either loop: the carried entry is written into the hole. -/
theorem Hole_fill {s : BinaryHeap δ} {key ri : Nat} {w : Int} {x : Option Nat}
    (h : Hole s key ri w x) {r : HeapNode δ} (hr : s.insertedNodes[ri]? = some r) :
    Idx { s with heap := s.heap.set key ⟨ri, w⟩,
                 insertedNodes := s.insertedNodes.set ri { r with key := key } } x ∧
    Same s { s with heap := s.heap.set key ⟨ri, w⟩,
                    insertedNodes := s.insertedNodes.set ri { r with key := key } } := by
  obtain ⟨r0, hr0, hr0k, hr0w⟩ := h.rising
  have hrr : r0 = r := by rw [hr0] at hr; exact Option.some.inj hr
  subst hrr
  have hl := lt_of_get hr
  have hk1 := h.pos.1
  constructor
  · refine ⟨?_, ?_, ?_⟩
    · intro i e hi he
      simp only [get_set_iff] at he
      rcases he with ⟨hki, _, hpe⟩ | ⟨hki, he⟩
      · subst hpe
        exact ⟨h.notx, _, get_set_self _ hl, hki, hr0w⟩
      · obtain ⟨a, b, r1, hr1, hr1k, hr1w⟩ := h.tree i e hi (Ne.symm hki) he
        exact ⟨b, r1, by rw [get_set_other _ (Ne.symm a)]; exact hr1, hr1k, hr1w⟩
    · intro k r1 hr1 hk0 hkx
      simp only [get_set_iff] at hr1
      rcases hr1 with ⟨hpk, _, hrr⟩ | ⟨hpk, hr1⟩
      · subst hrr
        exact ⟨_, get_set_self _ h.pos.2, hpk⟩
      · obtain ⟨a, e, he, hek⟩ := h.record k r1 hr1 hk0 (Ne.symm hpk) hkx
        exact ⟨e, by rw [get_set_other _ (Ne.symm a)]; exact he, hek⟩
    · intro k r1 hr1
      simp only [get_set_iff] at hr1
      rcases hr1 with ⟨hpk, _, hrr⟩ | ⟨hpk, hr1⟩
      · subst hrr
        subst hpk
        exact h.ids _ r0 hr
      · exact h.ids _ _ hr1
  · refine ⟨rfl, by simp, ?_, by simp⟩
    intro k r1 hr1
    by_cases hk : ri = k
    · subst hk
      rw [hr] at hr1
      have := Option.some.inj hr1
      subst this
      refine ⟨_, get_set_self _ hl, rfl, rfl, rfl, ?_⟩
      simp only
      constructor <;> intro hh <;> omega
    · exact ⟨r1, by rw [get_set_other _ hk]; exact hr1, rfl, rfl, rfl, Iff.rfl⟩

theorem Ord_fill {H : List HeapElement} {key : Nat} {w : Int} (ri : Nat)
    (h : FillOrd H key w) (hk : 1 ≤ key) : Ord (H.set key ⟨ri, w⟩) := by
  obtain ⟨⟨e0, he0, hw0⟩, h2, h3, h4⟩ := h
  refine ⟨⟨e0, by rw [get_set_other _ (by omega)]; exact he0, hw0⟩, ?_⟩
  intro i e p hi he hp
  have hkk : key / 2 ≠ key := by omega
  simp only [get_set_iff] at he hp
  rcases he with ⟨hki, _, hee⟩ | ⟨hki, he⟩
  · subst hee
    subst hki
    rcases hp with ⟨hkp, _, _⟩ | ⟨_, hp⟩
    · exact absurd hkp.symm hkk
    · exact h3 p hp
  · rcases hp with ⟨hkp, _, hpp⟩ | ⟨hkp, hp⟩
    · subst hpp
      exact h4 i e hkp.symm he
    · exact h2 i e p hi (Ne.symm hki) (Ne.symm hkp) he hp

theorem UpOrd_move {H : List HeapElement} {key : Nat} {w : Int} (h : UpOrd H key w)
    {p : HeapElement} (hp : H[key / 2]? = some p) (hw : w < p.weight) (h0 : key / 2 ≠ 0) :
    UpOrd (H.set key p) (key / 2) w := by
  obtain ⟨⟨e0, he0, hw0⟩, h2, h3⟩ := h
  have hkk : key / 2 ≠ key := by omega
  have hk4 : key / 2 / 2 ≠ key := by omega
  refine ⟨⟨e0, by rw [get_set_other _ (by omega)]; exact he0, hw0⟩, ?_, ?_⟩
  · intro i e q hi hik hi2 he hq
    simp only [get_set_iff] at he hq
    rcases he with ⟨hki, _, hee⟩ | ⟨hki, he⟩
    · subst hki; exact absurd rfl hi2
    · rcases hq with ⟨hkq, _, hqq⟩ | ⟨hkq, hq⟩
      · subst hqq
        exact (h3 i e hkq.symm he).2 p hp
      · exact h2 i e q hi (Ne.symm hki) (Ne.symm hkq) he hq
  · intro i e hi he
    simp only [get_set_iff] at he
    have hpp : ∀ q : HeapElement, (H.set key p)[key / 2 / 2]? = some q → q.weight ≤ p.weight := by
      intro q hq
      rw [get_set_other _ (Ne.symm hk4)] at hq
      exact h2 (key / 2) p q (by omega) hkk hk4 hp hq
    rcases he with ⟨hki, _, hee⟩ | ⟨hki, he⟩
    · subst hee
      exact ⟨le_of_lt hw, hpp⟩
    · have h5 := h2 i e p (by omega) (Ne.symm hki) (by omega) he (by rw [hi]; exact hp)
      exact ⟨by linarith, fun q hq => le_trans (hpp q hq) h5⟩

theorem UpOrd_fillOrd {H : List HeapElement} {key : Nat} {w : Int} (h : UpOrd H key w)
    (hp : ∀ p : HeapElement, H[key / 2]? = some p → p.weight ≤ w) : FillOrd H key w :=
  ⟨h.1, h.2.1, hp, fun i e hi he => (h.2.2 i e hi he).1⟩

theorem DownOrd_move {H : List HeapElement} {key : Nat} {w : Int} (h : DownOrd H key w)
    (hk : 1 ≤ key) (hkl : key < H.length)
    {c : Nat} {ch : HeapElement} (hc : c / 2 = key) (hch : H[c]? = some ch)
    (hw : ch.weight < w)
    (hmin : ∀ (i : Nat) (e : HeapElement), i / 2 = key → H[i]? = some e → ch.weight ≤ e.weight) :
    DownOrd (H.set key ch) c w := by
  obtain ⟨⟨e0, he0, hw0⟩, h2, h3⟩ := h
  have hkk : key / 2 ≠ key := by omega
  refine ⟨⟨e0, by rw [get_set_other _ (by omega)]; exact he0, hw0⟩, ?_, ?_⟩
  · intro i e q hi hic hi2 he hq
    simp only [get_set_iff] at he hq
    rcases he with ⟨hki, _, hee⟩ | ⟨hki, he⟩
    · subst hee
      subst hki
      rcases hq with ⟨hkq, _, _⟩ | ⟨_, hq⟩
      · exact absurd hkq.symm hkk
      · exact (h3 q hq).2 c _ hc hch
    · rcases hq with ⟨hkq, _, hqq⟩ | ⟨hkq, hq⟩
      · subst hqq
        exact hmin i e hkq.symm he
      · exact h2 i e q hi (Ne.symm hki) (Ne.symm hkq) he hq
  · intro q hq
    rw [hc, get_set_self _ hkl] at hq
    have := Option.some.inj hq
    subst this
    refine ⟨le_of_lt hw, ?_⟩
    intro i e hi he
    rw [get_set_other _ (by omega)] at he
    exact h2 i e ch (by omega) (by omega) (by omega) he (by rw [hi]; exact hch)

theorem DownOrd_fillOrd {H : List HeapElement} {key : Nat} {w : Int} (h : DownOrd H key w)
    (hc : ∀ (i : Nat) (e : HeapElement), i / 2 = key → H[i]? = some e → w ≤ e.weight) :
    FillOrd H key w := by
  refine ⟨h.1, h.2.1, fun p hp => (h.2.2 p hp).1, hc⟩

theorem UpheapLoop_spec (w : Int) (hw : 0 ≤ w) (ri : Nat) (x : Option Nat) :
    ∀ (fuel : Nat) (s : BinaryHeap δ) (key : Nat), key < fuel →
      Hole s key ri w x → UpOrd s.heap key w →
      ∃ s' key', UpheapLoop w fuel s key = .ok (s', key') ∧
        Hole s' key' ri w x ∧ FillOrd s'.heap key' w ∧ Same s s' := by
  intro fuel
  induction fuel with
  | zero => intro s key hk; omega
  | succ fuel ih =>
    intro s key hk hh ho
    have hk1 := hh.pos.1
    have hkl := hh.pos.2
    obtain ⟨p, hp⟩ := get_of_lt (show key / 2 < s.heap.length by omega)
    by_cases hpw : p.weight > w
    · have h0 : key / 2 ≠ 0 := by
        intro h0
        obtain ⟨e0, he0, hw0⟩ := ho.1
        rw [h0, he0] at hp
        have := Option.some.inj hp
        subst this
        omega
      obtain ⟨_, _, r, hr, _, _⟩ := hh.tree (key / 2) p (by omega) (by omega) hp
      have h1 : key / 2 < s.heap.length := lt_of_get hp
      have h2 : p.index < s.insertedNodes.length := lt_of_get hr
      obtain ⟨hm, hsame⟩ := Hole_move hh (by omega) (by omega) hp hr
      obtain ⟨s', key', hrun, a, b, c⟩ := ih _ (key / 2) (by omega) hm (UpOrd_move ho hp hpw h0)
      refine ⟨s', key', ?_, a, b, Same_trans hsame c⟩
      simp only [UpheapLoop, rd_ok hp, rd_ok hr, wr_ok _ hkl, wr_ok _ h2, assert_ok h0,
        assert_ok h1, assert_ok h2, hpw, if_true, bind, Except.bind]
      exact hrun
    · refine ⟨s, key, ?_, hh, UpOrd_fillOrd ho ?_, Same_refl s⟩
      · simp only [UpheapLoop, rd_ok hp, hpw, if_false, bind, Except.bind, pure, Except.pure]
      · intro q hq
        rw [hp] at hq
        have := Option.some.inj hq
        subst this
        omega

theorem Upheap_spec {s : BinaryHeap δ} {key ri : Nat} {w : Int} {x : Option Nat}
    (hw : 0 ≤ w) (hh : Hole s key ri w x) (ho : UpOrd s.heap key w)
    (he : s.heap[key]? = some ⟨ri, w⟩) :
    ∃ s', Upheap s key = .ok s' ∧ Idx s' x ∧ Ord s'.heap ∧ Same s s' := by
  obtain ⟨s1, key1, hrun, h1, o1, c1⟩ := UpheapLoop_spec w hw ri x (key + 1) s key (by omega) hh ho
  obtain ⟨r, hr, _, _⟩ := h1.rising
  obtain ⟨hi, hs⟩ := Hole_fill h1 hr
  have hkl := hh.pos.2
  refine ⟨_, ?_, hi, Ord_fill ri o1 h1.pos.1, Same_trans c1 hs⟩
  simp only [Upheap, rd_ok he, rd_ok hr, wr_ok _ h1.pos.2, wr_ok _ (lt_of_get hr),
    assert_ok hkl, assert_ok (show key / 2 < s.heap.length by omega), assert_ok (lt_of_get hr),
    hrun, bind, Except.bind, pure, Except.pure]

end BinaryHeap
end MoNav

namespace MoNav
namespace BinaryHeap
variable {δ : Type}

theorem DownheapLoop_step (w : Int) (fuel : Nat) (s : BinaryHeap δ) (key c : Nat)
    {a child : HeapElement} {r : HeapNode δ}
    (hlt : 2 * key < s.heap.length) (hkl : key < s.heap.length)
    (ha : s.heap[2 * key]? = some a) (hc : s.heap[c]? = some child)
    (hsel : (2 * key + 1 < s.heap.length ∧ ∃ b : HeapElement, s.heap[2 * key + 1]? = some b ∧
              c = if a.weight > b.weight then 2 * key + 1 else 2 * key) ∨
            (¬ 2 * key + 1 < s.heap.length ∧ c = 2 * key))
    (hr : s.insertedNodes[child.index]? = some r) :
    DownheapLoop w (fuel + 1) s key =
      if w ≤ child.weight then .ok (s, key)
      else DownheapLoop w fuel
        { s with heap := s.heap.set key child,
                 insertedNodes := s.insertedNodes.set child.index { r with key := key } } c := by
  have h2 : child.index < s.insertedNodes.length := lt_of_get hr
  rcases hsel with ⟨h1, b, hb, hcc⟩ | ⟨h1, hcc⟩
  · subst hcc
    by_cases hab : a.weight > b.weight
    · simp only [hab, if_true] at hc ⊢
      have hcb : b = child := by rw [hb] at hc; exact Option.some.inj hc
      subst hcb
      by_cases hw : w ≤ b.weight
      · simp only [DownheapLoop, hlt, h1, rd_ok ha, rd_ok hb, rd_ok hc, hab, hw, if_true, bind,
          Except.bind, pure, Except.pure]
      · simp only [DownheapLoop, hlt, h1, rd_ok ha, rd_ok hb, rd_ok hc, rd_ok hr, wr_ok _ hkl,
          wr_ok _ h2, assert_ok h2, hab, hw, if_true, if_false, bind, Except.bind, pure,
          Except.pure]
    · simp only [hab, if_false] at hc ⊢
      have hcb : a = child := by rw [ha] at hc; exact Option.some.inj hc
      subst hcb
      by_cases hw : w ≤ a.weight
      · simp only [DownheapLoop, hlt, h1, rd_ok ha, rd_ok hb, rd_ok hc, hab, hw, if_true,
          if_false, bind, Except.bind, pure, Except.pure]
      · simp only [DownheapLoop, hlt, h1, rd_ok ha, rd_ok hb, rd_ok hc, rd_ok hr, wr_ok _ hkl,
          wr_ok _ h2, assert_ok h2, hab, hw, if_true, if_false, bind, Except.bind, pure,
          Except.pure]
  · subst hcc
    have hcb : a = child := by rw [ha] at hc; exact Option.some.inj hc
    subst hcb
    by_cases hw : w ≤ a.weight
    · simp only [DownheapLoop, hlt, h1, rd_ok ha, rd_ok hc, hw, if_true, if_false, bind,
        Except.bind, pure, Except.pure]
    · simp only [DownheapLoop, hlt, h1, rd_ok ha, rd_ok hc, rd_ok hr, wr_ok _ hkl,
        wr_ok _ h2, assert_ok h2, hw, if_true, if_false, bind, Except.bind, pure, Except.pure]

theorem DownheapLoop_spec (w : Int) (ri : Nat) (x : Option Nat) :
    ∀ (fuel : Nat) (s : BinaryHeap δ) (key : Nat), s.heap.length < fuel + key →
      Hole s key ri w x → DownOrd s.heap key w →
      ∃ s' key', DownheapLoop w fuel s key = .ok (s', key') ∧
        Hole s' key' ri w x ∧ FillOrd s'.heap key' w ∧ Same s s' := by
  intro fuel
  induction fuel with
  | zero => intro s key hk hh; have := hh.pos.2; omega
  | succ fuel ih =>
    intro s key hk hh ho
    have hk1 := hh.pos.1
    have hkl := hh.pos.2
    by_cases hlt : 2 * key < s.heap.length
    · obtain ⟨a, ha⟩ := get_of_lt hlt
      -- the smaller child
      have hsel : ∃ (c : Nat) (child : HeapElement), s.heap[c]? = some child ∧ c / 2 = key ∧
          ((2 * key + 1 < s.heap.length ∧ ∃ b : HeapElement, s.heap[2 * key + 1]? = some b ∧
              c = if a.weight > b.weight then 2 * key + 1 else 2 * key) ∨
            (¬ 2 * key + 1 < s.heap.length ∧ c = 2 * key)) ∧
          ∀ (i : Nat) (e : HeapElement), i / 2 = key → s.heap[i]? = some e →
            child.weight ≤ e.weight := by
        have hcases : ∀ i : Nat, i / 2 = key → i = 2 * key ∨ i = 2 * key + 1 := by
          intro i hi; omega
        by_cases h1 : 2 * key + 1 < s.heap.length
        · obtain ⟨b, hb⟩ := get_of_lt h1
          by_cases hab : a.weight > b.weight
          · refine ⟨2 * key + 1, b, hb, by omega, Or.inl ⟨h1, b, hb, by simp [hab]⟩, ?_⟩
            intro i e hi he
            rcases hcases i hi with h | h <;> subst h
            · rw [ha] at he; have := Option.some.inj he; subst this; omega
            · rw [hb] at he; have := Option.some.inj he; subst this; omega
          · refine ⟨2 * key, a, ha, by omega, Or.inl ⟨h1, b, hb, by simp [hab]⟩, ?_⟩
            intro i e hi he
            rcases hcases i hi with h | h <;> subst h
            · rw [ha] at he; have := Option.some.inj he; subst this; omega
            · rw [hb] at he; have := Option.some.inj he; subst this; omega
        · refine ⟨2 * key, a, ha, by omega, Or.inr ⟨h1, rfl⟩, ?_⟩
          intro i e hi he
          have := lt_of_get he
          rcases hcases i hi with h | h <;> subst h
          · rw [ha] at he; have := Option.some.inj he; subst this; omega
          · omega
      obtain ⟨c, child, hc, hc2, hs, hmin⟩ := hsel
      have hc1 : 1 ≤ c := by omega
      have hck : c ≠ key := by omega
      obtain ⟨_, _, r, hr, _, _⟩ := hh.tree c child hc1 hck hc
      rw [DownheapLoop_step w fuel s key c hlt hkl ha hc hs hr]
      by_cases hw : w ≤ child.weight
      · rw [if_pos hw]
        refine ⟨s, key, rfl, hh, DownOrd_fillOrd ho ?_, Same_refl s⟩
        intro i e hi he
        exact le_trans hw (hmin i e hi he)
      · rw [if_neg hw]
        obtain ⟨hm, hsame⟩ := Hole_move hh hc1 hck hc hr
        obtain ⟨s', key', hrun, a1, b1, c1⟩ := ih _ c (by simp only [List.length_set]; omega) hm
          (DownOrd_move ho hk1 hkl hc2 hc (by omega) hmin)
        exact ⟨s', key', hrun, a1, b1, Same_trans hsame c1⟩
    · refine ⟨s, key, ?_, hh, DownOrd_fillOrd ho ?_, Same_refl s⟩
      · simp only [DownheapLoop, hlt, if_false, pure, Except.pure]
      · intro i e hi he
        have := lt_of_get he
        omega

theorem Downheap_spec {s : BinaryHeap δ} {key ri : Nat} {w : Int} {x : Option Nat}
    (hh : Hole s key ri w x) (ho : DownOrd s.heap key w)
    (he : s.heap[key]? = some ⟨ri, w⟩) :
    ∃ s', Downheap s key = .ok s' ∧ Idx s' x ∧ Ord s'.heap ∧ Same s s' := by
  obtain ⟨s1, key1, hrun, h1, o1, c1⟩ :=
    DownheapLoop_spec w ri x s.heap.length s key (by have := hh.pos.1; omega) hh ho
  obtain ⟨r, hr, _, _⟩ := h1.rising
  obtain ⟨hi, hs⟩ := Hole_fill h1 hr
  have hkl := hh.pos.2
  refine ⟨_, ?_, hi, Ord_fill ri o1 h1.pos.1, Same_trans c1 hs⟩
  simp only [Downheap, rd_ok he, rd_ok hr, wr_ok _ h1.pos.2, wr_ok _ (lt_of_get hr),
    assert_ok hkl, assert_ok (lt_of_get hr), hrun, bind, Except.bind, pure, Except.pure]

end BinaryHeap
end MoNav

namespace MoNav

theorem get_concat_iff {α : Type} {v : List α} {j : Nat} {a b : α} :
    (v ++ [a])[j]? = some b ↔ v[j]? = some b ∨ (j = v.length ∧ a = b) := by
  rw [List.getElem?_append]
  by_cases h : j < v.length
  · simp only [h, if_true]
    constructor
    · exact Or.inl
    · rintro (h1 | ⟨h1, _⟩)
      · exact h1
      · omega
  · simp only [h, if_false]
    have hn : v[j]? = none := List.getElem?_eq_none (by omega)
    by_cases h2 : j = v.length
    · subst h2; simp [hn]
    · have : j - v.length ≠ 0 := by omega
      have h3 : [a][j - v.length]? = none := List.getElem?_eq_none (by simp; omega)
      simp [hn, h2, h3]

namespace BinaryHeap
variable {δ : Type}

theorem Same_frame {s s' : BinaryHeap δ} (h : Same s s') : Frame s s' :=
  ⟨h.index, h.count, fun k r hr => by
    obtain ⟨r', a, b, c, d, _⟩ := h.recs k r hr
    exact ⟨r', a, b, c, d⟩⟩

theorem get_ok {a : ArrayStorage} {id k : Nat} (h : a.positions[id]? = some k) :
    a.get id = .ok k := by
  simp only [ArrayStorage.get, assert_ok (lt_of_get h), rd_ok h, bind, Except.bind]

theorem get_fail {a : ArrayStorage} {id : Nat} (h : a.positions[id]? = none) :
    a.get id = .error .assertion := by
  have : ¬ id < a.positions.length := by
    intro hh
    obtain ⟨k, hk⟩ := get_of_lt hh
    rw [hk] at h
    exact absurd h (by simp)
  simp only [ArrayStorage.get, assert_fail this, bind, Except.bind]

theorem WasInserted_rec {s : BinaryHeap δ} {id k : Nat} {r : HeapNode δ}
    (h : s.nodeIndex.positions[id]? = some k) (hr : s.insertedNodes[k]? = some r) :
    WasInserted s id = .ok (r.node == id) := by
  have : ¬ k ≥ s.insertedNodes.length := by have := lt_of_get hr; omega
  simp only [WasInserted, get_ok h, rd_ok hr, this, if_false, bind, Except.bind, pure,
    Except.pure]

theorem WasInserted_none {s : BinaryHeap δ} {id k : Nat}
    (h : s.nodeIndex.positions[id]? = some k) (hr : s.insertedNodes[k]? = none) :
    WasInserted s id = .ok false := by
  have : k ≥ s.insertedNodes.length := by
    by_contra hh
    obtain ⟨r, hr'⟩ := get_of_lt (show k < s.insertedNodes.length by omega)
    rw [hr'] at hr
    exact absurd hr (by simp)
  simp only [WasInserted, get_ok h, this, if_true, bind, Except.bind, pure, Except.pure]

theorem WasInserted_fail {s : BinaryHeap δ} {id : Nat}
    (h : s.nodeIndex.positions[id]? = none) : WasInserted s id = .error .assertion := by
  simp only [WasInserted, get_fail h, bind, Except.bind]

theorem GetKey_rec {s : BinaryHeap δ} {id k : Nat} {r : HeapNode δ}
    (h : s.nodeIndex.positions[id]? = some k) (hr : s.insertedNodes[k]? = some r) :
    GetKey s id = .ok r.weight := by
  simp only [GetKey, get_ok h, rd_ok hr, bind, Except.bind, pure, Except.pure]

theorem GetData_rec {s : BinaryHeap δ} {id k : Nat} {r : HeapNode δ}
    (h : s.nodeIndex.positions[id]? = some k) (hr : s.insertedNodes[k]? = some r) :
    GetData s id = .ok r.data := by
  simp only [GetData, get_ok h, rd_ok hr, bind, Except.bind, pure, Except.pure]

theorem WasRemoved_rec {s : BinaryHeap δ} {id k : Nat} {r : HeapNode δ}
    (h : s.nodeIndex.positions[id]? = some k) (hr : s.insertedNodes[k]? = some r)
    (hn : r.node = id) : WasRemoved s id = .ok (r.key == 0) := by
  have hb : (r.node == id) = true := by simp [hn]
  simp only [WasRemoved, WasInserted_rec h hr, hb, get_ok h, rd_ok hr, bind, Except.bind, pure,
    Except.pure, assert_ok]

/-- An id is inserted exactly when the index array leads to a record that carries it. -/
theorem WasInserted_iff {s : BinaryHeap δ} {id : Nat} :
    WasInserted s id = .ok true ↔
      ∃ (k : Nat) (r : HeapNode δ), s.nodeIndex.positions[id]? = some k ∧
        s.insertedNodes[k]? = some r ∧ r.node = id := by
  constructor
  · intro h
    cases hN : s.nodeIndex.positions[id]? with
    | none => rw [WasInserted_fail hN] at h; exact absurd h (by simp)
    | some k =>
      cases hR : s.insertedNodes[k]? with
      | none => rw [WasInserted_none hN hR] at h; exact absurd h (by simp)
      | some r =>
        rw [WasInserted_rec hN hR] at h
        refine ⟨k, r, rfl, hR, ?_⟩
        simpa using h
  · rintro ⟨k, r, hN, hR, hn⟩
    rw [WasInserted_rec hN hR]
    simp [hn]

theorem Frame_observers {s s' : BinaryHeap δ} (h : Frame s s') (id : Nat) :
    WasInserted s' id = WasInserted s id ∧ GetKey s' id = GetKey s id ∧
      GetData s' id = GetData s id := by
  have hN : s'.nodeIndex.positions[id]? = s.nodeIndex.positions[id]? := by rw [h.index]
  cases hk : s.nodeIndex.positions[id]? with
  | none =>
    rw [hk] at hN
    simp only [WasInserted, GetKey, GetData, get_fail hN, get_fail hk, bind, Except.bind,
      and_self]
  | some k =>
    rw [hk] at hN
    cases hr : s.insertedNodes[k]? with
    | none =>
      have hr' : s'.insertedNodes[k]? = none := by
        apply List.getElem?_eq_none
        rw [h.count]
        by_contra hh
        obtain ⟨r, hr2⟩ := get_of_lt (show k < s.insertedNodes.length by omega)
        rw [hr2] at hr
        exact absurd hr (by simp)
      refine ⟨by rw [WasInserted_none hN hr', WasInserted_none hk hr], ?_, ?_⟩
      · simp only [GetKey, get_ok hN, get_ok hk, rd, hr, hr', bind, Except.bind]
      · simp only [GetData, get_ok hN, get_ok hk, rd, hr, hr', bind, Except.bind]
    | some r =>
      obtain ⟨r', hr', a, b, c⟩ := h.recs k r hr
      refine ⟨by rw [WasInserted_rec hN hr', WasInserted_rec hk hr, a], ?_, ?_⟩
      · rw [GetKey_rec hN hr', GetKey_rec hk hr, b]
      · rw [GetData_rec hN hr', GetData_rec hk hr, c]

theorem WasRemoved_congr {s s' : BinaryHeap δ} (h : Frame s s') (id : Nat)
    (hl : ∀ (k : Nat) (r r' : HeapNode δ), s.insertedNodes[k]? = some r →
      s'.insertedNodes[k]? = some r' → r.node = id → (r'.key = 0 ↔ r.key = 0)) :
    WasRemoved s' id = WasRemoved s id := by
  have hN : s'.nodeIndex.positions[id]? = s.nodeIndex.positions[id]? := by rw [h.index]
  have hI := (Frame_observers h id).1
  cases hk : s.nodeIndex.positions[id]? with
  | none =>
    rw [hk] at hN
    simp only [WasRemoved, WasInserted_fail hN, WasInserted_fail hk, bind, Except.bind]
  | some k =>
    rw [hk] at hN
    cases hr : s.insertedNodes[k]? with
    | none =>
      rw [WasInserted_none hk hr] at hI
      simp only [WasRemoved, hI, WasInserted_none hk hr, bind, Except.bind, assert]
      simp
    | some r =>
      obtain ⟨r', hr', a, b, c⟩ := h.recs k r hr
      by_cases hn : r.node = id
      · rw [WasRemoved_rec hN hr' (a.trans hn), WasRemoved_rec hk hr hn]
        have := hl k r r' hr hr' hn
        by_cases h0 : r.key = 0
        · simp [h0, this.2 h0]
        · have h1 : r'.key ≠ 0 := fun hh => h0 (this.1 hh)
          simp [h0, h1]
      · have hb : (r.node == id) = false := by simp [hn]
        have hb' : (r'.node == id) = false := by simp [a, hn]
        simp only [WasRemoved, WasInserted_rec hN hr', WasInserted_rec hk hr, hb, hb', bind,
          Except.bind, assert]
        simp

theorem Same_WasRemoved {s s' : BinaryHeap δ} (h : Same s s') (id : Nat) :
    WasRemoved s' id = WasRemoved s id := by
  apply WasRemoved_congr (Same_frame h)
  intro k r r' hr hr' _
  obtain ⟨r2, hr2, _, _, _, hl⟩ := h.recs k r hr
  rw [hr'] at hr2
  have := Option.some.inj hr2
  subst this
  exact hl

end BinaryHeap
end MoNav

namespace MoNav
namespace BinaryHeap
variable {δ : Type}

theorem Clear_heap (s : BinaryHeap δ) :
    ∃ i : Nat, Clear s = { insertedNodes := [], heap := [⟨i, 0⟩], nodeIndex := s.nodeIndex } := by
  cases hh : s.heap with
  | nil => exact ⟨0, by simp [Clear, resize1, hh, ArrayStorage.clear]⟩
  | cons e t => exact ⟨e.index, by simp [Clear, resize1, hh, ArrayStorage.clear]⟩

theorem Clear_inv (s : BinaryHeap δ) : Inv (Clear s) := by
  obtain ⟨i, hi⟩ := Clear_heap s
  rw [hi]
  refine ⟨⟨?_, ?_, ?_⟩, ⟨⟨_, rfl, rfl⟩, ?_⟩⟩
  · intro j e hj he
    have := lt_of_get he
    simp at this
    omega
  · intro k r hr
    simp at hr
  · intro k r hr
    simp at hr
  · intro j e p hj he
    have := lt_of_get he
    simp at this
    omega

/-- Every tree entry is at least the sentinel. -/
theorem Ord_nonneg {H : List HeapElement} (h : Ord H) :
    ∀ (i : Nat) (e : HeapElement), H[i]? = some e → 0 ≤ e.weight := by
  intro i
  induction i using Nat.strong_induction_on with
  | _ i ih =>
    intro e he
    by_cases hi : i = 0
    · obtain ⟨e0, he0, hw0⟩ := h.1
      subst hi
      rw [he0] at he
      have := Option.some.inj he
      subst this
      omega
    · obtain ⟨p, hp⟩ := get_of_lt (show i / 2 < H.length by have := lt_of_get he; omega)
      have h1 := ih (i / 2) (by omega) p hp
      have h2 := h.2 i e p (by omega) he hp
      omega

/-- The root is a minimum of the tree. -/
theorem Ord_root_le {H : List HeapElement} (h : Ord H) {e1 : HeapElement}
    (h1 : H[1]? = some e1) :
    ∀ (i : Nat) (e : HeapElement), 1 ≤ i → H[i]? = some e → e1.weight ≤ e.weight := by
  intro i
  induction i using Nat.strong_induction_on with
  | _ i ih =>
    intro e hi he
    by_cases hi1 : i = 1
    · subst hi1
      rw [h1] at he
      have := Option.some.inj he
      subst this
      exact le_refl _
    · obtain ⟨p, hp⟩ := get_of_lt (show i / 2 < H.length by have := lt_of_get he; omega)
      have h2 := ih (i / 2) (by omega) p (by omega) hp
      have h3 := h.2 i e p (by omega) he hp
      omega

theorem Idx_fresh {s : BinaryHeap δ} {x : Option Nat} (hi : Idx s x) {id : Nat}
    (hn : WasInserted s id = .ok false) :
    ∀ (k : Nat) (r : HeapNode δ), s.insertedNodes[k]? = some r → r.node ≠ id := by
  intro k r hr hid
  have := hi.ids k r hr
  rw [hid] at this
  rw [WasInserted_rec this hr] at hn
  simp [hid] at hn

theorem Insert_spec {s : BinaryHeap δ} (hi : Inv s) {id : Nat}
    (hc : id < s.nodeIndex.positions.length) (hn : WasInserted s id = .ok false)
    {w : Int} (hw : 0 ≤ w) (d : δ) :
    ∃ s', Insert s id w d = .ok s' ∧ Inv s' ∧ s'.heap.length = s.heap.length + 1 ∧
      s'.nodeIndex.positions = s.nodeIndex.positions.set id s.insertedNodes.length ∧
      s'.insertedNodes.length = s.insertedNodes.length + 1 ∧
      (∀ (k : Nat) (r : HeapNode δ), s.insertedNodes[k]? = some r →
        ∃ r' : HeapNode δ, s'.insertedNodes[k]? = some r' ∧ r'.node = r.node ∧
          r'.weight = r.weight ∧ r'.data = r.data ∧ (r'.key = 0 ↔ r.key = 0)) ∧
      ∃ r' : HeapNode δ, s'.insertedNodes[s.insertedNodes.length]? = some r' ∧ r'.node = id ∧
        r'.weight = w ∧ r'.data = d ∧ r'.key ≠ 0 := by
  obtain ⟨e0, he0, hw0⟩ := hi.ord.1
  have hlen : 1 ≤ s.heap.length := by have := lt_of_get he0; omega
  have hfresh := Idx_fresh hi.idx hn
  have hhole : Hole
      ({ insertedNodes := s.insertedNodes ++ [⟨id, s.heap.length, w, d⟩],
         heap := s.heap ++ [⟨s.insertedNodes.length, w⟩],
         nodeIndex := ⟨s.nodeIndex.positions.set id s.insertedNodes.length⟩ } : BinaryHeap δ)
      s.heap.length s.insertedNodes.length w none := by
    refine ⟨⟨hlen, by simp⟩, ?_, ?_, ?_, by simp, ?_⟩
    · intro i e h1 hik he
      simp only [get_concat_iff] at he
      rcases he with he | ⟨he, _⟩
      · obtain ⟨_, r, hr, hrk, hrw⟩ := hi.idx.tree i e h1 he
        have := lt_of_get hr
        exact ⟨by omega, by simp, r, get_concat_iff.2 (Or.inl hr), hrk, hrw⟩
      · exact absurd he hik
    · intro k r hr hk0 hkn _
      simp only [get_concat_iff] at hr
      rcases hr with hr | ⟨hr, _⟩
      · obtain ⟨e, he, hek⟩ := hi.idx.record k r hr hk0 (by simp)
        have := lt_of_get he
        exact ⟨by omega, e, get_concat_iff.2 (Or.inl he), hek⟩
      · exact absurd hr hkn
    · exact ⟨_, get_concat_iff.2 (Or.inr ⟨rfl, rfl⟩), by show s.heap.length ≠ 0; omega, rfl⟩
    · intro k r hr
      simp only [get_concat_iff] at hr
      rcases hr with hr | ⟨hr, hrr⟩
      · rw [get_set_other _ (Ne.symm (hfresh k r hr))]
        exact hi.idx.ids k r hr
      · subst hrr
        subst hr
        exact get_set_self _ hc
  have hord : UpOrd (s.heap ++ [⟨s.insertedNodes.length, w⟩]) s.heap.length w := by
    refine ⟨⟨e0, get_concat_iff.2 (Or.inl he0), hw0⟩, ?_, ?_⟩
    · intro i e p h1 hik hi2 he hp
      simp only [get_concat_iff] at he hp
      rcases he with he | ⟨he, _⟩
      · rcases hp with hp | ⟨hp, _⟩
        · exact hi.ord.2 i e p h1 he hp
        · exact absurd hp hi2
      · exact absurd he hik
    · intro i e hik he
      have := lt_of_get he
      simp at this
      omega
  obtain ⟨s', hrun, hidx, ho, hsame⟩ := Upheap_spec hw hhole hord
    (get_concat_iff.2 (Or.inr ⟨rfl, rfl⟩))
  refine ⟨s', ?_, ⟨hidx, ho⟩, by rw [hsame.size]; simp, by rw [hsame.index],
    by rw [hsame.count]; simp, ?_, ?_⟩
  · simp only [Insert, ArrayStorage.put, assert_ok hc, wr_ok _ hc, bind, Except.bind, pure,
      Except.pure]
    exact hrun
  · intro k r hr
    exact hsame.recs k r (get_concat_iff.2 (Or.inl hr))
  · obtain ⟨r', hr', a, b, c, e⟩ := hsame.recs s.insertedNodes.length _
      (get_concat_iff.2 (Or.inr ⟨rfl, rfl⟩))
    refine ⟨r', hr', a, b, c, ?_⟩
    intro h0
    have : s.heap.length = 0 := e.1 h0
    omega

theorem DecreaseKey_spec {s : BinaryHeap δ} (hi : Inv s) {id k : Nat} {r : HeapNode δ}
    (hN : s.nodeIndex.positions[id]? = some k) (hr : s.insertedNodes[k]? = some r)
    (hlive : r.key ≠ 0) {w : Int} (hw : 0 ≤ w) (hle : w ≤ r.weight) :
    ∃ s', DecreaseKey s id w = .ok s' ∧ Inv s' ∧ s'.heap.length = s.heap.length ∧
      s'.nodeIndex = s.nodeIndex ∧ s'.insertedNodes.length = s.insertedNodes.length ∧
      (∀ (j : Nat) (r1 : HeapNode δ), s.insertedNodes[j]? = some r1 →
        ∃ r' : HeapNode δ, s'.insertedNodes[j]? = some r' ∧ r'.node = r1.node ∧
          r'.data = r1.data ∧ (r'.key = 0 ↔ r1.key = 0) ∧
          r'.weight = if j = k then w else r1.weight) := by
  obtain ⟨e, he, hek⟩ := hi.idx.record k r hr hlive (by simp)
  obtain ⟨_, r0, hr0, hr0k, hr0w⟩ := hi.idx.tree r.key e (by omega) he
  have hrr : r0 = r := by rw [hek, hr] at hr0; exact (Option.some.inj hr0).symm
  subst hrr
  have hkl := lt_of_get hr
  have hel := lt_of_get he
  have hhole : Hole
      ({ s with insertedNodes := s.insertedNodes.set k { r0 with weight := w },
                heap := s.heap.set r0.key { e with weight := w } } : BinaryHeap δ)
      r0.key k w none := by
    refine ⟨⟨by omega, by simpa using hel⟩, ?_, ?_, ?_, by simp, ?_⟩
    · intro i e1 h1 hik he1
      rw [get_set_other _ (Ne.symm hik)] at he1
      obtain ⟨_, r1, hr1, hr1k, hr1w⟩ := hi.idx.tree i e1 h1 he1
      have hne : e1.index ≠ k := by
        intro hh
        rw [hh, hr] at hr1
        have := Option.some.inj hr1
        subst this
        omega
      exact ⟨hne, by simp, r1, by rw [get_set_other _ (Ne.symm hne)]; exact hr1, hr1k, hr1w⟩
    · intro j r1 hr1 hk0 hjk _
      rw [get_set_other _ (Ne.symm hjk)] at hr1
      obtain ⟨e1, he1, he1k⟩ := hi.idx.record j r1 hr1 hk0 (by simp)
      have hne : r1.key ≠ r0.key := by
        intro hh
        rw [hh, he] at he1
        have := Option.some.inj he1
        subst this
        omega
      exact ⟨hne, e1, by rw [get_set_other _ (Ne.symm hne)]; exact he1, he1k⟩
    · exact ⟨_, get_set_self _ hkl, hlive, rfl⟩
    · intro j r1 hr1
      simp only [get_set_iff] at hr1
      rcases hr1 with ⟨hkj, _, hrr⟩ | ⟨hkj, hr1⟩
      · subst hrr
        subst hkj
        exact hi.idx.ids _ r0 hr
      · exact hi.idx.ids _ _ hr1
  have hord : UpOrd (s.heap.set r0.key { e with weight := w }) r0.key w := by
    obtain ⟨e0, he0, hw0⟩ := hi.ord.1
    refine ⟨⟨e0, by rw [get_set_other _ (by omega)]; exact he0, hw0⟩, ?_, ?_⟩
    · intro i e1 p h1 hik hi2 he1 hp
      rw [get_set_other _ (Ne.symm hik)] at he1
      rw [get_set_other _ (Ne.symm hi2)] at hp
      exact hi.ord.2 i e1 p h1 he1 hp
    · intro i e1 hik he1
      rw [get_set_other _ (by omega)] at he1
      have h5 := hi.ord.2 i e1 e (by omega) he1 (by rw [hik]; exact he)
      refine ⟨by omega, ?_⟩
      intro p hp
      rw [get_set_other _ (by omega)] at hp
      have h6 := hi.ord.2 r0.key e p (by omega) he hp
      omega
  obtain ⟨s', hrun, hidx, ho, hsame⟩ := Upheap_spec hw hhole hord
    (by rw [get_set_self _ hel, hek])
  refine ⟨s', ?_, ⟨hidx, ho⟩, by rw [hsame.size]; simp, by rw [hsame.index],
    by rw [hsame.count]; simp, ?_⟩
  · simp only [DecreaseKey, get_ok hN, rd_ok hr, rd_ok he, assert_ok hlive, wr_ok _ hkl,
      wr_ok _ hel, bind, Except.bind, pure, Except.pure]
    exact hrun
  · intro j r1 hr1
    by_cases hjk : j = k
    · subst hjk
      rw [hr] at hr1
      have := Option.some.inj hr1
      subst this
      obtain ⟨r', hr', a, b, c, e⟩ := hsame.recs j _ (get_set_self _ hkl)
      exact ⟨r', hr', a, c, e, by simpa using b⟩
    · obtain ⟨r', hr', a, b, c, e⟩ := hsame.recs j r1
        (by rw [get_set_other _ (Ne.symm hjk)]; exact hr1)
      exact ⟨r', hr', a, c, e, by simpa [hjk] using b⟩

end BinaryHeap
end MoNav

namespace MoNav

theorem get_dropLast_set_iff {α : Type} {v : List α} {i j : Nat} {a b : α} :
    ((v.set i a).dropLast)[j]? = some b ↔
      j + 1 < v.length ∧ ((i = j ∧ a = b) ∨ (i ≠ j ∧ v[j]? = some b)) := by
  rw [List.getElem?_dropLast, List.length_set]
  by_cases h : j < v.length - 1
  · simp only [h, if_true, get_set_iff]
    constructor
    · rintro (⟨h1, _, h3⟩ | ⟨h1, h3⟩)
      · exact ⟨by omega, Or.inl ⟨h1, h3⟩⟩
      · exact ⟨by omega, Or.inr ⟨h1, h3⟩⟩
    · rintro ⟨_, (⟨h1, h3⟩ | ⟨h1, h3⟩)⟩
      · exact Or.inl ⟨h1, by omega, h3⟩
      · exact Or.inr ⟨h1, h3⟩
  · simp only [h, if_false]
    constructor
    · intro hh; exact absurd hh (by simp)
    · rintro ⟨h1, _⟩; omega

namespace BinaryHeap
variable {δ : Type}

/-- The last step of `DeleteMin`: the record left aside gets slot 0. -/
theorem Idx_remove {s : BinaryHeap δ} {x : Nat} (h : Idx s (some x)) {r : HeapNode δ}
    (hr : s.insertedNodes[x]? = some r) :
    Idx { s with insertedNodes := s.insertedNodes.set x { r with key := 0 } } none := by
  refine ⟨?_, ?_, ?_⟩
  · intro i e hi he
    obtain ⟨hx, r1, hr1, a, b⟩ := h.tree i e hi he
    have hne : x ≠ e.index := fun hh => hx (by rw [hh])
    exact ⟨by simp, r1, by rw [get_set_other _ hne]; exact hr1, a, b⟩
  · intro k r1 hr1 hk0 _
    simp only [get_set_iff] at hr1
    rcases hr1 with ⟨_, _, hrr⟩ | ⟨hxk, hr1⟩
    · subst hrr
      exact absurd rfl hk0
    · exact h.record k r1 hr1 hk0 (by simpa using Ne.symm hxk)
  · intro k r1 hr1
    simp only [get_set_iff] at hr1
    rcases hr1 with ⟨hxk, _, hrr⟩ | ⟨hxk, hr1⟩
    · subst hrr
      subst hxk
      exact h.ids _ r hr
    · exact h.ids _ _ hr1

theorem DeleteMin_spec {s : BinaryHeap δ} (hi : Inv s) (hs : 1 < s.heap.length) :
    ∃ (s' : BinaryHeap δ) (e : HeapElement) (r : HeapNode δ),
      s.heap[1]? = some e ∧ s.insertedNodes[e.index]? = some r ∧ r.key = 1 ∧
      DeleteMin s = .ok (s', r.node) ∧ Inv s' ∧ s'.heap.length + 1 = s.heap.length ∧
      s'.nodeIndex = s.nodeIndex ∧ s'.insertedNodes.length = s.insertedNodes.length ∧
      (∀ (k : Nat) (r1 : HeapNode δ), s.insertedNodes[k]? = some r1 →
        ∃ r' : HeapNode δ, s'.insertedNodes[k]? = some r' ∧ r'.node = r1.node ∧
          r'.weight = r1.weight ∧ r'.data = r1.data ∧
          (r'.key = 0 ↔ (r1.key = 0 ∨ k = e.index))) := by
  obtain ⟨e, he⟩ := get_of_lt hs
  obtain ⟨_, r, hr, hrk, hrw⟩ := hi.idx.tree 1 e (le_refl 1) he
  obtain ⟨last, hlast⟩ := get_of_lt (show s.heap.length - 1 < s.heap.length by omega)
  obtain ⟨_, rl, hrl, hrlk, hrlw⟩ := hi.idx.tree _ last (by omega) hlast
  obtain ⟨e0, he0, hw0⟩ := hi.ord.1
  -- the state between `pop_back` and the end of `Downheap`
  have hmid : ∃ s2 : BinaryHeap δ,
      (if ((s.heap.set 1 last).dropLast).length > 1
        then Downheap { s with heap := (s.heap.set 1 last).dropLast } 1
        else pure { s with heap := (s.heap.set 1 last).dropLast }) = .ok s2 ∧
      Idx s2 (some e.index) ∧ Ord s2.heap ∧
      Same { s with heap := (s.heap.set 1 last).dropLast } s2 := by
    by_cases h2 : ((s.heap.set 1 last).dropLast).length > 1
    · rw [if_pos h2]
      have hl2 : 2 < s.heap.length := by
        have : 1 < s.heap.length - 1 := by simpa using h2
        omega
      have hne : last.index ≠ e.index := by
        intro hh
        rw [hh, hr] at hrl
        have := Option.some.inj hrl
        subst this
        omega
      apply @Downheap_spec δ _ 1 last.index last.weight (some e.index)
      · refine ⟨⟨le_refl 1, h2⟩, ?_, ?_, ?_, by simpa using hne, ?_⟩
        · intro i e1 h1 hi1 he1
          simp only [get_dropLast_set_iff] at he1
          obtain ⟨hil, (⟨h3, _⟩ | ⟨_, he1⟩)⟩ := he1
          · exact absurd h3.symm hi1
          · obtain ⟨_, r1, hr1, hr1k, hr1w⟩ := hi.idx.tree i e1 h1 he1
            refine ⟨?_, ?_, r1, hr1, hr1k, hr1w⟩
            · intro hh
              rw [hh, hrl] at hr1
              have := Option.some.inj hr1
              subst this
              omega
            · intro hh
              have hh := Option.some.inj hh
              rw [hh, hr] at hr1
              have := Option.some.inj hr1
              subst this
              omega
        · intro k r1 hr1 hk0 hkl hkx
          obtain ⟨e1, he1, he1k⟩ := hi.idx.record k r1 hr1 hk0 (by simp)
          have hk1 : r1.key ≠ 1 := by
            intro hh
            rw [hh, he] at he1
            have := Option.some.inj he1
            subst this
            exact hkx (by rw [he1k])
          have hk2 : r1.key ≠ s.heap.length - 1 := by
            intro hh
            rw [hh, hlast] at he1
            have := Option.some.inj he1
            subst this
            exact hkl he1k.symm
          have := lt_of_get he1
          exact ⟨hk1, e1, get_dropLast_set_iff.2 ⟨by omega, Or.inr ⟨Ne.symm hk1, he1⟩⟩, he1k⟩
        · exact ⟨rl, hrl, by omega, hrlw⟩
        · exact hi.idx.ids
      · refine ⟨⟨e0, get_dropLast_set_iff.2 ⟨by omega, Or.inr ⟨by omega, he0⟩⟩, hw0⟩, ?_, ?_⟩
        · intro i e1 p h1 hi1 hi2 he1 hp
          simp only [get_dropLast_set_iff] at he1 hp
          obtain ⟨_, (⟨h3, _⟩ | ⟨_, he1⟩)⟩ := he1
          · exact absurd h3.symm hi1
          · obtain ⟨_, (⟨h3, _⟩ | ⟨_, hp⟩)⟩ := hp
            · exact absurd h3.symm hi2
            · exact hi.ord.2 i e1 p h1 he1 hp
        · intro p hp
          simp only [get_dropLast_set_iff] at hp
          obtain ⟨_, (⟨h3, _⟩ | ⟨_, hp⟩)⟩ := hp
          · omega
          · rw [show 1 / 2 = 0 from rfl, he0] at hp
            have := Option.some.inj hp
            subst this
            refine ⟨by rw [hw0]; exact Ord_nonneg hi.ord _ _ hlast, ?_⟩
            intro i e1 _ he1
            simp only [get_dropLast_set_iff] at he1
            obtain ⟨_, (⟨_, h4⟩ | ⟨_, he1⟩)⟩ := he1
            · subst h4; rw [hw0]; exact Ord_nonneg hi.ord _ _ hlast
            · rw [hw0]; exact Ord_nonneg hi.ord _ _ he1
      · exact get_dropLast_set_iff.2 ⟨by omega, Or.inl ⟨rfl, rfl⟩⟩
    · rw [if_neg h2]
      have hl2 : s.heap.length = 2 := by
        have : ¬ s.heap.length - 1 > 1 := by simpa using h2
        omega
      refine ⟨_, rfl, ⟨?_, ?_, hi.idx.ids⟩, ⟨⟨e0, ?_, hw0⟩, ?_⟩, Same_refl _⟩
      · intro i e1 h1 he1
        simp only [get_dropLast_set_iff] at he1
        omega
      · intro k r1 hr1 hk0 hkx
        obtain ⟨e1, he1, he1k⟩ := hi.idx.record k r1 hr1 hk0 (by simp)
        have := lt_of_get he1
        have hk1 : r1.key = 1 := by omega
        rw [hk1, he] at he1
        have := Option.some.inj he1
        subst this
        exact absurd (by rw [he1k]) hkx
      · exact get_dropLast_set_iff.2 ⟨by omega, Or.inr ⟨by omega, he0⟩⟩
      · intro i e1 p h1 he1
        simp only [get_dropLast_set_iff] at he1
        omega
  obtain ⟨s2, hrun, hidx, ho, hsame⟩ := hmid
  obtain ⟨r2, hr2, hr2n, hr2w, hr2d, _⟩ := hsame.recs e.index r hr
  refine ⟨{ s2 with insertedNodes := s2.insertedNodes.set e.index { r2 with key := 0 } }, e, r,
    he, hr, hrk, ?_, ⟨Idx_remove hidx hr2, ho⟩, ?_, hsame.index, ?_, ?_⟩
  · by_cases h2 : ((s.heap.set 1 last).dropLast).length > 1
    · simp only [h2, if_true] at hrun
      simp only [DeleteMin, assert_ok hs, rd_ok he, rd_ok hlast, wr_ok _ hs, bind, Except.bind,
        pure, Except.pure, h2, if_true, hrun, rd_ok hr2, wr_ok _ (lt_of_get hr2), hr2n]
    · simp only [h2, if_false, pure, Except.pure] at hrun
      have hrun := Except.ok.inj hrun
      subst hrun
      simp only [DeleteMin, assert_ok hs, rd_ok he, rd_ok hlast, wr_ok _ hs, bind, Except.bind,
        pure, Except.pure, h2, if_false]
      simp only [rd_ok hr2, wr_ok _ (lt_of_get hr2), hr2n]
  · have := hsame.size
    simp only [List.length_dropLast, List.length_set] at this
    show s2.heap.length + 1 = s.heap.length
    omega
  · simp only [List.length_set]
    exact hsame.count
  · intro k r1 hr1
    obtain ⟨r', hr', a, b, c, d⟩ := hsame.recs k r1 hr1
    by_cases hk : e.index = k
    · subst hk
      rw [hr2] at hr'
      have := Option.some.inj hr'
      subst this
      exact ⟨_, get_set_self _ (lt_of_get hr2), a, b, c, by simp⟩
    · refine ⟨r', by rw [get_set_other _ hk]; exact hr', a, b, c, ?_⟩
      rw [d]
      constructor
      · exact Or.inl
      · rintro (h | h)
        · exact h
        · exact absurd h.symm hk

theorem DeleteAllLoop_spec :
    ∀ (es : List HeapElement) (R : List (HeapNode δ)),
      (∀ e ∈ es, e.index < R.length) →
      ∃ R', DeleteAllLoop es R = .ok R' ∧ R'.length = R.length ∧
        ∀ (k : Nat) (r : HeapNode δ), R[k]? = some r →
          ∃ r' : HeapNode δ, R'[k]? = some r' ∧ r'.node = r.node ∧ r'.weight = r.weight ∧
            r'.data = r.data ∧ ((r.key = 0 ∨ ∃ e ∈ es, e.index = k) → r'.key = 0) := by
  intro es
  induction es with
  | nil =>
    intro R _
    refine ⟨R, rfl, rfl, ?_⟩
    intro k r hr
    exact ⟨r, hr, rfl, rfl, rfl, by simp⟩
  | cons e es ih =>
    intro R hb
    have hl : e.index < R.length := hb e (by simp)
    obtain ⟨r0, hr0⟩ := get_of_lt hl
    obtain ⟨R', hrun, hlen, hrec⟩ := ih (R.set e.index { r0 with key := 0 })
      (by intro e1 he1; simpa using hb e1 (by simp [he1]))
    refine ⟨R', ?_, by simpa using hlen, ?_⟩
    · simp only [DeleteAllLoop, rd_ok hr0, wr_ok _ hl, bind, Except.bind]
      exact hrun
    · intro k r hr
      by_cases hk : e.index = k
      · subst hk
        rw [hr0] at hr
        have := Option.some.inj hr
        subst this
        obtain ⟨r', hr', a, b, c, d⟩ := hrec e.index _ (get_set_self _ hl)
        refine ⟨r', hr', a, b, c, ?_⟩
        intro _
        exact d (Or.inl rfl)
      · obtain ⟨r', hr', a, b, c, d⟩ := hrec k r (by rw [get_set_other _ hk]; exact hr)
        refine ⟨r', hr', a, b, c, ?_⟩
        rintro (h0 | ⟨e1, he1, he1k⟩)
        · exact d (Or.inl h0)
        · simp only [List.mem_cons] at he1
          rcases he1 with h | h
          · subst h; exact absurd he1k hk
          · exact d (Or.inr ⟨e1, h, he1k⟩)

end BinaryHeap
end MoNav

namespace MoNav
namespace BinaryHeap
variable {δ : Type}

theorem DeleteAll_spec {s : BinaryHeap δ} (hi : Inv s) :
    ∃ s', DeleteAll s = .ok s' ∧ Inv s' ∧ s'.heap.length = 1 ∧
      s'.nodeIndex = s.nodeIndex ∧ s'.insertedNodes.length = s.insertedNodes.length ∧
      (∀ (k : Nat) (r : HeapNode δ), s.insertedNodes[k]? = some r →
        ∃ r' : HeapNode δ, s'.insertedNodes[k]? = some r' ∧ r'.node = r.node ∧
          r'.weight = r.weight ∧ r'.data = r.data ∧ r'.key = 0) := by
  obtain ⟨e0, he0, hw0⟩ := hi.ord.1
  have hb : ∀ e ∈ s.heap.drop 1, e.index < s.insertedNodes.length := by
    intro e he
    obtain ⟨n, hn⟩ := List.mem_iff_getElem?.1 he
    rw [List.getElem?_drop] at hn
    obtain ⟨_, r, hr, _, _⟩ := hi.idx.tree (1 + n) e (by omega) hn
    exact lt_of_get hr
  obtain ⟨R', hrun, hlen, hrec⟩ := DeleteAllLoop_spec (s.heap.drop 1) s.insertedNodes hb
  have hres : resize1 s.heap = [e0] := by
    cases hh : s.heap with
    | nil => rw [hh] at he0; simp at he0
    | cons a t =>
      rw [hh] at he0
      simp at he0
      simp [resize1, he0]
  have hzero : ∀ (k : Nat) (r : HeapNode δ), s.insertedNodes[k]? = some r →
      ∃ r' : HeapNode δ, R'[k]? = some r' ∧ r'.node = r.node ∧
        r'.weight = r.weight ∧ r'.data = r.data ∧ r'.key = 0 := by
    intro k r hr
    obtain ⟨r', hr', a, b, c, d⟩ := hrec k r hr
    refine ⟨r', hr', a, b, c, d ?_⟩
    by_cases h0 : r.key = 0
    · exact Or.inl h0
    · obtain ⟨e, he, hek⟩ := hi.idx.record k r hr h0 (by simp)
      refine Or.inr ⟨e, ?_, hek⟩
      apply List.mem_iff_getElem?.2
      refine ⟨r.key - 1, ?_⟩
      rw [List.getElem?_drop, show 1 + (r.key - 1) = r.key by omega]
      exact he
  refine ⟨{ s with insertedNodes := R', heap := [{ e0 with weight := 0 }] }, ?_,
    ⟨⟨?_, ?_, ?_⟩, ⟨⟨_, rfl, rfl⟩, ?_⟩⟩, rfl, rfl, hlen, hzero⟩
  · simp only [DeleteAll, hrun, hres, bind, Except.bind, pure, Except.pure]
  · intro i e h1 he
    have := lt_of_get he
    simp at this
    omega
  · intro k r' hr' hk0 _
    have hk : k < s.insertedNodes.length := by rw [← hlen]; exact lt_of_get hr'
    obtain ⟨r, hr⟩ := get_of_lt hk
    obtain ⟨r2, hr2, _, _, _, d⟩ := hzero k r hr
    rw [hr'] at hr2
    have := Option.some.inj hr2
    subst this
    exact absurd d hk0
  · intro k r' hr'
    have hk : k < s.insertedNodes.length := by rw [← hlen]; exact lt_of_get hr'
    obtain ⟨r, hr⟩ := get_of_lt hk
    obtain ⟨r2, hr2, a, _, _, _⟩ := hzero k r hr
    rw [hr'] at hr2
    have := Option.some.inj hr2
    subst this
    rw [a]
    exact hi.idx.ids k r hr
  · intro i e p h1 he
    have := lt_of_get he
    simp at this
    omega

theorem Live_iff {s : BinaryHeap δ} {id : Nat} :
    Live s id ↔ ∃ (k : Nat) (r : HeapNode δ), s.nodeIndex.positions[id]? = some k ∧
      s.insertedNodes[k]? = some r ∧ r.node = id ∧ r.key ≠ 0 := by
  constructor
  · rintro ⟨h1, h2⟩
    obtain ⟨k, r, hN, hR, hn⟩ := WasInserted_iff.1 h1
    rw [WasRemoved_rec hN hR hn] at h2
    refine ⟨k, r, hN, hR, hn, ?_⟩
    intro h0
    simp [h0] at h2
  · rintro ⟨k, r, hN, hR, hn, h0⟩
    refine ⟨WasInserted_iff.2 ⟨k, r, hN, hR, hn⟩, ?_⟩
    rw [WasRemoved_rec hN hR hn]
    simp [h0]

/-- The content of H1: the root is a live id of minimal weight. -/
theorem Min_obs {s : BinaryHeap δ} (hi : Inv s) (hs : 0 < Size s) :
    ∃ (m : Nat) (k : Int), Min s = .ok m ∧ MinKey s = .ok k ∧ Live s m ∧ GetKey s m = .ok k ∧
      ∀ (id : Nat) (w : Int), Live s id → GetKey s id = .ok w → k ≤ w := by
  have hl : 1 < s.heap.length := by simp only [Size] at hs; omega
  obtain ⟨e, he⟩ := get_of_lt hl
  obtain ⟨_, r, hr, hrk, hrw⟩ := hi.idx.tree 1 e (le_refl 1) he
  have hN := hi.idx.ids _ r hr
  refine ⟨r.node, r.weight, ?_, ?_, Live_iff.2 ⟨_, r, hN, hr, rfl, by omega⟩,
    GetKey_rec hN hr, ?_⟩
  · simp only [Min, assert_ok hl, rd_ok he, rd_ok hr, bind, Except.bind, pure, Except.pure]
  · simp only [MinKey, assert_ok hl, rd_ok he, rd_ok hr, bind, Except.bind, pure, Except.pure]
  · intro id w hlive hk
    obtain ⟨k, r1, hN1, hR1, hn1, h0⟩ := Live_iff.1 hlive
    rw [GetKey_rec hN1 hR1] at hk
    have hk := Except.ok.inj hk
    obtain ⟨e1, he1, he1k⟩ := hi.idx.record k r1 hR1 h0 (by simp)
    obtain ⟨_, r2, hr2, _, hr2w⟩ := hi.idx.tree r1.key e1 (by omega) he1
    rw [he1k, hR1] at hr2
    have := Option.some.inj hr2
    subst this
    have := Ord_root_le hi.ord he r1.key e1 (by omega) he1
    omega

end BinaryHeap
end MoNav

namespace MoNav
namespace BinaryHeap
variable {δ : Type}

theorem WasInserted_total {s : BinaryHeap δ} {id : Nat}
    (hc : id < s.nodeIndex.positions.length) :
    WasInserted s id = .ok true ∨ WasInserted s id = .ok false := by
  obtain ⟨k, hk⟩ := get_of_lt hc
  cases hr : s.insertedNodes[k]? with
  | none => exact Or.inr (WasInserted_none hk hr)
  | some r =>
    rw [WasInserted_rec hk hr]
    cases (r.node == id) <;> simp

theorem WasRemoved_of_not_inserted {s : BinaryHeap δ} {id : Nat}
    (h : WasInserted s id ≠ .ok true) : WasRemoved s id = .error .assertion := by
  cases hw : WasInserted s id with
  | error f =>
    cases hN : s.nodeIndex.positions[id]? with
    | none => simp only [WasRemoved, WasInserted_fail hN, bind, Except.bind]
    | some k =>
      cases hr : s.insertedNodes[k]? with
      | none => rw [WasInserted_none hN hr] at hw; exact absurd hw (by simp)
      | some r => rw [WasInserted_rec hN hr] at hw; exact absurd hw (by simp)
  | ok b =>
    cases b with
    | true => exact absurd hw h
    | false => simp [WasRemoved, bind, Except.bind, assert, hw]

/-- Postconditions of `Insert` in terms of the public observers. -/
theorem Insert_obs {s : BinaryHeap δ} (hi : Inv s) {id : Nat}
    (hc : id < s.nodeIndex.positions.length) (hn : WasInserted s id = .ok false)
    {w : Int} (hw : 0 ≤ w) (d : δ) :
    ∃ s', Insert s id w d = .ok s' ∧ Inv s' ∧ Size s' = Size s + 1 ∧
      s'.nodeIndex.positions.length = s.nodeIndex.positions.length ∧
      WasInserted s' id = .ok true ∧ WasRemoved s' id = .ok false ∧
      GetKey s' id = .ok w ∧ GetData s' id = .ok d ∧
      ∀ id', id' ≠ id →
        WasInserted s' id' = WasInserted s id' ∧ WasRemoved s' id' = WasRemoved s id' ∧
        (WasInserted s id' = .ok true →
          GetKey s' id' = GetKey s id' ∧ GetData s' id' = GetData s id') := by
  obtain ⟨s', hrun, hinv, hlen, hN, hcount, hold, r', hr', hr'n, hr'w, hr'd, hr'k⟩ :=
    Insert_spec hi hc hn hw d
  have hNid : s'.nodeIndex.positions[id]? = some s.insertedNodes.length := by
    rw [hN]; exact get_set_self _ hc
  have hpos : 1 ≤ s.heap.length := by
    obtain ⟨e0, he0, _⟩ := hi.ord.1
    have := lt_of_get he0
    omega
  have hlive : Live s' id := Live_iff.2 ⟨_, r', hNid, hr', hr'n, hr'k⟩
  refine ⟨s', hrun, hinv, by simp only [Size]; omega, by rw [hN]; simp, hlive.1, hlive.2,
    by rw [GetKey_rec hNid hr', hr'w], by rw [GetData_rec hNid hr', hr'd], ?_⟩
  intro id' hne
  have hN' : s'.nodeIndex.positions[id']? = s.nodeIndex.positions[id']? := by
    rw [hN]; exact get_set_other _ (Ne.symm hne)
  have hins : WasInserted s' id' = WasInserted s id' := by
    cases hk : s.nodeIndex.positions[id']? with
    | none => rw [hk] at hN'; rw [WasInserted_fail hN', WasInserted_fail hk]
    | some k =>
      rw [hk] at hN'
      cases hr : s.insertedNodes[k]? with
      | some r =>
        obtain ⟨r1, hr1, a, _⟩ := hold k r hr
        rw [WasInserted_rec hN' hr1, WasInserted_rec hk hr, a]
      | none =>
        rw [WasInserted_none hk hr]
        cases hr1 : s'.insertedNodes[k]? with
        | none => exact WasInserted_none hN' hr1
        | some r1 =>
          have h1 := lt_of_get hr1
          have h2 : s.insertedNodes.length ≤ k := by
            by_contra hh
            obtain ⟨r, hr2⟩ := get_of_lt (show k < s.insertedNodes.length by omega)
            rw [hr2] at hr
            exact absurd hr (by simp)
          have hk' : k = s.insertedNodes.length := by omega
          subst hk'
          rw [hr'] at hr1
          have := Option.some.inj hr1
          subst this
          rw [WasInserted_rec hN' hr', hr'n]
          simp [Ne.symm hne]
  refine ⟨hins, ?_, ?_⟩
  · by_cases hin : WasInserted s id' = .ok true
    · obtain ⟨k, r, hk, hr, hrn⟩ := WasInserted_iff.1 hin
      obtain ⟨r1, hr1, a, _, _, e⟩ := hold k r hr
      rw [hk] at hN'
      rw [WasRemoved_rec hN' hr1 (a.trans hrn), WasRemoved_rec hk hr hrn]
      by_cases h0 : r.key = 0
      · simp [h0, e.2 h0]
      · have h1 : r1.key ≠ 0 := fun hh => h0 (e.1 hh)
        simp [h0, h1]
    · rw [WasRemoved_of_not_inserted hin, WasRemoved_of_not_inserted (by rw [hins]; exact hin)]
  · intro hin
    obtain ⟨k, r, hk, hr, hrn⟩ := WasInserted_iff.1 hin
    obtain ⟨r1, hr1, a, b, c, e⟩ := hold k r hr
    rw [hk] at hN'
    exact ⟨by rw [GetKey_rec hN' hr1, GetKey_rec hk hr, b],
      by rw [GetData_rec hN' hr1, GetData_rec hk hr, c]⟩

/-- Postconditions of `DeleteMin` in terms of the public observers. -/
theorem DeleteMin_obs {s : BinaryHeap δ} (hi : Inv s) (hs : 0 < Size s) :
    ∃ (s' : BinaryHeap δ) (id : Nat) (k : Int), DeleteMin s = .ok (s', id) ∧ Inv s' ∧
      Live s id ∧ GetKey s id = .ok k ∧
      (∀ (id' : Nat) (w : Int), Live s id' → GetKey s id' = .ok w → k ≤ w) ∧
      WasInserted s' id = .ok true ∧ WasRemoved s' id = .ok true ∧
      Size s' + 1 = Size s ∧
      s'.nodeIndex.positions.length = s.nodeIndex.positions.length ∧
      (∀ id', WasInserted s' id' = WasInserted s id' ∧ GetKey s' id' = GetKey s id' ∧
        GetData s' id' = GetData s id') ∧
      ∀ id', id' ≠ id → WasRemoved s' id' = WasRemoved s id' := by
  have hl : 1 < s.heap.length := by simp only [Size] at hs; omega
  obtain ⟨m, k, hm, hmk, hlive, hkey, hmin⟩ := Min_obs hi hs
  obtain ⟨s', e, r, he, hr, hrk, hrun, hinv, hlen, hN, hcount, hrec⟩ := DeleteMin_spec hi hl
  have hmr : m = r.node := by
    simp only [Min, assert_ok hl, rd_ok he, rd_ok hr, bind, Except.bind, pure, Except.pure] at hm
    exact (Except.ok.inj hm).symm
  subst hmr
  have hfr : Frame s s' := ⟨hN, hcount, fun j r1 hr1 => by
    obtain ⟨r', a, b, c, d, _⟩ := hrec j r1 hr1
    exact ⟨r', a, b, c, d⟩⟩
  have hNr := hi.idx.ids _ r hr
  obtain ⟨r', hr', a, _, _, f⟩ := hrec _ r hr
  have hNr' : s'.nodeIndex.positions[r.node]? = some e.index := by rw [hN]; exact hNr
  refine ⟨s', r.node, k, hrun, hinv, hlive, hkey, hmin, ?_, ?_, by simp only [Size]; omega,
    by rw [hN], Frame_observers hfr, ?_⟩
  · rw [(Frame_observers hfr r.node).1]; exact hlive.1
  · rw [WasRemoved_rec hNr' hr' a]
    simp [f.2 (Or.inr rfl)]
  · intro id' hne
    apply WasRemoved_congr hfr
    intro j r1 r1' hr1 hr1' hn1
    obtain ⟨r2, hr2, _, _, _, g⟩ := hrec j r1 hr1
    rw [hr1'] at hr2
    have := Option.some.inj hr2
    subst this
    rw [g]
    constructor
    · rintro (h | h)
      · exact h
      · subst h
        rw [hr] at hr1
        have := Option.some.inj hr1
        subst this
        exact absurd hn1.symm hne
    · exact Or.inl

/-- Postconditions of `DecreaseKey` in terms of the public observers. -/
theorem DecreaseKey_obs {s : BinaryHeap δ} (hi : Inv s) {id : Nat} (hlive : Live s id)
    {w c : Int} (hw : 0 ≤ w) (hc : GetKey s id = .ok c) (hle : w ≤ c) :
    ∃ s', DecreaseKey s id w = .ok s' ∧ Inv s' ∧ GetKey s' id = .ok w ∧ Size s' = Size s ∧
      s'.nodeIndex.positions.length = s.nodeIndex.positions.length ∧
      (∀ id', WasInserted s' id' = WasInserted s id' ∧ WasRemoved s' id' = WasRemoved s id' ∧
        GetData s' id' = GetData s id') ∧
      ∀ id', id' ≠ id → WasInserted s id' = .ok true → GetKey s' id' = GetKey s id' := by
  obtain ⟨k, r, hN, hR, hn, h0⟩ := Live_iff.1 hlive
  rw [GetKey_rec hN hR] at hc
  have hc := Except.ok.inj hc
  subst hc
  obtain ⟨s', hrun, hinv, hlen, hN', hcount, hrec⟩ := DecreaseKey_spec hi hN hR h0 hw hle
  have hobs : ∀ id', WasInserted s' id' = WasInserted s id' ∧
      WasRemoved s' id' = WasRemoved s id' ∧ GetData s' id' = GetData s id' ∧
      (id' ≠ id → WasInserted s id' = .ok true → GetKey s' id' = GetKey s id') := by
    intro id'
    have hNN : s'.nodeIndex.positions[id']? = s.nodeIndex.positions[id']? := by rw [hN']
    cases hk : s.nodeIndex.positions[id']? with
    | none =>
      rw [hk] at hNN
      have h1 := WasInserted_fail (s := s) hk
      have h2 := WasInserted_fail (s := s') hNN
      refine ⟨by rw [h1, h2], ?_, ?_, ?_⟩
      · rw [WasRemoved_of_not_inserted (s := s) (by rw [h1]; simp),
          WasRemoved_of_not_inserted (s := s') (by rw [h2]; simp)]
      · simp only [GetData, get_fail hNN, get_fail hk, bind, Except.bind]
      · intro _ _
        simp only [GetKey, get_fail hNN, get_fail hk, bind, Except.bind]
    | some j =>
      rw [hk] at hNN
      cases hr : s.insertedNodes[j]? with
      | none =>
        have hr' : s'.insertedNodes[j]? = none := by
          apply List.getElem?_eq_none
          rw [hcount]
          by_contra hh
          obtain ⟨r2, hr2⟩ := get_of_lt (show j < s.insertedNodes.length by omega)
          rw [hr2] at hr
          exact absurd hr (by simp)
        have h1 := WasInserted_none hk hr
        have h2 := WasInserted_none hNN hr'
        refine ⟨by rw [h1, h2], ?_, ?_, ?_⟩
        · rw [WasRemoved_of_not_inserted (s := s) (by rw [h1]; simp),
            WasRemoved_of_not_inserted (s := s') (by rw [h2]; simp)]
        · simp only [GetData, get_ok hNN, get_ok hk, rd, hr, hr', bind, Except.bind]
        · intro _ _
          simp only [GetKey, get_ok hNN, get_ok hk, rd, hr, hr', bind, Except.bind]
      | some r1 =>
        obtain ⟨r', hr', a, b, c, d⟩ := hrec j r1 hr
        have hI : WasInserted s' id' = WasInserted s id' := by
          rw [WasInserted_rec hNN hr', WasInserted_rec hk hr, a]
        refine ⟨hI, ?_, by rw [GetData_rec hNN hr', GetData_rec hk hr, b], ?_⟩
        · by_cases hin : r1.node = id'
          · rw [WasRemoved_rec hNN hr' (a.trans hin), WasRemoved_rec hk hr hin]
            by_cases h0 : r1.key = 0
            · simp [h0, c.2 h0]
            · have h1 : r'.key ≠ 0 := fun hh => h0 (c.1 hh)
              simp [h0, h1]
          · have h1 : WasInserted s id' ≠ .ok true := by
              rw [WasInserted_rec hk hr]; simp [hin]
            rw [WasRemoved_of_not_inserted h1, WasRemoved_of_not_inserted (by rw [hI]; exact h1)]
        · intro hne hin
          rw [WasInserted_rec hk hr] at hin
          have hin : r1.node = id' := by simpa using hin
          have hjk : j ≠ k := by
            intro hh
            subst hh
            rw [hR] at hr
            have := Option.some.inj hr
            subst this
            exact hne (hin.symm.trans hn)
          rw [GetKey_rec hNN hr', GetKey_rec hk hr, d]
          simp [hjk]
  obtain ⟨r', hr', _, _, _, d⟩ := hrec k r hR
  refine ⟨s', hrun, hinv, ?_, by simp only [Size]; omega, by rw [hN'],
    fun id' => ⟨(hobs id').1, (hobs id').2.1, (hobs id').2.2.1⟩,
    fun id' hne hin => (hobs id').2.2.2 hne hin⟩
  rw [GetKey_rec (by rw [hN']; exact hN) hr', d]
  simp

end BinaryHeap
end MoNav

namespace MoNav
namespace BinaryHeap
variable {δ : Type}

/-- Postconditions of `DeleteAll` in terms of the public observers. -/
theorem DeleteAll_obs {s : BinaryHeap δ} (hi : Inv s) :
    ∃ s', DeleteAll s = .ok s' ∧ Inv s' ∧ Size s' = 0 ∧
      s'.nodeIndex.positions.length = s.nodeIndex.positions.length ∧
      (∀ id', WasInserted s' id' = WasInserted s id' ∧ GetKey s' id' = GetKey s id' ∧
        GetData s' id' = GetData s id') ∧
      ∀ id', WasInserted s id' = .ok true → WasRemoved s' id' = .ok true := by
  obtain ⟨s', hrun, hinv, hlen, hN, hcount, hrec⟩ := DeleteAll_spec hi
  have hfr : Frame s s' := ⟨hN, hcount, fun j r1 hr1 => by
    obtain ⟨r', a, b, c, d, _⟩ := hrec j r1 hr1
    exact ⟨r', a, b, c, d⟩⟩
  refine ⟨s', hrun, hinv, by simp only [Size]; omega, by rw [hN], Frame_observers hfr, ?_⟩
  intro id' hin
  obtain ⟨k, r, hk, hr, hrn⟩ := WasInserted_iff.1 hin
  obtain ⟨r', hr', a, _, _, d⟩ := hrec k r hr
  rw [WasRemoved_rec (by rw [hN]; exact hk) hr' (a.trans hrn)]
  simp [d]

/-- Every reachable state satisfies the representation invariant. -/
theorem Reachable_inv {s : BinaryHeap δ} (h : Reachable s) : Inv s := by
  induction h with
  | clear s0 => exact Clear_inv s0
  | step op _ hpre hstep ih =>
    cases op with
    | insert id w d =>
      obtain ⟨hc, hn, hw⟩ := hpre
      obtain ⟨s2, hrun, hinv, _⟩ := Insert_obs ih hc hn hw d
      simp only [BinaryHeap.step, hrun] at hstep
      rw [← Except.ok.inj hstep]
      exact hinv
    | deleteMin =>
      obtain ⟨s2, id, k, hrun, hinv, _⟩ := DeleteMin_obs ih hpre
      simp only [BinaryHeap.step, hrun, bind, Except.bind, pure, Except.pure] at hstep
      rw [← Except.ok.inj hstep]
      exact hinv
    | decreaseKey id w =>
      obtain ⟨h1, h2, hw, c, hc, hle⟩ := hpre
      obtain ⟨s2, hrun, hinv, _⟩ := DecreaseKey_obs ih ⟨h1, h2⟩ hw hc hle
      simp only [BinaryHeap.step, hrun] at hstep
      rw [← Except.ok.inj hstep]
      exact hinv
    | deleteAll =>
      obtain ⟨s2, hrun, hinv, _⟩ := DeleteAll_obs ih
      simp only [BinaryHeap.step, hrun] at hstep
      rw [← Except.ok.inj hstep]
      exact hinv

theorem demo1_reachable : Reachable demo1 :=
  Reachable.step (s := new [9, 9, 9]) (.insert 1 5 0) (Reachable.clear _)
    ⟨by decide, by decide, by decide⟩ (by decide)

theorem demo2_reachable : Reachable demo2 :=
  Reachable.step (s := demo1) (.insert 0 3 7) demo1_reachable
    ⟨by decide, by decide, by decide⟩ (by decide)

/-- C3 (H1, min at top): in every state reachable from `Clear` by precondition-respecting
calls with non-negative weights, if `Size() > 0` then `Min()` is a live id, `MinKey()` is its
weight, and no live id has a smaller weight. -/
theorem C3_min_at_top (s : BinaryHeap δ) (h : Reachable s) (hs : 0 < Size s) :
    ∃ (m : Nat) (k : Int), Min s = .ok m ∧ MinKey s = .ok k ∧
      WasInserted s m = .ok true ∧ WasRemoved s m = .ok false ∧ GetKey s m = .ok k ∧
      ∀ (id : Nat) (w : Int), WasInserted s id = .ok true → WasRemoved s id = .ok false →
        GetKey s id = .ok w → k ≤ w := by
  obtain ⟨m, k, hm, hk, hl, hg, hmin⟩ := Min_obs (Reachable_inv h) hs
  exact ⟨m, k, hm, hk, hl.1, hl.2, hg, fun id w h1 h2 h3 => hmin id w ⟨h1, h2⟩ h3⟩

theorem C3_min_at_top_witness :
    0 < Size demo2 ∧ ∃ (m : Nat) (k : Int), Min demo2 = .ok m ∧ MinKey demo2 = .ok k ∧
      WasInserted demo2 m = .ok true ∧ WasRemoved demo2 m = .ok false ∧
      GetKey demo2 m = .ok k ∧
      ∀ (id : Nat) (w : Int), WasInserted demo2 id = .ok true →
        WasRemoved demo2 id = .ok false → GetKey demo2 id = .ok w → k ≤ w :=
  ⟨by decide, C3_min_at_top demo2 demo2_reachable (by decide)⟩

/-- C4 (DeleteMin): in every reachable state with `Size() > 0`, `DeleteMin` returns an id
that was live and of minimal weight among the live ids; afterwards the id is inserted and
removed, its key and payload are unchanged, `Size()` is one less, and every other id keeps
its inserted/removed status, weight and payload. -/
theorem C4_deleteMin (s : BinaryHeap δ) (h : Reachable s) (hs : 0 < Size s) :
    ∃ (s' : BinaryHeap δ) (id : Nat) (k : Int), DeleteMin s = .ok (s', id) ∧
      WasInserted s id = .ok true ∧ WasRemoved s id = .ok false ∧ GetKey s id = .ok k ∧
      (∀ (id' : Nat) (w : Int), WasInserted s id' = .ok true → WasRemoved s id' = .ok false →
        GetKey s id' = .ok w → k ≤ w) ∧
      WasInserted s' id = .ok true ∧ WasRemoved s' id = .ok true ∧
      GetKey s' id = GetKey s id ∧ GetData s' id = GetData s id ∧
      Size s' + 1 = Size s ∧
      ∀ id', id' ≠ id →
        WasInserted s' id' = WasInserted s id' ∧ WasRemoved s' id' = WasRemoved s id' ∧
        GetKey s' id' = GetKey s id' ∧ GetData s' id' = GetData s id' := by
  obtain ⟨s', id, k, hrun, _, hl, hg, hmin, h1, h2, h3, _, h5, h6⟩ := DeleteMin_obs (Reachable_inv h) hs
  exact ⟨s', id, k, hrun, hl.1, hl.2, hg, fun id' w a b c => hmin id' w ⟨a, b⟩ c, h1, h2,
    (h5 id).2.1, (h5 id).2.2, h3,
    fun id' hne => ⟨(h5 id').1, h6 id' hne, (h5 id').2.1, (h5 id').2.2⟩⟩

theorem C4_deleteMin_witness :
    0 < Size demo2 ∧
    ∃ (s' : BinaryHeap Nat) (id : Nat) (k : Int), DeleteMin demo2 = .ok (s', id) ∧
      WasInserted demo2 id = .ok true ∧ WasRemoved demo2 id = .ok false ∧
      GetKey demo2 id = .ok k ∧
      (∀ (id' : Nat) (w : Int), WasInserted demo2 id' = .ok true →
        WasRemoved demo2 id' = .ok false → GetKey demo2 id' = .ok w → k ≤ w) ∧
      WasInserted s' id = .ok true ∧ WasRemoved s' id = .ok true ∧
      GetKey s' id = GetKey demo2 id ∧ GetData s' id = GetData demo2 id ∧
      Size s' + 1 = Size demo2 ∧
      ∀ id', id' ≠ id →
        WasInserted s' id' = WasInserted demo2 id' ∧ WasRemoved s' id' = WasRemoved demo2 id' ∧
        GetKey s' id' = GetKey demo2 id' ∧ GetData s' id' = GetData demo2 id' :=
  ⟨by decide, C4_deleteMin demo2 demo2_reachable (by decide)⟩

/-- C5 (I1/H2, heap order): in every reachable state slot 0 holds the sentinel of weight 0
and `tree[i].weight >= tree[i/2].weight` for every `1 <= i < tree.len`. -/
theorem C5_heap_order (s : BinaryHeap δ) (h : Reachable s) :
    (∃ e0 : HeapElement, s.heap[0]? = some e0 ∧ e0.weight = 0) ∧
    ∀ i : Nat, 1 ≤ i → i < s.heap.length →
      ∃ e p : HeapElement, s.heap[i]? = some e ∧ s.heap[i / 2]? = some p ∧
        e.weight ≥ p.weight := by
  have hi := (Reachable_inv h)
  refine ⟨hi.ord.1, ?_⟩
  intro i h1 h2
  obtain ⟨e, he⟩ := get_of_lt h2
  obtain ⟨p, hp⟩ := get_of_lt (show i / 2 < s.heap.length by omega)
  exact ⟨e, p, he, hp, hi.ord.2 i e p h1 he hp⟩

theorem C5_heap_order_witness :
    (∃ e0 : HeapElement, demo2.heap[0]? = some e0 ∧ e0.weight = 0) ∧
    ∀ i : Nat, 1 ≤ i → i < demo2.heap.length →
      ∃ e p : HeapElement, demo2.heap[i]? = some e ∧ demo2.heap[i / 2]? = some p ∧
        e.weight ≥ p.weight :=
  C5_heap_order demo2 demo2_reachable

/-- C6 (I2/H3, index consistency): in every reachable state every insertion record with a
non-zero slot points to a tree position that holds its index and its weight, and every tree
position from 1 on points to a record whose slot is that position. -/
theorem C6_index_consistency (s : BinaryHeap δ) (h : Reachable s) :
    (∀ (k : Nat) (r : HeapNode δ), s.insertedNodes[k]? = some r → r.key ≠ 0 →
      r.key < s.heap.length ∧
      ∃ e : HeapElement, s.heap[r.key]? = some e ∧ e.index = k ∧ e.weight = r.weight) ∧
    (∀ (i : Nat) (e : HeapElement), 1 ≤ i → s.heap[i]? = some e →
      ∃ r : HeapNode δ, s.insertedNodes[e.index]? = some r ∧ r.key = i) := by
  have hi := (Reachable_inv h)
  constructor
  · intro k r hr h0
    obtain ⟨e, he, hek⟩ := hi.idx.record k r hr h0 (by simp)
    obtain ⟨_, r1, hr1, _, hw⟩ := hi.idx.tree r.key e (by omega) he
    rw [hek, hr] at hr1
    have := Option.some.inj hr1
    subst this
    exact ⟨lt_of_get he, e, he, hek, hw.symm⟩
  · intro i e h1 he
    obtain ⟨_, r, hr, hk, _⟩ := hi.idx.tree i e h1 he
    exact ⟨r, hr, hk⟩

theorem C6_index_consistency_witness :
    (∀ (k : Nat) (r : HeapNode Nat), demo2.insertedNodes[k]? = some r → r.key ≠ 0 →
      r.key < demo2.heap.length ∧
      ∃ e : HeapElement, demo2.heap[r.key]? = some e ∧ e.index = k ∧ e.weight = r.weight) ∧
    (∀ (i : Nat) (e : HeapElement), 1 ≤ i → demo2.heap[i]? = some e →
      ∃ r : HeapNode Nat, demo2.insertedNodes[e.index]? = some r ∧ r.key = i) :=
  C6_index_consistency demo2 demo2_reachable

/-- C7, as the claim states it, fails: on a fresh one-cell heap, where id 0 is not
inserted, `Insert(0, -1, p)` violates the assertion `nextKey != 0` of `Upheap`. -/
theorem C7_insert_negative_counterexample :
    Reachable (new [0] : BinaryHeap Nat) ∧ WasInserted (new [0] : BinaryHeap Nat) 0 = .ok false ∧
      Insert (new [0] : BinaryHeap Nat) 0 (-1) 0 = .error .assertion :=
  ⟨Reachable.clear _, by decide, by decide⟩

/-- C7 amended: in every reachable state, for an id within capacity that is not inserted
and a weight `w >= 0`, `Insert(id, w, p)` completes without a fault; afterwards the id is
inserted and not removed with key `w` and payload `p`, `Size()` has grown by one, and every
other id keeps its status, and its weight and payload when it was inserted. -/
theorem C7_insert (s : BinaryHeap δ) (h : Reachable s) (id : Nat) (w : Int) (p : δ)
    (hc : id < s.nodeIndex.positions.length) (hn : WasInserted s id = .ok false)
    (hw : 0 ≤ w) :
    ∃ s', Insert s id w p = .ok s' ∧
      WasInserted s' id = .ok true ∧ WasRemoved s' id = .ok false ∧
      GetKey s' id = .ok w ∧ GetData s' id = .ok p ∧ Size s' = Size s + 1 ∧
      ∀ id', id' ≠ id →
        WasInserted s' id' = WasInserted s id' ∧ WasRemoved s' id' = WasRemoved s id' ∧
        (WasInserted s id' = .ok true →
          GetKey s' id' = GetKey s id' ∧ GetData s' id' = GetData s id') := by
  obtain ⟨s', hrun, _, h1, _, h2, h3, h4, h5, h6⟩ := Insert_obs (Reachable_inv h) hc hn hw p
  exact ⟨s', hrun, h2, h3, h4, h5, h1, h6⟩

theorem C7_insert_witness :
    (2 < demo2.nodeIndex.positions.length ∧ WasInserted demo2 2 = .ok false ∧ (0 : Int) ≤ 4) ∧
    ∃ s', Insert demo2 2 4 8 = .ok s' ∧
      WasInserted s' 2 = .ok true ∧ WasRemoved s' 2 = .ok false ∧
      GetKey s' 2 = .ok 4 ∧ GetData s' 2 = .ok 8 ∧ Size s' = Size demo2 + 1 ∧
      ∀ id', id' ≠ 2 →
        WasInserted s' id' = WasInserted demo2 id' ∧ WasRemoved s' id' = WasRemoved demo2 id' ∧
        (WasInserted demo2 id' = .ok true →
          GetKey s' id' = GetKey demo2 id' ∧ GetData s' id' = GetData demo2 id') :=
  ⟨⟨by decide, by decide, by decide⟩,
    C7_insert demo2 demo2_reachable 2 4 8 (by decide) (by decide) (by decide)⟩

/-- C8 (H4, DecreaseKey): in every reachable state, for a live id and `0 <= w' <= GetKey(id)`,
`DecreaseKey(id, w')` completes, leaves `GetKey(id) == w'`, leaves the payload of id, the
inserted/removed status of every id, `Size()` and every other inserted id's weight and
payload unchanged, and the result satisfies heap order (I1) and index consistency (I2). -/
theorem C8_decreaseKey (s : BinaryHeap δ) (h : Reachable s) (id : Nat) (w c : Int)
    (h1 : WasInserted s id = .ok true) (h2 : WasRemoved s id = .ok false)
    (hc : GetKey s id = .ok c) (hw : 0 ≤ w) (hle : w ≤ c) :
    ∃ s', DecreaseKey s id w = .ok s' ∧ GetKey s' id = .ok w ∧
      GetData s' id = GetData s id ∧ Size s' = Size s ∧
      (∀ id', WasInserted s' id' = WasInserted s id' ∧ WasRemoved s' id' = WasRemoved s id') ∧
      (∀ id', id' ≠ id → WasInserted s id' = .ok true →
        GetKey s' id' = GetKey s id' ∧ GetData s' id' = GetData s id') ∧
      Ord s'.heap ∧ Idx s' none := by
  obtain ⟨s', hrun, hinv, a, b, _, d, e⟩ := DecreaseKey_obs (Reachable_inv h) ⟨h1, h2⟩ hw hc hle
  exact ⟨s', hrun, a, (d id).2.2, b, fun id' => ⟨(d id').1, (d id').2.1⟩,
    fun id' hne hin => ⟨e id' hne hin, (d id').2.2⟩, hinv.ord, hinv.idx⟩

theorem C8_decreaseKey_witness :
    (WasInserted demo2 1 = .ok true ∧ WasRemoved demo2 1 = .ok false ∧
      GetKey demo2 1 = .ok 5 ∧ (0 : Int) ≤ 2 ∧ (2 : Int) ≤ 5) ∧
    ∃ s', DecreaseKey demo2 1 2 = .ok s' ∧ GetKey s' 1 = .ok 2 ∧
      GetData s' 1 = GetData demo2 1 ∧ Size s' = Size demo2 ∧
      (∀ id', WasInserted s' id' = WasInserted demo2 id' ∧
        WasRemoved s' id' = WasRemoved demo2 id') ∧
      (∀ id', id' ≠ 1 → WasInserted demo2 id' = .ok true →
        GetKey s' id' = GetKey demo2 id' ∧ GetData s' id' = GetData demo2 id') ∧
      Ord s'.heap ∧ Idx s' none :=
  ⟨⟨by decide, by decide, by decide, by decide, by decide⟩,
    C8_decreaseKey demo2 demo2_reachable 1 2 5 (by decide) (by decide) (by decide) (by decide)
      (by decide)⟩

end BinaryHeap
end MoNav

namespace MoNav
namespace BinaryHeap
variable {δ : Type}

theorem Clear_fresh (s0 : BinaryHeap δ) (id : Nat) : WasInserted (Clear s0) id ≠ .ok true := by
  intro h
  obtain ⟨k, r, _, hr, _⟩ := WasInserted_iff.1 h
  obtain ⟨i, hi⟩ := Clear_heap s0
  rw [hi] at hr
  simp at hr

theorem Clear_obs (s0 : BinaryHeap δ) :
    Size (Clear s0) = 0 ∧ (Clear s0).nodeIndex = s0.nodeIndex ∧
      ∀ id, id < s0.nodeIndex.positions.length → WasInserted (Clear s0) id = .ok false := by
  obtain ⟨i, hi⟩ := Clear_heap s0
  refine ⟨by rw [hi]; rfl, by rw [hi], ?_⟩
  intro id hc
  have hc' : id < (Clear s0).nodeIndex.positions.length := by rw [hi]; exact hc
  rcases WasInserted_total hc' with h | h
  · exact absurd h (Clear_fresh s0 id)
  · exact h

theorem insertAll_spec :
    ∀ (l : List (Nat × Int × δ)) (s : BinaryHeap δ), Inv s → (l.map (·.1)).Nodup →
      (∀ q ∈ l, q.1 < s.nodeIndex.positions.length ∧ WasInserted s q.1 = .ok false ∧
        0 ≤ q.2.1) →
      ∃ s', insertAll s l = .ok s' ∧ Inv s' ∧ Size s' = Size s + l.length ∧
        (∀ q ∈ l, Live s' q.1 ∧ GetKey s' q.1 = .ok q.2.1) ∧
        ∀ id, id ∉ l.map (·.1) →
          WasInserted s' id = WasInserted s id ∧ WasRemoved s' id = WasRemoved s id ∧
          (WasInserted s id = .ok true → GetKey s' id = GetKey s id) := by
  intro l
  induction l with
  | nil =>
    intro s hi _ _
    exact ⟨s, rfl, hi, by simp, by simp, fun id _ => ⟨rfl, rfl, fun _ => rfl⟩⟩
  | cons q rest ih =>
    intro s hi hnd hq
    obtain ⟨id, w, d⟩ := q
    simp only [List.map_cons, List.nodup_cons] at hnd
    obtain ⟨hc, hn, hw⟩ := hq (id, w, d) (by simp)
    obtain ⟨s1, hrun1, hinv1, hsz1, hcap1, h1, h2, h3, _, hother⟩ := Insert_obs hi hc hn hw d
    have hne : ∀ q ∈ rest, q.1 ≠ id := by
      intro q hq1 hh
      exact hnd.1 (by rw [← hh]; exact List.mem_map_of_mem _ hq1)
    obtain ⟨s', hrun, hinv, hsz, hl, hframe⟩ := ih s1 hinv1 hnd.2 (by
      intro q hq1
      obtain ⟨a, b, c⟩ := hq q (by simp [hq1])
      exact ⟨by rw [hcap1]; exact a, by rw [(hother q.1 (hne q hq1)).1]; exact b, c⟩)
    refine ⟨s', ?_, hinv, by rw [hsz, hsz1]; simp; omega, ?_, ?_⟩
    · simp only [insertAll, hrun1, bind, Except.bind]
      exact hrun
    · intro q hq1
      simp only [List.mem_cons] at hq1
      rcases hq1 with h | h
      · subst h
        obtain ⟨a, b, c⟩ := hframe id hnd.1
        exact ⟨⟨by rw [a]; exact h1, by rw [b]; exact h2⟩, by rw [c h1]; exact h3⟩
      · exact hl q h
    · intro id' hid'
      simp only [List.map_cons, List.mem_cons, not_or] at hid'
      obtain ⟨a, b, c⟩ := hframe id' hid'.2
      obtain ⟨a1, b1, c1⟩ := hother id' hid'.1
      refine ⟨a.trans a1, b.trans b1, ?_⟩
      intro hin
      rw [c (by rw [a1]; exact hin)]
      exact (c1 hin).1

theorem drain_spec :
    ∀ (n : Nat) (s : BinaryHeap δ), Inv s → Size s = n →
      ∃ out, drain n s = .ok out ∧ out.length = n ∧
        List.Pairwise (· ≤ ·) (out.map (·.2)) ∧ (out.map (·.1)).Nodup ∧
        ∀ p ∈ out, Live s p.1 ∧ GetKey s p.1 = .ok p.2 := by
  intro n
  induction n with
  | zero =>
    intro s _ hs
    exact ⟨[], by simp [drain, hs, pure, Except.pure], rfl, by simp, by simp, by simp⟩
  | succ n ih =>
    intro s hi hs
    obtain ⟨s', id, k, hrun, hinv, hlive, hkey, hmin, h1, h2, hsz, _, hobs, hrem⟩ :=
      DeleteMin_obs hi (by omega)
    obtain ⟨out, hout, hlen, hsorted, hnd, hall⟩ := ih s' hinv (by omega)
    have hback : ∀ p ∈ out, p.1 ≠ id ∧ Live s p.1 ∧ GetKey s p.1 = .ok p.2 := by
      intro p hp
      obtain ⟨⟨a, b⟩, c⟩ := hall p hp
      have hne : p.1 ≠ id := by
        intro hh
        rw [hh, h2] at b
        exact absurd b (by simp)
      exact ⟨hne, ⟨by rw [← (hobs p.1).1]; exact a, by rw [← hrem p.1 hne]; exact b⟩,
        by rw [← (hobs p.1).2.1]; exact c⟩
    refine ⟨(id, k) :: out, ?_, by simp [hlen], ?_, ?_, ?_⟩
    · have hs0 : ¬ Size s = 0 := by omega
      have hk' : GetKey s' id = .ok k := by rw [(hobs id).2.1]; exact hkey
      simp only [drain, hs0, if_false, hrun, hk', hout, bind, Except.bind, pure, Except.pure]
    · simp only [List.map_cons, List.pairwise_cons]
      refine ⟨?_, hsorted⟩
      intro b hb
      obtain ⟨p, hp, hpb⟩ := List.mem_map.1 hb
      obtain ⟨_, hl, hg⟩ := hback p hp
      rw [← hpb]
      exact hmin p.1 p.2 hl hg
    · simp only [List.map_cons, List.nodup_cons]
      refine ⟨?_, hnd⟩
      intro hin
      obtain ⟨p, hp, hpb⟩ := List.mem_map.1 hin
      exact (hback p hp).1 hpb
    · intro p hp
      simp only [List.mem_cons] at hp
      rcases hp with h | h
      · subst h; exact ⟨hlive, hkey⟩
      · exact (hback p h).2

/-- C9 (H5, sort property): inserting pairs with pairwise distinct ids within capacity and
non-negative weights into a cleared heap, in list order, and then calling `DeleteMin` until
`Size() == 0` yields as many ids as were inserted; their weights are non-decreasing and a
permutation of the inserted weights. -/
theorem C9_sort (s0 : BinaryHeap δ) (l : List (Nat × Int × δ))
    (hnd : (l.map (·.1)).Nodup)
    (hq : ∀ q ∈ l, q.1 < s0.nodeIndex.positions.length ∧ 0 ≤ q.2.1) :
    ∃ (s : BinaryHeap δ) (out : List (Nat × Int)),
      insertAll (Clear s0) l = .ok s ∧ drain (Size s) s = .ok out ∧
      out.length = l.length ∧ List.Pairwise (· ≤ ·) (out.map (·.2)) ∧
      (out.map (·.2)).Perm (l.map (·.2.1)) := by
  obtain ⟨hsz0, hN0, hfresh⟩ := Clear_obs s0
  obtain ⟨s, hrun, hinv, hsz, hl, hframe⟩ := insertAll_spec l (Clear s0) (Clear_inv s0) hnd (by
    intro q hq1
    obtain ⟨a, b⟩ := hq q hq1
    exact ⟨by rw [hN0]; exact a, hfresh q.1 a, b⟩)
  obtain ⟨out, hout, hlen, hsorted, hnd2, hall⟩ := drain_spec (Size s) s hinv rfl
  have hlen' : out.length = l.length := by rw [hlen, hsz, hsz0]; simp
  refine ⟨s, out, hrun, hout, hlen', hsorted, ?_⟩
  have hsub : out ⊆ l.map (fun q => (q.1, q.2.1)) := by
    intro p hp
    obtain ⟨hlive, hg⟩ := hall p hp
    have hin : p.1 ∈ l.map (·.1) := by
      by_contra hh
      have := (hframe p.1 hh).1
      rw [hlive.1] at this
      exact Clear_fresh s0 p.1 this.symm
    obtain ⟨q, hq1, hq2⟩ := List.mem_map.1 hin
    have hk := (hl q hq1).2
    rw [hq2, hg] at hk
    have hk := Except.ok.inj hk
    apply List.mem_map.2
    exact ⟨q, hq1, by rw [hq2, ← hk]⟩
  have hperm : out.Perm (l.map (fun q => (q.1, q.2.1))) :=
    ((List.Nodup.of_map _ hnd2).subperm hsub).perm_of_length_le (by simp [hlen'])
  have := hperm.map (·.2)
  simpa [List.map_map, Function.comp_def] using this

theorem C9_sort_witness :
    (([(2, 7, 0), (0, 3, 0), (1, 5, 0)] : List (Nat × Int × Nat)).map (·.1)).Nodup ∧
    (∀ q ∈ ([(2, 7, 0), (0, 3, 0), (1, 5, 0)] : List (Nat × Int × Nat)),
      q.1 < demo2.nodeIndex.positions.length ∧ 0 ≤ q.2.1) ∧
    ∃ (s : BinaryHeap Nat) (out : List (Nat × Int)),
      insertAll (Clear demo2) [(2, 7, 0), (0, 3, 0), (1, 5, 0)] = .ok s ∧
      drain (Size s) s = .ok out ∧
      out.length = ([(2, 7, 0), (0, 3, 0), (1, 5, 0)] : List (Nat × Int × Nat)).length ∧
      List.Pairwise (· ≤ ·) (out.map (·.2)) ∧
      (out.map (·.2)).Perm
        (([(2, 7, 0), (0, 3, 0), (1, 5, 0)] : List (Nat × Int × Nat)).map (·.2.1)) :=
  ⟨by decide, by decide, C9_sort demo2 [(2, 7, 0), (0, 3, 0), (1, 5, 0)] (by decide) (by decide)⟩

end BinaryHeap
end MoNav

namespace MoNav

section Inversion
variable {α β : Type}

theorem bind_ok_iff {x : Except Fault α} {f : α → Except Fault β} {b : β} :
    (x >>= f) = .ok b ↔ ∃ a, x = .ok a ∧ f a = .ok b := by
  cases x with
  | error e => simp [bind, Except.bind]
  | ok a => simp [bind, Except.bind]

theorem rd_ok_iff {v : List α} {i : Nat} {a : α} : rd v i = .ok a ↔ v[i]? = some a := by
  unfold rd
  cases v[i]? with
  | none => simp
  | some b => simp

theorem wr_ok_iff {v v' : List α} {i : Nat} {a : α} :
    wr v i a = .ok v' ↔ i < v.length ∧ v' = v.set i a := by
  unfold wr
  by_cases h : i < v.length
  · simp [h, eq_comm]
  · simp [h]

theorem assert_ok_iff {c : Prop} [Decidable c] {u : Unit} : assert c = .ok u ↔ c := by
  unfold assert
  by_cases h : c <;> simp [h]

theorem pure_ok_iff {a b : α} : (pure a : Except Fault α) = .ok b ↔ a = b := by
  simp [pure, Except.pure]

end Inversion

namespace BinaryHeap
variable {δ : Type}

theorem Nodes_refl (s : BinaryHeap δ) : Nodes s s := ⟨rfl, rfl⟩

theorem Nodes_trans {s t u : BinaryHeap δ} (h1 : Nodes s t) (h2 : Nodes t u) : Nodes s u :=
  ⟨h2.1.trans h1.1, h2.2.trans h1.2⟩

theorem map_node_set {R : List (HeapNode δ)} {k : Nat} {r r' : HeapNode δ}
    (hr : R[k]? = some r) (hn : r'.node = r.node) :
    (R.set k r').map (·.node) = R.map (·.node) := by
  apply List.ext_getElem?
  intro i
  simp only [List.getElem?_map, List.getElem?_set]
  by_cases h : k = i
  · subst h
    simp [lt_of_get hr, hr, hn]
  · simp [h]

theorem UpheapLoop_nodes (w : Int) :
    ∀ (fuel : Nat) (s : BinaryHeap δ) (key : Nat) (s' : BinaryHeap δ) (key' : Nat),
      UpheapLoop w fuel s key = .ok (s', key') → Nodes s s' := by
  intro fuel
  induction fuel with
  | zero => intro s key s' key' h; simp [UpheapLoop] at h
  | succ fuel ih =>
    intro s key s' key' h
    simp only [UpheapLoop, bind_ok_iff, rd_ok_iff] at h
    obtain ⟨p, hp, h⟩ := h
    split at h
    · simp only [bind_ok_iff, rd_ok_iff, wr_ok_iff, assert_ok_iff] at h
      obtain ⟨_, _, _, _, H1, ⟨_, hH1⟩, _, _, r, hr, R1, ⟨_, hR1⟩, h⟩ := h
      subst hH1 hR1
      refine Nodes_trans ?_ (ih _ _ _ _ h)
      exact ⟨rfl, map_node_set hr rfl⟩
    · simp only [pure_ok_iff] at h
      rw [← (Prod.mk.inj h).1]
      exact Nodes_refl s

theorem Upheap_nodes {s s' : BinaryHeap δ} {key : Nat} (h : Upheap s key = .ok s') :
    Nodes s s' := by
  simp only [Upheap, bind_ok_iff, rd_ok_iff, wr_ok_iff, assert_ok_iff, pure_ok_iff] at h
  obtain ⟨_, _, e, _, _, _, ⟨s1, key1⟩, hloop, H1, _, _, _, r, hr, R1, ⟨_, hR1⟩, h⟩ := h
  subst hR1 h
  refine Nodes_trans (UpheapLoop_nodes _ _ _ _ _ _ hloop) ?_
  exact ⟨rfl, map_node_set hr rfl⟩

theorem DownheapLoop_nodes (w : Int) :
    ∀ (fuel : Nat) (s : BinaryHeap δ) (key : Nat) (s' : BinaryHeap δ) (key' : Nat),
      DownheapLoop w fuel s key = .ok (s', key') → Nodes s s' := by
  intro fuel
  induction fuel with
  | zero => intro s key s' key' h; simp [DownheapLoop] at h
  | succ fuel ih =>
    intro s key s' key' h
    have tail : ∀ (y : Nat) (child : HeapElement),
        (if w ≤ child.weight then (pure (s, key) : Except Fault (BinaryHeap δ × Nat)) else do
          let heap ← wr s.heap key child
          assert (child.index < s.insertedNodes.length)
          let r ← rd s.insertedNodes child.index
          let ins ← wr s.insertedNodes child.index { r with key := key }
          DownheapLoop w fuel { s with heap := heap, insertedNodes := ins } y) =
            .ok (s', key') → Nodes s s' := by
      intro y child h
      split at h
      · simp only [pure_ok_iff] at h
        rw [← (Prod.mk.inj h).1]
        exact Nodes_refl s
      · simp only [bind_ok_iff, rd_ok_iff, wr_ok_iff, assert_ok_iff] at h
        obtain ⟨H1, ⟨_, hH1⟩, _, _, r, hr, R1, ⟨_, hR1⟩, h⟩ := h
        subst hH1 hR1
        refine Nodes_trans ?_ (ih _ _ _ _ h)
        exact ⟨rfl, map_node_set hr rfl⟩
    simp only [DownheapLoop] at h
    split at h
    · simp only [bind_ok_iff, rd_ok_iff] at h
      obtain ⟨a, _, h⟩ := h
      split at h <;> simp only [bind_ok_iff, rd_ok_iff, pure_ok_iff] at h
      · obtain ⟨b, _, y, _, child, _, h⟩ := h
        exact tail y child h
      · obtain ⟨y, _, child, _, h⟩ := h
        exact tail y child h
    · simp only [pure_ok_iff] at h
      rw [← (Prod.mk.inj h).1]
      exact Nodes_refl s

theorem Downheap_nodes {s s' : BinaryHeap δ} {key : Nat} (h : Downheap s key = .ok s') :
    Nodes s s' := by
  simp only [Downheap, bind_ok_iff, rd_ok_iff, wr_ok_iff, assert_ok_iff, pure_ok_iff] at h
  obtain ⟨_, _, e, _, ⟨s1, key1⟩, hloop, H1, _, _, _, r, hr, R1, ⟨_, hR1⟩, h⟩ := h
  subst hR1 h
  refine Nodes_trans (DownheapLoop_nodes _ _ _ _ _ _ hloop) ?_
  exact ⟨rfl, map_node_set hr rfl⟩

theorem DeleteMin_nodes {s s' : BinaryHeap δ} {id : Nat} (h : DeleteMin s = .ok (s', id)) :
    Nodes s s' := by
  simp only [DeleteMin, bind_ok_iff, rd_ok_iff, wr_ok_iff, assert_ok_iff] at h
  obtain ⟨_, _, e, _, last, _, H1, _, h⟩ := h
  split at h <;> simp only [bind_ok_iff, rd_ok_iff, wr_ok_iff, pure_ok_iff] at h
  · obtain ⟨s2, hs2, r, hr, R1, ⟨_, hR1⟩, h⟩ := h
    have h := (Prod.mk.inj h).1
    subst hR1 h
    refine Nodes_trans (Nodes_trans (t := { s with heap := H1.dropLast }) ⟨rfl, rfl⟩
      (Downheap_nodes hs2)) ?_
    exact ⟨rfl, map_node_set hr rfl⟩
  · obtain ⟨s2, hs2, r, hr, R1, ⟨_, hR1⟩, h⟩ := h
    have h := (Prod.mk.inj h).1
    subst hR1 h hs2
    exact ⟨rfl, map_node_set hr rfl⟩

theorem DeleteAllLoop_nodes :
    ∀ (es : List HeapElement) (R R' : List (HeapNode δ)),
      DeleteAllLoop es R = .ok R' → R'.map (·.node) = R.map (·.node) := by
  intro es
  induction es with
  | nil =>
    intro R R' h
    simp only [DeleteAllLoop, pure_ok_iff] at h
    rw [h]
  | cons e es ih =>
    intro R R' h
    simp only [DeleteAllLoop, bind_ok_iff, rd_ok_iff, wr_ok_iff] at h
    obtain ⟨r, hr, R1, ⟨_, hR1⟩, h⟩ := h
    subst hR1
    rw [ih _ _ h]
    exact map_node_set hr rfl

theorem DeleteAll_nodes {s s' : BinaryHeap δ} (h : DeleteAll s = .ok s') : Nodes s s' := by
  simp only [DeleteAll, bind_ok_iff] at h
  obtain ⟨R1, hloop, h⟩ := h
  split at h
  · simp only [pure_ok_iff] at h
    subst h
    exact ⟨rfl, DeleteAllLoop_nodes _ _ _ hloop⟩
  · exact absurd h (by simp)

theorem DecreaseKey_nodes {s s' : BinaryHeap δ} {id : Nat} {w : Int}
    (h : DecreaseKey s id w = .ok s') : Nodes s s' := by
  simp only [DecreaseKey, bind_ok_iff, rd_ok_iff, wr_ok_iff, assert_ok_iff] at h
  obtain ⟨index, _, r, hr, _, _, R1, ⟨_, hR1⟩, e, _, H1, _, h⟩ := h
  subst hR1
  refine Nodes_trans ?_ (Upheap_nodes h)
  exact ⟨rfl, map_node_set hr rfl⟩

theorem Insert_nodes {s s' : BinaryHeap δ} {id : Nat} {w : Int} {d : δ}
    (h : Insert s id w d = .ok s') :
    id < s.nodeIndex.positions.length ∧
      s'.nodeIndex.positions = s.nodeIndex.positions.set id s.insertedNodes.length ∧
      s'.insertedNodes.map (·.node) = s.insertedNodes.map (·.node) ++ [id] := by
  simp only [Insert, ArrayStorage.put, bind_ok_iff, wr_ok_iff, assert_ok_iff, pure_ok_iff] at h
  obtain ⟨idx, ⟨_, hc, P1, ⟨_, hP1⟩, hidx⟩, h⟩ := h
  subst hP1 hidx
  obtain ⟨h1, h2⟩ := Upheap_nodes h
  refine ⟨hc, by rw [h1], ?_⟩
  rw [h2]
  simp

theorem Traced_step {pre : List (Op δ)} {s s' : BinaryHeap δ} (h : Traced pre s) (op : Op δ)
    (hs : BinaryHeap.step s op = .ok s') : Traced (pre ++ [op]) s' := by
  have hkeep : Nodes s s' → (∀ id w d, op ≠ Op.insert id w d) → Traced (pre ++ [op]) s' := by
    intro hn hop
    constructor
    · intro id hid
      rw [hn.2] at hid
      obtain ⟨w, d, hwd⟩ := h.1 id hid
      exact ⟨w, d, by simp [hwd]⟩
    · intro id w d hmem
      simp only [List.mem_append, List.mem_singleton] at hmem
      rcases hmem with hmem | hmem
      · rw [hn.1, hn.2]; exact h.2 id w d hmem
      · exact absurd hmem.symm (hop id w d)
  cases op with
  | insert id w d =>
    obtain ⟨hc, hN, hR⟩ := Insert_nodes hs
    constructor
    · intro id' hid'
      rw [hR] at hid'
      simp only [List.mem_append, List.mem_singleton] at hid'
      rcases hid' with h1 | h1
      · obtain ⟨w1, d1, hwd⟩ := h.1 id' h1
        exact ⟨w1, d1, by simp [hwd]⟩
      · exact ⟨w, d, by simp [h1]⟩
    · intro id' w' d' hmem
      by_cases hid : id' = id
      · subst hid
        refine ⟨s.insertedNodes.length, by rw [hN]; exact get_set_self _ hc, ?_⟩
        rw [hR]
        exact get_concat_iff.2 (Or.inr ⟨by simp, rfl⟩)
      · simp only [List.mem_append, List.mem_singleton] at hmem
        rcases hmem with hmem | hmem
        · obtain ⟨k, hk, hkn⟩ := h.2 id' w' d' hmem
          refine ⟨k, by rw [hN, get_set_other _ (Ne.symm hid)]; exact hk, ?_⟩
          rw [hR]
          exact get_concat_iff.2 (Or.inl hkn)
        · injection hmem with h1
          exact absurd h1 hid
  | deleteMin =>
    simp only [BinaryHeap.step, bind_ok_iff, pure_ok_iff] at hs
    obtain ⟨⟨s1, id⟩, hdm, h1⟩ := hs
    subst h1
    exact hkeep (DeleteMin_nodes hdm) (by intro _ _ _ hh; cases hh)
  | decreaseKey id w =>
    exact hkeep (DecreaseKey_nodes hs) (by intro _ _ _ hh; cases hh)
  | deleteAll =>
    exact hkeep (DeleteAll_nodes hs) (by intro _ _ _ hh; cases hh)

theorem Traced_run :
    ∀ (ops pre : List (Op δ)) (s s' : BinaryHeap δ), Traced pre s →
      BinaryHeap.run s ops = .ok s' → Traced (pre ++ ops) s' := by
  intro ops
  induction ops with
  | nil =>
    intro pre s s' h hr
    simp only [BinaryHeap.run, pure_ok_iff] at hr
    subst hr
    simpa using h
  | cons op ops ih =>
    intro pre s s' h hr
    simp only [BinaryHeap.run, bind_ok_iff] at hr
    obtain ⟨s1, hs1, hr⟩ := hr
    have := ih (pre ++ [op]) s1 s' (Traced_step h op hs1) hr
    simpa using this

theorem WasInserted_iff_nodes {s : BinaryHeap δ} {id : Nat} :
    WasInserted s id = .ok true ↔
      ∃ k : Nat, s.nodeIndex.positions[id]? = some k ∧
        (s.insertedNodes.map (·.node))[k]? = some id := by
  rw [WasInserted_iff]
  constructor
  · rintro ⟨k, r, hk, hr, hn⟩
    exact ⟨k, hk, by simp [hr, hn]⟩
  · rintro ⟨k, hk, hn⟩
    simp only [List.getElem?_map, Option.map_eq_some'] at hn
    obtain ⟨r, hr, hrn⟩ := hn
    exact ⟨k, r, hk, hr, hrn⟩

/-- C10 (WasInserted on the dense heap): whatever the index array and the rest of the heap
held before, right after `Clear` the heap is empty, the index array is the one it was, and no
id within capacity is inserted; and after any sequence of `Insert`, `DeleteMin`, `DecreaseKey`
and `DeleteAll` calls that runs to completion, `WasInserted(id)` is true exactly when the
sequence holds an `Insert` for id. -/
theorem C10_wasInserted (s0 : BinaryHeap δ) (id : Nat)
    (hc : id < s0.nodeIndex.positions.length) :
    Size (Clear s0) = 0 ∧ (Clear s0).nodeIndex = s0.nodeIndex ∧
      WasInserted (Clear s0) id = .ok false ∧
      ∀ (ops : List (Op δ)) (s : BinaryHeap δ), run (Clear s0) ops = .ok s →
        (WasInserted s id = .ok true ↔ ∃ w d, Op.insert id w d ∈ ops) := by
  obtain ⟨h1, h2, h3⟩ := Clear_obs s0
  refine ⟨h1, h2, h3 id hc, ?_⟩
  intro ops s hrun
  have h0 : Traced ([] : List (Op δ)) (Clear s0) := by
    obtain ⟨i, hi⟩ := Clear_heap s0
    rw [hi]
    exact ⟨by simp, by simp⟩
  have ht := Traced_run ops [] (Clear s0) s h0 hrun
  simp only [List.nil_append] at ht
  rw [WasInserted_iff_nodes]
  constructor
  · rintro ⟨k, _, hk⟩
    exact ht.1 id (List.getElem?_mem hk)
  · rintro ⟨w, d, hwd⟩
    exact ht.2 id w d hwd

theorem C10_wasInserted_witness :
    1 < demo2.nodeIndex.positions.length ∧
    (Size (Clear demo2) = 0 ∧ (Clear demo2).nodeIndex = demo2.nodeIndex ∧
      WasInserted (Clear demo2) 1 = .ok false ∧
      ∀ (ops : List (Op Nat)) (s : BinaryHeap Nat), run (Clear demo2) ops = .ok s →
        (WasInserted s 1 = .ok true ↔ ∃ w d, Op.insert 1 w d ∈ ops)) :=
  ⟨by decide, C10_wasInserted demo2 1 (by decide)⟩

end BinaryHeap
end MoNav

namespace MoNav

theorem bne_congr {a b : Nat} (h : a = 0 ↔ b = 0) : (a != 0) = (b != 0) := by
  by_cases ha : a = 0
  · have hb := h.1 ha
    rw [ha, hb]
  · have hb : b ≠ 0 := fun hh => ha (h.2 hh)
    rw [bne_iff_ne.2 ha, bne_iff_ne.2 hb]

theorem beq_not_bne (a : Nat) : (a == 0) = !(a != 0) := by
  by_cases ha : a = 0
  · subst ha; rfl
  · rw [bne_iff_ne.2 ha]; simpa using ha

namespace BinaryHeap
variable {δ : Type}

theorem view_of_rec {s : BinaryHeap δ} {id k : Nat} {r : HeapNode δ}
    (hN : s.nodeIndex.positions[id]? = some k) (hR : s.insertedNodes[k]? = some r)
    (hn : r.node = id) : view s id = some (r.weight, r.data, r.key != 0) := by
  simp [view, entry, hN, hR, hn]

theorem view_some_iff {s : BinaryHeap δ} {id : Nat} {v : Int × δ × Bool} :
    view s id = some v ↔
      ∃ (k : Nat) (r : HeapNode δ), s.nodeIndex.positions[id]? = some k ∧
        s.insertedNodes[k]? = some r ∧ r.node = id ∧ v = (r.weight, r.data, r.key != 0) := by
  constructor
  · intro h
    unfold view entry at h
    cases hN : s.nodeIndex.positions[id]? with
    | none => simp [hN] at h
    | some k =>
      cases hR : s.insertedNodes[k]? with
      | none => simp [hN, hR] at h
      | some r =>
        by_cases hn : r.node = id
        · simp [hN, hR, hn] at h
          exact ⟨k, r, rfl, hR, hn, h.symm⟩
        · simp [hN, hR, hn] at h
  · rintro ⟨k, r, hN, hR, hn, hv⟩
    rw [hv]
    exact view_of_rec hN hR hn

theorem view_none_iff {s : BinaryHeap δ} {id : Nat} :
    view s id = none ↔ WasInserted s id ≠ .ok true := by
  constructor
  · intro h hin
    obtain ⟨k, r, hN, hR, hn⟩ := WasInserted_iff.1 hin
    rw [view_of_rec hN hR hn] at h
    exact absurd h (by simp)
  · intro h
    cases hv : view s id with
    | none => rfl
    | some v =>
      obtain ⟨k, r, hN, hR, hn, _⟩ := view_some_iff.1 hv
      exact absurd (WasInserted_iff.2 ⟨k, r, hN, hR, hn⟩) h

/-- The observers of the source in terms of `view`, for an id within capacity. -/
theorem WasInserted_view {s : BinaryHeap δ} {id : Nat}
    (hc : id < s.nodeIndex.positions.length) :
    WasInserted s id = .ok (view s id).isSome := by
  cases hv : view s id with
  | none =>
    rcases WasInserted_total hc with h | h
    · exact absurd h (view_none_iff.1 hv)
    · simpa using h
  | some v =>
    obtain ⟨k, r, hN, hR, hn, _⟩ := view_some_iff.1 hv
    simpa using WasInserted_iff.2 ⟨k, r, hN, hR, hn⟩

theorem observers_view {s : BinaryHeap δ} {id : Nat} {c : Int} {d : δ} {l : Bool}
    (hv : view s id = some (c, d, l)) :
    WasInserted s id = .ok true ∧ GetKey s id = .ok c ∧ GetData s id = .ok d ∧
      WasRemoved s id = .ok (!l) ∧ id < s.nodeIndex.positions.length := by
  obtain ⟨k, r, hN, hR, hn, hv⟩ := view_some_iff.1 hv
  simp only [Prod.mk.injEq] at hv
  obtain ⟨h1, h2, h3⟩ := hv
  subst h1 h2 h3
  refine ⟨WasInserted_iff.2 ⟨k, r, hN, hR, hn⟩, GetKey_rec hN hR, GetData_rec hN hR, ?_,
    lt_of_get hN⟩
  rw [WasRemoved_rec hN hR hn, beq_not_bne]

theorem Insert_view {s : BinaryHeap δ} (hi : Inv s) {id : Nat}
    (hc : id < s.nodeIndex.positions.length) (hn : view s id = none)
    {w : Int} (hw : 0 ≤ w) (d : δ) :
    ∃ s', Insert s id w d = .ok s' ∧ Inv s' ∧ Size s' = Size s + 1 ∧
      s'.nodeIndex.positions.length = s.nodeIndex.positions.length ∧
      s'.insertedNodes.length = s.insertedNodes.length + 1 ∧
      view s' = Function.update (view s) id (some (w, d, true)) := by
  have hn' : WasInserted s id = .ok false := by
    rw [WasInserted_view hc, hn]; rfl
  obtain ⟨s', hrun, hinv, hlen, hN, hcount, hold, r', hr', hr'n, hr'w, hr'd, hr'k⟩ :=
    Insert_spec hi hc hn' hw d
  have hpos : 1 ≤ s.heap.length := by
    obtain ⟨e0, he0, _⟩ := hi.ord.1
    have := lt_of_get he0
    omega
  refine ⟨s', hrun, hinv, by simp only [Size]; omega, by rw [hN]; simp, hcount, ?_⟩
  funext id'
  by_cases hid : id' = id
  · subst hid
    rw [Function.update_same,
      view_of_rec (by rw [hN]; exact get_set_self _ hc) hr' hr'n, hr'w, hr'd,
      bne_iff_ne.2 hr'k]
  · rw [Function.update_noteq hid]
    have hN' : s'.nodeIndex.positions[id']? = s.nodeIndex.positions[id']? := by
      rw [hN]; exact get_set_other _ (Ne.symm hid)
    cases hv : view s id' with
    | some v =>
      obtain ⟨k, r, hk, hr, hrn, hvv⟩ := view_some_iff.1 hv
      obtain ⟨r1, hr1, a, b, c, e⟩ := hold k r hr
      rw [view_of_rec (by rw [hN']; exact hk) hr1 (a.trans hrn), hvv, b, c, bne_congr e]
    | none =>
      cases hv' : view s' id' with
      | none => rfl
      | some v =>
        exfalso
        obtain ⟨k, r, hk, hr, hrn, _⟩ := view_some_iff.1 hv'
        rw [hN'] at hk
        by_cases hkn : k < s.insertedNodes.length
        · obtain ⟨r0, hr0⟩ := get_of_lt hkn
          obtain ⟨r1, hr1, a, _⟩ := hold k r0 hr0
          rw [hr] at hr1
          have := Option.some.inj hr1
          subst this
          rw [view_of_rec hk hr0 (a.symm.trans hrn)] at hv
          exact absurd hv (by simp)
        · have := lt_of_get hr
          have hkk : k = s.insertedNodes.length := by omega
          subst hkk
          rw [hr'] at hr
          have := Option.some.inj hr
          subst this
          exact hid (hrn.symm.trans hr'n)

theorem DecreaseKey_view {s : BinaryHeap δ} (hi : Inv s) {id : Nat} {c : Int} {d : δ}
    (hv : view s id = some (c, d, true)) {w : Int} (hw : 0 ≤ w) (hle : w ≤ c) :
    ∃ s', DecreaseKey s id w = .ok s' ∧ Inv s' ∧ Size s' = Size s ∧
      s'.nodeIndex.positions.length = s.nodeIndex.positions.length ∧
      s'.insertedNodes.length = s.insertedNodes.length ∧
      view s' = Function.update (view s) id (some (w, d, true)) := by
  obtain ⟨k, r, hN, hR, hn, hvv⟩ := view_some_iff.1 hv
  simp only [Prod.mk.injEq] at hvv
  obtain ⟨h1, h2, h3⟩ := hvv
  have hlive : r.key ≠ 0 := by
    intro h0
    simp [h0] at h3
  subst h1 h2
  obtain ⟨s', hrun, hinv, hlen, hN', hcount, hrec⟩ := DecreaseKey_spec hi hN hR hlive hw hle
  refine ⟨s', hrun, hinv, by simp only [Size]; omega, by rw [hN'], hcount, ?_⟩
  funext id'
  have hNN : s'.nodeIndex.positions[id']? = s.nodeIndex.positions[id']? := by rw [hN']
  by_cases hid : id' = id
  · subst hid
    obtain ⟨r', hr', a, b, e, f⟩ := hrec k r hR
    have h1 : r'.key ≠ 0 := fun hh => hlive (e.1 hh)
    rw [Function.update_same, view_of_rec (by rw [hNN]; exact hN) hr' (a.trans hn), f, b,
      bne_iff_ne.2 h1]
    simp
  · rw [Function.update_noteq hid]
    cases hv1 : view s id' with
    | some v =>
      obtain ⟨j, r1, hk, hr, hrn, hvv⟩ := view_some_iff.1 hv1
      obtain ⟨r', hr', a, b, e, f⟩ := hrec j r1 hr
      have hjk : j ≠ k := by
        intro hh
        subst hh
        rw [hR] at hr
        have := Option.some.inj hr
        subst this
        exact hid (hrn.symm.trans hn)
      rw [view_of_rec (by rw [hNN]; exact hk) hr' (a.trans hrn), hvv, f, b, if_neg hjk,
        bne_congr e]
    | none =>
      cases hv' : view s' id' with
      | none => rfl
      | some v =>
        exfalso
        obtain ⟨j, r1, hk, hr, hrn, _⟩ := view_some_iff.1 hv'
        rw [hNN] at hk
        obtain ⟨r0, hr0⟩ := get_of_lt (show j < s.insertedNodes.length by
          rw [← hcount]; exact lt_of_get hr)
        obtain ⟨r2, hr2, a, _⟩ := hrec j r0 hr0
        rw [hr] at hr2
        have := Option.some.inj hr2
        subst this
        rw [view_of_rec hk hr0 (a.symm.trans hrn)] at hv1
        exact absurd hv1 (by simp)

end BinaryHeap
end MoNav

namespace MoNav
namespace BinaryHeap
variable {δ : Type}

/-- Two heaps with the same id index whose records agree on the ids have views that are
both empty or both given by the records at the same index. -/
theorem view_cases {s s' : BinaryHeap δ} (hN : s'.nodeIndex = s.nodeIndex)
    (hcount : s'.insertedNodes.length = s.insertedNodes.length)
    (hrec : ∀ (k : Nat) (r : HeapNode δ), s.insertedNodes[k]? = some r →
      ∃ r' : HeapNode δ, s'.insertedNodes[k]? = some r' ∧ r'.node = r.node) (id : Nat) :
    (view s id = none ∧ view s' id = none) ∨
      ∃ (k : Nat) (r r' : HeapNode δ), s.insertedNodes[k]? = some r ∧
        s'.insertedNodes[k]? = some r' ∧ r.node = id ∧
        view s id = some (r.weight, r.data, r.key != 0) ∧
        view s' id = some (r'.weight, r'.data, r'.key != 0) := by
  have hNN : s'.nodeIndex.positions[id]? = s.nodeIndex.positions[id]? := by rw [hN]
  cases hv : view s id with
  | some v =>
    right
    obtain ⟨k, r, hk, hr, hrn, hvv⟩ := view_some_iff.1 hv
    obtain ⟨r', hr', a⟩ := hrec k r hr
    exact ⟨k, r, r', hr, hr', hrn, by rw [hvv], view_of_rec (by rw [hNN]; exact hk) hr' (a.trans hrn)⟩
  | none =>
    left
    refine ⟨rfl, ?_⟩
    cases hv' : view s' id with
    | none => rfl
    | some v =>
      exfalso
      obtain ⟨j, r1, hk, hr, hrn, _⟩ := view_some_iff.1 hv'
      rw [hNN] at hk
      obtain ⟨r0, hr0⟩ := get_of_lt (show j < s.insertedNodes.length by
        rw [← hcount]; exact lt_of_get hr)
      obtain ⟨r2, hr2, a⟩ := hrec j r0 hr0
      rw [hr] at hr2
      have := Option.some.inj hr2
      subst this
      rw [view_of_rec hk hr0 (a.symm.trans hrn)] at hv
      exact absurd hv (by simp)

theorem SetData_view {s : BinaryHeap δ} (hi : Inv s) {id : Nat} {c : Int} {d : δ} {l : Bool}
    (hv : view s id = some (c, d, l)) (d' : δ) :
    ∃ s', SetData s id d' = .ok s' ∧ Inv s' ∧ Size s' = Size s ∧
      s'.nodeIndex.positions.length = s.nodeIndex.positions.length ∧
      s'.insertedNodes.length = s.insertedNodes.length ∧
      view s' = Function.update (view s) id (some (c, d', l)) := by
  obtain ⟨k, r, hN, hR, hn, hvv⟩ := view_some_iff.1 hv
  simp only [Prod.mk.injEq] at hvv
  obtain ⟨h1, h2, h3⟩ := hvv
  subst h1 h2 h3
  have hkl := lt_of_get hR
  have hrec : ∀ (j : Nat) (r1 : HeapNode δ), s.insertedNodes[j]? = some r1 →
      ∃ r' : HeapNode δ, (s.insertedNodes.set k { r with data := d' })[j]? = some r' ∧
        r'.node = r1.node ∧ r'.key = r1.key ∧ r'.weight = r1.weight ∧
        r'.data = if j = k then d' else r1.data := by
    intro j r1 hr1
    by_cases hjk : j = k
    · subst hjk
      rw [hR] at hr1
      have := Option.some.inj hr1
      subst this
      exact ⟨_, get_set_self _ hkl, rfl, rfl, rfl, by simp⟩
    · exact ⟨r1, by rw [get_set_other _ (Ne.symm hjk)]; exact hr1, rfl, rfl, rfl, by simp [hjk]⟩
  refine ⟨{ s with insertedNodes := s.insertedNodes.set k { r with data := d' } }, ?_,
    ⟨⟨?_, ?_, ?_⟩, hi.ord⟩, rfl, rfl, by simp, ?_⟩
  · simp only [SetData, get_ok hN, rd_ok hR, wr_ok _ hkl, bind, Except.bind, pure, Except.pure]
  · intro i e h1 he
    obtain ⟨a, r0, hr0, b, c⟩ := hi.idx.tree i e h1 he
    obtain ⟨r', hr', _, b', c', _⟩ := hrec _ r0 hr0
    exact ⟨a, r', hr', b'.trans b, c'.trans c⟩
  · intro j r' hr' h0 hx
    obtain ⟨r0, hr0⟩ := get_of_lt (show j < s.insertedNodes.length by
      have := lt_of_get hr'; simpa using this)
    obtain ⟨r2, hr2, _, b, _⟩ := hrec j r0 hr0
    rw [hr'] at hr2
    have := Option.some.inj hr2
    subst this
    rw [b] at h0 ⊢
    exact hi.idx.record j r0 hr0 h0 hx
  · intro j r' hr'
    obtain ⟨r0, hr0⟩ := get_of_lt (show j < s.insertedNodes.length by
      have := lt_of_get hr'; simpa using this)
    obtain ⟨r2, hr2, a, _⟩ := hrec j r0 hr0
    rw [hr'] at hr2
    have := Option.some.inj hr2
    subst this
    rw [a]
    exact hi.idx.ids j r0 hr0
  · funext id'
    rcases @view_cases δ s
        { s with insertedNodes := s.insertedNodes.set k { r with data := d' } } rfl
        (by simp) (fun j r1 hr1 => by
          obtain ⟨r', hr', a, _⟩ := hrec j r1 hr1
          exact ⟨r', hr', a⟩) id' with ⟨h1, h2⟩ | ⟨j, r1, r', hr1, hr', hrn, h1, h2⟩
    · by_cases hid : id' = id
      · subst hid; rw [hv] at h1; exact absurd h1 (by simp)
      · rw [Function.update_noteq hid, h1, h2]
    · obtain ⟨r2, hr2, _, b, c, e⟩ := hrec j r1 hr1
      rw [hr'] at hr2
      have := Option.some.inj hr2
      subst this
      have hNj := hi.idx.ids j r1 hr1
      rw [hrn] at hNj
      by_cases hid : id' = id
      · subst hid
        rw [hN] at hNj
        have hjk := (Option.some.inj hNj).symm
        subst hjk
        rw [hR] at hr1
        have := Option.some.inj hr1
        subst this
        rw [Function.update_same, h2, b, c, e]
        simp
      · have hjk : j ≠ k := by
          intro hh
          subst hh
          rw [hR] at hr1
          have := Option.some.inj hr1
          subst this
          exact hid (hrn.symm.trans hn)
        rw [Function.update_noteq hid, h1, h2, b, c, e, if_neg hjk]

theorem DeleteMin_view {s : BinaryHeap δ} (hi : Inv s) (hs : 0 < Size s) :
    ∃ (s' : BinaryHeap δ) (id : Nat) (c : Int) (d : δ), DeleteMin s = .ok (s', id) ∧ Inv s' ∧
      view s id = some (c, d, true) ∧
      (∀ (id' : Nat) (c' : Int) (d' : δ), view s id' = some (c', d', true) → c ≤ c') ∧
      view s' = Function.update (view s) id (some (c, d, false)) ∧
      Size s' + 1 = Size s ∧
      s'.nodeIndex.positions.length = s.nodeIndex.positions.length ∧
      s'.insertedNodes.length = s.insertedNodes.length := by
  have hl : 1 < s.heap.length := by simp only [Size] at hs; omega
  obtain ⟨s', e, r, he, hr, hrk, hrun, hinv, hlen, hN, hcount, hrec⟩ := DeleteMin_spec hi hl
  have hNr := hi.idx.ids _ r hr
  have hvr : view s r.node = some (r.weight, r.data, true) := by
    rw [view_of_rec hNr hr rfl, bne_iff_ne.2 (by omega)]
  refine ⟨s', r.node, r.weight, r.data, hrun, hinv, hvr, ?_, ?_, by simp only [Size]; omega,
    by rw [hN], hcount⟩
  · intro id' c' d' hv'
    obtain ⟨k, r1, hN1, hR1, hn1, hvv⟩ := view_some_iff.1 hv'
    simp only [Prod.mk.injEq] at hvv
    obtain ⟨h1, _, h3⟩ := hvv
    have h0 : r1.key ≠ 0 := by
      intro h0
      simp [h0] at h3
    obtain ⟨e1, he1, he1k⟩ := hi.idx.record k r1 hR1 h0 (by simp)
    obtain ⟨_, r2, hr2, _, hr2w⟩ := hi.idx.tree r1.key e1 (by omega) he1
    rw [he1k, hR1] at hr2
    have := Option.some.inj hr2
    subst this
    obtain ⟨_, r3, hr3, _, hr3w⟩ := hi.idx.tree 1 e (le_refl 1) he
    rw [hr] at hr3
    have := Option.some.inj hr3
    subst this
    have := Ord_root_le hi.ord he r1.key e1 (by omega) he1
    omega
  · funext id'
    rcases view_cases hN hcount (fun j r1 hr1 => by
        obtain ⟨r', hr', a, _⟩ := hrec j r1 hr1
        exact ⟨r', hr', a⟩) id' with ⟨h1, h2⟩ | ⟨j, r1, r', hr1, hr', hrn, h1, h2⟩
    · by_cases hid : id' = r.node
      · subst hid; rw [hvr] at h1; exact absurd h1 (by simp)
      · rw [Function.update_noteq hid, h1, h2]
    · obtain ⟨r2, hr2, _, b, c, f⟩ := hrec j r1 hr1
      rw [hr'] at hr2
      have := Option.some.inj hr2
      subst this
      have hNj := hi.idx.ids j r1 hr1
      rw [hrn] at hNj
      by_cases hid : id' = r.node
      · subst hid
        rw [hNr] at hNj
        have hjk := (Option.some.inj hNj).symm
        subst hjk
        rw [hr] at hr1
        have := Option.some.inj hr1
        subst this
        have h0 : r'.key = 0 := f.2 (Or.inr rfl)
        rw [Function.update_same, h2, b, c, h0]
        rfl
      · have hjk : j ≠ e.index := by
          intro hh
          subst hh
          rw [hr] at hr1
          have := Option.some.inj hr1
          subst this
          exact hid hrn.symm
        rw [Function.update_noteq hid, h1, h2, b, c]
        have : (r'.key = 0 ↔ r1.key = 0) := by
          rw [f]
          constructor
          · rintro (h | h)
            · exact h
            · exact absurd h hjk
          · exact Or.inl
        rw [bne_congr this]

theorem DeleteAll_view {s : BinaryHeap δ} (hi : Inv s) :
    ∃ s', DeleteAll s = .ok s' ∧ Inv s' ∧ Size s' = 0 ∧
      s'.nodeIndex.positions.length = s.nodeIndex.positions.length ∧
      s'.insertedNodes.length = s.insertedNodes.length ∧
      ∀ id, view s' id = (view s id).map fun v => (v.1, v.2.1, false) := by
  obtain ⟨s', hrun, hinv, hlen, hN, hcount, hrec⟩ := DeleteAll_spec hi
  refine ⟨s', hrun, hinv, by simp only [Size]; omega, by rw [hN], hcount, ?_⟩
  intro id'
  rcases view_cases hN hcount (fun j r1 hr1 => by
      obtain ⟨r', hr', a, _⟩ := hrec j r1 hr1
      exact ⟨r', hr', a⟩) id' with ⟨h1, h2⟩ | ⟨j, r1, r', hr1, hr', hrn, h1, h2⟩
  · rw [h1, h2]; rfl
  · obtain ⟨r2, hr2, _, b, c, f⟩ := hrec j r1 hr1
    rw [hr'] at hr2
    have := Option.some.inj hr2
    subst this
    rw [h1, h2, b, c, f]
    rfl

/-- An empty tree has no live id. -/
theorem view_of_Size_zero {s : BinaryHeap δ} (hi : Inv s) (hs : Size s = 0) {id : Nat}
    {c : Int} {d : δ} {l : Bool} (hv : view s id = some (c, d, l)) : l = false := by
  obtain ⟨k, r, hN, hR, hn, hvv⟩ := view_some_iff.1 hv
  simp only [Prod.mk.injEq] at hvv
  obtain ⟨_, _, h3⟩ := hvv
  rw [h3]
  by_cases h0 : r.key = 0
  · simp [h0]
  · obtain ⟨e, he, _⟩ := hi.idx.record k r hR h0 (by simp)
    have := lt_of_get he
    simp only [Size] at hs
    omega

/-- A live id makes the tree non-empty. -/
theorem Size_pos_of_live {s : BinaryHeap δ} (hi : Inv s) {id : Nat} {c : Int} {d : δ}
    (hv : view s id = some (c, d, true)) : 0 < Size s := by
  by_contra h
  have := view_of_Size_zero hi (by omega) hv
  exact absurd this (by simp)

theorem MinKey_view {s : BinaryHeap δ} (hi : Inv s) (hs : 0 < Size s) :
    ∃ (m : Nat) (c : Int) (d : δ), MinKey s = .ok c ∧ view s m = some (c, d, true) ∧
      ∀ (id' : Nat) (c' : Int) (d' : δ), view s id' = some (c', d', true) → c ≤ c' := by
  obtain ⟨s', id, c, d, hrun, _, hv, hmin, _⟩ := DeleteMin_view hi hs
  obtain ⟨m, k, hm, hk, hlive, hkey, _⟩ := Min_obs hi hs
  have hl : 1 < s.heap.length := by simp only [Size] at hs; omega
  obtain ⟨e, he⟩ := get_of_lt hl
  obtain ⟨_, r, hr, _, _⟩ := hi.idx.tree 1 e (le_refl 1) he
  have h1 : MinKey s = .ok r.weight := by
    simp only [MinKey, assert_ok hl, rd_ok he, rd_ok hr, bind, Except.bind, pure, Except.pure]
  have h2 : DeleteMin s = .ok (s', id) := hrun
  obtain ⟨s2, e2, r2, he2, hr2, _, hrun2, _⟩ := DeleteMin_spec hi hl
  rw [he] at he2
  have := Option.some.inj he2
  subst this
  rw [hr] at hr2
  have := Option.some.inj hr2
  subst this
  rw [hrun2] at h2
  have hid : r.node = id := (Prod.mk.inj (Except.ok.inj h2)).2
  have hNr := hi.idx.ids _ r hr
  rw [← hid, view_of_rec hNr hr rfl] at hv
  simp only [Option.some.injEq, Prod.mk.injEq] at hv
  refine ⟨id, c, d, by rw [h1, hv.1], ?_, hmin⟩
  rw [← hid, view_of_rec hNr hr rfl, hv.1, hv.2.1, hv.2.2]

/-- Pigeonhole: there are no more insertion records than ids. -/
theorem Inv_count_le {s : BinaryHeap δ} (hi : Inv s) :
    s.insertedNodes.length ≤ s.nodeIndex.positions.length := by
  have hnd : (s.insertedNodes.map (·.node)).Nodup := by
    rw [List.nodup_iff_injective_getElem]
    intro ⟨i, hi1⟩ ⟨j, hj1⟩ hij
    simp only [List.getElem_map] at hij
    simp only [List.length_map] at hi1 hj1
    have h1 := hi.idx.ids i _ (List.getElem?_eq_getElem hi1)
    have h2 := hi.idx.ids j _ (List.getElem?_eq_getElem hj1)
    rw [hij, h2] at h1
    have := Option.some.inj h1
    exact Fin.ext this.symm
  have hsub : s.insertedNodes.map (·.node) ⊆ List.range s.nodeIndex.positions.length := by
    intro x hx
    obtain ⟨r, hr, hrx⟩ := List.mem_map.1 hx
    obtain ⟨k, hk⟩ := List.mem_iff_getElem?.1 hr
    have := lt_of_get (hi.idx.ids k r hk)
    rw [List.mem_range, ← hrx]
    exact this
  have := (hnd.subperm hsub).length_le
  simpa using this

theorem Clear_view (s0 : BinaryHeap δ) (id : Nat) : view (Clear s0) id = none :=
  view_none_iff.2 (Clear_fresh s0 id)

end BinaryHeap
end MoNav

namespace MoNav

theorem u32_eq {n : Nat} (h : n < 4294967296) : u32 n = n := Nat.mod_eq_of_lt h

theorem i32_eq {z : Int} (h1 : 0 ≤ z) (h2 : z < 2147483648) : i32 z = z := by
  unfold i32
  omega

theorem forLoop_spec {α σ : Type} (body : α → σ → Except Fault (σ × Bool))
    (I : List α → σ → Prop) (l : List α) (s0 : σ) (h0 : I [] s0)
    (hstep : ∀ (done : List α) (a : α) (rest : List α) (s : σ), l = done ++ a :: rest →
      I done s → ∃ s', body a s = .ok (s', false) ∧ I (done ++ [a]) s') :
    ∃ s', forLoop body l s0 = .ok s' ∧ I l s' := by
  have key : ∀ (rest done : List α) (s : σ), l = done ++ rest → I done s →
      ∃ s', forLoop body rest s = .ok s' ∧ I l s' := by
    intro rest
    induction rest with
    | nil =>
      intro done s hl hI
      rw [List.append_nil] at hl
      subst hl
      exact ⟨s, rfl, hI⟩
    | cons a rest ih =>
      intro done s hl hI
      obtain ⟨s1, hb, hI1⟩ := hstep done a rest s hl hI
      obtain ⟨s', hrun, hI'⟩ := ih (done ++ [a]) s1 (by rw [hl]; simp) hI1
      refine ⟨s', ?_, hI'⟩
      simp only [forLoop, hb, bind, Except.bind]
      exact hrun
  exact key l [] s0 rfl h0

namespace TurnQuery
open BinaryHeap

section Setting
variable {g : Graph} {s s2 t t2 : Nat}

/-- The last edge of a walk is stored at an existing node. -/
theorem Walk_last (hS : Setting g s s2 t t2) {es : List Nat} {e c : Nat}
    (h : Walk g s s2 es e c) : ∃ n, n < g.GetNumberOfNodes ∧ e ∈ g.edgesOf n := by
  induction h with
  | seed e he _ => exact ⟨s, hS.hs, he⟩
  | step es e c e' _ he' _ ih =>
    obtain ⟨n, hn, hen⟩ := ih
    exact ⟨g.GetTarget e, hS.wf.target n hn e hen, he'⟩

/-- Facts about an edge stored at an existing node of a forward-only graph. -/
theorem edge_facts (hS : Setting g s s2 t t2) {n e : Nat} (hn : n < g.GetNumberOfNodes)
    (he : e ∈ g.edgesOf n) :
    g.GetTarget e < g.GetNumberOfNodes ∧
    g.GetOriginalEdgeSource e < g.GetOriginalOutDegree n ∧
    g.GetOriginalEdgeTarget e < g.GetOriginalInDegree (g.GetTarget e) ∧
    0 < (g.GetEdgeData e).distance ∧ (g.GetEdgeData e).distance < 4294967296 ∧
    (g.GetEdgeData e).forward = true ∧ (g.GetEdgeData e).backward = false ∧
    (g.GetEdgeData e).shortcut = false := by
  obtain ⟨f1, f2, f3⟩ := hS.fo n hn e he
  obtain ⟨s1, s2'⟩ := (hS.wf.slots n hn e he).1 f1
  exact ⟨hS.wf.target n hn e he, s1, s2', (hS.wf.distance n hn e he).1, (hS.wf.distance n hn e he).2,
    f1, f2, f3⟩

/-- Keys of original edges determine node and local index. -/
theorem key_inj (hS : Setting g s s2 t t2) {n m i j : Nat} (hn : n < g.GetNumberOfNodes)
    (hm : m < g.GetNumberOfNodes)
    (hi : i < max (g.GetOriginalInDegree n) (g.GetOriginalOutDegree n))
    (hj : j < max (g.GetOriginalInDegree m) (g.GetOriginalOutDegree m))
    (h : g.GetFirstOriginalEdge n + i = g.GetFirstOriginalEdge m + j) : n = m ∧ i = j := by
  have hnm := hS.wf.disjoint n hn m hm i hi j hj h
  subst hnm
  exact ⟨rfl, by omega⟩

theorem key_lt (hS : Setting g s s2 t t2) {n i : Nat} (hn : n < g.GetNumberOfNodes)
    (hi : i < max (g.GetOriginalInDegree n) (g.GetOriginalOutDegree n)) :
    g.GetFirstOriginalEdge n + i < g.GetNumberOfOriginalEdges ∧
      u32 (g.GetFirstOriginalEdge n + i) = g.GetFirstOriginalEdge n + i := by
  have h1 := hS.wf.block n hn
  have h2 := hS.wf.cap
  have h3 : g.GetFirstOriginalEdge n + i < g.GetNumberOfOriginalEdges := by omega
  exact ⟨h3, u32_eq (by omega)⟩

/-- The penalty functors read the penalty table at the local indices themselves. -/
theorem penalty_fwd (hS : Setting g s s2 t t2) {n i o : Nat} (hn : n < g.GetNumberOfNodes)
    (hi : i < g.GetOriginalInDegree n) (ho : o < g.GetOriginalOutDegree n) :
    ComputePenaltyForward g n i o = g.GetPenaltyData n i o := by
  obtain ⟨h1, h2⟩ := hS.wf.degree n hn
  unfold ComputePenaltyForward
  rw [Nat.mod_eq_of_lt (by omega), Nat.mod_eq_of_lt (by omega)]

theorem penalty_bwd (hS : Setting g s s2 t t2) {n i o : Nat} (hn : n < g.GetNumberOfNodes)
    (hi : i < g.GetOriginalInDegree n) (ho : o < g.GetOriginalOutDegree n) :
    ComputePenaltyBackward g n o i = g.GetPenaltyData n i o := by
  obtain ⟨h1, h2⟩ := hS.wf.degree n hn
  unfold ComputePenaltyBackward
  rw [Nat.mod_eq_of_lt (by omega), Nat.mod_eq_of_lt (by omega)]

/-- Facts about the state that a heap entry stands for. -/
theorem state_facts (hS : Setting g s s2 t t2) {k : Nat} {c : Int} {d : HeapData}
    (h : IsState g s s2 t t2 k c d) :
    d.node < g.GetNumberOfNodes ∧ d.originalEdge < g.GetOriginalInDegree d.node ∧
      k = g.GetFirstOriginalEdge d.node + d.originalEdge ∧ 0 ≤ c ∧ c ≤ 2147483647 ∧
      d.stalled = false := by
  obtain ⟨es, e, cost, hw, hc, hn, ho, hk, hst, hb⟩ := h
  obtain ⟨n, hn1, hen⟩ := Walk_last hS hw
  obtain ⟨f1, _, f3, _⟩ := edge_facts hS hn1 hen
  have hr := hS.range.tent e cost hb
  rw [hn, ho, hc]
  exact ⟨f1, f3, hk, by omega, by exact_mod_cast hr, hst⟩

end Setting
end TurnQuery
end MoNav

namespace MoNav
namespace TurnQuery
open BinaryHeap

theorem meetBody_none (g : Graph) (d : Dir) {hb : Heap} (originalEdge : Nat) (distance : Int)
    (data : HeapData) (firstOriginal out : Nat) (st : Middle × Int)
    (hc : u32 (firstOriginal + out) < hb.nodeIndex.positions.length)
    (hv : view hb (u32 (firstOriginal + out)) = none) :
    meetBody g d hb originalEdge distance data firstOriginal out st = .ok (st, false) := by
  have h1 : hb.WasInserted (u32 (firstOriginal + out)) = .ok false := by
    rw [WasInserted_view hc, hv]; rfl
  simp only [meetBody, h1, bind, Except.bind, pure, Except.pure]
  simp

theorem meetBody_some (g : Graph) (d : Dir) {hb : Heap} (originalEdge : Nat) (distance : Int)
    (data : HeapData) (firstOriginal out : Nat) (st : Middle × Int)
    {cb : Int} {db : HeapData} {lb : Bool}
    (hv : view hb (u32 (firstOriginal + out)) = some (cb, db, lb))
    (hst : db.stalled = false) :
    meetBody g d hb originalEdge distance data firstOriginal out st =
      .ok (if d.penaltyFunction g data.node data.originalEdge out = RESTRICTED_TURN then st
           else if i32 (cb + d.penaltyFunction g data.node data.originalEdge out + distance) <
               st.2 then
             (d.middleFunction data.node originalEdge (u32 (firstOriginal + out)),
               i32 (cb + d.penaltyFunction g data.node data.originalEdge out + distance))
           else st, false) := by
  obtain ⟨h1, h2, h3, _, _⟩ := observers_view hv
  simp only [meetBody, h1, h2, h3, hst, bind, Except.bind, pure, Except.pure]
  by_cases hp : d.penaltyFunction g data.node data.originalEdge out = RESTRICTED_TURN
  · simp [hp]
  · by_cases hlt : i32 (cb + d.penaltyFunction g data.node data.originalEdge out + distance) <
        st.2
    · simp [hp, hlt]
    · simp [hp, hlt]

section Setting
variable {g : Graph} {s s2 t t2 : Nat}

/-- The meeting loop of a forward step. -/
theorem meet_fwd (hS : Setting g s s2 t t2) {hb : Heap} (hB : BwdInv g t t2 hb)
    {es : List Nat} {e cost : Nat} (hw : Walk g s s2 es e cost)
    (htent : TentW g s s2 t t2 e cost)
    (data : HeapData) (hdn : data.node = g.GetTarget e)
    (hdo : data.originalEdge = g.GetOriginalEdgeTarget e) (originalEdge : Nat)
    (hoe : originalEdge = g.GetFirstOriginalEdge (g.GetTarget e) + g.GetOriginalEdgeTarget e)
    (mid : Middle) (T : Int) (hT : TargetOK g s s2 t t2 mid T) :
    ∃ (mid' : Middle) (T' : Int),
      forLoop (meetBody g Dir.fwd hb originalEdge (cost : Int) data
          (g.GetFirstOriginalEdge data.node))
        (List.range (Dir.fwd.degOut g data.node)) (mid, T) = .ok (mid', T') ∧
      T' ≤ T ∧ TargetOK g s s2 t t2 mid' T' ∧ Met g t t2 T' cost data := by
  obtain ⟨n0, hn0, hen0⟩ := Walk_last hS hw
  obtain ⟨hnode, _, hslot, _⟩ := edge_facts hS hn0 hen0
  rw [← hdn] at hnode
  rw [← hdn, ← hdo] at hslot
  obtain ⟨st', hrun, hI⟩ := forLoop_spec
    (meetBody g Dir.fwd hb originalEdge (cost : Int) data (g.GetFirstOriginalEdge data.node))
    (fun done st => st.2 ≤ T ∧ TargetOK g s s2 t t2 st.1 st.2 ∧
      ∀ o ∈ done, data.node = t2 → ∀ et ∈ g.edgesOf t2, g.GetTarget et = t →
        g.GetOriginalEdgeSource et = o →
        g.GetPenaltyData t2 data.originalEdge o ≠ 255 →
        st.2 ≤ cost + g.GetPenaltyData t2 data.originalEdge o + (g.GetEdgeData et).distance)
    (List.range (Dir.fwd.degOut g data.node)) (mid, T)
    ⟨le_refl _, hT, by simp⟩
    (by
      intro done o rest st hl ⟨hle, hok, hdone⟩
      have ho : o < g.GetOriginalOutDegree data.node := by
        have : o ∈ List.range (Dir.fwd.degOut g data.node) := by rw [hl]; simp
        simpa [Dir.fwd] using this
      obtain ⟨hklt, hku⟩ := key_lt hS hnode (show o < max _ _ from lt_max_of_lt_right ho)
      have hpen : Dir.fwd.penaltyFunction g data.node data.originalEdge o =
          g.GetPenaltyData data.node data.originalEdge o := penalty_fwd hS hnode hslot ho
      cases hv : view hb (g.GetFirstOriginalEdge data.node + o) with
      | none =>
        refine ⟨st, meetBody_none g Dir.fwd _ _ _ _ _ _ (by rw [hku, hB.cap]; exact hklt)
          (by rw [hku]; exact hv), hle, hok, ?_⟩
        intro o' ho' hnt et het hett hsrc hp
        simp only [List.mem_append, List.mem_singleton] at ho'
        rcases ho' with ho' | ho'
        · exact hdone o' ho' hnt et het hett hsrc hp
        · exfalso
          obtain ⟨c, d, l, hvs, _⟩ := hB.seeds et het hett
          rw [hsrc, ho', ← hnt, hv] at hvs
          exact absurd hvs (by simp)
      | some v =>
        obtain ⟨cb, db, lb⟩ := v
        obtain ⟨hst, _, eb, heb, hebt, hk, hcb, _⟩ := hB.entries _ _ _ _ hv
        obtain ⟨_, hsb, _, _, hdb, _⟩ := edge_facts hS hS.ht2 heb
        obtain ⟨hnt, hob⟩ := key_inj hS hnode hS.ht2
          (show o < max _ _ from lt_max_of_lt_right ho)
          (show g.GetOriginalEdgeSource eb < max _ _ from lt_max_of_lt_right hsb) hk
        have hbody := meetBody_some g Dir.fwd originalEdge (cost : Int) data
          (g.GetFirstOriginalEdge data.node) o st (by rw [hku]; exact hv) hst
        rw [hpen] at hbody
        have hp255 := hS.wf.penalty data.node data.originalEdge o
        -- the entry bounds every edge with this local index
        have hseed : ∀ et ∈ g.edgesOf t2, g.GetTarget et = t →
            g.GetOriginalEdgeSource et = o → cb ≤ (g.GetEdgeData et).distance := by
          intro et het hett hsrc
          obtain ⟨c, d, l, hvs, hc⟩ := hB.seeds et het hett
          rw [hsrc, ← hnt, hv] at hvs
          simp only [Option.some.injEq, Prod.mk.injEq] at hvs
          rw [hvs.1]
          exact hc
        by_cases hp : g.GetPenaltyData data.node data.originalEdge o = RESTRICTED_TURN
        · rw [if_pos hp] at hbody
          refine ⟨st, hbody, hle, hok, ?_⟩
          intro o' ho' hnt' et het hett hsrc hp'
          simp only [List.mem_append, List.mem_singleton] at ho'
          rcases ho' with ho' | ho'
          · exact hdone o' ho' hnt' et het hett hsrc hp'
          · rw [ho', ← hnt'] at hp'
            exact absurd hp hp'
        · rw [if_neg hp] at hbody
          have hp254 : g.GetPenaltyData data.node data.originalEdge o ≤ 254 := by
            have : g.GetPenaltyData data.node data.originalEdge o ≠ 255 := hp
            omega
          have hnew : i32 (cb + g.GetPenaltyData data.node data.originalEdge o + cost) =
              ((cost + g.GetPenaltyData data.node data.originalEdge o +
                (g.GetEdgeData eb).distance : Nat) : Int) := by
            have hm := hS.range.meet e cost htent (hdn.symm.trans hnt) eb heb hebt
              (by rw [← hdo, ← hob, ← hnt]; exact hp)
            rw [← hdo, ← hob, ← hnt] at hm
            rw [i32_eq (by rw [hcb]; positivity) (by rw [hcb]; omega), hcb]
            push_cast
            ring
          have hpath : IsPath g s s2 t t2 (es ++ [eb])
              (cost + g.GetPenaltyData data.node data.originalEdge o +
                (g.GetEdgeData eb).distance) := by
            refine ⟨eb, ?_, heb, hebt⟩
            have := Walk.step es e cost eb hw (by rw [← hdn, hnt]; exact heb)
              (by rw [← hdn, ← hdo, ← hob]; exact hp)
            rw [← hdn, ← hdo, ← hob] at this
            exact this
          have hmid : MidOK g s s2 t t2
              (Dir.fwd.middleFunction data.node originalEdge
                (u32 (g.GetFirstOriginalEdge data.node + o)))
              (cost + g.GetPenaltyData data.node data.originalEdge o +
                (g.GetEdgeData eb).distance) := by
            refine ⟨es, e, cost, eb, hw, hdn.symm.trans hnt, heb, hebt, ?_, ?_, ?_⟩
            · rw [← hdo, ← hob, ← hnt]; exact hp
            · rw [← hdo, ← hob, ← hnt]
            · rw [hku, hoe, ← hdn, hnt, hob]
              rfl
          rw [hnew] at hbody
          have hfin : ∀ T'' : Int, T'' ≤ st.2 →
              T'' ≤ ((cost + g.GetPenaltyData data.node data.originalEdge o +
                (g.GetEdgeData eb).distance : Nat) : Int) →
              ∀ o' ∈ done ++ [o], data.node = t2 → ∀ et ∈ g.edgesOf t2, g.GetTarget et = t →
                g.GetOriginalEdgeSource et = o' →
                g.GetPenaltyData t2 data.originalEdge o' ≠ 255 →
                T'' ≤ cost + g.GetPenaltyData t2 data.originalEdge o' +
                  (g.GetEdgeData et).distance := by
            intro T'' h1 h2 o' ho' hnt' et het hett hsrc hp'
            simp only [List.mem_append, List.mem_singleton] at ho'
            rcases ho' with ho' | ho'
            · exact le_trans h1 (hdone o' ho' hnt' et het hett hsrc hp')
            · have h3 := hseed et het hett (hsrc.trans ho')
              rw [hcb] at h3
              rw [ho', ← hnt']
              push_cast at h2 ⊢
              omega
          by_cases hlt : ((cost + g.GetPenaltyData data.node data.originalEdge o +
                (g.GetEdgeData eb).distance : Nat) : Int) < st.2
          · rw [if_pos hlt] at hbody
            refine ⟨_, hbody, le_trans (le_of_lt hlt) hle, Or.inr ⟨_, _, hpath, rfl, hmid⟩, ?_⟩
            exact hfin _ (le_of_lt hlt) (le_refl _)
          · rw [if_neg hlt] at hbody
            exact ⟨st, hbody, hle, hok, hfin _ (le_refl _) (by omega)⟩)
  refine ⟨st'.1, st'.2, hrun, hI.1, hI.2.1, ?_⟩
  intro hnt et het hett hp
  obtain ⟨_, hsb, _⟩ := edge_facts hS hS.ht2 het
  exact hI.2.2 (g.GetOriginalEdgeSource et)
    (by rw [List.mem_range]; show _ < g.GetOriginalOutDegree data.node; rw [hnt]; exact hsb)
    hnt et het hett rfl hp

end Setting
end TurnQuery
end MoNav

namespace MoNav
namespace TurnQuery
open BinaryHeap

section Setting
variable {g : Graph} {s s2 t t2 : Nat}

/-- An edge that is skipped or does not improve its target keeps the loop invariant. -/
theorem RelaxInv_keep {hf1 h : Heap} {data : HeapData} {cost : Nat} {done : List Nat}
    (hJ : RelaxInv g s s2 t t2 hf1 data cost done h) (e' : Nat)
    (he' : g.GetPenaltyData data.node data.originalEdge (g.GetOriginalEdgeSource e') ≠ 255 →
      ∃ (c' : Int) (d' : HeapData) (l' : Bool),
        view h (g.GetFirstOriginalEdge (g.GetTarget e') + g.GetOriginalEdgeTarget e') =
          some (c', d', l') ∧
        c' ≤ cost + g.GetPenaltyData data.node data.originalEdge (g.GetOriginalEdgeSource e') +
          (g.GetEdgeData e').distance) :
    RelaxInv g s s2 t t2 hf1 data cost (done ++ [e']) h := by
  refine ⟨hJ.inv, hJ.cap, hJ.entries, hJ.count, hJ.measure, hJ.pres, hJ.grow, hJ.live,
    hJ.remset, ?_, hJ.parents⟩
  intro e he hp
  simp only [List.mem_append, List.mem_singleton] at he
  rcases he with he | he
  · exact hJ.relaxed e he hp
  · subst he
    exact he' hp

/-- An edge that inserts its target or lowers the key of its live target keeps the loop
invariant. -/
theorem RelaxInv_update {hf1 h h' : Heap} {data : HeapData} {cost : Nat} {done : List Nat}
    (hJ : RelaxInv g s s2 t t2 hf1 data cost done h) (e' : Nat) {newc : Int} {nd : HeapData}
    (hinv : Inv h') (hcap : h'.nodeIndex.positions.length = g.GetNumberOfOriginalEdges)
    (hcount : h.insertedNodes.length ≤ h'.insertedNodes.length)
    (hmeasure : Size h' + 2 * h.insertedNodes.length ≤ Size h + 2 * h'.insertedNodes.length)
    (hview : view h' = Function.update (view h)
      (g.GetFirstOriginalEdge (g.GetTarget e') + g.GetOriginalEdgeTarget e')
      (some (newc, nd, true)))
    (hold : view h (g.GetFirstOriginalEdge (g.GetTarget e') + g.GetOriginalEdgeTarget e') =
        none ∨
      ∃ (c : Int) (d' : HeapData),
        view h (g.GetFirstOriginalEdge (g.GetTarget e') + g.GetOriginalEdgeTarget e') =
          some (c, d', true) ∧ newc ≤ c)
    (hstate : IsState g s s2 t t2
      (g.GetFirstOriginalEdge (g.GetTarget e') + g.GetOriginalEdgeTarget e') newc nd)
    (hlow : (cost : Int) ≤ newc)
    (hup : newc ≤ cost +
      g.GetPenaltyData data.node data.originalEdge (g.GetOriginalEdgeSource e') +
      (g.GetEdgeData e').distance)
    (hpar : Parent g s s2
      (g.GetFirstOriginalEdge (g.GetTarget e') + g.GetOriginalEdgeTarget e') newc nd) :
    RelaxInv g s s2 t t2 hf1 data cost (done ++ [e']) h' := by
  have hother : ∀ k, k ≠ g.GetFirstOriginalEdge (g.GetTarget e') + g.GetOriginalEdgeTarget e' →
      view h' k = view h k := by
    intro k hk
    rw [hview, Function.update_noteq hk]
  have hself : view h' (g.GetFirstOriginalEdge (g.GetTarget e') + g.GetOriginalEdgeTarget e') =
      some (newc, nd, true) := by
    rw [hview, Function.update_same]
  have hnotrem : ∀ (c : Int) (d : HeapData),
      view h (g.GetFirstOriginalEdge (g.GetTarget e') + g.GetOriginalEdgeTarget e') ≠
        some (c, d, false) := by
    intro c d hh
    rcases hold with h0 | ⟨c0, d0, h0, _⟩
    · rw [h0] at hh; exact absurd hh (by simp)
    · rw [h0] at hh; simp at hh
  have hdecr : ∀ (k : Nat) (c : Int) (d : HeapData) (l : Bool), view h k = some (c, d, l) →
      ∃ (c' : Int) (d' : HeapData) (l' : Bool), view h' k = some (c', d', l') ∧ c' ≤ c := by
    intro k c d l hv
    by_cases hk : k = g.GetFirstOriginalEdge (g.GetTarget e') + g.GetOriginalEdgeTarget e'
    · subst hk
      rcases hold with h0 | ⟨c0, d0, h0, hle⟩
      · rw [h0] at hv; exact absurd hv (by simp)
      · rw [h0] at hv
        simp only [Option.some.injEq, Prod.mk.injEq] at hv
        exact ⟨newc, nd, true, hself, by rw [← hv.1]; exact hle⟩
    · exact ⟨c, d, l, by rw [hother k hk]; exact hv, le_refl _⟩
  refine ⟨hinv, hcap, ?_, le_trans hJ.count hcount, ?_, ?_, ?_, ?_, ?_, ?_, ?_⟩
  · intro k c d l hv
    by_cases hk : k = g.GetFirstOriginalEdge (g.GetTarget e') + g.GetOriginalEdgeTarget e'
    · subst hk
      rw [hself] at hv
      simp only [Option.some.injEq, Prod.mk.injEq] at hv
      rw [← hv.1, ← hv.2.1]
      exact hstate
    · rw [hother k hk] at hv
      exact hJ.entries k c d l hv
  · have := hJ.measure
    omega
  · intro k c d hv
    have h1 := hJ.pres k c d hv
    by_cases hk : k = g.GetFirstOriginalEdge (g.GetTarget e') + g.GetOriginalEdgeTarget e'
    · subst hk; exact absurd h1 (hnotrem c d)
    · rw [hother k hk]; exact h1
  · intro k c d l hv
    obtain ⟨c1, d1, l1, hv1, hle1⟩ := hJ.grow k c d l hv
    obtain ⟨c2, d2, l2, hv2, hle2⟩ := hdecr k c1 d1 l1 hv1
    exact ⟨c2, d2, l2, hv2, le_trans hle2 hle1⟩
  · intro k c d hv
    by_cases hk : k = g.GetFirstOriginalEdge (g.GetTarget e') + g.GetOriginalEdgeTarget e'
    · subst hk
      rw [hself] at hv
      simp only [Option.some.injEq, Prod.mk.injEq] at hv
      rw [← hv.1]
      exact hlow
    · rw [hother k hk] at hv
      exact hJ.live k c d hv
  · intro k c d hv
    by_cases hk : k = g.GetFirstOriginalEdge (g.GetTarget e') + g.GetOriginalEdgeTarget e'
    · subst hk
      rw [hself] at hv
      simp at hv
    · rw [hother k hk] at hv
      exact hJ.remset k c d hv
  · intro e he hp
    simp only [List.mem_append, List.mem_singleton] at he
    rcases he with he | he
    · obtain ⟨c1, d1, l1, hv1, hle1⟩ := hJ.relaxed e he hp
      obtain ⟨c2, d2, l2, hv2, hle2⟩ := hdecr _ c1 d1 l1 hv1
      exact ⟨c2, d2, l2, hv2, le_trans hle2 hle1⟩
    · subst he
      exact ⟨newc, nd, true, hself, hup⟩
  · intro k c d l hv
    by_cases hk : k = g.GetFirstOriginalEdge (g.GetTarget e') + g.GetOriginalEdgeTarget e'
    · subst hk
      rw [hself] at hv
      simp only [Option.some.injEq, Prod.mk.injEq] at hv
      rw [← hv.1, ← hv.2.1]
      exact hpar
    · rw [hother k hk] at hv
      exact hJ.parents k c d l hv

end Setting
end TurnQuery
end MoNav

namespace MoNav
namespace TurnQuery
open BinaryHeap

theorem edgeBody_fwd (g : Graph) (sod : Bool) (u : Nat) (distance : Int) (data : HeapData)
    (e' : Nat) (h h' : Heap) (q : List StallQueueItem)
    (hd : (g.GetEdgeData e').distance > 0) (hb : (g.GetEdgeData e').backward = false)
    (hr : relaxEdge g Dir.fwd u distance data e' h = .ok h') :
    edgeBody g Dir.fwd sod u distance data e' (h, q) = .ok ((h', q), false) := by
  simp only [edgeBody, assert_ok hd, Dir.fwd, AllowBackwardEdge, hb, Bool.and_false, bind,
    Except.bind, pure, Except.pure]
  simp only [Dir.fwd] at hr
  simp [hr]

theorem relaxEdge_skip (g : Graph) (d : Dir) (u : Nat) (distance : Int) (data : HeapData)
    (e' : Nat) (h : Heap)
    (hp : d.edgeAllowed (g.GetEdgeData e').forward (g.GetEdgeData e').backward = false ∨
      d.penaltyFunction g data.node data.originalEdge (g.GetOriginalEdgeSource e') =
        RESTRICTED_TURN) :
    relaxEdge g d u distance data e' h = .ok h := by
  unfold relaxEdge
  rcases hp with hp | hp
  · simp [hp, pure, Except.pure]
  · by_cases ha : d.edgeAllowed (g.GetEdgeData e').forward (g.GetEdgeData e').backward = true
    · simp [ha, hp, pure, Except.pure]
    · simp [ha, pure, Except.pure]

theorem relaxEdge_insert (g : Graph) (d : Dir) (u : Nat) (distance : Int) (data : HeapData)
    (e' : Nat) (h : Heap)
    (ha : d.edgeAllowed (g.GetEdgeData e').forward (g.GetEdgeData e').backward = true)
    (hp : d.penaltyFunction g data.node data.originalEdge (g.GetOriginalEdgeSource e') ≠
      RESTRICTED_TURN)
    (hins : h.WasInserted
      (u32 (g.GetFirstOriginalEdge (g.GetTarget e') + g.GetOriginalEdgeTarget e')) =
        .ok false) :
    relaxEdge g d u distance data e' h =
      h.Insert (u32 (g.GetFirstOriginalEdge (g.GetTarget e') + g.GetOriginalEdgeTarget e'))
        (i32 (distance +
          d.penaltyFunction g data.node data.originalEdge (g.GetOriginalEdgeSource e') +
          (g.GetEdgeData e').distance))
        (HeapData.new u e' (g.GetTarget e') (g.GetOriginalEdgeTarget e')) := by
  unfold relaxEdge
  simp [ha, hp, hins, bind, Except.bind]

theorem relaxEdge_update (g : Graph) (d : Dir) (u : Nat) (distance : Int) (data : HeapData)
    (e' : Nat) (h : Heap) {key : Int}
    (ha : d.edgeAllowed (g.GetEdgeData e').forward (g.GetEdgeData e').backward = true)
    (hp : d.penaltyFunction g data.node data.originalEdge (g.GetOriginalEdgeSource e') ≠
      RESTRICTED_TURN)
    (hins : h.WasInserted
      (u32 (g.GetFirstOriginalEdge (g.GetTarget e') + g.GetOriginalEdgeTarget e')) =
        .ok true)
    (hkey : h.GetKey
      (u32 (g.GetFirstOriginalEdge (g.GetTarget e') + g.GetOriginalEdgeTarget e')) =
        .ok key) :
    relaxEdge g d u distance data e' h =
      if i32 (distance +
          d.penaltyFunction g data.node data.originalEdge (g.GetOriginalEdgeSource e') +
          (g.GetEdgeData e').distance) ≤ key then
        (h.DecreaseKey
          (u32 (g.GetFirstOriginalEdge (g.GetTarget e') + g.GetOriginalEdgeTarget e'))
          (i32 (distance +
            d.penaltyFunction g data.node data.originalEdge (g.GetOriginalEdgeSource e') +
            (g.GetEdgeData e').distance))) >>= fun heap1 =>
        heap1.SetData
          (u32 (g.GetFirstOriginalEdge (g.GetTarget e') + g.GetOriginalEdgeTarget e'))
          (HeapData.new u e' (g.GetTarget e') (g.GetOriginalEdgeTarget e'))
      else .ok h := by
  unfold relaxEdge
  simp [ha, hp, hins, hkey, bind, Except.bind, pure, Except.pure]

section Setting
variable {g : Graph} {s s2 t t2 : Nat}

/-- One iteration of the edge loop of a forward step. -/
theorem relax_step (hS : Setting g s s2 t t2) (sod : Bool) {hf1 h : Heap} {data : HeapData}
    {cost : Nat} {done : List Nat} (hJ : RelaxInv g s s2 t t2 hf1 data cost done h)
    {es : List Nat} {e : Nat} (hw : Walk g s s2 es e cost)
    (hdn : data.node = g.GetTarget e) (hdo : data.originalEdge = g.GetOriginalEdgeTarget e)
    (hrem : ∀ (k : Nat) (c : Int) (d : HeapData), view hf1 k = some (c, d, false) → c ≤ cost)
    (hopen : Opens g s s2 t t2 e cost)
    (u : Nat) (hu : u = g.GetFirstOriginalEdge (g.GetTarget e) + g.GetOriginalEdgeTarget e)
    (q : List StallQueueItem) {e' : Nat} (he' : e' ∈ g.edgesOf data.node) :
    ∃ h', edgeBody g Dir.fwd sod u cost data e' (h, q) = .ok ((h', q), false) ∧
      RelaxInv g s s2 t t2 hf1 data cost (done ++ [e']) h' := by
  obtain ⟨n0, hn0, hen0⟩ := Walk_last hS hw
  obtain ⟨hnode, _, hslot, _⟩ := edge_facts hS hn0 hen0
  have n0' := hnode
  have hslot' := hslot
  rw [← hdn] at hnode
  rw [← hdn, ← hdo] at hslot
  obtain ⟨hto, hsrc, htgt, hdpos, hdD, hfwd, hbwd, _⟩ := edge_facts hS hnode he'
  obtain ⟨hklt, hku⟩ := key_lt hS hto
    (show g.GetOriginalEdgeTarget e' < max _ _ from lt_max_of_lt_left htgt)
  have hpen : Dir.fwd.penaltyFunction g data.node data.originalEdge
      (g.GetOriginalEdgeSource e') =
      g.GetPenaltyData data.node data.originalEdge (g.GetOriginalEdgeSource e') :=
    penalty_fwd hS hnode hslot hsrc
  have hallow : Dir.fwd.edgeAllowed (g.GetEdgeData e').forward (g.GetEdgeData e').backward =
      true := by
    simp [Dir.fwd, AllowForwardEdge, hfwd]
  by_cases hp : g.GetPenaltyData data.node data.originalEdge (g.GetOriginalEdgeSource e') = 255
  · refine ⟨h, edgeBody_fwd g sod u cost data e' h h q hdpos hbwd
      (relaxEdge_skip g Dir.fwd u cost data e' h (Or.inr (by rw [hpen]; exact hp))), ?_⟩
    exact RelaxInv_keep hJ e' (fun hp' => absurd hp hp')
  · have hp254 : g.GetPenaltyData data.node data.originalEdge (g.GetOriginalEdgeSource e') ≤
        254 := by
      have := hS.wf.penalty data.node data.originalEdge (g.GetOriginalEdgeSource e')
      omega
    have hpne : Dir.fwd.penaltyFunction g data.node data.originalEdge
        (g.GetOriginalEdgeSource e') ≠ RESTRICTED_TURN := by rw [hpen]; exact hp
    have htent : TentW g s s2 t t2 e'
        (cost + g.GetPenaltyData data.node data.originalEdge (g.GetOriginalEdgeSource e') +
          (g.GetEdgeData e').distance) := by
      refine Or.inr ⟨e, cost, hopen, by rw [← hdn]; exact he',
        by rw [← hdn, ← hdo]; exact hp, ?_⟩
      rw [← hdn, ← hdo]
    have hsum := hS.range.tent _ _ htent
    have hnew : i32 ((cost : Int) + Dir.fwd.penaltyFunction g data.node data.originalEdge
        (g.GetOriginalEdgeSource e') + (g.GetEdgeData e').distance) =
        ((cost + g.GetPenaltyData data.node data.originalEdge (g.GetOriginalEdgeSource e') +
          (g.GetEdgeData e').distance : Nat) : Int) := by
      rw [hpen, i32_eq (by positivity) (by omega)]
      push_cast
      ring
    have hdata : HeapData.new u e' (g.GetTarget e') (g.GetOriginalEdgeTarget e') =
        ⟨u, e', g.GetTarget e', g.GetOriginalEdgeTarget e', false⟩ := by
      have := (hS.wf.degree _ hto).1
      simp only [HeapData.new]
      rw [Nat.mod_eq_of_lt (by omega)]
    have hwalk := Walk.step es e cost e' hw (by rw [← hdn]; exact he')
      (by rw [← hdn, ← hdo]; exact hp)
    rw [← hdn, ← hdo] at hwalk
    have hstate : IsState g s s2 t t2
          (g.GetFirstOriginalEdge (g.GetTarget e') + g.GetOriginalEdgeTarget e')
          ((cost + g.GetPenaltyData data.node data.originalEdge (g.GetOriginalEdgeSource e') +
            (g.GetEdgeData e').distance : Nat) : Int)
          ⟨u, e', g.GetTarget e', g.GetOriginalEdgeTarget e', false⟩ :=
      ⟨_, e', _, hwalk, rfl, rfl, rfl, rfl, rfl, htent⟩
    have hune : u ≠ NONE := by
      have h1 := hS.wf.cap
      have h2 := (key_lt hS n0' (show g.GetOriginalEdgeTarget e < max _ _ from
        lt_max_of_lt_left hslot')).1
      rw [hu]
      unfold NONE
      omega
    have hpar : Parent g s s2
        (g.GetFirstOriginalEdge (g.GetTarget e') + g.GetOriginalEdgeTarget e')
        ((cost + g.GetPenaltyData data.node data.originalEdge (g.GetOriginalEdgeSource e') +
          (g.GetEdgeData e').distance : Nat) : Int)
        ⟨u, e', g.GetTarget e', g.GetOriginalEdgeTarget e', false⟩ := by
      refine ⟨rfl, Or.inr ⟨hune, es, e, cost, hw, hu, by rw [← hdn]; exact he',
        by rw [← hdn, ← hdo]; exact hp, ?_⟩⟩
      rw [← hdn, ← hdo]
      push_cast
      rfl
    cases hv : view h (g.GetFirstOriginalEdge (g.GetTarget e') + g.GetOriginalEdgeTarget e')
      with
    | none =>
      have hins : h.WasInserted
          (u32 (g.GetFirstOriginalEdge (g.GetTarget e') + g.GetOriginalEdgeTarget e')) =
            .ok false := by
        rw [hku, WasInserted_view (by rw [hJ.cap]; exact hklt), hv]; rfl
      obtain ⟨h', hrun, hinv', hsz', hcap', hcnt', hview'⟩ :=
        Insert_view hJ.inv (by rw [hJ.cap]; exact hklt) hv
          (show (0 : Int) ≤ ((cost + g.GetPenaltyData data.node data.originalEdge
            (g.GetOriginalEdgeSource e') + (g.GetEdgeData e').distance : Nat) : Int) by
            positivity)
          (⟨u, e', g.GetTarget e', g.GetOriginalEdgeTarget e', false⟩ : HeapData)
      refine ⟨h', edgeBody_fwd g sod u cost data e' h h' q hdpos hbwd ?_, ?_⟩
      · rw [relaxEdge_insert g Dir.fwd u cost data e' h hallow hpne hins, hnew, hdata, hku]
        exact hrun
      · exact RelaxInv_update hJ e' hinv' (by rw [hcap', hJ.cap])
          (by clear * - hcnt'; omega) (by clear * - hcnt' hsz'; omega)
          hview' (Or.inl hv) hstate (by clear * - hdpos; push_cast; omega)
          (by clear * - hdpos; push_cast; omega) hpar
    | some v =>
      obtain ⟨c, d0, l⟩ := v
      obtain ⟨hins, hkey, _, _, _⟩ := observers_view hv
      have hrl := relaxEdge_update g Dir.fwd u cost data e' h hallow hpne
        (by rw [hku]; exact hins) (by rw [hku]; exact hkey)
      rw [hnew, hdata, hku] at hrl
      by_cases hle : ((cost + g.GetPenaltyData data.node data.originalEdge
          (g.GetOriginalEdgeSource e') + (g.GetEdgeData e').distance : Nat) : Int) ≤ c
      · rw [if_pos hle] at hrl
        have hl : l = true := by
          cases l with
          | true => rfl
          | false =>
            exfalso
            have h1 := hrem _ _ _ (hJ.remset _ _ _ hv)
            clear * - h1 hle hdpos
            push_cast at hle
            omega
        subst hl
        obtain ⟨h1, hrun1, hinv1, hsz1, hcap1, hcnt1, hview1⟩ :=
          DecreaseKey_view hJ.inv hv (show (0 : Int) ≤ _ by positivity) hle
        obtain ⟨h2, hrun2, hinv2, hsz2, hcap2, hcnt2, hview2⟩ :=
          SetData_view hinv1 (by rw [hview1, Function.update_same])
            (⟨u, e', g.GetTarget e', g.GetOriginalEdgeTarget e', false⟩ : HeapData)
        refine ⟨h2, edgeBody_fwd g sod u cost data e' h h2 q hdpos hbwd ?_, ?_⟩
        · rw [hrl, hrun1]
          exact hrun2
        · exact RelaxInv_update hJ e' hinv2 (by rw [hcap2, hcap1, hJ.cap])
            (by clear * - hcnt1 hcnt2; omega) (by clear * - hcnt1 hcnt2 hsz1 hsz2; omega)
            (by rw [hview2, hview1, Function.update_idem])
            (Or.inr ⟨c, d0, hv, hle⟩) hstate (by clear * - hdpos; push_cast; omega)
            (by clear * - hdpos; push_cast; omega) hpar
      · rw [if_neg hle] at hrl
        refine ⟨h, edgeBody_fwd g sod u cost data e' h h q hdpos hbwd hrl, ?_⟩
        refine RelaxInv_keep hJ e' (fun _ => ⟨c, d0, l, hv, ?_⟩)
        clear * - hle
        push_cast at hle
        omega

end Setting
end TurnQuery
end MoNav

namespace MoNav
namespace TurnQuery
open BinaryHeap

section Setting
variable {g : Graph} {s s2 t t2 : Nat}

theorem Relaxed_mono {hf hf' : Heap} {c : Int} {d : HeapData} (h : Relaxed g hf c d)
    (hgrow : ∀ (k : Nat) (c : Int) (d : HeapData) (l : Bool), view hf k = some (c, d, l) →
      ∃ (c' : Int) (d' : HeapData) (l' : Bool), view hf' k = some (c', d', l') ∧ c' ≤ c) :
    Relaxed g hf' c d := by
  intro e he hp
  obtain ⟨c1, d1, l1, hv1, hle1⟩ := h e he hp
  obtain ⟨c2, d2, l2, hv2, hle2⟩ := hgrow _ _ _ _ hv1
  exact ⟨c2, d2, l2, hv2, le_trans hle2 hle1⟩

theorem Met_mono {T T' c : Int} {d : HeapData} (h : Met g t t2 T c d) (hle : T' ≤ T) :
    Met g t t2 T' c d := by
  intro hn e he het hp
  exact le_trans hle (h hn e he het hp)

/-- The state right after `DeleteMin` in a forward step satisfies the loop invariant. -/
theorem RelaxInv_init {T : Int} {hf hf1 : Heap} (hF : FwdInv g s s2 t t2 T hf)
    {u : Nat} {cost : Nat} {du : HeapData} (hinv1 : Inv hf1)
    (hvu : view hf u = some ((cost : Int), du, true))
    (hmin : ∀ (id' : Nat) (c' : Int) (d' : HeapData), view hf id' = some (c', d', true) →
      (cost : Int) ≤ c')
    (hview1 : view hf1 = Function.update (view hf) u (some ((cost : Int), du, false)))
    (hcap1 : hf1.nodeIndex.positions.length = hf.nodeIndex.positions.length) :
    RelaxInv g s s2 t t2 hf1 du cost [] hf1 ∧
      (∀ (k : Nat) (c : Int) (d : HeapData), view hf1 k = some (c, d, false) → c ≤ cost) ∧
      (∀ (k : Nat) (c : Int) (d : HeapData) (l : Bool), view hf k = some (c, d, l) →
        ∃ (c' : Int) (d' : HeapData) (l' : Bool), view hf1 k = some (c', d', l') ∧ c' ≤ c) := by
  have hcases : ∀ (k : Nat) (c : Int) (d : HeapData) (l : Bool), view hf1 k = some (c, d, l) →
      (k = u ∧ c = cost ∧ d = du ∧ l = false) ∨ (k ≠ u ∧ view hf k = some (c, d, l)) := by
    intro k c d l hv
    by_cases hk : k = u
    · subst hk
      rw [hview1, Function.update_same] at hv
      simp only [Option.some.injEq, Prod.mk.injEq] at hv
      exact Or.inl ⟨rfl, hv.1.symm, hv.2.1.symm, hv.2.2.symm⟩
    · rw [hview1, Function.update_noteq hk] at hv
      exact Or.inr ⟨hk, hv⟩
  refine ⟨⟨hinv1, by rw [hcap1, hF.cap], ?_, le_refl _, le_refl _, fun _ _ _ h => h,
    fun k c d l h => ⟨c, d, l, h, le_refl _⟩, ?_, fun _ _ _ h => h, by simp,
    fun k c d l hv => (hcases k c d l hv).elim
      (fun h => by
        obtain ⟨h1, h2, h3, _⟩ := h
        subst h1 h2 h3
        exact hF.parents _ _ _ _ hvu)
      (fun h => hF.parents _ _ _ _ h.2)⟩, ?_, ?_⟩
  · intro k c d l hv
    rcases hcases k c d l hv with ⟨h1, h2, h3, _⟩ | ⟨_, h2⟩
    · subst h1 h2 h3
      exact hF.entries _ _ _ _ hvu
    · exact hF.entries _ _ _ _ h2
  · intro k c d hv
    rcases hcases k c d true hv with ⟨_, _, _, h4⟩ | ⟨_, h2⟩
    · exact absurd h4 (by simp)
    · exact hmin k c d h2
  · intro k c d hv
    rcases hcases k c d false hv with ⟨_, h2, _, _⟩ | ⟨_, h2⟩
    · rw [h2]
    · exact hF.mono _ _ _ _ _ _ h2 hvu
  · intro k c d l hv
    by_cases hk : k = u
    · subst hk
      rw [hvu] at hv
      simp only [Option.some.injEq, Prod.mk.injEq] at hv
      exact ⟨cost, du, false, by rw [hview1, Function.update_same], by rw [hv.1]⟩
    · exact ⟨c, d, l, by rw [hview1, Function.update_noteq hk]; exact hv, le_refl _⟩

/-- After the edge loop of a forward step the invariant of the forward heap holds again. -/
theorem FwdInv_of_relax {T T' : Int} {hf hf1 hf2 : Heap} (hF : FwdInv g s s2 t t2 T hf)
    (hle : T' ≤ T) {u : Nat} {cost : Nat} {du : HeapData}
    (hview1 : view hf1 = Function.update (view hf) u (some ((cost : Int), du, false)))
    (hJ : RelaxInv g s s2 t t2 hf1 du cost (g.edgesOf du.node) hf2)
    (hrem : ∀ (k : Nat) (c : Int) (d : HeapData), view hf1 k = some (c, d, false) → c ≤ cost)
    (hgrow1 : ∀ (k : Nat) (c : Int) (d : HeapData) (l : Bool), view hf k = some (c, d, l) →
      ∃ (c' : Int) (d' : HeapData) (l' : Bool), view hf1 k = some (c', d', l') ∧ c' ≤ c)
    (hmet : Met g t t2 T' cost du) : FwdInv g s s2 t t2 T' hf2 := by
  have hgrow : ∀ (k : Nat) (c : Int) (d : HeapData) (l : Bool), view hf k = some (c, d, l) →
      ∃ (c' : Int) (d' : HeapData) (l' : Bool), view hf2 k = some (c', d', l') ∧ c' ≤ c := by
    intro k c d l hv
    obtain ⟨c1, d1, l1, hv1, hle1⟩ := hgrow1 k c d l hv
    obtain ⟨c2, d2, l2, hv2, hle2⟩ := hJ.grow k c1 d1 l1 hv1
    exact ⟨c2, d2, l2, hv2, le_trans hle2 hle1⟩
  refine ⟨hJ.inv, hJ.cap, hJ.entries, ?_, ?_, ?_, hJ.parents⟩
  · intro k c d k' c' d' hv hv'
    exact le_trans (hrem k c d (hJ.remset k c d hv)) (hJ.live k' c' d' hv')
  · intro k c d hv hc
    have hv1 := hJ.remset k c d hv
    by_cases hk : k = u
    · subst hk
      rw [hview1, Function.update_same] at hv1
      simp only [Option.some.injEq, Prod.mk.injEq] at hv1
      rw [← hv1.1, ← hv1.2.1]
      exact ⟨fun e he hp => hJ.relaxed e he hp, hmet⟩
    · rw [hview1, Function.update_noteq hk] at hv1
      obtain ⟨h1, h2⟩ := hF.expanded k c d hv1 (le_trans hc hle)
      exact ⟨Relaxed_mono h1 hgrow, Met_mono h2 hle⟩
  · intro e he het
    obtain ⟨c, d, l, hv, hc⟩ := hF.seeds e he het
    obtain ⟨c2, d2, l2, hv2, hle2⟩ := hgrow _ c d l hv
    exact ⟨c2, d2, l2, hv2, le_trans hle2 hc⟩

/-- After the early exit of a forward step the invariant of the forward heap holds. -/
theorem FwdInv_of_deleteAll {T T' : Int} {hf hf1 hf2 : Heap}
    (hF : FwdInv g s s2 t t2 T hf) (hle : T' ≤ T) {u : Nat} {cost : Nat} {du : HeapData}
    (hvu : view hf u = some ((cost : Int), du, true))
    (hmin : ∀ (id' : Nat) (c' : Int) (d' : HeapData), view hf id' = some (c', d', true) →
      (cost : Int) ≤ c')
    (hview1 : view hf1 = Function.update (view hf) u (some ((cost : Int), du, false)))
    (hgt : (cost : Int) > T')
    (hinv2 : Inv hf2) (hcap2 : hf2.nodeIndex.positions.length = g.GetNumberOfOriginalEdges)
    (hview2 : ∀ id, view hf2 id = (view hf1 id).map fun v => (v.1, v.2.1, false)) :
    FwdInv g s s2 t t2 T' hf2 := by
  have hback : ∀ (k : Nat) (c : Int) (d : HeapData) (l : Bool), view hf2 k = some (c, d, l) →
      l = false ∧ ∃ l', view hf k = some (c, d, l') ∧ (k = u ∨ l' = true → (cost : Int) ≤ c) := by
    intro k c d l hv
    rw [hview2] at hv
    by_cases hk : k = u
    · subst hk
      rw [hview1, Function.update_same] at hv
      simp only [Option.map_some', Option.some.injEq, Prod.mk.injEq] at hv
      refine ⟨hv.2.2.symm, true, ?_, fun _ => by rw [← hv.1]⟩
      rw [hvu, ← hv.1, ← hv.2.1]
    · rw [hview1, Function.update_noteq hk] at hv
      cases hvk : view hf k with
      | none => rw [hvk] at hv; simp at hv
      | some v =>
        obtain ⟨c0, d0, l0⟩ := v
        rw [hvk] at hv
        simp only [Option.map_some', Option.some.injEq, Prod.mk.injEq] at hv
        refine ⟨hv.2.2.symm, l0, by rw [← hv.1, ← hv.2.1], ?_⟩
        rintro (h | h)
        · exact absurd h hk
        · subst h
          rw [← hv.1]
          exact hmin k c0 d0 hvk
  have hfwd : ∀ (k : Nat) (c : Int) (d : HeapData) (l : Bool), view hf k = some (c, d, l) →
      ∃ (c' : Int) (d' : HeapData) (l' : Bool), view hf2 k = some (c', d', l') ∧ c' ≤ c := by
    intro k c d l hv
    refine ⟨c, d, false, ?_, le_refl _⟩
    rw [hview2]
    by_cases hk : k = u
    · subst hk
      rw [hvu] at hv
      simp only [Option.some.injEq, Prod.mk.injEq] at hv
      rw [hview1, Function.update_same, ← hv.1, ← hv.2.1]
      rfl
    · rw [hview1, Function.update_noteq hk, hv]
      rfl
  refine ⟨hinv2, hcap2, ?_, ?_, ?_, ?_, fun k c d l hv => by
    obtain ⟨_, l', hv', _⟩ := hback k c d l hv
    exact hF.parents _ _ _ _ hv'⟩
  · intro k c d l hv
    obtain ⟨_, l', hv', _⟩ := hback k c d l hv
    exact hF.entries _ _ _ _ hv'
  · intro k c d k' c' d' _ hv'
    have := (hback k' c' d' true hv').1
    exact absurd this (by simp)
  · intro k c d hv hc
    obtain ⟨_, l', hv', hl'⟩ := hback k c d false hv
    cases l' with
    | true =>
      have := hl' (Or.inr rfl)
      omega
    | false =>
      obtain ⟨h1, h2⟩ := hF.expanded k c d hv' (le_trans hc hle)
      exact ⟨Relaxed_mono h1 hfwd, Met_mono h2 hle⟩
  · intro e he het
    obtain ⟨c, d, l, hv, hc⟩ := hF.seeds e he het
    obtain ⟨c2, d2, l2, hv2, hle2⟩ := hfwd _ c d l hv
    exact ⟨c2, d2, l2, hv2, le_trans hle2 hc⟩

end Setting
end TurnQuery
end MoNav

namespace MoNav
namespace TurnQuery
open BinaryHeap

section Setting
variable {g : Graph} {s s2 t t2 : Nat}

/-- The entry under the key of the last edge of a walk carries node and local index of that
edge, and its weight is in the range of `int`. -/
theorem entry_facts (hS : Setting g s s2 t t2) {T : Int} {hf : Heap}
    (hF : FwdInv g s s2 t t2 T hf) {es : List Nat} {e c : Nat} (hw : Walk g s s2 es e c)
    {c' : Int} {d' : HeapData} {l' : Bool}
    (hv : view hf (g.GetFirstOriginalEdge (g.GetTarget e) + g.GetOriginalEdgeTarget e) =
      some (c', d', l')) :
    d'.node = g.GetTarget e ∧ d'.originalEdge = g.GetOriginalEdgeTarget e ∧
      g.GetTarget e < g.GetNumberOfNodes ∧ 0 ≤ c' ∧ c' ≤ 2147483647 := by
  obtain ⟨h1, h2, h3, h4, h5, _⟩ := state_facts hS (hF.entries _ _ _ _ hv)
  obtain ⟨n0, hn0, hen0⟩ := Walk_last hS hw
  obtain ⟨f1, _, f3, _⟩ := edge_facts hS hn0 hen0
  obtain ⟨k1, k2⟩ := key_inj hS h1 f1 (show d'.originalEdge < max _ _ from lt_max_of_lt_left h2)
    (show g.GetOriginalEdgeTarget e < max _ _ from lt_max_of_lt_left f3) h3.symm
  exact ⟨k1, k2, f1, h4, h5⟩

/-- Where a walk stands in the forward heap: its last state has been expanded under a key
that is not above the cost of the walk, or a live entry or an entry beyond the target
distance is not above that cost. -/
theorem walk_front (hS : Setting g s s2 t t2) {T : Int} {hf : Heap}
    (hF : FwdInv g s s2 t t2 T hf) {es : List Nat} {e c : Nat} (hw : Walk g s s2 es e c) :
    (∃ (c' : Int) (d' : HeapData),
        view hf (g.GetFirstOriginalEdge (g.GetTarget e) + g.GetOriginalEdgeTarget e) =
          some (c', d', false) ∧ c' ≤ c ∧ c' ≤ T) ∨
      (∃ (k : Nat) (c' : Int) (d' : HeapData), view hf k = some (c', d', true) ∧ c' ≤ c) ∨
      (∃ (k : Nat) (c' : Int) (d' : HeapData), view hf k = some (c', d', false) ∧ T < c' ∧
        c' ≤ c) := by
  have hsplit : ∀ (k : Nat) (c' : Int) (d' : HeapData) (l' : Bool) (c : Nat),
      view hf k = some (c', d', l') → c' ≤ c →
      (∃ (c' : Int) (d' : HeapData), view hf k = some (c', d', false) ∧ c' ≤ c ∧ c' ≤ T) ∨
      (∃ (k : Nat) (c' : Int) (d' : HeapData), view hf k = some (c', d', true) ∧ c' ≤ c) ∨
      (∃ (k : Nat) (c' : Int) (d' : HeapData), view hf k = some (c', d', false) ∧ T < c' ∧
        c' ≤ c) := by
    intro k c' d' l' c hv hc
    cases l' with
    | true => exact Or.inr (Or.inl ⟨k, c', d', hv, hc⟩)
    | false =>
      by_cases hcT : c' ≤ T
      · exact Or.inl ⟨c', d', hv, hc, hcT⟩
      · exact Or.inr (Or.inr ⟨k, c', d', hv, by omega, hc⟩)
  induction hw with
  | seed e he het =>
    obtain ⟨c, d, l, hv, hc⟩ := hF.seeds e he het
    rw [← het] at hv
    exact hsplit _ c d l _ hv hc
  | step es e c e' hw he' hp ih =>
    rcases ih with ⟨c', d', hv, hc, hcT⟩ | ⟨k, c', d', hv, hc⟩ | ⟨k, c', d', hv, hT, hc⟩
    · obtain ⟨k1, k2, _, _, _⟩ := entry_facts hS hF hw hv
      obtain ⟨c'', d'', l'', hv', hc'⟩ := (hF.expanded _ _ _ hv hcT).1 e'
        (by rw [k1]; exact he') (by rw [k1, k2]; exact hp)
      rw [k1, k2] at hc'
      refine hsplit _ c'' d'' l'' _ hv' ?_
      push_cast
      omega
    · refine Or.inr (Or.inl ⟨k, c', d', hv, ?_⟩)
      push_cast
      omega
    · refine Or.inr (Or.inr ⟨k, c', d', hv, hT, ?_⟩)
      push_cast
      omega

/-- The state that a forward step removes from the heap with a key that is not above the
target distance is one that the search expands: its key is the least cost of a walk into
it, and no path costs less. -/
theorem popped_opens (hS : Setting g s s2 t t2) {T : Int} {hf : Heap}
    (hF : FwdInv g s s2 t t2 T hf) (hne : ¬ (s = t2 ∧ s2 = t))
    (hbs : ∃ eb ∈ g.edgesOf t2, g.GetTarget eb = t)
    {u : Nat} {cost : Nat} {du : HeapData}
    (hvu : view hf u = some ((cost : Int), du, true))
    (hmin : ∀ (id' : Nat) (c' : Int) (d' : HeapData), view hf id' = some (c', d', true) →
      (cost : Int) ≤ c')
    {es : List Nat} {e : Nat} (hw : Walk g s s2 es e cost)
    (hk : u = g.GetFirstOriginalEdge (g.GetTarget e) + g.GetOriginalEdgeTarget e)
    (hcT : (cost : Int) ≤ T) : Opens g s s2 t t2 e cost := by
  have hbeyond : ∀ (k : Nat) (c' : Int) (d' : HeapData), view hf k = some (c', d', false) →
      ¬ T < c' := by
    intro k c' d' hv hT
    have := hF.mono _ _ _ _ _ _ hv hvu
    omega
  refine ⟨hne, hbs, ⟨⟨es, hw⟩, ?_⟩, ?_⟩
  · intro es' e' c' hw' ht' ho'
    rcases walk_front hS hF hw' with ⟨c'', d'', hv, _, _⟩ | ⟨k, c'', d'', hv, hc⟩ |
      ⟨k, c'', d'', hv, hT, _⟩
    · rw [ht', ho', ← hk, hvu] at hv
      simp at hv
    · have := hmin k c'' d'' hv
      omega
    · exact absurd hT (hbeyond k c'' d'' hv)
  · rintro es' c' ⟨eb, hwp, heb, hebt⟩
    cases hwp with
    | seed _ he0 het0 =>
      exact absurd ⟨hS.wf.edges s hS.hs t2 hS.ht2 eb he0 heb, het0.symm.trans hebt⟩ hne
    | step es0 e0 c0 _ hw0 he0 hp0 =>
      obtain ⟨n0, hn0, hen0⟩ := Walk_last hS hw0
      obtain ⟨f1, _⟩ := edge_facts hS hn0 hen0
      have ht : g.GetTarget e0 = t2 := hS.wf.edges _ f1 t2 hS.ht2 eb he0 heb
      rcases walk_front hS hF hw0 with ⟨c'', d'', hv, hc, hcT'⟩ | ⟨k, c'', d'', hv, hc⟩ |
        ⟨k, c'', d'', hv, hT, _⟩
      · obtain ⟨k1, k2, _, _, _⟩ := entry_facts hS hF hw0 hv
        have hmet := (hF.expanded _ _ _ hv hcT').2 (k1.trans ht) eb heb hebt
          (by rw [k2, ← ht]; exact hp0)
        rw [k2, ← ht] at hmet
        have h1 : (cost : Int) ≤ ((c0 + g.GetPenaltyData (g.GetTarget e0)
            (g.GetOriginalEdgeTarget e0) (g.GetOriginalEdgeSource eb) +
            (g.GetEdgeData eb).distance : Nat) : Int) := by
          push_cast
          omega
        exact_mod_cast h1
      · have := hmin k c'' d'' hv
        omega
      · exact absurd hT (hbeyond k c'' d'' hv)

/-- A forward call of `computeStep` on a forward-only graph. -/
theorem computeStep_fwd (hS : Setting g s s2 t t2) (sod : Bool) {hf hb : Heap} {T : Int}
    (q : List StallQueueItem) (mid : Middle)
    (hF : FwdInv g s s2 t t2 T hf) (hB : BwdInv g t t2 hb)
    (hT : TargetOK g s s2 t t2 mid T) (hsz : 0 < Size hf) (hne : ¬ (s = t2 ∧ s2 = t))
    (hbs : ∃ eb ∈ g.edgesOf t2, g.GetTarget eb = t) :
    ∃ (hf' : Heap) (mid' : Middle) (T' : Int) (u : Nat),
      computeStep g Dir.fwd sod hb ⟨hf, q, mid, T⟩ = .ok (⟨hf', q, mid', T'⟩, u) ∧
      FwdInv g s s2 t t2 T' hf' ∧ T' ≤ T ∧ TargetOK g s s2 t t2 mid' T' ∧
      Size hf' + 2 * hf.insertedNodes.length + 1 ≤ Size hf + 2 * hf'.insertedNodes.length ∧
      hf.insertedNodes.length ≤ hf'.insertedNodes.length := by
  obtain ⟨hf1, u, cu, du, hrun, hinv1, hvu, hmin, hview1, hsz1, hcap1, hcnt1⟩ :=
    DeleteMin_view hF.inv hsz
  obtain ⟨es, e, cost, hw, hc, hdn, hdo, hk, hst, hcb⟩ := hF.entries _ _ _ _ hvu
  subst hc
  have hv1 : view hf1 u = some ((cost : Int), du, false) := by
    rw [hview1, Function.update_same]
  obtain ⟨_, hkey, hdata, _, _⟩ := observers_view hv1
  obtain ⟨mid', T', hmrun, hle, hT', hmet⟩ :=
    meet_fwd hS hB hw hcb du hdn hdo u hk mid T hT
  obtain ⟨hJ0, hrem, hgrow1⟩ := RelaxInv_init hF hinv1 hvu hmin hview1 hcap1
  by_cases hgt : (cost : Int) > T'
  · obtain ⟨hf2, hrun2, hinv2, hsz2, hcap2, hcnt2, hview2⟩ := DeleteAll_view hinv1
    refine ⟨hf2, mid', T', u, ?_, FwdInv_of_deleteAll hF hle hvu hmin hview1 hgt hinv2
      (by rw [hcap2, hcap1, hF.cap]) hview2, hle, hT', ?_, ?_⟩
    · simp only [computeStep, hrun, hkey, hdata, hst, Bool.and_false, hmrun, hgt, hrun2, bind,
        Except.bind, pure, Except.pure]
      simp
    · rw [hcnt2, hcnt1]; omega
    · rw [hcnt2, hcnt1]
  · have hopen : Opens g s s2 t t2 e cost :=
      popped_opens hS hF hne hbs hvu hmin hw hk (by omega)
    obtain ⟨st', hlrun, hq, hJ⟩ := forLoop_spec
      (edgeBody g Dir.fwd sod u (cost : Int) du)
      (fun done (st : Heap × List StallQueueItem) =>
        st.2 = q ∧ RelaxInv g s s2 t t2 hf1 du cost done st.1)
      (g.edgesOf du.node) (hf1, q) ⟨rfl, hJ0⟩
      (by
        intro done e' rest st hl ⟨hq, hJ⟩
        obtain ⟨h, q'⟩ := st
        simp only at hq hJ
        subst hq
        have he' : e' ∈ g.edgesOf du.node := by rw [hl]; simp
        obtain ⟨h', hb', hJ'⟩ := relax_step hS sod hJ hw hdn hdo hrem
          hopen u hk q' he'
        exact ⟨(h', q'), hb', rfl, hJ'⟩)
    obtain ⟨hf2, q2⟩ := st'
    simp only at hq hJ
    subst hq
    refine ⟨hf2, mid', T', u, ?_, FwdInv_of_relax hF hle hview1 hJ hrem hgrow1 hmet, hle, hT',
      ?_, ?_⟩
    · simp only [computeStep, hrun, hkey, hdata, hst, Bool.and_false, hmrun, hgt, hlrun, bind,
        Except.bind, pure, Except.pure]
      simp
    · have := hJ.measure
      rw [hcnt1] at this
      omega
    · have := hJ.count
      rw [hcnt1] at this
      exact this

end Setting
end TurnQuery
end MoNav

namespace MoNav
namespace TurnQuery
open BinaryHeap

section Setting
variable {g : Graph} {s s2 t t2 : Nat}

theorem FwdInv_mono {T T' : Int} {hf : Heap} (hF : FwdInv g s s2 t t2 T hf) (hle : T' ≤ T) :
    FwdInv g s s2 t t2 T' hf :=
  { inv := hF.inv, cap := hF.cap, entries := hF.entries, mono := hF.mono,
    expanded := fun k c d hv hc =>
      ⟨(hF.expanded k c d hv (le_trans hc hle)).1,
        Met_mono (hF.expanded k c d hv (le_trans hc hle)).2 hle⟩,
    seeds := hF.seeds, parents := hF.parents }

/-- A heap that differs from a backward heap only in which entries are live. -/
theorem BwdInv_of_view {hb hb' : Heap} (hB : BwdInv g t t2 hb) (hinv : Inv hb')
    (hcap : hb'.nodeIndex.positions.length = hb.nodeIndex.positions.length)
    (h1 : ∀ (k : Nat) (c : Int) (d : HeapData) (l : Bool), view hb' k = some (c, d, l) →
      ∃ l0, view hb k = some (c, d, l0))
    (h2 : ∀ (k : Nat) (c : Int) (d : HeapData) (l : Bool), view hb k = some (c, d, l) →
      ∃ l0, view hb' k = some (c, d, l0)) : BwdInv g t t2 hb' :=
  { inv := hinv, cap := by rw [hcap, hB.cap],
    entries := fun k c d l hv => by
      obtain ⟨l0, hv0⟩ := h1 k c d l hv
      exact hB.entries k c d l0 hv0,
    seeds := fun e he het => by
      obtain ⟨c, d, l, hv, hc⟩ := hB.seeds e he het
      obtain ⟨l0, hv0⟩ := h2 _ c d l hv
      exact ⟨c, d, l0, hv0, hc⟩,
    payload := fun k c d l hv => by
      obtain ⟨l0, hv0⟩ := h1 k c d l hv
      exact hB.payload k c d l0 hv0 }

/-- The meeting loop of a backward step from a seed `et`. -/
theorem meet_bwd (hS : Setting g s s2 t t2) {hf : Heap} {T0 : Int}
    (hF : FwdInv g s s2 t t2 T0 hf) {et : Nat} (het : et ∈ g.edgesOf t2)
    (hett : g.GetTarget et = t) (data : HeapData) (hdn : data.node = t2)
    (hdo : data.originalEdge = g.GetOriginalEdgeSource et) (originalEdge : Nat)
    (hoe : originalEdge = g.GetFirstOriginalEdge t2 + g.GetOriginalEdgeSource et)
    (mid : Middle) (T : Int) (hT : TargetOK g s s2 t t2 mid T) :
    ∃ (mid' : Middle) (T' : Int),
      forLoop (meetBody g Dir.bwd hf originalEdge ((g.GetEdgeData et).distance : Int) data
          (g.GetFirstOriginalEdge data.node))
        (List.range (Dir.bwd.degOut g data.node)) (mid, T) = .ok (mid', T') ∧
      T' ≤ T ∧ TargetOK g s s2 t t2 mid' T' := by
  obtain ⟨_, hsrc, _⟩ := edge_facts hS hS.ht2 het
  obtain ⟨st', hrun, hI⟩ := forLoop_spec
    (meetBody g Dir.bwd hf originalEdge ((g.GetEdgeData et).distance : Int) data
      (g.GetFirstOriginalEdge data.node))
    (fun _ st => st.2 ≤ T ∧ TargetOK g s s2 t t2 st.1 st.2)
    (List.range (Dir.bwd.degOut g data.node)) (mid, T) ⟨le_refl _, hT⟩
    (by
      intro done i rest st hl ⟨hle, hok⟩
      have hi : i < g.GetOriginalInDegree t2 := by
        have : i ∈ List.range (Dir.bwd.degOut g data.node) := by rw [hl]; simp
        rw [hdn] at this
        simpa [Dir.bwd] using this
      obtain ⟨hklt, hku⟩ := key_lt hS hS.ht2 (show i < max _ _ from lt_max_of_lt_left hi)
      have hpen : Dir.bwd.penaltyFunction g data.node data.originalEdge i =
          g.GetPenaltyData t2 i (g.GetOriginalEdgeSource et) := by
        rw [hdn, hdo]
        exact penalty_bwd hS hS.ht2 hi hsrc
      rw [hdn]
      cases hv : view hf (g.GetFirstOriginalEdge t2 + i) with
      | none =>
        exact ⟨st, meetBody_none g Dir.bwd _ _ _ _ _ _ (by rw [hku, hF.cap]; exact hklt)
          (by rw [hku]; exact hv), hle, hok⟩
      | some v =>
        obtain ⟨cf, df, lf⟩ := v
        obtain ⟨es, e, cost, hw, hc, hfn, hfo, hk, hst, hcb⟩ := hF.entries _ _ _ _ hv
        obtain ⟨n0, hn0, hen0⟩ := Walk_last hS hw
        obtain ⟨hnode, _, hslot, _⟩ := edge_facts hS hn0 hen0
        obtain ⟨hnt, hio⟩ := key_inj hS hS.ht2 hnode
          (show i < max _ _ from lt_max_of_lt_left hi)
          (show g.GetOriginalEdgeTarget e < max _ _ from lt_max_of_lt_left hslot) hk
        have hbody := meetBody_some g Dir.bwd originalEdge
          ((g.GetEdgeData et).distance : Int) data
          (g.GetFirstOriginalEdge t2) i st (by rw [hku]; exact hv) hst
        rw [hpen] at hbody
        have hp255 := hS.wf.penalty t2 i (g.GetOriginalEdgeSource et)
        by_cases hp : g.GetPenaltyData t2 i (g.GetOriginalEdgeSource et) = RESTRICTED_TURN
        · rw [if_pos hp] at hbody
          exact ⟨st, hbody, hle, hok⟩
        · rw [if_neg hp] at hbody
          have hp254 : g.GetPenaltyData t2 i (g.GetOriginalEdgeSource et) ≤ 254 := by
            have : g.GetPenaltyData t2 i (g.GetOriginalEdgeSource et) ≠ 255 := hp
            omega
          have hnew : i32 (cf + g.GetPenaltyData t2 i (g.GetOriginalEdgeSource et) +
                (g.GetEdgeData et).distance) =
              ((cost + g.GetPenaltyData t2 i (g.GetOriginalEdgeSource et) +
                (g.GetEdgeData et).distance : Nat) : Int) := by
            have hm := hS.range.meet e cost hcb hnt.symm et het hett
              (by rw [← hio]; exact hp)
            rw [← hio] at hm
            rw [i32_eq (by rw [hc]; positivity) (by rw [hc]; omega), hc]
            push_cast
            ring
          have hpath : IsPath g s s2 t t2 (es ++ [et])
              (cost + g.GetPenaltyData t2 i (g.GetOriginalEdgeSource et) +
                (g.GetEdgeData et).distance) := by
            refine ⟨et, ?_, het, hett⟩
            have := Walk.step es e cost et hw (by rw [← hnt]; exact het)
              (by rw [← hnt, ← hio]; exact hp)
            rw [← hnt, ← hio] at this
            exact this
          have hmid : MidOK g s s2 t t2
              (Dir.bwd.middleFunction data.node originalEdge
                (u32 (g.GetFirstOriginalEdge t2 + i)))
              (cost + g.GetPenaltyData t2 i (g.GetOriginalEdgeSource et) +
                (g.GetEdgeData et).distance) := by
            refine ⟨es, e, cost, et, hw, hnt.symm, het, hett, ?_, ?_, ?_⟩
            · rw [← hio]; exact hp
            · rw [← hio]
            · rw [hku, hoe, hdn, hio]
              rfl
          rw [hnew] at hbody
          by_cases hlt : ((cost + g.GetPenaltyData t2 i (g.GetOriginalEdgeSource et) +
                (g.GetEdgeData et).distance : Nat) : Int) < st.2
          · rw [if_pos hlt] at hbody
            exact ⟨_, hbody, le_trans (le_of_lt hlt) hle, Or.inr ⟨_, _, hpath, rfl, hmid⟩⟩
          · rw [if_neg hlt] at hbody
            exact ⟨st, hbody, hle, hok⟩)
  exact ⟨st'.1, st'.2, hrun, hI.1, hI.2⟩

end Setting
end TurnQuery
end MoNav

namespace MoNav
namespace TurnQuery
open BinaryHeap

section Setting
variable {g : Graph} {s s2 t t2 : Nat}

/-- The body of the edge loop of a backward step changes nothing on a forward-only graph:
no state of another node is in the backward heap, and no edge may be relaxed backwards. -/
theorem edgeBody_bwd (hS : Setting g s s2 t t2) (sod : Bool) {h : Heap}
    (hB : BwdInv g t t2 h) (u : Nat) (distance : Int) (hd : distance ≤ INT_MAX)
    (data : HeapData) (q : List StallQueueItem) {e' : Nat} (he' : e' ∈ g.edgesOf t2) :
    edgeBody g Dir.bwd sod u distance data e' (h, q) = .ok ((h, q), false) := by
  obtain ⟨htn, _, _, hdpos, _, hfw, hbw, _⟩ := edge_facts hS hS.ht2 he'
  have hne := hS.noLoop e' he'
  have hrel : relaxEdge g Dir.bwd u distance data e' h = .ok h :=
    relaxEdge_skip g Dir.bwd u distance data e' h (Or.inl (by simp [Dir.bwd, AllowBackwardEdge, hbw]))
  obtain ⟨sd, hrun, hsd⟩ := forLoop_spec
    (shorterBody g Dir.bwd h (g.GetTarget e') (g.GetFirstOriginalEdge (g.GetTarget e'))
      (g.GetOriginalEdgeTarget e') (g.GetEdgeData e').distance)
    (fun _ sd => sd = INT_MAX)
    (List.range (Dir.bwd.degIn g (g.GetTarget e'))) INT_MAX rfl
    (by
      intro done i rest sd hl hsd
      subst hsd
      have hi : i < g.GetOriginalOutDegree (g.GetTarget e') := by
        have : i ∈ List.range (Dir.bwd.degIn g (g.GetTarget e')) := by rw [hl]; simp
        simpa [Dir.bwd] using this
      obtain ⟨hklt, hku⟩ := key_lt hS htn (show i < max _ _ from lt_max_of_lt_right hi)
      have hv : view h (g.GetFirstOriginalEdge (g.GetTarget e') + i) = none := by
        cases hv : view h (g.GetFirstOriginalEdge (g.GetTarget e') + i) with
        | none => rfl
        | some v =>
          exfalso
          obtain ⟨c, d, l⟩ := v
          obtain ⟨_, _, eb, heb, _, hk, _, _⟩ := hB.entries _ _ _ _ hv
          obtain ⟨_, hsb, _⟩ := edge_facts hS hS.ht2 heb
          obtain ⟨hnt, _⟩ := key_inj hS htn hS.ht2
            (show i < max _ _ from lt_max_of_lt_right hi)
            (show g.GetOriginalEdgeSource eb < max _ _ from lt_max_of_lt_right hsb) hk
          exact hne hnt
      have hins : h.WasInserted (u32 (g.GetFirstOriginalEdge (g.GetTarget e') + i)) =
          .ok false := by
        rw [hku, WasInserted_view (by rw [hB.cap]; exact hklt), hv]; rfl
      refine ⟨INT_MAX, ?_, rfl⟩
      simp only [shorterBody, hins, bind, Except.bind, pure, Except.pure]
      simp)
  subst hsd
  have hnlt : ¬ INT_MAX < distance := by omega
  by_cases hsod : sod = true
  · simp only [edgeBody, assert_ok hdpos, hsod, Dir.bwd, AllowForwardEdge, hfw, Bool.and_self,
      bind, Except.bind, pure, Except.pure]
    simp only [Dir.bwd] at hrun hrel
    simp [hrun, hnlt, hrel]
  · simp only [edgeBody, assert_ok hdpos, hsod, Dir.bwd, bind, Except.bind, pure, Except.pure]
    simp only [Dir.bwd] at hrel
    simp [hrel]

/-- A backward call of `computeStep` on a forward-only graph. -/
theorem computeStep_bwd (hS : Setting g s s2 t t2) (sod : Bool) {hf hb : Heap} {T : Int}
    (q : List StallQueueItem) (mid : Middle)
    (hF : FwdInv g s s2 t t2 T hf) (hB : BwdInv g t t2 hb)
    (hT : TargetOK g s s2 t t2 mid T) (hsz : 0 < Size hb) :
    ∃ (hb' : Heap) (mid' : Middle) (T' : Int) (u : Nat),
      computeStep g Dir.bwd sod hf ⟨hb, q, mid, T⟩ = .ok (⟨hb', q, mid', T'⟩, u) ∧
      BwdInv g t t2 hb' ∧ T' ≤ T ∧ TargetOK g s s2 t t2 mid' T' ∧ Size hb' < Size hb := by
  obtain ⟨hb1, u, cu, du, hrun, hinv1, hvu, hmin, hview1, hsz1, hcap1, hcnt1⟩ :=
    DeleteMin_view hB.inv hsz
  obtain ⟨hst, hdn, et, het, hett, hk, hc, hdo⟩ := hB.entries _ _ _ _ hvu
  subst hc
  have hv1 : view hb1 u = some (((g.GetEdgeData et).distance : Int), du, false) := by
    rw [hview1, Function.update_same]
  obtain ⟨_, hkey, hdata, _, _⟩ := observers_view hv1
  obtain ⟨mid', T', hmrun, hle, hT'⟩ := meet_bwd hS hF het hett du hdn hdo u hk mid T hT
  have hB1 : BwdInv g t t2 hb1 := by
    refine BwdInv_of_view hB hinv1 hcap1 ?_ ?_
    · intro k c d l hv
      rw [hview1] at hv
      by_cases hku : k = u
      · subst hku
        rw [Function.update_same] at hv
        simp only [Option.some.injEq, Prod.mk.injEq] at hv
        exact ⟨true, by rw [hvu, ← hv.1, ← hv.2.1]⟩
      · rw [Function.update_noteq hku] at hv
        exact ⟨l, hv⟩
    · intro k c d l hv
      rw [hview1]
      by_cases hku : k = u
      · subst hku
        rw [Function.update_same]
        rw [hvu] at hv
        simp only [Option.some.injEq, Prod.mk.injEq] at hv
        exact ⟨false, by rw [← hv.1, ← hv.2.1]⟩
      · rw [Function.update_noteq hku]
        exact ⟨l, hv⟩
  by_cases hgt : ((g.GetEdgeData et).distance : Int) > T'
  · obtain ⟨hb2, hrun2, hinv2, hsz2, hcap2, hcnt2, hview2⟩ := DeleteAll_view hinv1
    refine ⟨hb2, mid', T', u, ?_, BwdInv_of_view hB1 hinv2 hcap2 ?_ ?_, hle, hT', ?_⟩
    · simp only [computeStep, hrun, hkey, hdata, hst, Bool.and_false, hmrun, hgt, hrun2, bind,
        Except.bind, pure, Except.pure]
      simp
    · intro k c d l hv
      rw [hview2] at hv
      cases hv0 : view hb1 k with
      | none => rw [hv0] at hv; exact absurd hv (by simp)
      | some v =>
        rw [hv0] at hv
        simp only [Option.map_some', Option.some.injEq, Prod.mk.injEq] at hv
        exact ⟨v.2.2, by rw [← hv.1, ← hv.2.1]⟩
    · intro k c d l hv
      rw [hview2, hv]
      exact ⟨false, rfl⟩
    · omega
  · have hlt : ((g.GetEdgeData et).distance : Int) ≤ INT_MAX := by
      have := hS.range.seed et het hett
      unfold INT_MAX
      omega
    obtain ⟨st', hlrun, hst'⟩ := forLoop_spec
      (edgeBody g Dir.bwd sod u ((g.GetEdgeData et).distance : Int) du)
      (fun _ (st : Heap × List StallQueueItem) => st = (hb1, q))
      (g.edgesOf du.node) (hb1, q) rfl
      (by
        intro done e' rest st hl hst
        subst hst
        have he' : e' ∈ g.edgesOf t2 := by rw [← hdn, hl]; simp
        exact ⟨(hb1, q), edgeBody_bwd hS sod hB1 u _ hlt du q he', rfl⟩)
    subst hst'
    refine ⟨hb1, mid', T', u, ?_, hB1, hle, hT', by omega⟩
    simp only [computeStep, hrun, hkey, hdata, hst, Bool.and_false, hmrun, hgt, hlrun, bind,
      Except.bind, pure, Except.pure]
    simp

end Setting
end TurnQuery
end MoNav

namespace MoNav
namespace TurnQuery
open BinaryHeap

section Setting
variable {g : Graph} {s s2 t t2 : Nat}

theorem ite_bind {α β : Type} (c : Prop) [Decidable c] (a b : Except Fault α)
    (f : α → Except Fault β) :
    (if c then a >>= f else b >>= f) = (if c then a else b) >>= f := by
  split <;> rfl

theorem stepForward_spec (hS : Setting g s s2 t t2) (sod : Bool) {st : SearchState}
    (hI : SearchInv g s s2 t t2 st) (hsz : 0 < Size st.query.m_heapForward)
    (hne : ¬ (s = t2 ∧ s2 = t)) (hbs : ∃ eb ∈ g.edgesOf t2, g.GetTarget eb = t) :
    ∃ st', stepForward g sod st = .ok st' ∧ SearchInv g s s2 t t2 st' ∧
      st'.query.m_heapBackward = st.query.m_heapBackward ∧
      forwardMeasure g st' + 1 ≤ forwardMeasure g st := by
  obtain ⟨hf', mid', T', u, hrun, hF', hle, hT', hm, hcnt⟩ :=
    computeStep_fwd hS sod st.query.m_stallQueue st.query.m_middle hI.fwd hI.bwd hI.target hsz
      hne hbs
  refine ⟨SearchState.mk (TurnQuery.mk hf' st.query.m_heapBackward st.query.m_stallQueue mid') T',
    by simp only [stepForward, hrun, bind, Except.bind, pure, Except.pure],
    ⟨hF', hI.bwd, hT'⟩, rfl, ?_⟩
  have h1 : hf'.insertedNodes.length ≤ g.GetNumberOfOriginalEdges := by
    rw [← hF'.cap]; exact Inv_count_le hF'.inv
  simp only [forwardMeasure]
  omega

theorem stepBackward_spec (hS : Setting g s s2 t t2) (sod : Bool) {st : SearchState}
    (hI : SearchInv g s s2 t t2 st) (hsz : 0 < Size st.query.m_heapBackward) :
    ∃ st', stepBackward g sod st = .ok st' ∧ SearchInv g s s2 t t2 st' ∧
      st'.query.m_heapForward = st.query.m_heapForward ∧
      Size st'.query.m_heapBackward < Size st.query.m_heapBackward := by
  obtain ⟨hb', mid', T', u, hrun, hB', hle, hT', hm⟩ :=
    computeStep_bwd hS sod st.query.m_stallQueue st.query.m_middle hI.fwd hI.bwd hI.target hsz
  exact ⟨SearchState.mk (TurnQuery.mk st.query.m_heapForward hb' st.query.m_stallQueue mid') T',
    by simp only [stepBackward, hrun, bind, Except.bind, pure, Except.pure],
    ⟨FwdInv_mono hI.fwd hle, hB', hT'⟩, rfl, hm⟩

/-- The loop of `BidirSearch` ends with both heaps empty. -/
theorem bidirLoop_spec (hS : Setting g s s2 t t2) (sod : Bool) (hne : ¬ (s = t2 ∧ s2 = t))
    (hbs : ∃ eb ∈ g.edgesOf t2, g.GetTarget eb = t) :
    ∀ (fuel : Nat) (st : SearchState), SearchInv g s s2 t t2 st →
      forwardMeasure g st + Size st.query.m_heapBackward ≤ fuel →
      ∃ st', bidirLoop g sod fuel st = .ok st' ∧ SearchInv g s s2 t t2 st' ∧
        Size st'.query.m_heapForward = 0 := by
  intro fuel
  induction fuel with
  | zero =>
    intro st hI hm
    have h0 : ¬ Size st.query.m_heapForward + Size st.query.m_heapBackward > 0 := by
      simp only [forwardMeasure] at hm
      omega
    exact ⟨st, by simp only [bidirLoop, h0, if_false]; rfl, hI, by omega⟩
  | succ n ih =>
    intro st hI hm
    by_cases h0 : Size st.query.m_heapForward + Size st.query.m_heapBackward > 0
    · have hA : ∃ st1, (if Size st.query.m_heapForward > 0 then stepForward g sod st
            else pure st) = .ok st1 ∧ SearchInv g s s2 t t2 st1 ∧
          forwardMeasure g st1 + Size st1.query.m_heapBackward ≤
            forwardMeasure g st + Size st.query.m_heapBackward ∧
          (Size st.query.m_heapForward > 0 →
            forwardMeasure g st1 + Size st1.query.m_heapBackward + 1 ≤
              forwardMeasure g st + Size st.query.m_heapBackward) ∧
          (¬ Size st.query.m_heapForward > 0 → st1 = st) := by
        by_cases hf : Size st.query.m_heapForward > 0
        · obtain ⟨st1, hrun, hI1, hb1, hm1⟩ := stepForward_spec hS sod hI hf hne hbs
          refine ⟨st1, by rw [if_pos hf]; exact hrun, hI1, by rw [hb1]; omega,
            fun _ => by rw [hb1]; omega, fun h => absurd hf h⟩
        · exact ⟨st, by rw [if_neg hf]; rfl, hI, le_refl _, fun h => absurd h hf, fun _ => rfl⟩
      obtain ⟨st1, hrun1, hI1, hm1, hm1p, hm1n⟩ := hA
      have hB : ∃ st2, (if Size st1.query.m_heapBackward > 0 then stepBackward g sod st1
            else pure st1) = .ok st2 ∧ SearchInv g s s2 t t2 st2 ∧
          forwardMeasure g st2 + Size st2.query.m_heapBackward ≤
            forwardMeasure g st1 + Size st1.query.m_heapBackward ∧
          (Size st1.query.m_heapBackward > 0 →
            forwardMeasure g st2 + Size st2.query.m_heapBackward + 1 ≤
              forwardMeasure g st1 + Size st1.query.m_heapBackward) := by
        by_cases hb : Size st1.query.m_heapBackward > 0
        · obtain ⟨st2, hrun, hI2, hf2, hm2⟩ := stepBackward_spec hS sod hI1 hb
          have hfm : forwardMeasure g st2 = forwardMeasure g st1 := by
            simp only [forwardMeasure, hf2]
          refine ⟨st2, by rw [if_pos hb]; exact hrun, hI2, by rw [hfm]; omega,
            fun _ => by rw [hfm]; omega⟩
        · exact ⟨st1, by rw [if_neg hb]; rfl, hI1, le_refl _, fun h => absurd h hb⟩
      obtain ⟨st2, hrun2, hI2, hm2, hm2p⟩ := hB
      have hdec : forwardMeasure g st2 + Size st2.query.m_heapBackward ≤ n := by
        by_cases hf : Size st.query.m_heapForward > 0
        · have := hm1p hf
          omega
        · have h1 := hm1n hf
          subst h1
          have := hm2p (by omega)
          omega
      obtain ⟨st', hrun', hI', hz⟩ := ih st2 hI2 hdec
      refine ⟨st', ?_, hI', hz⟩
      rw [bidirLoop, if_pos h0]
      simp only [ite_bind]
      rw [hrun1]
      show ((if Size st1.query.m_heapBackward > 0 then stepBackward g sod st1 else pure st1) >>=
        fun s2 => bidirLoop g sod n s2) = _
      rw [hrun2]
      exact hrun'
    · exact ⟨st, by simp only [bidirLoop, h0, if_false]; rfl, hI, by omega⟩

end Setting
end TurnQuery
end MoNav

namespace MoNav
namespace TurnQuery
open BinaryHeap

section Setting
variable {g : Graph} {s s2 t t2 : Nat}

/-- When the forward heap has run empty, the last state of every walk has been expanded
under a key that is not above the cost of the walk, unless the target distance is already
below that cost. -/
theorem walk_reached (hS : Setting g s s2 t t2) {T : Int} {hf : Heap}
    (hF : FwdInv g s s2 t t2 T hf) (hz : Size hf = 0) {es : List Nat} {e c : Nat}
    (hw : Walk g s s2 es e c) :
    (T < INT_MAX ∧ T ≤ c) ∨
      ∃ (c' : Int) (d' : HeapData),
        view hf (g.GetFirstOriginalEdge (g.GetTarget e) + g.GetOriginalEdgeTarget e) =
          some (c', d', false) ∧ c' ≤ c ∧ c' ≤ T := by
  rcases walk_front hS hF hw with h | ⟨k, c', d', hv, _⟩ | ⟨k, c', d', hv, hT, hc⟩
  · exact Or.inr h
  · exact absurd (view_of_Size_zero hF.inv hz hv) (by simp)
  · have h5 := (state_facts hS (hF.entries _ _ _ _ hv)).2.2.2.2.1
    left
    unfold INT_MAX
    exact ⟨by omega, by omega⟩

/-- When the forward heap has run empty, the target distance is not above the cost of any
path, and it is below `INT_MAX` or not above the cost of a path that costs no more than
`INT_MAX`, unless the path is the single edge `s -> s2`. -/
theorem path_bound (hS : Setting g s s2 t t2) {T : Int} {hf : Heap}
    (hF : FwdInv g s s2 t t2 T hf) (hz : Size hf = 0) (hne : ¬ (s = t2 ∧ s2 = t))
    {es : List Nat} {c : Nat} (hp : IsPath g s s2 t t2 es c) :
    T ≤ c ∧ (T < INT_MAX ∨ ∃ (es' : List Nat) (c' : Nat), IsPath g s s2 t t2 es' c' ∧
      T ≤ c' ∧ c' ≤ 2147483647) := by
  obtain ⟨e, hw, he, het⟩ := hp
  cases hw with
  | seed _ he0 het0 =>
    exact absurd ⟨hS.wf.edges s hS.hs t2 hS.ht2 e he0 he, het0.symm.trans het⟩ hne
  | step es0 e0 c0 _ hw0 he0 hp0 =>
    obtain ⟨n0, hn0, hen0⟩ := Walk_last hS hw0
    obtain ⟨f1, _⟩ := edge_facts hS hn0 hen0
    have ht : g.GetTarget e0 = t2 := hS.wf.edges _ f1 t2 hS.ht2 e he0 he
    rcases walk_reached hS hF hz hw0 with ⟨h1, h2⟩ | ⟨c', d', hv, hc, hcT⟩
    · refine ⟨?_, Or.inl h1⟩
      push_cast
      omega
    · obtain ⟨k1, k2, _, hc0, _⟩ := entry_facts hS hF hw0 hv
      have hmet := (hF.expanded _ _ _ hv hcT).2 (k1.trans ht) e he het
        (by rw [k2, ← ht]; exact hp0)
      obtain ⟨es1, e1, cost1, hw1, hc1, hn1, ho1, _, _, htent1⟩ := hF.entries _ _ _ _ hv
      have ht1 : g.GetTarget e1 = t2 := by rw [← hn1, k1, ht]
      have hp1 : g.GetPenaltyData t2 (g.GetOriginalEdgeTarget e1) (g.GetOriginalEdgeSource e) ≠
          255 := by
        rw [← ho1, k2, ← ht]; exact hp0
      have hm := hS.range.meet e1 cost1 htent1 ht1 e he het hp1
      have hw1' := Walk.step es1 e1 cost1 e hw1 (by rw [ht1]; exact he)
        (by rw [ht1]; exact hp1)
      rw [ht1] at hw1'
      rw [ho1, hc1] at hmet
      rw [k2] at ho1
      rw [hc1] at hc
      refine ⟨?_, Or.inr ⟨_, _, ⟨e, hw1', he, het⟩, ?_, hm⟩⟩
      · rw [← ho1] at hmet
        rw [ht]
        push_cast at hmet hc ⊢
        omega
      · push_cast
        exact hmet

/-- What the search loops leave in `targetDistance` is the least cost of a path. -/
theorem search_final (hS : Setting g s s2 t t2) {st : SearchState}
    (hI : SearchInv g s s2 t t2 st) (hz : Size st.query.m_heapForward = 0)
    (hne : ¬ (s = t2 ∧ s2 = t)) : IsShortest g s s2 t t2 st.targetDistance := by
  rcases hI.target with hT | ⟨es, c, hp, hT, _⟩
  · by_cases hex : ∃ (es : List Nat) (c : Nat), IsPath g s s2 t t2 es c
    · obtain ⟨es, c, hp⟩ := hex
      rcases (path_bound hS hI.fwd hz hne hp).2 with h | ⟨es', c', hp', h1, h2⟩
      · omega
      · left
        refine ⟨es', c', hp', ?_, ?_⟩
        · rw [hT] at h1 ⊢
          unfold INT_MAX at h1 ⊢
          omega
        · intro es'' c'' hp''
          have h3 := (path_bound hS hI.fwd hz hne hp'').1
          rw [hT] at h1 h3
          unfold INT_MAX at h1 h3
          omega
    · exact Or.inr ⟨hex, hT⟩
  · left
    refine ⟨es, c, hp, hT, ?_⟩
    intro es' c' hp'
    have := (path_bound hS hI.fwd hz hne hp').1
    omega

end Setting
end TurnQuery
end MoNav

namespace MoNav
namespace TurnQuery
open BinaryHeap

section Seed
variable {g : Graph} {node2 : Nat} {slot : Nat → Nat} {good : Nat → Prop}

/-- `SeedInv` for a cleared heap with an index array over all original edges. -/
theorem SeedInv_init (h0 : Heap)
    (hcap : h0.nodeIndex.positions.length = g.GetNumberOfOriginalEdges) :
    SeedInv g node2 slot good [] (BinaryHeap.Clear h0) := by
  obtain ⟨i, hi⟩ := Clear_heap h0
  refine ⟨Clear_inv h0, by rw [hi]; exact hcap, by rw [hi]; rfl, ?_, ?_,
    fun k c d l hv => by rw [Clear_view] at hv; exact absurd hv (by simp)⟩
  · intro k c d l hv
    rw [Clear_view] at hv
    exact absurd hv (by simp)
  · intro e he
    exact absurd he (by simp)

/-- An edge that is not `good` is passed over. -/
theorem SeedInv_skip {done : List Nat} {h : Heap} (hJ : SeedInv g node2 slot good done h)
    (e : Nat) (hng : ¬ good e) : SeedInv g node2 slot good (done ++ [e]) h := by
  refine ⟨hJ.inv, hJ.cap, hJ.size, ?_, ?_, fun k c d l hv => by
    obtain ⟨p1, p2, p3, p4, p5⟩ := hJ.payload k c d l hv
    exact ⟨p1, List.mem_append_left _ p2, p3, p4, p5⟩⟩
  · intro k c d l hv
    obtain ⟨h1, h2, h3, e0, he0, h4⟩ := hJ.entries k c d l hv
    exact ⟨h1, h2, h3, e0, List.mem_append_left _ he0, h4⟩
  · intro e' he' hg
    simp only [List.mem_append, List.mem_singleton] at he'
    rcases he' with he' | he'
    · exact hJ.seeds e' he' hg
    · subst he'
      exact absurd hg hng

/-- A `good` edge whose entry is already not above its distance leaves the heap as it is. -/
theorem SeedInv_keep {done : List Nat} {h : Heap} (hJ : SeedInv g node2 slot good done h)
    (e : Nat) {c : Int} {d : HeapData} {l : Bool}
    (hv : view h (g.GetFirstOriginalEdge node2 + slot e) = some (c, d, l))
    (hc : c ≤ (g.GetEdgeData e).distance) : SeedInv g node2 slot good (done ++ [e]) h := by
  refine ⟨hJ.inv, hJ.cap, hJ.size, ?_, ?_, fun k c d l hv => by
    obtain ⟨p1, p2, p3, p4, p5⟩ := hJ.payload k c d l hv
    exact ⟨p1, List.mem_append_left _ p2, p3, p4, p5⟩⟩
  · intro k c d l hv
    obtain ⟨h1, h2, h3, e0, he0, h4⟩ := hJ.entries k c d l hv
    exact ⟨h1, h2, h3, e0, List.mem_append_left _ he0, h4⟩
  · intro e' he' hg
    simp only [List.mem_append, List.mem_singleton] at he'
    rcases he' with he' | he'
    · exact hJ.seeds e' he' hg
    · subst he'
      exact ⟨c, d, l, hv, hc⟩

/-- A `good` edge that enters the heap or lowers the weight of its entry. -/
theorem SeedInv_update {done : List Nat} {h h' : Heap}
    (hJ : SeedInv g node2 slot good done h) (e : Nat) (hg : good e) {nd : HeapData}
    (hinv : Inv h') (hcap : h'.nodeIndex.positions.length = g.GetNumberOfOriginalEdges)
    (hsize : Size h' = h'.insertedNodes.length)
    (hview : view h' = Function.update (view h) (g.GetFirstOriginalEdge node2 + slot e)
      (some (((g.GetEdgeData e).distance : Int), nd, true)))
    (hold : ∀ (c : Int) (d : HeapData) (l : Bool),
      view h (g.GetFirstOriginalEdge node2 + slot e) = some (c, d, l) →
        ((g.GetEdgeData e).distance : Int) ≤ c)
    (hst : nd.stalled = false) (hnode : nd.node = node2) (horig : nd.originalEdge = slot e)
    (hpo : nd.parentOrig = NONE) (hpe : nd.parentEdge = e) :
    SeedInv g node2 slot good (done ++ [e]) h' := by
  refine ⟨hinv, hcap, hsize, ?_, ?_, ?_⟩
  rotate_right
  · intro k c d l hv
    rw [hview] at hv
    by_cases hk : k = g.GetFirstOriginalEdge node2 + slot e
    · subst hk
      rw [Function.update_same] at hv
      simp only [Option.some.injEq, Prod.mk.injEq] at hv
      obtain ⟨h1, h2, h3⟩ := hv
      subst h1 h2 h3
      rw [hpe]
      exact ⟨hpo, by simp, hg, rfl, rfl⟩
    · rw [Function.update_noteq hk] at hv
      obtain ⟨p1, p2, p3, p4, p5⟩ := hJ.payload k c d l hv
      exact ⟨p1, List.mem_append_left _ p2, p3, p4, p5⟩
  · intro k c d l hv
    rw [hview] at hv
    by_cases hk : k = g.GetFirstOriginalEdge node2 + slot e
    · subst hk
      rw [Function.update_same] at hv
      simp only [Option.some.injEq, Prod.mk.injEq] at hv
      obtain ⟨h1, h2, h3⟩ := hv
      subst h1 h2 h3
      exact ⟨rfl, hst, hnode, e, by simp, hg, rfl, rfl, horig⟩
    · rw [Function.update_noteq hk] at hv
      obtain ⟨h1, h2, h3, e0, he0, h4⟩ := hJ.entries k c d l hv
      exact ⟨h1, h2, h3, e0, List.mem_append_left _ he0, h4⟩
  · intro e' he' hg'
    rw [hview]
    by_cases hk : g.GetFirstOriginalEdge node2 + slot e' = g.GetFirstOriginalEdge node2 + slot e
    · rw [hk, Function.update_same]
      refine ⟨_, nd, true, rfl, ?_⟩
      simp only [List.mem_append, List.mem_singleton] at he'
      rcases he' with he' | he'
      · obtain ⟨c, d, l, hv, hc⟩ := hJ.seeds e' he' hg'
        rw [hk] at hv
        exact le_trans (hold c d l hv) hc
      · rw [he']
    · rw [Function.update_noteq hk]
      simp only [List.mem_append, List.mem_singleton] at he'
      rcases he' with he' | he'
      · exact hJ.seeds e' he' hg'
      · rw [he'] at hk
        exact absurd rfl hk

/-- The part of the loops of `initHeap` that stores a `good` edge. -/
theorem seed_spec {done : List Nat} {h : Heap} (hJ : SeedInv g node2 slot good done h)
    (e : Nat) (hg : good e)
    (hk : g.GetFirstOriginalEdge node2 + slot e < g.GetNumberOfOriginalEdges)
    (hd : (g.GetEdgeData e).distance < 2147483648) (hslot : slot e < 256) :
    ∃ h', seed h (g.GetFirstOriginalEdge node2 + slot e) (g.GetEdgeData e).distance
        (HeapData.new NONE e node2 (slot e)) = .ok h' ∧
      SeedInv g node2 slot good (done ++ [e]) h' := by
  have hi32 : i32 ((g.GetEdgeData e).distance : Int) = (g.GetEdgeData e).distance :=
    i32_eq (by positivity) (by omega)
  have hc : g.GetFirstOriginalEdge node2 + slot e < h.nodeIndex.positions.length := by
    rw [hJ.cap]; exact hk
  have horig : (HeapData.new NONE e node2 (slot e)).originalEdge = slot e :=
    Nat.mod_eq_of_lt hslot
  cases hv : view h (g.GetFirstOriginalEdge node2 + slot e) with
  | none =>
    have hins : h.WasInserted (g.GetFirstOriginalEdge node2 + slot e) = .ok false := by
      rw [WasInserted_view hc, hv]; rfl
    obtain ⟨h', hrun, hinv, hsz, hcap, hcnt, hview⟩ := Insert_view hJ.inv hc hv
      (show (0 : Int) ≤ ((g.GetEdgeData e).distance : Int) by positivity)
      (HeapData.new NONE e node2 (slot e))
    refine ⟨h', ?_, SeedInv_update hJ e hg hinv (by rw [hcap, hJ.cap])
      (by rw [hsz, hcnt, hJ.size]) hview ?_ rfl rfl horig rfl rfl⟩
    · simp only [seed, hins, hi32, bind, Except.bind]
      simpa using hrun
    · intro c d l hv'
      rw [hv] at hv'
      exact absurd hv' (by simp)
  | some v =>
    obtain ⟨c, d, l⟩ := v
    obtain ⟨hl, _⟩ := hJ.entries _ _ _ _ hv
    subst hl
    obtain ⟨hins, hkey, _, _, _⟩ := observers_view hv
    by_cases hlt : ((g.GetEdgeData e).distance : Int) < c
    · obtain ⟨h1, hrun1, hinv1, hsz1, hcap1, hcnt1, hview1⟩ := DecreaseKey_view hJ.inv hv
        (show (0 : Int) ≤ ((g.GetEdgeData e).distance : Int) by positivity) (le_of_lt hlt)
      have hv1 : view h1 (g.GetFirstOriginalEdge node2 + slot e) =
          some (((g.GetEdgeData e).distance : Int), d, true) := by
        rw [hview1, Function.update_same]
      obtain ⟨h2, hrun2, hinv2, hsz2, hcap2, hcnt2, hview2⟩ := SetData_view hinv1 hv1
        (HeapData.new NONE e node2 (slot e))
      refine ⟨h2, ?_, SeedInv_update hJ e hg hinv2 (by rw [hcap2, hcap1, hJ.cap])
        (by rw [hsz2, hsz1, hcnt2, hcnt1, hJ.size])
        (by rw [hview2, hview1, Function.update_idem]) ?_ rfl rfl horig rfl rfl⟩
      · simp only [seed, hins, hkey, hi32, hlt, hrun1, hrun2, bind, Except.bind]
        simp
      · intro c' d' l' hv'
        rw [hv] at hv'
        simp only [Option.some.injEq, Prod.mk.injEq] at hv'
        rw [← hv'.1]
        exact le_of_lt hlt
    · refine ⟨h, ?_, SeedInv_keep hJ e hv (by omega)⟩
      simp only [seed, hins, hkey, hi32, hlt, bind, Except.bind, pure, Except.pure]
      simp

end Seed
end TurnQuery
end MoNav

namespace MoNav
namespace TurnQuery
open BinaryHeap

section Setting
variable {g : Graph} {s s2 t t2 : Nat}

/-- A loop of `initHeap` whose edges are all refused leaves the heap as it is. -/
theorem forLoop_skip {α σ : Type} (body : α → σ → Except Fault (σ × Bool)) (l : List α)
    (s0 : σ) (h : ∀ a ∈ l, body a s0 = .ok (s0, false)) : forLoop body l s0 = .ok s0 := by
  obtain ⟨s', hrun, hs⟩ := forLoop_spec body (fun _ st => st = s0) l s0 rfl
    (by
      intro done a rest st hl hst
      subst hst
      exact ⟨st, h a (by rw [hl]; simp), rfl⟩)
  rw [hrun, hs]

/-- The forward call of `initHeap` stores the edges `s -> s2`. -/
theorem initHeap_fwd (hS : Setting g s s2 t t2) (h0 : Heap)
    (hcap : h0.nodeIndex.positions.length = g.GetNumberOfOriginalEdges) :
    ∃ hf, initHeap g (BinaryHeap.Clear h0) s s2 AllowForwardEdge = .ok hf ∧
      SeedInv g s2 g.GetOriginalEdgeTarget (fun e => g.GetTarget e = s2) (g.edgesOf s) hf := by
  obtain ⟨hf, hrun, hJ⟩ := forLoop_spec (initBody1 g s2 AllowForwardEdge)
    (fun done h => SeedInv g s2 g.GetOriginalEdgeTarget (fun e => g.GetTarget e = s2) done h)
    (g.edgesOf s) (BinaryHeap.Clear h0) (SeedInv_init h0 hcap)
    (by
      intro done e rest h hl hJ
      have he : e ∈ g.edgesOf s := by rw [hl]; simp
      obtain ⟨_, _, hslot, _, _, hfw, _, hsc⟩ := edge_facts hS hS.hs he
      by_cases ht : g.GetTarget e = s2
      · rw [ht] at hslot
        obtain ⟨hklt, hku⟩ := key_lt hS hS.hs2
          (show g.GetOriginalEdgeTarget e < max _ _ from lt_max_of_lt_left hslot)
        obtain ⟨h', hrun, hJ'⟩ := seed_spec hJ e ht hklt
          (by have := hS.range.tent e _ (Or.inl ⟨he, ht, rfl⟩); omega)
          (by have := (hS.wf.degree s2 hS.hs2).1; omega)
        refine ⟨h', ?_, hJ'⟩
        simp only [initBody1, AllowForwardEdge, hfw, hsc, ht, hku, hrun, bind, Except.bind,
          pure, Except.pure]
        simp
      · refine ⟨h, ?_, SeedInv_skip hJ e ht⟩
        simp only [initBody1, AllowForwardEdge, hfw, hsc, bind, Except.bind, pure, Except.pure]
        simp [ht])
  refine ⟨hf, ?_, hJ⟩
  simp only [initHeap, hrun, bind, Except.bind]
  apply forLoop_skip
  intro e he
  obtain ⟨_, _, _, _, _, _, hbw, _⟩ := edge_facts hS hS.hs2 he
  simp [initBody2, AllowForwardEdge, hbw, pure, Except.pure]

/-- The backward call of `initHeap` stores the edges `t2 -> t`. -/
theorem initHeap_bwd (hS : Setting g s s2 t t2) (h0 : Heap)
    (hcap : h0.nodeIndex.positions.length = g.GetNumberOfOriginalEdges) :
    ∃ hb, initHeap g (BinaryHeap.Clear h0) t t2 AllowBackwardEdge = .ok hb ∧
      SeedInv g t2 g.GetOriginalEdgeSource (fun e => g.GetTarget e = t) (g.edgesOf t2) hb := by
  have h1 : forLoop (initBody1 g t2 AllowBackwardEdge) (g.edgesOf t) (BinaryHeap.Clear h0) =
      .ok (BinaryHeap.Clear h0) := by
    apply forLoop_skip
    intro e he
    obtain ⟨_, _, _, _, _, _, hbw, _⟩ := edge_facts hS hS.ht he
    simp [initBody1, AllowBackwardEdge, hbw, pure, Except.pure]
  obtain ⟨hb, hrun, hJ⟩ := forLoop_spec (initBody2 g t t2 AllowBackwardEdge)
    (fun done h => SeedInv g t2 g.GetOriginalEdgeSource (fun e => g.GetTarget e = t) done h)
    (g.edgesOf t2) (BinaryHeap.Clear h0) (SeedInv_init h0 hcap)
    (by
      intro done e rest h hl hJ
      have he : e ∈ g.edgesOf t2 := by rw [hl]; simp
      obtain ⟨_, hslot, _, _, _, hfw, _, hsc⟩ := edge_facts hS hS.ht2 he
      by_cases ht : g.GetTarget e = t
      · obtain ⟨hklt, hku⟩ := key_lt hS hS.ht2
          (show g.GetOriginalEdgeSource e < max _ _ from lt_max_of_lt_right hslot)
        obtain ⟨h', hrun, hJ'⟩ := seed_spec hJ e ht hklt
          (by have := hS.range.seed e he ht; omega)
          (by have := (hS.wf.degree t2 hS.ht2).2; omega)
        refine ⟨h', ?_, hJ'⟩
        simp only [initBody2, AllowBackwardEdge, hfw, hsc, ht, hku, hrun, bind, Except.bind,
          pure, Except.pure]
        simp
      · refine ⟨h, ?_, SeedInv_skip hJ e ht⟩
        simp only [initBody2, AllowBackwardEdge, hfw, hsc, bind, Except.bind, pure,
          Except.pure]
        simp [ht])
  refine ⟨hb, ?_, hJ⟩
  simp only [initHeap, h1, bind, Except.bind]
  exact hrun

/-- After seeding, the forward heap satisfies the search invariant. -/
theorem FwdInv_of_seed {hf : Heap}
    (hJ : SeedInv g s2 g.GetOriginalEdgeTarget (fun e => g.GetTarget e = s2) (g.edgesOf s) hf) :
    FwdInv g s s2 t t2 INT_MAX hf := by
  refine ⟨hJ.inv, hJ.cap, ?_, ?_, ?_, ?_, fun k c d l hv => by
    obtain ⟨p1, p2, p3, p4, p5⟩ := hJ.payload k c d l hv
    exact ⟨by rw [p3]; exact p4, Or.inl ⟨p1, p2, p3, p5⟩⟩⟩
  · intro k c d l hv
    obtain ⟨hl, hst, hn, e, he, ht, hk, hc, ho⟩ := hJ.entries k c d l hv
    subst hl
    exact ⟨[e], e, (g.GetEdgeData e).distance, Walk.seed e he ht, hc, by rw [hn, ht],
      ho, by rw [ht]; exact hk, hst, Or.inl ⟨he, ht, rfl⟩⟩
  · intro k c d k' c' d' hv _
    exact absurd (hJ.entries k c d false hv).1 (by simp)
  · intro k c d hv _
    exact absurd (hJ.entries k c d false hv).1 (by simp)
  · exact hJ.seeds

/-- After seeding, the backward heap satisfies the search invariant. -/
theorem BwdInv_of_seed {hb : Heap}
    (hJ : SeedInv g t2 g.GetOriginalEdgeSource (fun e => g.GetTarget e = t) (g.edgesOf t2) hb) :
    BwdInv g t t2 hb := by
  refine ⟨hJ.inv, hJ.cap, ?_, hJ.seeds, hJ.payload⟩
  intro k c d l hv
  obtain ⟨_, hst, hn, e, he, ht, hk, hc, ho⟩ := hJ.entries k c d l hv
  exact ⟨hst, hn, e, he, ht, hk, hc, ho⟩

/-- The least weight of a seeded heap is the least distance of the stored edges. -/
theorem SeedInv_min {node2 : Nat} {slot : Nat → Nat} {good : Nat → Prop} {done : List Nat}
    {h : Heap} (hJ : SeedInv g node2 slot good done h) (hsz : 0 < Size h) :
    ∃ c : Int, MinKey h = .ok c ∧ (∃ e ∈ done, good e ∧ c = (g.GetEdgeData e).distance) ∧
      ∀ e ∈ done, good e → c ≤ (g.GetEdgeData e).distance := by
  obtain ⟨m, c, d, hrun, hv, hmin⟩ := MinKey_view hJ.inv hsz
  obtain ⟨_, _, _, e, he, hg, _, hc, _⟩ := hJ.entries _ _ _ _ hv
  refine ⟨c, hrun, ⟨e, he, hg, hc⟩, ?_⟩
  intro e' he' hg'
  obtain ⟨c', d', l', hv', hc'⟩ := hJ.seeds e' he' hg'
  obtain ⟨hl, _⟩ := hJ.entries _ _ _ _ hv'
  subst hl
  exact le_trans (hmin _ _ _ hv') hc'

/-- A seeded heap is empty exactly when no edge was stored. -/
theorem SeedInv_empty {node2 : Nat} {slot : Nat → Nat} {good : Nat → Prop} {done : List Nat}
    {h : Heap} (hJ : SeedInv g node2 slot good done h) (hsz : Size h = 0) {e : Nat}
    (he : e ∈ done) : ¬ good e := by
  intro hg
  obtain ⟨c', d', l', hv', _⟩ := hJ.seeds e he hg
  obtain ⟨hl, _⟩ := hJ.entries _ _ _ _ hv'
  subst hl
  have := Size_pos_of_live hJ.inv hv'
  omega

/-- A walk costs at least the distance of its first edge, an edge `s -> s2`. -/
theorem walk_first {es : List Nat} {e c : Nat} (hw : Walk g s s2 es e c) :
    ∃ e0 ∈ g.edgesOf s, g.GetTarget e0 = s2 ∧ (g.GetEdgeData e0).distance ≤ c := by
  induction hw with
  | seed e he het => exact ⟨e, he, het, le_refl _⟩
  | step es e c e' _ _ _ ih =>
    obtain ⟨e0, he0, ht0, hc0⟩ := ih
    exact ⟨e0, he0, ht0, by omega⟩

end Setting
end TurnQuery
end MoNav

namespace MoNav
namespace TurnQuery
open BinaryHeap

section Setting
variable {g : Graph} {s s2 t t2 : Nat}

/-- The common start of both searches on a cleared query. -/
theorem initSearch_spec (hS : Setting g s s2 t t2) (q : TurnQuery)
    (hcf : q.m_heapForward.nodeIndex.positions.length = g.GetNumberOfOriginalEdges)
    (hcb : q.m_heapBackward.nodeIndex.positions.length = g.GetNumberOfOriginalEdges) :
    ∃ (hf hb : Heap),
      initSearch g q.Clear s s2 t t2 = .ok ⟨hf, hb, q.m_stallQueue, ⟨NONE, 0, 0⟩⟩ ∧
      SeedInv g s2 g.GetOriginalEdgeTarget (fun e => g.GetTarget e = s2) (g.edgesOf s) hf ∧
      SeedInv g t2 g.GetOriginalEdgeSource (fun e => g.GetTarget e = t) (g.edgesOf t2) hb := by
  obtain ⟨hf, hrunf, hJf⟩ := initHeap_fwd hS q.m_heapForward hcf
  obtain ⟨hb, hrunb, hJb⟩ := initHeap_bwd hS q.m_heapBackward hcb
  refine ⟨hf, hb, ?_, hJf, hJb⟩
  simp only [initSearch, assert_ok hS.hs, assert_ok hS.hs2, assert_ok hS.ht, assert_ok hS.ht2,
    TurnQuery.Clear, hrunf, hrunb, bind, Except.bind, pure, Except.pure]

/-- No path exists when one of the heaps is empty after seeding. -/
theorem no_path_of_empty {hf hb : Heap}
    (hJf : SeedInv g s2 g.GetOriginalEdgeTarget (fun e => g.GetTarget e = s2) (g.edgesOf s) hf)
    (hJb : SeedInv g t2 g.GetOriginalEdgeSource (fun e => g.GetTarget e = t) (g.edgesOf t2) hb)
    (h0 : Size hb = 0 ∨ Size hf = 0) : IsShortest g s s2 t t2 INT_MAX := by
  right
  refine ⟨?_, rfl⟩
  rintro ⟨es, c, e, hw, he, het⟩
  rcases h0 with h0 | h0
  · exact SeedInv_empty hJb h0 he het
  · obtain ⟨e0, he0, ht0, _⟩ := walk_first hw
    exact SeedInv_empty hJf h0 he0 ht0

/-- When the seed edge is also the final edge, both heaps have the same least weight, the
least distance of an edge `s -> s2`, and that is the least cost of a path. -/
theorem trivial_case {hf hb : Heap}
    (hJf : SeedInv g s2 g.GetOriginalEdgeTarget (fun e => g.GetTarget e = s2) (g.edgesOf s) hf)
    (hJb : SeedInv g t2 g.GetOriginalEdgeSource (fun e => g.GetTarget e = t) (g.edgesOf t2) hb)
    (hf0 : 0 < Size hf) (hb0 : 0 < Size hb) (hst : s = t2) (hts : s2 = t) :
    ∃ k : Int, MinKey hf = .ok k ∧ MinKey hb = .ok k ∧ IsShortest g s s2 t t2 k := by
  obtain ⟨kf, hrf, ⟨ef, hef, hgf, hcf⟩, hminf⟩ := SeedInv_min hJf hf0
  obtain ⟨kb, hrb, ⟨eb, heb, hgb, hcb⟩, hminb⟩ := SeedInv_min hJb hb0
  subst hst hts
  have h1 : kf ≤ kb := by rw [hcb]; exact hminf eb heb hgb
  have h2 : kb ≤ kf := by rw [hcf]; exact hminb ef hef hgf
  have hk : kb = kf := le_antisymm h2 h1
  refine ⟨kf, hrf, by rw [hrb, hk], Or.inl ⟨[ef], (g.GetEdgeData ef).distance,
    ⟨ef, Walk.seed ef hef hgf, hef, hgf⟩, hcf, ?_⟩⟩
  rintro es' c' ⟨e', hw', _, _⟩
  obtain ⟨e0, he0, ht0, hc0⟩ := walk_first hw'
  have := hminf e0 he0 ht0
  rw [hcf] at this
  have : (g.GetEdgeData ef).distance ≤ (g.GetEdgeData e0).distance := by exact_mod_cast this
  omega

/-- The state in which the search loops begin satisfies their invariant, and the fuel of
the loops covers their measure. -/
theorem SearchInv_init {hf hb : Heap}
    (hJf : SeedInv g s2 g.GetOriginalEdgeTarget (fun e => g.GetTarget e = s2) (g.edgesOf s) hf)
    (hJb : SeedInv g t2 g.GetOriginalEdgeSource (fun e => g.GetTarget e = t) (g.edgesOf t2) hb)
    (q : List StallQueueItem) (mid : Middle) :
    SearchInv g s s2 t t2 ⟨⟨hf, hb, q, mid⟩, INT_MAX⟩ ∧
      forwardMeasure g ⟨⟨hf, hb, q, mid⟩, INT_MAX⟩ + Size hb ≤ loopFuel g := by
  refine ⟨⟨FwdInv_of_seed hJf, BwdInv_of_seed hJb, Or.inl rfl⟩, ?_⟩
  have h1 := Inv_count_le hJf.inv
  have h2 := Inv_count_le hJb.inv
  rw [hJf.cap] at h1
  rw [hJb.cap] at h2
  have h3 := hJf.size
  have h4 := hJb.size
  simp only [forwardMeasure, loopFuel]
  omega

/-- `BidirSearch` on a cleared query returns the least cost of a path. -/
theorem BidirSearch_correct (hS : Setting g s s2 t t2) (sod : Bool) (q : TurnQuery)
    (hcf : q.m_heapForward.nodeIndex.positions.length = g.GetNumberOfOriginalEdges)
    (hcb : q.m_heapBackward.nodeIndex.positions.length = g.GetNumberOfOriginalEdges) :
    ∃ (r : Int) (q' : TurnQuery), BidirSearch g sod q.Clear s s2 t t2 = .ok (r, q') ∧
      IsShortest g s s2 t t2 r := by
  obtain ⟨hf, hb, hinit, hJf, hJb⟩ := initSearch_spec hS q hcf hcb
  by_cases h0 : Size hb = 0 ∨ Size hf = 0
  · refine ⟨INT_MAX, ⟨hf, hb, q.m_stallQueue, ⟨NONE, 0, 0⟩⟩, ?_, no_path_of_empty hJf hJb h0⟩
    simp only [BidirSearch, hinit, bind, Except.bind, pure, Except.pure]
    simp [h0]
  · have hb0 : 0 < Size hb := by omega
    have hf0 : 0 < Size hf := by omega
    by_cases h1 : s = t2 ∧ s2 = t
    · obtain ⟨k, hkf, hkb, hk⟩ := trivial_case hJf hJb hf0 hb0 h1.1 h1.2
      refine ⟨k, ⟨hf, hb, q.m_stallQueue, ⟨NONE, 0, 0⟩⟩, ?_, hk⟩
      simp only [BidirSearch, hinit, bind, Except.bind, pure, Except.pure]
      simp [h0, h1, hkf, hkb, assert, pure, Except.pure]
    · obtain ⟨hI, hm⟩ := SearchInv_init hJf hJb q.m_stallQueue ⟨NONE, 0, 0⟩
      have hbs : ∃ eb ∈ g.edgesOf t2, g.GetTarget eb = t := by
        obtain ⟨_, _, ⟨eb, heb, hgb, _⟩, _⟩ := SeedInv_min hJb hb0
        exact ⟨eb, heb, hgb⟩
      obtain ⟨st', hrun, hI', hz⟩ := bidirLoop_spec hS sod h1 hbs (loopFuel g) _ hI hm
      refine ⟨st'.targetDistance, st'.query, ?_, search_final hS hI' hz h1⟩
      simp only [BidirSearch, hinit, bind, Except.bind, pure, Except.pure]
      simp [h0, h1, hrun]

end Setting
end TurnQuery
end MoNav

namespace MoNav
open TurnQuery

theorem diamondPenalty5_le (n i o : Nat) : diamondPenalty5 n i o ≤ 255 := by
  unfold diamondPenalty5
  split <;> omega

/-- The last edge of a walk leads to a node of the graph. -/
theorem walk_target_lt {g : Graph} {s s2 : Nat} (hwf : WellFormed g)
    (hs : s < g.GetNumberOfNodes) {es : List Nat} {e c : Nat} (hw : Walk g s s2 es e c) :
    g.GetTarget e < g.GetNumberOfNodes := by
  induction hw with
  | seed e he _ => exact hwf.target s hs e he
  | step es e c e' _ he' _ ih => exact hwf.target _ ih e' he'

/-- A sufficient condition for `InRange`: there is a path of cost `P`, no edge is longer
than `D`, and `P + 2 * D + 510` is at most `INT_MAX`.  The search expands no state beyond
the cost of a path, so no key exceeds `P + 255 + D`. -/
theorem InRange_of_path {g : Graph} {s s2 t t2 : Nat} (hwf : WellFormed g)
    (hs : s < g.GetNumberOfNodes) (ht2 : t2 < g.GetNumberOfNodes) {es : List Nat} {P D : Nat}
    (hp : IsPath g s s2 t t2 es P)
    (hD : ∀ n, n < g.GetNumberOfNodes → ∀ e ∈ g.edgesOf n, (g.GetEdgeData e).distance ≤ D)
    (hb : P + 2 * D + 510 ≤ 2147483647) : InRange g s s2 t t2 := by
  have htent : ∀ e c, TentW g s s2 t t2 e c → c ≤ P + 255 + D := by
    rintro e c (⟨he, _, hc⟩ | ⟨e0, c0, ⟨_, _, ⟨⟨es0, hw0⟩, _⟩, hle⟩, he, _, hc⟩)
    · have := hD s hs e he
      omega
    · have h1 := hle es P hp
      have h2 := hD _ (walk_target_lt hwf hs hw0) e he
      have h3 := hwf.penalty (g.GetTarget e0) (g.GetOriginalEdgeTarget e0)
        (g.GetOriginalEdgeSource e)
      omega
  refine ⟨fun e c h => ?_, fun e he _ => ?_, ?_⟩
  · have := htent e c h
    omega
  · have := hD t2 ht2 e he
    omega
  · intro e c h _ eb heb _ _
    have h1 := htent e c h
    have h2 := hD t2 ht2 eb heb
    have h3 := hwf.penalty t2 (g.GetOriginalEdgeTarget e) (g.GetOriginalEdgeSource eb)
    omega

theorem diamond_zero_path : IsPath (diamond fun _ _ _ => 0) 0 1 2 1 [0, 2] 30 :=
  ⟨2, Walk.step [0] 0 10 2 (Walk.seed 0 (by decide) (by decide)) (by decide) (by decide),
    by decide, by decide⟩

theorem diamond_five_path : IsPath (diamond diamondPenalty5) 0 1 2 1 [0, 2] 35 :=
  ⟨2, Walk.step [0] 0 10 2 (Walk.seed 0 (by decide) (by decide)) (by decide) (by decide),
    by decide, by decide⟩

theorem diamond_zero_setting : Setting (diamond fun _ _ _ => 0) 0 1 2 1 := by
  have hwf : WellFormed (diamond fun _ _ _ => 0) :=
    ⟨by decide, by decide, by decide, by decide, by decide, by decide, by decide,
      fun _ _ _ => Nat.zero_le _, by decide⟩
  refine ⟨hwf, ?_, by decide, ?_, by decide, by decide, by decide, by decide⟩
  · unfold ForwardOnly
    decide
  · exact InRange_of_path hwf (by decide) (by decide) diamond_zero_path
      (show ∀ n, n < (diamond fun _ _ _ => 0).GetNumberOfNodes →
        ∀ e ∈ (diamond fun _ _ _ => 0).edgesOf n,
          ((diamond fun _ _ _ => 0).GetEdgeData e).distance ≤ 25 by decide) (by decide)

theorem diamond_five_setting : Setting (diamond diamondPenalty5) 0 1 2 1 := by
  have hwf : WellFormed (diamond diamondPenalty5) :=
    ⟨by decide, by decide, by decide, by decide, by decide, by decide, by decide,
      diamondPenalty5_le, by decide⟩
  refine ⟨hwf, ?_, by decide, ?_, by decide, by decide, by decide, by decide⟩
  · unfold ForwardOnly
    decide
  · exact InRange_of_path hwf (by decide) (by decide) diamond_five_path
      (show ∀ n, n < (diamond diamondPenalty5).GetNumberOfNodes →
        ∀ e ∈ (diamond diamondPenalty5).edgesOf n,
          ((diamond diamondPenalty5).GetEdgeData e).distance ≤ 25 by decide) (by decide)

/-- C1 (amended): on a well-formed graph whose edges are all non-shortcut forward edges,
with no edge from `target2` to itself, with all four nodes in range and with every sum that
the search can form in the range of `int` (`InRange`: every key that the forward search can
give to a state, the distance of every edge `target2 -> target`, and every sum of such a key
at `target2`, the penalty of a turn that is not restricted and the distance of an edge
`target2 -> target` is at most `INT_MAX`), `BidirSearch` on a freshly cleared query over
index arrays of `GetNumberOfOriginalEdges()` cells returns, for either setting of
`stallOnDemand`, the least cost (edge distances plus turn penalties) of an edge sequence
that begins with an edge `source -> source2`, ends with an edge `target2 -> target` and has
no turn of penalty 255; it returns `INT_MAX` when there is no such sequence. -/
theorem C1_bidir_shortest {g : Graph} {s s2 t t2 : Nat} (hS : Setting g s s2 t t2)
    (stallOnDemand : Bool) (q : TurnQuery)
    (hcf : q.m_heapForward.nodeIndex.positions.length = g.GetNumberOfOriginalEdges)
    (hcb : q.m_heapBackward.nodeIndex.positions.length = g.GetNumberOfOriginalEdges) :
    ∃ r : Int, (BidirSearch g stallOnDemand q.Clear s s2 t t2).map Prod.fst = .ok r ∧
      IsShortest g s s2 t t2 r := by
  obtain ⟨r, q', hrun, hr⟩ := BidirSearch_correct hS stallOnDemand q hcf hcb
  exact ⟨r, by rw [hrun]; rfl, hr⟩

/-- The diamond of the specification: `BidirSearch(0, 1, 2, 1)` returns 30 with an all-zero
penalty table and 35 with `penalty(1, in = e0, out = e1) = 5`, and both are the least path
costs. -/
theorem C1_bidir_shortest_witness :
    (BidirSearch (diamond fun _ _ _ => 0) true (freshQuery 6) 0 1 2 1).map Prod.fst = .ok 30 ∧
    IsShortest (diamond fun _ _ _ => 0) 0 1 2 1 30 ∧
    (BidirSearch (diamond diamondPenalty5) true (freshQuery 6) 0 1 2 1).map Prod.fst = .ok 35 ∧
    IsShortest (diamond diamondPenalty5) 0 1 2 1 35 := by
  obtain ⟨r, hrun, hr⟩ := C1_bidir_shortest
    diamond_zero_setting true
    (TurnQuery.new (List.replicate 6 0) (List.replicate 6 0)) (by decide) (by decide)
  obtain ⟨r', hrun', hr'⟩ := C1_bidir_shortest
    diamond_five_setting true
    (TurnQuery.new (List.replicate 6 0) (List.replicate 6 0)) (by decide) (by decide)
  have h30 : (BidirSearch (diamond fun _ _ _ => 0) true (freshQuery 6) 0 1 2 1).map Prod.fst =
      .ok 30 := by decide
  have h35 : (BidirSearch (diamond diamondPenalty5) true (freshQuery 6) 0 1 2 1).map Prod.fst =
      .ok 35 := by decide
  have e1 : r = 30 := by
    have := hrun.symm.trans h30
    exact Except.ok.inj this
  have e2 : r' = 35 := by
    have := hrun'.symm.trans h35
    exact Except.ok.inj this
  subst e1 e2
  exact ⟨h30, hr, h35, hr'⟩

end MoNav

namespace MoNav
open TurnQuery

theorem loopGraph_wellFormed : WellFormed loopGraph := by
  refine ⟨by decide, by decide, by decide, by decide, by decide, by decide, by decide, ?_,
    by decide⟩
  intro n i o
  show loopPenalty n i o ≤ 255
  unfold loopPenalty
  split <;> omega

theorem loopGraph_forwardOnly : ForwardOnly loopGraph := by
  unfold ForwardOnly
  decide

theorem loopGraph_path : IsPath loopGraph 0 1 5 4 [0, 1, 2, 3, 5] 45 := by
  refine ⟨5, ?_, by decide, by decide⟩
  have h0 : Walk loopGraph 0 1 [0] 0 10 := Walk.seed 0 (by decide) (by decide)
  have h1 : Walk loopGraph 0 1 [0, 1] 1 20 := Walk.step [0] 0 10 1 h0 (by decide) (by decide)
  have h2 : Walk loopGraph 0 1 [0, 1, 2] 2 30 := Walk.step [0, 1] 1 20 2 h1 (by decide) (by decide)
  have h3 : Walk loopGraph 0 1 [0, 1, 2, 3] 3 40 :=
    Walk.step [0, 1, 2] 2 30 3 h2 (by decide) (by decide)
  exact Walk.step [0, 1, 2, 3] 3 40 5 h3 (by decide) (by decide)

theorem longGraph_wellFormed : WellFormed longGraph := by
  refine ⟨by decide, by decide, by decide, by decide, by decide, by decide, by decide, ?_,
    by decide⟩
  intro n i o
  show (0 : Nat) ≤ 255
  omega

theorem longGraph_forwardOnly : ForwardOnly longGraph := by
  unfold ForwardOnly
  decide

theorem longGraph_path : IsPath longGraph 0 1 2 1 [0, 1] 2147484000 :=
  ⟨1, Walk.step [0] 0 2147483000 1 (Walk.seed 0 (by decide) (by decide)) (by decide)
    (by decide), by decide, by decide⟩

theorem tentGraph_wellFormed : WellFormed tentGraph :=
  ⟨by decide, by decide, by decide, by decide, by decide, by decide, by decide,
    fun _ _ _ => Nat.zero_le _, by decide⟩

theorem tentGraph_forwardOnly : ForwardOnly tentGraph := by
  unfold ForwardOnly
  decide

theorem tentGraph_path : IsPath tentGraph 0 1 4 3 [0, 2, 4, 5] 1030 := by
  refine ⟨5, ?_, by decide, by decide⟩
  have h0 : Walk tentGraph 0 1 [0] 0 10 := Walk.seed 0 (by decide) (by decide)
  have h1 : Walk tentGraph 0 1 [0, 2] 2 20 := Walk.step [0] 0 10 2 h0 (by decide) (by decide)
  have h2 : Walk tentGraph 0 1 [0, 2, 4] 4 30 :=
    Walk.step [0, 2] 2 20 4 h1 (by decide) (by decide)
  exact Walk.step [0, 2, 4] 4 30 5 h2 (by decide) (by decide)

theorem farGraph_wellFormed : WellFormed farGraph :=
  ⟨by decide, by decide, by decide, by decide, by decide, by decide, by decide,
    fun _ _ _ => Nat.zero_le _, by decide⟩

theorem farGraph_forwardOnly : ForwardOnly farGraph := by
  unfold ForwardOnly
  decide

theorem farGraph_path : IsPath farGraph 0 1 4 2 [0, 1, 3] 30 := by
  refine ⟨3, ?_, by decide, by decide⟩
  have h0 : Walk farGraph 0 1 [0] 0 10 := Walk.seed 0 (by decide) (by decide)
  have h1 : Walk farGraph 0 1 [0, 1] 1 20 := Walk.step [0] 0 10 1 h0 (by decide) (by decide)
  exact Walk.step [0, 1] 1 20 3 h1 (by decide) (by decide)

theorem seedGraph_wellFormed : WellFormed seedGraph :=
  ⟨by decide, by decide, by decide, by decide, by decide, by decide, by decide,
    fun _ _ _ => Nat.zero_le _, by decide⟩

theorem seedGraph_forwardOnly : ForwardOnly seedGraph := by
  unfold ForwardOnly
  decide

/-- Every walk of `seedGraph` from the edge `0 -> 1` ends at node 1 and every walk from the
edge `2 -> 3` ends at node 3, nodes that no edge leaves: there is no path from one of the
two edges to the other. -/
theorem seedGraph_no_path :
    (¬ ∃ (es : List Nat) (c : Nat), IsPath seedGraph 0 1 3 2 es c) ∧
    ¬ ∃ (es : List Nat) (c : Nat), IsPath seedGraph 2 3 1 0 es c := by
  have h1 : ∀ {es : List Nat} {e c : Nat}, Walk seedGraph 0 1 es e c → e = 0 := by
    intro es e c hw
    induction hw with
    | seed e he _ => exact (by decide : ∀ e ∈ seedGraph.edgesOf 0, e = 0) e he
    | step es e c e' _ he _ ih =>
      subst ih
      exact ((by decide : ∀ e ∈ seedGraph.edgesOf (seedGraph.GetTarget 0), False) e' he).elim
  have h2 : ∀ {es : List Nat} {e c : Nat}, Walk seedGraph 2 3 es e c → e = 1 := by
    intro es e c hw
    induction hw with
    | seed e he _ => exact (by decide : ∀ e ∈ seedGraph.edgesOf 2, e = 1) e he
    | step es e c e' _ he _ ih =>
      subst ih
      exact ((by decide : ∀ e ∈ seedGraph.edgesOf (seedGraph.GetTarget 1), False) e' he).elim
  constructor
  · rintro ⟨es, c, e, hw, he, _⟩
    have := h1 hw
    subst this
    exact absurd he (by decide)
  · rintro ⟨es, c, e, hw, he, _⟩
    have := h2 hw
    subst this
    exact absurd he (by decide)

/-- C1, as the claim states it, fails in five ways.  `loopGraph` is well formed, all its
edges are non-shortcut forward edges of positive distance, the edge sequence `0 1 2 3 5`
leads from the edge `0 -> 1` to the edge `4 -> 5` over turns that are not forbidden and
costs 45, and `BidirSearch(0, 1, 5, 4)` on a freshly cleared query returns `INT_MAX`, which
is not the least path cost.  `longGraph` is well formed and forward-only too, with no edge
from node 1 to itself; its only path from the edge `0 -> 1` to the edge `1 -> 2` costs
2147484000, and `BidirSearch(0, 1, 2, 1)` returns the negative number -2147483296.  On
`tentGraph`, well formed and forward-only with no edge from node 3 to itself, a path costs
1030, but the first backward step meets the state that the long edge `1 -> 3` has entered
under the key 2147483010, the sum with the distance 1000 of the edge `3 -> 4` leaves the
range of `int`, and `BidirSearch(0, 1, 4, 3)` returns -2147483286.  On `farGraph`, well
formed and forward-only with no edge from node 2 to itself, a path costs 30, but the first
forward step relaxes the side edge of distance 2147483640, the new key leaves the range of
`int`, and `BidirSearch(0, 1, 4, 2)` fails an assertion of the heap instead of returning.
On `seedGraph`, well formed and forward-only, there is no path between the edges `0 -> 1`
and `2 -> 3`, so that `INT_MAX` is the answer, but the distance 3000000000 of the edge
`2 -> 3` is a negative `int`, and `BidirSearch(0, 1, 3, 2)`, which seeds the backward heap
with that edge, and `BidirSearch(2, 3, 1, 0)`, which seeds the forward heap with it, fail
the assertion of `Insert`. -/
theorem C1_bidir_loop_counterexample :
    (WellFormed loopGraph ∧ ForwardOnly loopGraph ∧
      IsPath loopGraph 0 1 5 4 [0, 1, 2, 3, 5] 45 ∧
      (BidirSearch loopGraph true (freshQuery 9) 0 1 5 4).map Prod.fst = .ok 2147483647 ∧
      ¬ IsShortest loopGraph 0 1 5 4 2147483647) ∧
    (WellFormed longGraph ∧ ForwardOnly longGraph ∧
      (∀ e ∈ longGraph.edgesOf 1, longGraph.GetTarget e ≠ 1) ∧
      IsPath longGraph 0 1 2 1 [0, 1] 2147484000 ∧
      (BidirSearch longGraph true (freshQuery 3) 0 1 2 1).map Prod.fst = .ok (-2147483296) ∧
      ¬ IsShortest longGraph 0 1 2 1 (-2147483296)) ∧
    (WellFormed tentGraph ∧ ForwardOnly tentGraph ∧
      (∀ e ∈ tentGraph.edgesOf 3, tentGraph.GetTarget e ≠ 3) ∧
      IsPath tentGraph 0 1 4 3 [0, 2, 4, 5] 1030 ∧
      (BidirSearch tentGraph true (freshQuery 9) 0 1 4 3).map Prod.fst = .ok (-2147483286) ∧
      ¬ IsShortest tentGraph 0 1 4 3 (-2147483286)) ∧
    (WellFormed farGraph ∧ ForwardOnly farGraph ∧
      (∀ e ∈ farGraph.edgesOf 2, farGraph.GetTarget e ≠ 2) ∧
      IsPath farGraph 0 1 4 2 [0, 1, 3] 30 ∧
      BidirSearch farGraph true (freshQuery 6) 0 1 4 2 = .error .assertion) ∧
    (WellFormed seedGraph ∧ ForwardOnly seedGraph ∧
      (∀ e ∈ seedGraph.edgesOf 2, seedGraph.GetTarget e ≠ 2) ∧
      (∀ e ∈ seedGraph.edgesOf 0, seedGraph.GetTarget e ≠ 0) ∧
      (¬ ∃ (es : List Nat) (c : Nat), IsPath seedGraph 0 1 3 2 es c) ∧
      (¬ ∃ (es : List Nat) (c : Nat), IsPath seedGraph 2 3 1 0 es c) ∧
      BidirSearch seedGraph true (freshQuery 4) 0 1 3 2 = .error .assertion ∧
      BidirSearch seedGraph true (freshQuery 4) 2 3 1 0 = .error .assertion) := by
  refine ⟨⟨loopGraph_wellFormed, loopGraph_forwardOnly, loopGraph_path, by decide, ?_⟩,
    ⟨longGraph_wellFormed, longGraph_forwardOnly, by decide, longGraph_path, by decide, ?_⟩,
    ⟨tentGraph_wellFormed, tentGraph_forwardOnly, by decide, tentGraph_path, by decide, ?_⟩,
    ⟨farGraph_wellFormed, farGraph_forwardOnly, by decide, farGraph_path, by decide⟩,
    ⟨seedGraph_wellFormed, seedGraph_forwardOnly, by decide, by decide, seedGraph_no_path.1,
      seedGraph_no_path.2, by decide, by decide⟩⟩
  · rintro (⟨es, c, _, hc, hmin⟩ | ⟨hno, _⟩)
    · have := hmin _ _ loopGraph_path
      have hc' : (2147483647 : Int) = (c : Int) := hc
      omega
    · exact hno ⟨_, _, loopGraph_path⟩
  · rintro (⟨es, c, _, hc, _⟩ | ⟨_, hr⟩)
    · have hc' : (-2147483296 : Int) = (c : Int) := hc
      omega
    · have hr' : (-2147483296 : Int) = 2147483647 := hr
      omega
  · rintro (⟨es, c, _, hc, _⟩ | ⟨_, hr⟩)
    · have hc' : (-2147483286 : Int) = (c : Int) := hc
      omega
    · have hr' : (-2147483286 : Int) = 2147483647 := hr
      omega

end MoNav

namespace MoNav
namespace BinaryHeap
variable {δ : Type}

/-- C11 (DeleteAll): in every reachable state `DeleteAll` completes and leaves `Size() == 0`
and a tree of length 1 that holds the sentinel of weight 0; every id that was inserted is
still inserted and is now removed, with `GetKey` and `GetData` unchanged; and `WasInserted`
answers for every id what it answered before, so ids not inserted stay not inserted. -/
theorem C11_deleteAll (s : BinaryHeap δ) (h : Reachable s) :
    ∃ s' : BinaryHeap δ, DeleteAll s = .ok s' ∧ Size s' = 0 ∧ s'.heap.length = 1 ∧
      (∃ e0 : HeapElement, s'.heap[0]? = some e0 ∧ e0.weight = 0) ∧
      (∀ id, WasInserted s id = .ok true →
        WasInserted s' id = .ok true ∧ WasRemoved s' id = .ok true ∧
        GetKey s' id = GetKey s id ∧ GetData s' id = GetData s id) ∧
      (∀ id, WasInserted s id = .ok false → WasInserted s' id = .ok false) ∧
      ∀ id, WasInserted s' id = WasInserted s id := by
  have hi := Reachable_inv h
  obtain ⟨s', hrun, hinv, hlen, _, _, _⟩ := DeleteAll_spec hi
  obtain ⟨s'', hrun', _, hsz, _, hobs, hrem⟩ := DeleteAll_obs hi
  rw [hrun] at hrun'
  have hs := Except.ok.inj hrun'
  subst hs
  refine ⟨s', hrun, hsz, hlen, hinv.ord.1, ?_, ?_, fun id => (hobs id).1⟩
  · intro id hin
    exact ⟨by rw [(hobs id).1]; exact hin, hrem id hin, (hobs id).2.1, (hobs id).2.2⟩
  · intro id hin
    rw [(hobs id).1]
    exact hin

theorem C11_deleteAll_witness :
    ∃ s' : BinaryHeap Nat, DeleteAll demo2 = .ok s' ∧ Size s' = 0 ∧ s'.heap.length = 1 ∧
      (∃ e0 : HeapElement, s'.heap[0]? = some e0 ∧ e0.weight = 0) ∧
      (∀ id, WasInserted demo2 id = .ok true →
        WasInserted s' id = .ok true ∧ WasRemoved s' id = .ok true ∧
        GetKey s' id = GetKey demo2 id ∧ GetData s' id = GetData demo2 id) ∧
      (∀ id, WasInserted demo2 id = .ok false → WasInserted s' id = .ok false) ∧
      ∀ id, WasInserted s' id = WasInserted demo2 id :=
  C11_deleteAll demo2 demo2_reachable

end BinaryHeap

open TurnQuery

/-- C14 fails where the seed edges coincide: on the diamond with an all-zero penalty table,
`BidirSearch(0, 1, 1, 0)` and `UnidirSearch(0, 1, 1, 0)` on a freshly cleared query return
10, the distance of the edge `0 -> 1`, through the early return that compares the two
`MinKey()`s; `m_middle.node` is still `(unsigned)-1`, and the assertion of a following
`GetPath` fails. -/
theorem C14_seed_collision_middle_unset :
    (BidirSearch (diamond fun _ _ _ => 0) true (freshQuery 6) 0 1 1 0).map
        (fun r => (r.1, r.2.m_middle.node)) = .ok (10, NONE) ∧
    (UnidirSearch (diamond fun _ _ _ => 0) true (freshQuery 6) 0 1 1 0).map
        (fun r => (r.1, r.2.m_middle.node)) = .ok (10, NONE) ∧
    (BidirSearch (diamond fun _ _ _ => 0) true (freshQuery 6) 0 1 1 0 >>=
        fun r => GetPath r.2 ⟨[], []⟩) = .error .assertion ∧
    (10 : Int) ≠ INT_MAX := by
  refine ⟨by decide, by decide, by decide, by decide⟩

/-- C16, as the claim states it, fails: after `BidirSearch(0, 1, 2, 1)` on the diamond,
`GetPath` on an empty `Path` returns one edge in `up` and one edge in `down`, not two edges
in `up` and an empty `down` (the edge `1 -> 2`, `e1` of the claim, has id 2 in the stored
order, in which the two edges of node 0 come first). -/
theorem C16_diamond_path_counterexample :
    ∃ p : Path, (BidirSearch (diamond fun _ _ _ => 0) true (freshQuery 6) 0 1 2 1 >>=
        fun r => GetPath r.2 ⟨[], []⟩) = .ok p ∧
      p.up.length = 1 ∧ p.down ≠ [] ∧ ¬ (p.up = [0, 2] ∧ p.down = []) :=
  ⟨⟨[0], [2]⟩, by decide, by decide, by decide, by decide⟩

/-- C16 (amended): on the four-node diamond with an all-zero penalty table,
`BidirSearch(0, 1, 2, 1)` on a freshly cleared query returns 30, and a following `GetPath`
on an empty `Path` yields `up == [e0]`, the forward chain from the meeting state back to
the source seed, and `down == [e1]`, the backward chain from the meeting state to the
target seed, where `e0` is the edge `0 -> 1` (id 0) and `e1` the edge `1 -> 2` (id 2). -/
theorem C16_diamond_path :
    (BidirSearch (diamond fun _ _ _ => 0) true (freshQuery 6) 0 1 2 1).map Prod.fst = .ok 30 ∧
    (BidirSearch (diamond fun _ _ _ => 0) true (freshQuery 6) 0 1 2 1 >>=
        fun r => GetPath r.2 ⟨[], []⟩) = .ok ⟨[0], [2]⟩ ∧
    (diamond fun _ _ _ => 0).GetTarget 0 = 1 ∧ 0 ∈ (diamond fun _ _ _ => 0).edgesOf 0 ∧
    (diamond fun _ _ _ => 0).GetTarget 2 = 2 ∧ 2 ∈ (diamond fun _ _ _ => 0).edgesOf 1 := by
  refine ⟨by decide, by decide, by decide, by decide, by decide, by decide⟩

end MoNav

namespace MoNav
open TurnQuery

theorem stallGraph98_wellFormed : WellFormed (stallGraph 9 8) :=
  ⟨by decide, by decide, by decide, by decide, by decide, by decide, by decide,
    fun _ _ _ => Nat.zero_le _, by decide⟩

theorem stallGraph89_wellFormed : WellFormed (stallGraph 8 9) :=
  ⟨by decide, by decide, by decide, by decide, by decide, by decide, by decide,
    fun _ _ _ => Nat.zero_le _, by decide⟩

theorem stallGraph98_noOverflow : NoOverflow (stallGraph 9 8) 50 := by
  unfold NoOverflow
  decide

/-- C17 fails on `stallGraph 9 8`, a well-formed graph with positive distances of at most
50, an all-zero penalty table and no sum near the range of `int`.  The third forward step
of `BidirSearch(0, 1, 5, 4)` settles the state of node 2, finds through the backward edge 4
the cheaper state of node 3, stalls and starts the stall BFS; for the edge 5 (`2 -> 4`) the
BFS calls `WasInserted` with the key `FirstOriginalEdge(GetTarget(2)) +
GetOriginalEdgeTarget(5) = 9 + 1 = 10`, where 2 is the node of the popped item, not an
edge.  The heap has the 10 cells `0 .. 9`, so the assertion in `ArrayStorage::operator[]`
fails and the search does not complete; `UnidirSearch` fails the same way. -/
theorem C17_stall_bfs_out_of_range :
    WellFormed (stallGraph 9 8) ∧ NoOverflow (stallGraph 9 8) 50 ∧
    (stallGraph 9 8).GetNumberOfOriginalEdges = 10 ∧
    (stallGraph 9 8).GetFirstOriginalEdge ((stallGraph 9 8).GetTarget 2) +
      (stallGraph 9 8).GetOriginalEdgeTarget 5 = 10 ∧
    (freshQuery 10).m_heapForward.WasInserted 10 = .error .assertion ∧
    BidirSearch (stallGraph 9 8) true (freshQuery 10) 0 1 5 4 = .error .assertion ∧
    UnidirSearch (stallGraph 9 8) true (freshQuery 10) 0 1 5 4 = .error .assertion ∧
    (BidirSearch (stallGraph 9 8) false (freshQuery 10) 0 1 5 4).map Prod.fst = .ok 36 :=
  ⟨stallGraph98_wellFormed, stallGraph98_noOverflow, by decide, by decide, by decide,
    by decide, by decide, by decide⟩

/-- C19 fails: the stall BFS of the source looks up `GetTarget( stallItem.node )`, the
target of the edge whose id happens to equal the node of the popped item, where the claim
has the target of the edge `se`.  The body of the source is the body of the claim run on a
graph in which every edge leads to `GetTarget( stallItem.node )`, in both directions of
the search; and on `stallGraph 9 8`,
for the item `(2, 0, 12)` and the edge 5 (`2 -> 4`), the source tests the key
`FirstOriginalEdge(3) + 1 = 10`, outside the heap, and fails the assertion of
`ArrayStorage::operator[]`, where the claim tests the key `FirstOriginalEdge(4) + 1 = 7`,
which is not inserted, and goes on. -/
theorem C19_stall_bfs_wrong_target :
    (∀ (g : Graph) (stallItem : StallQueueItem) (se : Nat) (st : Heap × List StallQueueItem),
      stallBody g Dir.fwd stallItem se st =
        stallBodySpec { g with GetTarget := fun _ => g.GetTarget stallItem.node } Dir.fwd
          stallItem se st ∧
      stallBody g Dir.bwd stallItem se st =
        stallBodySpec { g with GetTarget := fun _ => g.GetTarget stallItem.node } Dir.bwd
          stallItem se st) ∧
    (stallGraph 9 8).GetTarget 5 = 4 ∧ (stallGraph 9 8).GetTarget 2 = 3 ∧
    stallBody (stallGraph 9 8) Dir.fwd ⟨2, 0, 12⟩ 5 ((freshQuery 10).m_heapForward, []) =
      .error .assertion ∧
    stallBodySpec (stallGraph 9 8) Dir.fwd ⟨2, 0, 12⟩ 5 ((freshQuery 10).m_heapForward, []) =
      .ok (((freshQuery 10).m_heapForward, []), false) :=
  ⟨fun _ _ _ _ => ⟨rfl, rfl⟩, by decide, by decide, by decide, by decide⟩

/-- C20, as the claim states it, fails: on the well-formed `stallGraph 8 9`,
`UnidirSearch(0, 1, 5, 4)` with `StallOnDemand = true` settles the state 4 of node 2 at
weight 30, finds through the backward edge 4 the cheaper state of node 3, overwrites the
weight of state 4 with 12 and marks it stalled; it returns 61, where the search without
stall-on-demand returns 36. -/
theorem C20_unidir_stalls_counterexample :
    WellFormed (stallGraph 8 9) ∧
    (UnidirSearch (stallGraph 8 9) true (freshQuery 10) 0 1 5 4).map
        (fun r => (r.1, r.2.m_heapForward.GetData 4 |>.map (·.stalled),
          r.2.m_heapForward.GetKey 4)) = .ok (61, .ok true, .ok 12) ∧
    (UnidirSearch (stallGraph 8 9) false (freshQuery 10) 0 1 5 4).map
        (fun r => (r.1, r.2.m_heapForward.GetData 4 |>.map (·.stalled),
          r.2.m_heapForward.GetKey 4)) = .ok (36, .ok false, .ok 30) :=
  ⟨stallGraph89_wellFormed, by decide, by decide⟩

end MoNav

namespace MoNav
open TurnQuery

theorem hugeGraph_wellFormed : WellFormed hugeGraph :=
  ⟨by decide, by decide, by decide, by decide, by decide, by decide, by decide,
    fun _ _ _ => le_refl _, by decide⟩

end MoNav

namespace MoNav
namespace TurnQuery
open BinaryHeap

theorem SeedList_init (h0 : Heap) : SeedList h0.nodeIndex.positions.length [] (BinaryHeap.Clear h0) := by
  obtain ⟨i, hi⟩ := Clear_heap h0
  refine ⟨Clear_inv h0, by rw [hi], ?_, ?_⟩
  · intro k c d l hv
    rw [Clear_view] at hv
    exact absurd hv (by simp)
  · intro k w he
    exact absurd he (by simp)

theorem SeedList_keep {cap : Nat} {items : List (Nat × Nat)} {h : Heap}
    (hJ : SeedList cap items h) (k w : Nat) {c : Int} {d : HeapData} {l : Bool}
    (hv : view h k = some (c, d, l)) (hc : c ≤ w) : SeedList cap (items ++ [(k, w)]) h := by
  refine ⟨hJ.inv, hJ.cap, ?_, ?_⟩
  · intro k' c' d' l' hv'
    obtain ⟨h1, w', hw', h2⟩ := hJ.entries k' c' d' l' hv'
    exact ⟨h1, w', List.mem_append_left _ hw', h2⟩
  · intro k' w' he'
    simp only [List.mem_append, List.mem_singleton, Prod.mk.injEq] at he'
    rcases he' with he' | ⟨rfl, rfl⟩
    · exact hJ.seeds k' w' he'
    · exact ⟨c, d, l, hv, hc⟩

theorem SeedList_update {cap : Nat} {items : List (Nat × Nat)} {h h' : Heap}
    (hJ : SeedList cap items h) (k w : Nat) {nd : HeapData} (hinv : Inv h')
    (hcap : h'.nodeIndex.positions.length = cap)
    (hview : view h' = Function.update (view h) k (some ((w : Int), nd, true)))
    (hold : ∀ (c : Int) (d : HeapData) (l : Bool), view h k = some (c, d, l) → (w : Int) ≤ c) :
    SeedList cap (items ++ [(k, w)]) h' := by
  refine ⟨hinv, hcap, ?_, ?_⟩
  · intro k' c d l hv
    rw [hview] at hv
    by_cases hk : k' = k
    · subst hk
      rw [Function.update_same] at hv
      simp only [Option.some.injEq, Prod.mk.injEq] at hv
      obtain ⟨h1, _, h3⟩ := hv
      exact ⟨h3.symm, w, by simp, h1.symm⟩
    · rw [Function.update_noteq hk] at hv
      obtain ⟨h1, w', hw', h2⟩ := hJ.entries k' c d l hv
      exact ⟨h1, w', List.mem_append_left _ hw', h2⟩
  · intro k' w' he'
    rw [hview]
    by_cases hk : k' = k
    · subst hk
      rw [Function.update_same]
      refine ⟨_, nd, true, rfl, ?_⟩
      simp only [List.mem_append, List.mem_singleton, Prod.mk.injEq] at he'
      rcases he' with he' | ⟨_, rfl⟩
      · obtain ⟨c, d, l, hv, hc⟩ := hJ.seeds k' w' he'
        exact le_trans (hold c d l hv) hc
      · exact le_refl _
    · rw [Function.update_noteq hk]
      simp only [List.mem_append, List.mem_singleton, Prod.mk.injEq] at he'
      rcases he' with he' | ⟨rfl, _⟩
      · exact hJ.seeds k' w' he'
      · exact absurd rfl hk

/-- The part of the loops of `initHeap` that stores one pair, in any graph. -/
theorem seed_list {cap : Nat} {items : List (Nat × Nat)} {h : Heap}
    (hJ : SeedList cap items h) (k w : Nat) (data : HeapData) (hk : k < cap)
    (hw : w < 2147483648) :
    ∃ h', seed h k w data = .ok h' ∧ SeedList cap (items ++ [(k, w)]) h' := by
  have hi32 : i32 (w : Int) = w := i32_eq (by positivity) (by omega)
  have hc : k < h.nodeIndex.positions.length := by rw [hJ.cap]; exact hk
  cases hv : view h k with
  | none =>
    have hins : h.WasInserted k = .ok false := by
      rw [WasInserted_view hc, hv]; rfl
    obtain ⟨h', hrun, hinv, _, hcap, _, hview⟩ := Insert_view hJ.inv hc hv
      (show (0 : Int) ≤ (w : Int) by positivity) data
    refine ⟨h', ?_, SeedList_update hJ k w hinv (by rw [hcap, hJ.cap]) hview ?_⟩
    · simp only [seed, hins, hi32, bind, Except.bind]
      simpa using hrun
    · intro c d l hv'
      rw [hv] at hv'
      exact absurd hv' (by simp)
  | some v =>
    obtain ⟨c, d, l⟩ := v
    obtain ⟨hl, _⟩ := hJ.entries _ _ _ _ hv
    subst hl
    obtain ⟨hins, hkey, _, _, _⟩ := observers_view hv
    by_cases hlt : (w : Int) < c
    · obtain ⟨h1, hrun1, hinv1, _, hcap1, _, hview1⟩ := DecreaseKey_view hJ.inv hv
        (show (0 : Int) ≤ (w : Int) by positivity) (le_of_lt hlt)
      have hv1 : view h1 k = some ((w : Int), d, true) := by
        rw [hview1, Function.update_same]
      obtain ⟨h2, hrun2, hinv2, _, hcap2, _, hview2⟩ := SetData_view hinv1 hv1 data
      refine ⟨h2, ?_, SeedList_update hJ k w hinv2 (by rw [hcap2, hcap1, hJ.cap])
        (by rw [hview2, hview1, Function.update_idem]) ?_⟩
      · simp only [seed, hins, hkey, hi32, hlt, hrun1, hrun2, bind, Except.bind]
        simp
      · intro c' d' l' hv'
        rw [hv] at hv'
        simp only [Option.some.injEq, Prod.mk.injEq] at hv'
        rw [← hv'.1]
        exact le_of_lt hlt
    · refine ⟨h, ?_, SeedList_keep hJ k w hv (by omega)⟩
      simp only [seed, hins, hkey, hi32, hlt, bind, Except.bind, pure, Except.pure]
      simp

/-- The least weight of a seeded heap is the least distance of the stored pairs. -/
theorem SeedList_min {cap : Nat} {items : List (Nat × Nat)} {h : Heap}
    (hJ : SeedList cap items h) (hsz : 0 < Size h) :
    ∃ c : Int, MinKey h = .ok c ∧ (∃ k w, (k, w) ∈ items ∧ c = w) ∧
      ∀ k w, (k, w) ∈ items → c ≤ w := by
  obtain ⟨m, c, d, hrun, hv, hmin⟩ := MinKey_view hJ.inv hsz
  obtain ⟨_, w, hw, hc⟩ := hJ.entries _ _ _ _ hv
  refine ⟨c, hrun, ⟨m, w, hw, hc⟩, ?_⟩
  intro k' w' he'
  obtain ⟨c', d', l', hv', hc'⟩ := hJ.seeds k' w' he'
  obtain ⟨hl, _⟩ := hJ.entries _ _ _ _ hv'
  subst hl
  exact le_trans (hmin _ _ _ hv') hc'

/-- A seeded heap is empty exactly when no pair was stored. -/
theorem SeedList_size {cap : Nat} {items : List (Nat × Nat)} {h : Heap}
    (hJ : SeedList cap items h) : Size h = 0 ↔ items = [] := by
  constructor
  · intro hsz
    cases items with
    | nil => rfl
    | cons it rest =>
      exfalso
      obtain ⟨c', d', l', hv', _⟩ := hJ.seeds it.1 it.2 (by simp)
      obtain ⟨hl, _⟩ := hJ.entries _ _ _ _ hv'
      subst hl
      have := Size_pos_of_live hJ.inv hv'
      omega
  · intro he
    subst he
    by_contra hne
    obtain ⟨m, c, d, _, hv, _⟩ := MinKey_view hJ.inv (Nat.pos_of_ne_zero hne)
    obtain ⟨_, w, hw, _⟩ := hJ.entries _ _ _ _ hv
    exact absurd hw (by simp)

end TurnQuery
end MoNav

namespace MoNav
namespace TurnQuery
open BinaryHeap

/-- A loop of `initHeap` whose body stores the pair `(key e, dist e)` for the edges with
`act e` and passes over the others. -/
theorem seedLoop_spec (body : Nat → Heap → Except Fault (Heap × Bool)) (act : Nat → Prop)
    (key dist : Nat → Nat) (data : Nat → HeapData) (cap : Nat) (l : List Nat)
    (hact : ∀ e h, act e → body e h = (seed h (key e) (dist e) (data e) >>= fun h1 =>
      pure (h1, false)))
    (hskip : ∀ e h, ¬ act e → body e h = .ok (h, false))
    (hk : ∀ e ∈ l, act e → key e < cap ∧ dist e < 2147483648)
    (S : Nat → Nat → Prop) (h0 : Heap)
    (hJ : ∃ items, SeedList cap items h0 ∧ ∀ k w, (k, w) ∈ items ↔ S k w) :
    ∃ h', forLoop body l h0 = .ok h' ∧ ∃ items, SeedList cap items h' ∧
      ∀ k w, (k, w) ∈ items ↔ (S k w ∨ ∃ e ∈ l, act e ∧ k = key e ∧ w = dist e) := by
  obtain ⟨h', hrun, hI⟩ := forLoop_spec body
    (fun done h => ∃ items, SeedList cap items h ∧
      ∀ k w, (k, w) ∈ items ↔ (S k w ∨ ∃ e ∈ done, act e ∧ k = key e ∧ w = dist e))
    l h0 (by
      obtain ⟨items, h1, h2⟩ := hJ
      exact ⟨items, h1, fun k w => by rw [h2]; simp⟩)
    (by
      intro done e rest h hl ⟨items, hJ1, hch⟩
      have he : e ∈ l := by rw [hl]; simp
      by_cases ha : act e
      · obtain ⟨hk1, hd1⟩ := hk e he ha
        obtain ⟨h1, hrun1, hJ2⟩ := seed_list hJ1 (key e) (dist e) (data e) hk1 hd1
        refine ⟨h1, by rw [hact e h ha, hrun1]; rfl, items ++ [(key e, dist e)], hJ2, ?_⟩
        intro k w
        simp only [List.mem_append, List.mem_singleton, Prod.mk.injEq, hch]
        constructor
        · rintro ((h3 | ⟨e', he', h4⟩) | ⟨rfl, rfl⟩)
          · exact Or.inl h3
          · exact Or.inr ⟨e', Or.inl he', h4⟩
          · exact Or.inr ⟨e, Or.inr rfl, ha, rfl, rfl⟩
        · rintro (h3 | ⟨e', he' | rfl, h4⟩)
          · exact Or.inl (Or.inl h3)
          · exact Or.inl (Or.inr ⟨e', he', h4⟩)
          · exact Or.inr ⟨h4.2.1, h4.2.2⟩
      · refine ⟨h, hskip e h ha, items, hJ1, ?_⟩
        intro k w
        rw [hch]
        constructor
        · rintro (h3 | ⟨e', he', h4⟩)
          · exact Or.inl h3
          · exact Or.inr ⟨e', by simp [he'], h4⟩
        · rintro (h3 | ⟨e', he', h4⟩)
          · exact Or.inl h3
          · simp only [List.mem_append, List.mem_singleton] at he'
            rcases he' with he' | rfl
            · exact Or.inr ⟨e', he', h4⟩
            · exact absurd h4.1 ha)
  exact ⟨h', hrun, hI⟩

end TurnQuery
end MoNav

namespace MoNav
namespace TurnQuery
open BinaryHeap

theorem initBody1_act (g : Graph) (node2 : Nat) (ea : Bool → Bool → Bool) (e : Nat) (h : Heap)
    (ha : Act1 g node2 ea e) :
    initBody1 g node2 ea e h =
      (seed h (u32 (g.GetFirstOriginalEdge node2 + g.GetOriginalEdgeTarget e))
        (g.GetEdgeData e).distance (HeapData.new NONE e node2 (g.GetOriginalEdgeTarget e)) >>=
        fun h1 => pure (h1, false)) := by
  obtain ⟨h1, h2, h3⟩ := ha
  simp only [initBody1, h1, h2, h3]
  simp

theorem initBody1_skip (g : Graph) (node2 : Nat) (ea : Bool → Bool → Bool) (e : Nat) (h : Heap)
    (ha : ¬ Act1 g node2 ea e) : initBody1 g node2 ea e h = .ok (h, false) := by
  unfold Act1 at ha
  simp only [initBody1]
  by_cases h1 : ea (g.GetEdgeData e).forward (g.GetEdgeData e).backward = true
  · by_cases h2 : (g.GetEdgeData e).shortcut = false
    · by_cases h3 : g.GetTarget e = node2
      · exact absurd ⟨h1, h2, h3⟩ ha
      · simp [h1, h2, h3, pure, Except.pure]
    · simp [h1, h2, pure, Except.pure]
  · simp [h1, pure, Except.pure]

theorem initBody2_act (g : Graph) (node node2 : Nat) (ea : Bool → Bool → Bool) (e : Nat)
    (h : Heap) (ha : Act2 g node ea e) :
    initBody2 g node node2 ea e h =
      (seed h (u32 (g.GetFirstOriginalEdge node2 + g.GetOriginalEdgeSource e))
        (g.GetEdgeData e).distance (HeapData.new NONE e node2 (g.GetOriginalEdgeSource e)) >>=
        fun h1 => pure (h1, false)) := by
  obtain ⟨h1, h2, h3⟩ := ha
  simp only [initBody2, h1, h2, h3]
  simp

theorem initBody2_skip (g : Graph) (node node2 : Nat) (ea : Bool → Bool → Bool) (e : Nat)
    (h : Heap) (ha : ¬ Act2 g node ea e) : initBody2 g node node2 ea e h = .ok (h, false) := by
  unfold Act2 at ha
  simp only [initBody2]
  by_cases h1 : ea (g.GetEdgeData e).backward (g.GetEdgeData e).forward = true
  · by_cases h2 : (g.GetEdgeData e).shortcut = false
    · by_cases h3 : g.GetTarget e = node
      · exact absurd ⟨h1, h2, h3⟩ ha
      · simp [h1, h2, h3, pure, Except.pure]
    · simp [h1, h2, pure, Except.pure]
  · simp [h1, pure, Except.pure]

/-- `initHeap` on a cleared heap, in any graph in which the keys of the stored edges are
inside the heap and their distances fit `int`. -/
theorem initHeap_list (g : Graph) (h0 : Heap) (node node2 : Nat) (ea : Bool → Bool → Bool)
    (h1 : ∀ e ∈ g.edgesOf node, Act1 g node2 ea e →
      u32 (g.GetFirstOriginalEdge node2 + g.GetOriginalEdgeTarget e) <
        h0.nodeIndex.positions.length ∧ (g.GetEdgeData e).distance < 2147483648)
    (h2 : ∀ e ∈ g.edgesOf node2, Act2 g node ea e →
      u32 (g.GetFirstOriginalEdge node2 + g.GetOriginalEdgeSource e) <
        h0.nodeIndex.positions.length ∧ (g.GetEdgeData e).distance < 2147483648) :
    ∃ h', initHeap g (BinaryHeap.Clear h0) node node2 ea = .ok h' ∧
      ∃ items, SeedList h0.nodeIndex.positions.length items h' ∧
        ∀ k w, (k, w) ∈ items ↔
          ((∃ e ∈ g.edgesOf node, Act1 g node2 ea e ∧
              k = u32 (g.GetFirstOriginalEdge node2 + g.GetOriginalEdgeTarget e) ∧
              w = (g.GetEdgeData e).distance) ∨
           (∃ e ∈ g.edgesOf node2, Act2 g node ea e ∧
              k = u32 (g.GetFirstOriginalEdge node2 + g.GetOriginalEdgeSource e) ∧
              w = (g.GetEdgeData e).distance)) := by
  obtain ⟨ha, hrun1, hJ1⟩ := seedLoop_spec (initBody1 g node2 ea) (Act1 g node2 ea)
    (fun e => u32 (g.GetFirstOriginalEdge node2 + g.GetOriginalEdgeTarget e))
    (fun e => (g.GetEdgeData e).distance)
    (fun e => HeapData.new NONE e node2 (g.GetOriginalEdgeTarget e))
    h0.nodeIndex.positions.length (g.edgesOf node)
    (fun e h => initBody1_act g node2 ea e h) (fun e h => initBody1_skip g node2 ea e h) h1
    (fun _ _ => False) (BinaryHeap.Clear h0) ⟨[], SeedList_init h0, fun k w => by simp⟩
  obtain ⟨hb, hrun2, hJ2⟩ := seedLoop_spec (initBody2 g node node2 ea) (Act2 g node ea)
    (fun e => u32 (g.GetFirstOriginalEdge node2 + g.GetOriginalEdgeSource e))
    (fun e => (g.GetEdgeData e).distance)
    (fun e => HeapData.new NONE e node2 (g.GetOriginalEdgeSource e))
    h0.nodeIndex.positions.length (g.edgesOf node2)
    (fun e h => initBody2_act g node node2 ea e h)
    (fun e h => initBody2_skip g node node2 ea e h) h2 _ ha hJ1
  refine ⟨hb, by simp only [initHeap, hrun1, bind, Except.bind]; exact hrun2, ?_⟩
  obtain ⟨items, hJ, hch⟩ := hJ2
  refine ⟨items, hJ, ?_⟩
  intro k w
  rw [hch]
  simp

end TurnQuery
end MoNav

namespace MoNav
namespace TurnQuery
open BinaryHeap

theorem wf_key_lt {g : Graph} (hwf : WellFormed g) {n i : Nat} (hn : n < g.GetNumberOfNodes)
    (hi : i < max (g.GetOriginalInDegree n) (g.GetOriginalOutDegree n)) :
    u32 (g.GetFirstOriginalEdge n + i) < g.GetNumberOfOriginalEdges := by
  have h1 := hwf.block n hn
  have h2 := hwf.cap
  rw [u32_eq (by omega)]
  omega

/-- Both calls of `initHeap` in `BidirSearch(s, s2, s2, s)` store the distances of the
edges that realise `s -> s2`. -/
theorem initSearch_collision {g : Graph} {s s2 : Nat} (hwf : WellFormed g)
    (hs : s < g.GetNumberOfNodes) (hs2 : s2 < g.GetNumberOfNodes)
    (hd : ∀ e, Realises g s s2 e → (g.GetEdgeData e).distance < 2147483648) (q : TurnQuery)
    (hcf : q.m_heapForward.nodeIndex.positions.length = g.GetNumberOfOriginalEdges)
    (hcb : q.m_heapBackward.nodeIndex.positions.length = g.GetNumberOfOriginalEdges) :
    ∃ (hf hb : Heap) (itf itb : List (Nat × Nat)),
      initSearch g q.Clear s s2 s2 s = .ok ⟨hf, hb, q.m_stallQueue, ⟨NONE, 0, 0⟩⟩ ∧
      SeedList g.GetNumberOfOriginalEdges itf hf ∧
      SeedList g.GetNumberOfOriginalEdges itb hb ∧
      (∀ w, (∃ k, (k, w) ∈ itf) ↔ ∃ e, Realises g s s2 e ∧ w = (g.GetEdgeData e).distance) ∧
      (∀ w, (∃ k, (k, w) ∈ itb) ↔ ∃ e, Realises g s s2 e ∧ w = (g.GetEdgeData e).distance) := by
  obtain ⟨hf, hrunf, itf, hJf, hchf⟩ := initHeap_list g q.m_heapForward s s2 AllowForwardEdge
    (by
      intro e he ⟨h1, h2, h3⟩
      obtain ⟨_, h5⟩ := (hwf.slots s hs e he).1 h1
      rw [h3] at h5
      rw [hcf]
      exact ⟨wf_key_lt hwf hs2 (lt_max_of_lt_left h5), hd e ⟨h2, Or.inl ⟨he, h3, h1⟩⟩⟩)
    (by
      intro e he ⟨h1, h2, h3⟩
      have h1' : (g.GetEdgeData e).backward = true := h1
      obtain ⟨h4, _⟩ := (hwf.slots s2 hs2 e he).2 h1'
      rw [hcf]
      exact ⟨wf_key_lt hwf hs2 (lt_max_of_lt_left h4), hd e ⟨h2, Or.inr ⟨he, h3, h1'⟩⟩⟩)
  obtain ⟨hb, hrunb, itb, hJb, hchb⟩ := initHeap_list g q.m_heapBackward s2 s AllowBackwardEdge
    (by
      intro e he ⟨h1, h2, h3⟩
      have h1' : (g.GetEdgeData e).backward = true := h1
      obtain ⟨_, h5⟩ := (hwf.slots s2 hs2 e he).2 h1'
      rw [h3] at h5
      rw [hcb]
      exact ⟨wf_key_lt hwf hs (lt_max_of_lt_right h5), hd e ⟨h2, Or.inr ⟨he, h3, h1'⟩⟩⟩)
    (by
      intro e he ⟨h1, h2, h3⟩
      have h1' : (g.GetEdgeData e).forward = true := h1
      obtain ⟨h4, _⟩ := (hwf.slots s hs e he).1 h1'
      rw [hcb]
      exact ⟨wf_key_lt hwf hs (lt_max_of_lt_right h4), hd e ⟨h2, Or.inl ⟨he, h3, h1'⟩⟩⟩)
  rw [hcf] at hJf
  rw [hcb] at hJb
  refine ⟨hf, hb, itf, itb, ?_, hJf, hJb, ?_, ?_⟩
  · simp only [initSearch, assert_ok hs, assert_ok hs2, TurnQuery.Clear, hrunf, hrunb, bind,
      Except.bind, pure, Except.pure]
  · intro w
    constructor
    · rintro ⟨k, hk⟩
      rcases (hchf k w).1 hk with ⟨e, he, ⟨h1, h2, h3⟩, _, hw⟩ | ⟨e, he, ⟨h1, h2, h3⟩, _, hw⟩
      · exact ⟨e, ⟨h2, Or.inl ⟨he, h3, h1⟩⟩, hw⟩
      · exact ⟨e, ⟨h2, Or.inr ⟨he, h3, h1⟩⟩, hw⟩
    · rintro ⟨e, ⟨h2, ⟨he, h3, h1⟩ | ⟨he, h3, h1⟩⟩, hw⟩
      · exact ⟨_, (hchf _ w).2 (Or.inl ⟨e, he, ⟨h1, h2, h3⟩, rfl, hw⟩)⟩
      · exact ⟨_, (hchf _ w).2 (Or.inr ⟨e, he, ⟨h1, h2, h3⟩, rfl, hw⟩)⟩
  · intro w
    constructor
    · rintro ⟨k, hk⟩
      rcases (hchb k w).1 hk with ⟨e, he, ⟨h1, h2, h3⟩, _, hw⟩ | ⟨e, he, ⟨h1, h2, h3⟩, _, hw⟩
      · exact ⟨e, ⟨h2, Or.inr ⟨he, h3, h1⟩⟩, hw⟩
      · exact ⟨e, ⟨h2, Or.inl ⟨he, h3, h1⟩⟩, hw⟩
    · rintro ⟨e, ⟨h2, ⟨he, h3, h1⟩ | ⟨he, h3, h1⟩⟩, hw⟩
      · exact ⟨_, (hchb _ w).2 (Or.inr ⟨e, he, ⟨h1, h2, h3⟩, rfl, hw⟩)⟩
      · exact ⟨_, (hchb _ w).2 (Or.inl ⟨e, he, ⟨h1, h2, h3⟩, rfl, hw⟩)⟩

/-- `BidirSearch(s, s2, s2, s)` on a cleared query, in any well-formed graph in which the
distances of the edges that realise `s -> s2` fit `int`. -/
theorem BidirSearch_collision {g : Graph} {s s2 : Nat} (hwf : WellFormed g)
    (hs : s < g.GetNumberOfNodes) (hs2 : s2 < g.GetNumberOfNodes)
    (hd : ∀ e, Realises g s s2 e → (g.GetEdgeData e).distance < 2147483648)
    (sod : Bool) (q : TurnQuery)
    (hcf : q.m_heapForward.nodeIndex.positions.length = g.GetNumberOfOriginalEdges)
    (hcb : q.m_heapBackward.nodeIndex.positions.length = g.GetNumberOfOriginalEdges) :
    ∃ (r : Int) (q1 : TurnQuery), initSearch g q.Clear s s2 s2 s = .ok q1 ∧
      BidirSearch g sod q.Clear s s2 s2 s = .ok (r, q1) ∧
      ((∃ e, Realises g s s2 e) →
        (∃ e, Realises g s s2 e ∧ r = (g.GetEdgeData e).distance) ∧
        ∀ e, Realises g s s2 e → r ≤ (g.GetEdgeData e).distance) ∧
      ((¬ ∃ e, Realises g s s2 e) → r = INT_MAX) := by
  obtain ⟨hf, hb, itf, itb, hinit, hJf, hJb, hchf, hchb⟩ :=
    initSearch_collision hwf hs hs2 hd q hcf hcb
  by_cases hex : ∃ e, Realises g s s2 e
  · obtain ⟨e0, he0⟩ := hex
    have hnf : itf ≠ [] := by
      obtain ⟨k, hk⟩ := (hchf _).2 ⟨e0, he0, rfl⟩
      intro h
      rw [h] at hk
      exact absurd hk (by simp)
    have hnb : itb ≠ [] := by
      obtain ⟨k, hk⟩ := (hchb _).2 ⟨e0, he0, rfl⟩
      intro h
      rw [h] at hk
      exact absurd hk (by simp)
    have hf0 : 0 < Size hf := Nat.pos_of_ne_zero (fun h => hnf ((SeedList_size hJf).1 h))
    have hb0 : 0 < Size hb := Nat.pos_of_ne_zero (fun h => hnb ((SeedList_size hJb).1 h))
    obtain ⟨kf, hrf, ⟨k1, w1, hm1, hc1⟩, hminf⟩ := SeedList_min hJf hf0
    obtain ⟨kb, hrb, ⟨k2, w2, hm2, hc2⟩, hminb⟩ := SeedList_min hJb hb0
    obtain ⟨e1, hr1, hw1⟩ := (hchf w1).1 ⟨k1, hm1⟩
    obtain ⟨e2, hr2, hw2⟩ := (hchb w2).1 ⟨k2, hm2⟩
    have hallf : ∀ e, Realises g s s2 e → kf ≤ (g.GetEdgeData e).distance := by
      intro e he
      obtain ⟨k, hk⟩ := (hchf _).2 ⟨e, he, rfl⟩
      exact hminf k _ hk
    have hallb : ∀ e, Realises g s s2 e → kb ≤ (g.GetEdgeData e).distance := by
      intro e he
      obtain ⟨k, hk⟩ := (hchb _).2 ⟨e, he, rfl⟩
      exact hminb k _ hk
    have hkk : kb = kf := by
      have h1 := hallf e2 hr2
      have h2 := hallb e1 hr1
      rw [← hw2, ← hc2] at h1
      rw [← hw1, ← hc1] at h2
      exact le_antisymm h2 h1
    refine ⟨kf, _, hinit, ?_, fun _ => ⟨⟨e1, hr1, by rw [hc1, hw1]⟩, hallf⟩,
      fun hno => absurd ⟨e0, he0⟩ hno⟩
    have h0 : ¬ (Size hb = 0 ∨ Size hf = 0) := by omega
    simp only [BidirSearch, hinit, bind, Except.bind, pure, Except.pure]
    simp [h0, hrf, hrb, hkk, assert, pure, Except.pure]
  · have hef : itf = [] := by
      cases hitf : itf with
      | nil => rfl
      | cons it rest =>
        exfalso
        obtain ⟨e, he, _⟩ := (hchf it.2).1 ⟨it.1, by rw [hitf]; simp⟩
        exact hex ⟨e, he⟩
    have hf0 : Size hf = 0 := (SeedList_size hJf).2 hef
    refine ⟨INT_MAX, _, hinit, ?_, fun h => absurd h hex, fun _ => rfl⟩
    simp only [BidirSearch, hinit, bind, Except.bind, pure, Except.pure]
    simp [hf0]

end TurnQuery
end MoNav

namespace MoNav
open TurnQuery

/-- C15, as the claim states it, fails: `hugeGraph` is well formed, its non-shortcut
forward edge 0 realises `0 -> 1`, and `BidirSearch(0, 1, 1, 0)` on a freshly cleared query
does not return its distance 3000000000, which is not an `int`: the weight passed to
`Insert` is negative and the assertion of `Upheap` fails. -/
theorem C15_seed_collision_counterexample :
    WellFormed hugeGraph ∧ Realises hugeGraph 0 1 0 ∧
    (hugeGraph.GetEdgeData 0).distance = 3000000000 ∧
    BidirSearch hugeGraph true (freshQuery 3) 0 1 1 0 = .error .assertion :=
  ⟨hugeGraph_wellFormed, ⟨by decide, Or.inl ⟨by decide, by decide, by decide⟩⟩, by decide,
    by decide⟩

/-- C15 (amended): in a well-formed graph, for nodes `s` and `s2` in range such that the
distance of every non-shortcut edge that realises `s -> s2` (stored at `s` with target `s2`
and `forward = true`, or at `s2` with target `s` and `backward = true`) is below `2^31`,
`BidirSearch(s, s2, s2, s)` on a freshly cleared query over index arrays of
`GetNumberOfOriginalEdges()` cells returns right after the two calls of `initHeap`, the
query being as they left it; when an edge realises `s -> s2` the result is the least
distance of such an edge, and when none does it is `INT_MAX`. -/
theorem C15_seed_collision {g : Graph} {s s2 : Nat} (hwf : WellFormed g)
    (hs : s < g.GetNumberOfNodes) (hs2 : s2 < g.GetNumberOfNodes)
    (hd : ∀ e, Realises g s s2 e → (g.GetEdgeData e).distance < 2147483648)
    (stallOnDemand : Bool) (q : TurnQuery)
    (hcf : q.m_heapForward.nodeIndex.positions.length = g.GetNumberOfOriginalEdges)
    (hcb : q.m_heapBackward.nodeIndex.positions.length = g.GetNumberOfOriginalEdges) :
    ∃ (r : Int) (q1 : TurnQuery), initSearch g q.Clear s s2 s2 s = .ok q1 ∧
      BidirSearch g stallOnDemand q.Clear s s2 s2 s = .ok (r, q1) ∧
      ((∃ e, Realises g s s2 e) →
        (∃ e, Realises g s s2 e ∧ r = (g.GetEdgeData e).distance) ∧
        ∀ e, Realises g s s2 e → r ≤ (g.GetEdgeData e).distance) ∧
      ((¬ ∃ e, Realises g s s2 e) → r = INT_MAX) :=
  BidirSearch_collision hwf hs hs2 hd stallOnDemand q hcf hcb

theorem diamond_realises (e : Nat) (h : Realises (diamond fun _ _ _ => 0) 0 1 e) :
    ((diamond fun _ _ _ => 0).GetEdgeData e).distance < 2147483648 := by
  have h0 : (diamond fun _ _ _ => 0).edgesOf 0 = [0, 1] := by decide
  have h1 : (diamond fun _ _ _ => 0).edgesOf 1 = [2] := by decide
  obtain ⟨_, ⟨he, _⟩ | ⟨he, _⟩⟩ := h
  · rw [h0] at he
    simp only [List.mem_cons, List.mem_singleton, List.not_mem_nil, or_false] at he
    rcases he with rfl | rfl <;> decide
  · rw [h1] at he
    simp only [List.mem_singleton] at he
    subst he
    decide

/-- On the diamond, `BidirSearch(0, 1, 1, 0)` returns 10, the distance of the edge
`0 -> 1`. -/
theorem C15_seed_collision_witness :
    (BidirSearch (diamond fun _ _ _ => 0) true (freshQuery 6) 0 1 1 0).map Prod.fst = .ok 10 ∧
    Realises (diamond fun _ _ _ => 0) 0 1 0 ∧
    ∃ (r : Int) (q1 : TurnQuery),
      initSearch (diamond fun _ _ _ => 0) (freshQuery 6) 0 1 1 0 = .ok q1 ∧
      BidirSearch (diamond fun _ _ _ => 0) true (freshQuery 6) 0 1 1 0 = .ok (r, q1) ∧
      ((∃ e, Realises (diamond fun _ _ _ => 0) 0 1 e) →
        (∃ e, Realises (diamond fun _ _ _ => 0) 0 1 e ∧
          r = ((diamond fun _ _ _ => 0).GetEdgeData e).distance) ∧
        ∀ e, Realises (diamond fun _ _ _ => 0) 0 1 e →
          r ≤ ((diamond fun _ _ _ => 0).GetEdgeData e).distance) ∧
      ((¬ ∃ e, Realises (diamond fun _ _ _ => 0) 0 1 e) → r = INT_MAX) :=
  ⟨by decide, ⟨by decide, Or.inl ⟨by decide, by decide, by decide⟩⟩,
    C15_seed_collision diamond_zero_setting.wf (by decide) (by decide) diamond_realises true
      (TurnQuery.new (List.replicate 6 0) (List.replicate 6 0)) (by decide) (by decide)⟩

end MoNav

namespace MoNav

section SafeRules
variable {α β : Type}

theorem Safe_ok {P : α → Prop} {a : α} (h : P a) : Safe P (.ok a) :=
  ⟨by simp, fun b hb => by rw [← Except.ok.inj hb]; exact h⟩

theorem Safe_pure {P : α → Prop} {a : α} (h : P a) : Safe P (pure a) := Safe_ok h

theorem Safe_error {P : α → Prop} {e : Fault} (h : e ≠ .fuel) : Safe P (.error e) :=
  ⟨fun he => h (Except.error.inj he), fun b hb => by simp at hb⟩

theorem Safe_mono {P Q : α → Prop} {x : Except Fault α} (h : Safe P x)
    (hpq : ∀ a, P a → Q a) : Safe Q x :=
  ⟨h.1, fun a ha => hpq a (h.2 a ha)⟩

theorem Safe_bind {P : α → Prop} {Q : β → Prop} {x : Except Fault α}
    {f : α → Except Fault β} (hx : Safe P x) (hf : ∀ a, P a → x = .ok a → Safe Q (f a)) :
    Safe Q (x >>= f) := by
  cases x with
  | error e =>
    exact ⟨fun h => hx.1 (by simpa [bind, Except.bind] using h),
      fun b hb => by simp [bind, Except.bind] at hb⟩
  | ok a => exact hf a (hx.2 a rfl) rfl

theorem Safe_rd {v : List α} {i : Nat} : Safe (fun a => v[i]? = some a) (rd v i) := by
  unfold rd
  cases h : v[i]? with
  | none => exact Safe_error (by simp)
  | some b => exact Safe_ok rfl

theorem Safe_wr {v : List α} {i : Nat} {a : α} :
    Safe (fun v' => i < v.length ∧ v' = v.set i a) (wr v i a) := by
  unfold wr
  by_cases h : i < v.length
  · rw [if_pos h]; exact Safe_ok ⟨h, rfl⟩
  · rw [if_neg h]; exact Safe_error (by simp)

theorem Safe_assert {c : Prop} [Decidable c] : Safe (fun _ => c) (assert c) := by
  unfold assert
  by_cases h : c
  · rw [if_pos h]; exact Safe_ok h
  · rw [if_neg h]; exact Safe_error (by simp)

theorem Safe_and {P Q : α → Prop} {x : Except Fault α} (h1 : Safe P x) (h2 : Safe Q x) :
    Safe (fun a => P a ∧ Q a) x :=
  ⟨h1.1, fun a ha => ⟨h1.2 a ha, h2.2 a ha⟩⟩

end SafeRules

namespace BinaryHeap
variable {δ : Type}

theorem Kept_refl (s : BinaryHeap δ) : Kept s s := ⟨rfl, rfl, rfl⟩

theorem Kept_trans {s t u : BinaryHeap δ} (h1 : Kept s t) (h2 : Kept t u) : Kept s u :=
  ⟨h2.index.trans h1.index, h2.recs.trans h1.recs, h2.size.trans h1.size⟩

theorem map_proj_set {β : Type} (f : HeapNode δ → β) {R : List (HeapNode δ)} {k : Nat}
    {r r' : HeapNode δ} (hr : R[k]? = some r) (hn : f r' = f r) :
    (R.set k r').map f = R.map f := by
  apply List.ext_getElem?
  intro i
  simp only [List.getElem?_map, List.getElem?_set]
  by_cases h : k = i
  · subst h
    simp [lt_of_get hr, hr, hn]
  · simp [h]

/-- One move of an entry: the tree cell `key` is overwritten and the record `k` gets a new
`key` field. -/
theorem Kept_move {s : BinaryHeap δ} {key k j : Nat} {e : HeapElement} {r : HeapNode δ}
    (hr : s.insertedNodes[k]? = some r) :
    Kept s { s with heap := s.heap.set key e,
                    insertedNodes := s.insertedNodes.set k { r with key := j } } :=
  ⟨rfl, map_proj_set _ hr rfl, by simp⟩

theorem UpheapLoop_safe (w : Int) :
    ∀ (fuel : Nat) (s : BinaryHeap δ) (key : Nat), key < fuel →
      Safe (fun r => Kept s r.1) (UpheapLoop w fuel s key) := by
  intro fuel
  induction fuel with
  | zero => intro s key h; omega
  | succ fuel ih =>
    intro s key hk
    rw [UpheapLoop]
    refine Safe_bind Safe_rd (fun parent _ _ => ?_)
    split
    · refine Safe_bind Safe_assert (fun _ h0 _ => ?_)
      refine Safe_bind Safe_assert (fun _ _ _ => ?_)
      refine Safe_bind Safe_wr (fun heap hh _ => ?_)
      refine Safe_bind Safe_assert (fun _ _ _ => ?_)
      refine Safe_bind Safe_rd (fun r hr _ => ?_)
      refine Safe_bind Safe_wr (fun ins hi _ => ?_)
      rw [hh.2, hi.2]
      refine Safe_mono (ih _ _ (by omega)) (fun a ha => Kept_trans (Kept_move hr) ha)
    · exact Safe_pure (Kept_refl s)

theorem Upheap_safe (s : BinaryHeap δ) (key : Nat) : Safe (Kept s) (Upheap s key) := by
  unfold Upheap
  refine Safe_bind Safe_assert (fun _ _ _ => ?_)
  refine Safe_bind Safe_rd (fun e _ _ => ?_)
  refine Safe_bind Safe_assert (fun _ _ _ => ?_)
  refine Safe_bind (UpheapLoop_safe _ _ _ _ (Nat.lt_succ_self key)) (fun a ha _ => ?_)
  obtain ⟨s1, key1⟩ := a
  refine Safe_bind Safe_wr (fun heap hh _ => ?_)
  refine Safe_bind Safe_assert (fun _ _ _ => ?_)
  refine Safe_bind Safe_rd (fun r hr _ => ?_)
  refine Safe_bind Safe_wr (fun ins hi _ => ?_)
  rw [hh.2, hi.2]
  exact Safe_pure (Kept_trans ha (Kept_move hr))

end BinaryHeap
end MoNav

namespace MoNav
namespace BinaryHeap
variable {δ : Type}

theorem map_pair_key {R : List (HeapNode δ)} {k : Nat} {r : HeapNode δ}
    (hr : R[k]? = some r) (j : Nat) :
    (R.set k { r with key := j }).map (fun r => (r.node, r.data)) =
      R.map (fun r => (r.node, r.data)) :=
  map_proj_set _ hr rfl

theorem DownheapLoop_safe (w : Int) :
    ∀ (fuel : Nat) (s : BinaryHeap δ) (key : Nat), 1 ≤ key → 1 ≤ fuel →
      s.heap.length < fuel + key → Safe (fun r => Kept s r.1) (DownheapLoop w fuel s key) := by
  intro fuel
  induction fuel with
  | zero => intro s key _ h; omega
  | succ fuel ih =>
    intro s key hk _ hlen
    rw [DownheapLoop]
    split
    · rename_i hnext
      refine Safe_bind Safe_rd (fun a _ _ => ?_)
      have tail : ∀ nk, (nk = 2 * key ∨ nk = 2 * key + 1) →
          Safe (fun r => Kept s r.1) (do
            let child ← rd s.heap nk
            if w ≤ child.weight then pure (s, key)
            else do
              let heap ← wr s.heap key child
              assert (child.index < s.insertedNodes.length)
              let r ← rd s.insertedNodes child.index
              let ins ← wr s.insertedNodes child.index { r with key := key }
              DownheapLoop w fuel { s with heap := heap, insertedNodes := ins } nk) := by
        intro nk hnk
        refine Safe_bind Safe_rd (fun child _ _ => ?_)
        split
        · exact Safe_pure (Kept_refl s)
        · refine Safe_bind Safe_wr (fun heap hh _ => ?_)
          refine Safe_bind Safe_assert (fun _ _ _ => ?_)
          refine Safe_bind Safe_rd (fun r hr _ => ?_)
          refine Safe_bind Safe_wr (fun ins hi _ => ?_)
          rw [hh.2, hi.2]
          refine Safe_mono (ih _ nk (by omega) (by omega) (by simp; omega))
            (fun a ha => Kept_trans (Kept_move hr) ha)
      dsimp only
      split
      · refine Safe_bind Safe_rd (fun b _ _ => ?_)
        refine Safe_bind (P := fun nk => nk = 2 * key ∨ nk = 2 * key + 1) (Safe_pure ?_)
          (fun nk hnk _ => tail nk hnk)
        split
        · exact Or.inr rfl
        · exact Or.inl rfl
      · exact Safe_bind (P := fun nk => nk = 2 * key ∨ nk = 2 * key + 1)
          (Safe_pure (Or.inl rfl)) (fun nk hnk _ => tail nk hnk)
    · exact Safe_pure (Kept_refl s)

theorem Downheap_safe (s : BinaryHeap δ) (key : Nat) (hk : 1 ≤ key) :
    Safe (Kept s) (Downheap s key) := by
  unfold Downheap
  refine Safe_bind Safe_assert (fun _ hlt _ => ?_)
  refine Safe_bind Safe_rd (fun e _ _ => ?_)
  refine Safe_bind (DownheapLoop_safe _ _ _ _ hk (by omega) (by omega)) (fun a ha _ => ?_)
  obtain ⟨s1, key1⟩ := a
  refine Safe_bind Safe_wr (fun heap hh _ => ?_)
  refine Safe_bind Safe_assert (fun _ _ _ => ?_)
  refine Safe_bind Safe_rd (fun r hr _ => ?_)
  refine Safe_bind Safe_wr (fun ins hi _ => ?_)
  rw [hh.2, hi.2]
  exact Safe_pure (Kept_trans ha (Kept_move hr))

theorem Insert_safe (s : BinaryHeap δ) (id : Nat) (w : Int) (d : δ) :
    Safe (fun s' => id < s.nodeIndex.positions.length ∧
        s'.nodeIndex.positions = s.nodeIndex.positions.set id s.insertedNodes.length ∧
        s'.insertedNodes.map (fun r => (r.node, r.data)) =
          s.insertedNodes.map (fun r => (r.node, r.data)) ++ [(id, d)] ∧
        s'.heap.length = s.heap.length + 1)
      (Insert s id w d) := by
  unfold Insert
  refine Safe_bind (P := fun idx => id < s.nodeIndex.positions.length ∧
    idx.positions = s.nodeIndex.positions.set id s.insertedNodes.length) ?_ (fun idx hidx _ => ?_)
  · unfold ArrayStorage.put
    refine Safe_bind Safe_assert (fun _ hc _ => ?_)
    refine Safe_bind Safe_wr (fun p hp _ => ?_)
    exact Safe_pure ⟨hc, hp.2⟩
  · refine Safe_mono (Upheap_safe _ _) (fun s' hk => ?_)
    refine ⟨hidx.1, by rw [hk.index]; exact hidx.2, ?_, ?_⟩
    · rw [hk.recs]; simp
    · rw [hk.size]; simp

theorem DecreaseKey_safe (s : BinaryHeap δ) (id : Nat) (w : Int) :
    Safe (Kept s) (DecreaseKey s id w) := by
  unfold DecreaseKey
  refine Safe_bind (P := fun _ => True) ?_ (fun index _ _ => ?_)
  · unfold ArrayStorage.get
    refine Safe_bind Safe_assert (fun _ _ _ => ?_)
    exact Safe_mono Safe_rd (fun _ _ => trivial)
  · refine Safe_bind Safe_rd (fun r hr _ => ?_)
    refine Safe_bind Safe_assert (fun _ _ _ => ?_)
    refine Safe_bind Safe_wr (fun ins hi _ => ?_)
    refine Safe_bind Safe_rd (fun e _ _ => ?_)
    refine Safe_bind Safe_wr (fun heap hh _ => ?_)
    rw [hh.2, hi.2]
    refine Safe_mono (Upheap_safe _ _) (fun s' hk => Kept_trans ?_ hk)
    exact ⟨rfl, map_proj_set _ hr rfl, by simp⟩

theorem DeleteMin_safe (s : BinaryHeap δ) :
    Safe (fun r => r.1.nodeIndex = s.nodeIndex ∧
        r.1.insertedNodes.map (fun r => (r.node, r.data)) =
          s.insertedNodes.map (fun r => (r.node, r.data)) ∧
        r.1.heap.length + 1 = s.heap.length)
      (DeleteMin s) := by
  unfold DeleteMin
  refine Safe_bind Safe_assert (fun _ hlen _ => ?_)
  refine Safe_bind Safe_rd (fun e _ _ => ?_)
  refine Safe_bind Safe_rd (fun last _ _ => ?_)
  refine Safe_bind Safe_wr (fun heap hh _ => ?_)
  have tail : ∀ s2 : BinaryHeap δ, Kept { s with heap := heap.dropLast } s2 →
      Safe (fun r => r.1.nodeIndex = s.nodeIndex ∧
          r.1.insertedNodes.map (fun r => (r.node, r.data)) =
            s.insertedNodes.map (fun r => (r.node, r.data)) ∧
          r.1.heap.length + 1 = s.heap.length) (do
        let r ← rd s2.insertedNodes e.index
        let ins ← wr s2.insertedNodes e.index { r with key := 0 }
        pure ({ s2 with insertedNodes := ins }, r.node)) := by
    intro s2 hs2
    refine Safe_bind Safe_rd (fun r hr _ => ?_)
    refine Safe_bind Safe_wr (fun ins hi _ => ?_)
    rw [hi.2]
    refine Safe_pure ⟨hs2.index, ?_, ?_⟩
    · show (s2.insertedNodes.set e.index { r with key := 0 }).map _ = _
      rw [map_pair_key hr, hs2.recs]
    · show s2.heap.length + 1 = s.heap.length
      rw [hs2.size, hh.2]
      simp
      omega
  dsimp only
  split
  · exact Safe_bind (Downheap_safe _ 1 (le_refl _)) (fun s2 hs2 _ => tail s2 hs2)
  · exact Safe_bind (P := fun s2 => Kept { s with heap := heap.dropLast } s2)
      (Safe_pure (Kept_refl _)) (fun s2 hs2 _ => tail s2 hs2)

theorem DeleteAllLoop_safe :
    ∀ (es : List HeapElement) (R : List (HeapNode δ)),
      Safe (fun R' => R'.map (fun r => (r.node, r.data)) = R.map (fun r => (r.node, r.data)))
        (DeleteAllLoop es R) := by
  intro es
  induction es with
  | nil => intro R; exact Safe_pure rfl
  | cons e es ih =>
    intro R
    rw [DeleteAllLoop]
    refine Safe_bind Safe_rd (fun r hr _ => ?_)
    refine Safe_bind Safe_wr (fun ins hi _ => ?_)
    rw [hi.2]
    exact Safe_mono (ih _) (fun R' h => h.trans (map_pair_key hr 0))

theorem DeleteAll_safe (s : BinaryHeap δ) :
    Safe (fun s' => s'.nodeIndex = s.nodeIndex ∧
        s'.insertedNodes.map (fun r => (r.node, r.data)) =
          s.insertedNodes.map (fun r => (r.node, r.data)) ∧
        s'.heap.length = 1)
      (DeleteAll s) := by
  unfold DeleteAll
  refine Safe_bind (DeleteAllLoop_safe _ _) (fun ins hins _ => ?_)
  split
  · exact Safe_pure ⟨rfl, hins, rfl⟩
  · exact Safe_error (by simp)

theorem get_safe (a : ArrayStorage) (id : Nat) :
    Safe (fun k => a.positions[id]? = some k) (a.get id) := by
  unfold ArrayStorage.get
  refine Safe_bind Safe_assert (fun _ _ _ => ?_)
  exact Safe_rd

theorem GetData_safe (s : BinaryHeap δ) (id : Nat) :
    Safe (fun d => ∃ (k : Nat) (r : HeapNode δ), s.nodeIndex.positions[id]? = some k ∧
        s.insertedNodes[k]? = some r ∧ r.data = d) (GetData s id) := by
  unfold GetData
  refine Safe_bind (get_safe _ _) (fun k hk _ => ?_)
  refine Safe_bind Safe_rd (fun r hr _ => ?_)
  exact Safe_pure ⟨k, r, hk, hr, rfl⟩

theorem GetKey_safe (s : BinaryHeap δ) (id : Nat) : Safe (fun _ => True) (GetKey s id) := by
  unfold GetKey
  refine Safe_bind (get_safe _ _) (fun k hk _ => ?_)
  refine Safe_bind Safe_rd (fun r hr _ => ?_)
  exact Safe_pure trivial

theorem SetData_safe (s : BinaryHeap δ) (id : Nat) (d : δ) :
    Safe (fun s' => ∃ (k : Nat) (r : HeapNode δ), s.nodeIndex.positions[id]? = some k ∧
        s.insertedNodes[k]? = some r ∧
        s' = { s with insertedNodes := s.insertedNodes.set k { r with data := d } })
      (SetData s id d) := by
  unfold SetData
  refine Safe_bind (get_safe _ _) (fun k hk _ => ?_)
  refine Safe_bind Safe_rd (fun r hr _ => ?_)
  refine Safe_bind Safe_wr (fun ins hi _ => ?_)
  rw [hi.2]
  exact Safe_pure ⟨k, r, hk, hr, rfl⟩

theorem SetKey_safe (s : BinaryHeap δ) (id : Nat) (w : Int) :
    Safe (Kept s) (SetKey s id w) := by
  unfold SetKey
  refine Safe_bind (get_safe _ _) (fun k hk _ => ?_)
  refine Safe_bind Safe_rd (fun r hr _ => ?_)
  refine Safe_bind Safe_wr (fun ins hi _ => ?_)
  rw [hi.2]
  exact Safe_pure ⟨rfl, map_proj_set _ hr rfl, rfl⟩

theorem WasInserted_safe (s : BinaryHeap δ) (id : Nat) :
    Safe (fun _ => True) (WasInserted s id) := by
  unfold WasInserted
  refine Safe_bind (get_safe _ _) (fun k hk _ => ?_)
  split
  · exact Safe_pure trivial
  · refine Safe_bind Safe_rd (fun r hr _ => ?_)
    exact Safe_pure trivial

theorem WasRemoved_safe (s : BinaryHeap δ) (id : Nat) :
    Safe (fun _ => True) (WasRemoved s id) := by
  unfold WasRemoved
  refine Safe_bind (WasInserted_safe _ _) (fun _ _ _ => ?_)
  refine Safe_bind Safe_assert (fun _ _ _ => ?_)
  refine Safe_bind (get_safe _ _) (fun k hk _ => ?_)
  refine Safe_bind Safe_rd (fun r hr _ => ?_)
  exact Safe_pure trivial

theorem MinKey_safe (s : BinaryHeap δ) : Safe (fun _ => True) (MinKey s) := by
  unfold MinKey
  refine Safe_bind Safe_assert (fun _ _ _ => ?_)
  refine Safe_bind Safe_rd (fun e _ _ => ?_)
  refine Safe_bind Safe_rd (fun r hr _ => ?_)
  exact Safe_pure trivial

end BinaryHeap
end MoNav

namespace MoNav
namespace BinaryHeap
variable {δ : Type}

theorem recs_length {s s' : BinaryHeap δ}
    (h : s'.insertedNodes.map (fun r => (r.node, r.data)) =
      s.insertedNodes.map (fun r => (r.node, r.data))) :
    s'.insertedNodes.length = s.insertedNodes.length := by
  have := congrArg List.length h
  simpa using this

theorem recs_get {s s' : BinaryHeap δ}
    (h : s'.insertedNodes.map (fun r => (r.node, r.data)) =
      s.insertedNodes.map (fun r => (r.node, r.data)))
    {k : Nat} {r' : HeapNode δ} (hr : s'.insertedNodes[k]? = some r') :
    ∃ r : HeapNode δ, s.insertedNodes[k]? = some r ∧ r.node = r'.node ∧ r.data = r'.data := by
  have h1 := congrArg (fun l => l[k]?) h
  simp only [List.getElem?_map, hr, Option.map_some'] at h1
  cases hs : s.insertedNodes[k]? with
  | none => rw [hs] at h1; simp at h1
  | some r =>
    rw [hs] at h1
    simp only [Option.map_some', Option.some.injEq, Prod.mk.injEq] at h1
    exact ⟨r, rfl, h1.1.symm, h1.2.symm⟩

/-- The raw invariant survives every call that keeps the id index and the ids of the
records and does not let the tree grow. -/
theorem RawInv_of_recs {cap : Nat} {s s' : BinaryHeap δ} (hi : RawInv cap s)
    (hN : s'.nodeIndex = s.nodeIndex)
    (hR : s'.insertedNodes.map (fun r => (r.node, r.data)) =
      s.insertedNodes.map (fun r => (r.node, r.data)))
    (hH : s'.heap.length ≤ s.heap.length) : RawInv cap s' := by
  refine ⟨?_, by rw [hN]; exact hi.cap, by rw [recs_length hR]; exact le_trans hH hi.size⟩
  intro k r' hr'
  obtain ⟨r, hr, hn, _⟩ := recs_get hR hr'
  rw [hN, ← hn]
  exact hi.ids k r hr

theorem RawInv_kept {cap : Nat} {s s' : BinaryHeap δ} (hi : RawInv cap s) (hk : Kept s s') :
    RawInv cap s' :=
  RawInv_of_recs hi hk.index hk.recs (le_of_eq hk.size)

theorem Prog_refl (s : BinaryHeap δ) : Prog s s := ⟨le_refl _, le_refl _⟩

theorem Prog_trans {s t u : BinaryHeap δ} (h1 : Prog s t) (h2 : Prog t u) : Prog s u := by
  unfold Prog at *
  omega

theorem Prog_kept {s s' : BinaryHeap δ} (hk : Kept s s') : Prog s s' := by
  have := recs_length hk.recs
  have := hk.size
  unfold Prog
  omega

/-- There are no more insertion records than cells of the id index. -/
theorem RawInv_count {cap : Nat} {s : BinaryHeap δ} (hi : RawInv cap s) :
    s.insertedNodes.length ≤ cap := by
  have hnd : (s.insertedNodes.map (·.node)).Nodup := by
    rw [List.nodup_iff_injective_getElem]
    intro ⟨i, hi1⟩ ⟨j, hj1⟩ hij
    simp only [List.getElem_map] at hij
    simp only [List.length_map] at hi1 hj1
    have h1 := hi.ids i _ (List.getElem?_eq_getElem hi1)
    have h2 := hi.ids j _ (List.getElem?_eq_getElem hj1)
    rw [hij, h2] at h1
    have := Option.some.inj h1
    exact Fin.ext this.symm
  have hsub : s.insertedNodes.map (·.node) ⊆ List.range s.nodeIndex.positions.length := by
    intro x hx
    obtain ⟨r, hr, hrx⟩ := List.mem_map.1 hx
    obtain ⟨k, hk⟩ := List.mem_iff_getElem?.1 hr
    have := lt_of_get (hi.ids k r hk)
    rw [List.mem_range, ← hrx]
    exact this
  have := (hnd.subperm hsub).length_le
  rw [← hi.cap]
  simpa using this

/-- `Insert` of an id that `WasInserted` reports as not inserted keeps the raw invariant. -/
theorem RawInv_insert {cap : Nat} {s s' : BinaryHeap δ} (hi : RawInv cap s) {id : Nat} {d : δ}
    (hw : WasInserted s id = .ok false)
    (hc : id < s.nodeIndex.positions.length)
    (hN : s'.nodeIndex.positions = s.nodeIndex.positions.set id s.insertedNodes.length)
    (hR : s'.insertedNodes.map (fun r => (r.node, r.data)) =
      s.insertedNodes.map (fun r => (r.node, r.data)) ++ [(id, d)])
    (hH : s'.heap.length = s.heap.length + 1) :
    RawInv cap s' ∧ Prog s s' := by
  have hlen : s'.insertedNodes.length = s.insertedNodes.length + 1 := by
    have := congrArg List.length hR
    simpa using this
  have hfresh : ∀ (k : Nat) (r : HeapNode δ), s.insertedNodes[k]? = some r → r.node ≠ id := by
    intro k r hr hn
    have : WasInserted s id = .ok true :=
      WasInserted_iff.2 ⟨k, r, by rw [← hn]; exact hi.ids k r hr, hr, hn⟩
    rw [hw] at this
    simp at this
  refine ⟨⟨?_, by rw [hN, List.length_set]; exact hi.cap, by have := hi.size; omega⟩, ?_⟩
  · intro k r' hr'
    have h1 := congrArg (fun l => l[k]?) hR
    simp only [List.getElem?_map, hr', Option.map_some'] at h1
    by_cases hk : k < s.insertedNodes.length
    · rw [List.getElem?_append_left (by simpa using hk)] at h1
      obtain ⟨r, hr⟩ := get_of_lt hk
      simp only [List.getElem?_map, hr, Option.map_some', Option.some.injEq,
        Prod.mk.injEq] at h1
      rw [hN, h1.1, List.getElem?_set_ne (fun h => hfresh k r hr h.symm)]
      exact hi.ids k r hr
    · have hk' : k = s.insertedNodes.length := by
        have := lt_of_get hr'
        omega
      subst hk'
      rw [List.getElem?_append_right (by simp)] at h1
      simp only [List.length_map, Nat.sub_self, List.getElem?_cons_zero, Option.some.injEq,
        Prod.mk.injEq] at h1
      rw [hN, h1.1, List.getElem?_set_self hc]
  · unfold Prog
    omega

theorem countP_set {α : Type} (p : α → Bool) :
    ∀ (l : List α) (k : Nat) (a b : α), l[k]? = some a →
      (l.set k b).countP p + (if p a then 1 else 0) = l.countP p + (if p b then 1 else 0) := by
  intro l
  induction l with
  | nil => intro k a b h; simp at h
  | cons x xs ih =>
    intro k a b h
    cases k with
    | zero =>
      simp only [List.getElem?_cons_zero, Option.some.injEq] at h
      subst h
      simp only [List.set_cons_zero, List.countP_cons]
      omega
    | succ k =>
      simp only [List.getElem?_cons_succ] at h
      have := ih k a b h
      simp only [List.set_cons_succ, List.countP_cons]
      omega

end BinaryHeap
end MoNav

namespace MoNav

theorem forLoop_safe {α σ : Type} (body : α → σ → Except Fault (σ × Bool)) (I : σ → Prop) :
    ∀ (l : List α) (s0 : σ), I s0 →
      (∀ a ∈ l, ∀ s, I s → Safe (fun r => I r.1) (body a s)) → Safe I (forLoop body l s0) := by
  intro l
  induction l with
  | nil => intro s0 h0 _; exact Safe_pure h0
  | cons a rest ih =>
    intro s0 h0 hstep
    rw [forLoop]
    refine Safe_bind (hstep a (by simp) s0 h0) (fun r hr _ => ?_)
    obtain ⟨s1, brk⟩ := r
    dsimp only
    split
    · exact Safe_pure hr
    · exact ih s1 hr (fun b hb s hs => hstep b (by simp [hb]) s hs)

theorem bind_congr_safe {α β : Type} {P : α → Prop} {x : Except Fault α}
    {f f' : α → Except Fault β} (hx : Safe P x) (h : ∀ a, P a → x = .ok a → f a = f' a) :
    (x >>= f) = (x >>= f') := by
  cases x with
  | error e => rfl
  | ok a => exact h a (hx.2 a rfl) rfl

namespace TurnQuery
open BinaryHeap

theorem NoStall_iff (h : Heap) :
    NoStall h ↔ ∀ x ∈ h.insertedNodes.map (fun r => (r.node, r.data)), x.2.stalled = false := by
  unfold NoStall
  simp

theorem unstalled_eq (h : Heap) :
    unstalled h = (h.insertedNodes.map (fun r => (r.node, r.data))).countP
      (fun x => !x.2.stalled) := by
  unfold unstalled
  rw [List.countP_map]
  rfl

theorem NoStall_of_recs {h h' : Heap}
    (hR : h'.insertedNodes.map (fun r => (r.node, r.data)) =
      h.insertedNodes.map (fun r => (r.node, r.data))) (hn : NoStall h) : NoStall h' := by
  rw [NoStall_iff] at hn ⊢
  rw [hR]
  exact hn

theorem unstalled_of_recs {h h' : Heap}
    (hR : h'.insertedNodes.map (fun r => (r.node, r.data)) =
      h.insertedNodes.map (fun r => (r.node, r.data))) : unstalled h' = unstalled h := by
  rw [unstalled_eq, unstalled_eq, hR]

theorem unstalled_le (h : Heap) : unstalled h ≤ h.insertedNodes.length :=
  List.countP_le_length _

theorem Grow_refl {cap : Nat} {h : Heap} (hi : RawInv cap h) : Grow cap h h :=
  ⟨hi, Prog_refl h, fun hn => hn⟩

theorem Grow_trans {cap : Nat} {h1 h2 h3 : Heap} (a : Grow cap h1 h2) (b : Grow cap h2 h3) :
    Grow cap h1 h3 :=
  ⟨b.inv, Prog_trans a.prog b.prog, fun hn => b.nostall (a.nostall hn)⟩

theorem Grow_kept {cap : Nat} {h h' : Heap} (hi : RawInv cap h) (hk : Kept h h') :
    Grow cap h h' :=
  ⟨RawInv_kept hi hk, Prog_kept hk, NoStall_of_recs hk.recs⟩

/-- `GetData( id ) = d` with an unstalled payload `d`. -/
theorem Grow_setData {cap : Nat} {h h' : Heap} (hi : RawInv cap h) {id : Nat} {d : HeapData}
    (hd : d.stalled = false)
    (hs : ∃ (k : Nat) (r : HeapNode HeapData), h.nodeIndex.positions[id]? = some k ∧
      h.insertedNodes[k]? = some r ∧
      h' = { h with insertedNodes := h.insertedNodes.set k { r with data := d } }) :
    Grow cap h h' := by
  obtain ⟨k, r, _, hr, rfl⟩ := hs
  refine ⟨⟨?_, hi.cap, by simp only [List.length_set]; exact hi.size⟩,
    ⟨by simp, by simp⟩, ?_⟩
  · intro j r' hr'
    simp only [List.getElem?_set] at hr'
    by_cases hkj : k = j
    · subst hkj
      simp only [if_true, lt_of_get hr] at hr'
      rw [← Option.some.inj hr']
      exact hi.ids k r hr
    · rw [if_neg hkj] at hr'
      exact hi.ids j r' hr'
  · intro hn r' hr'
    rcases List.mem_or_eq_of_mem_set hr' with h1 | h1
    · exact hn r' h1
    · rw [h1]; exact hd

theorem Grow_insert {cap : Nat} {h h' : Heap} (hi : RawInv cap h) {id : Nat} {d : HeapData}
    (hd : d.stalled = false) (hw : WasInserted h id = .ok false)
    (hp : id < h.nodeIndex.positions.length ∧
      h'.nodeIndex.positions = h.nodeIndex.positions.set id h.insertedNodes.length ∧
      h'.insertedNodes.map (fun r => (r.node, r.data)) =
        h.insertedNodes.map (fun r => (r.node, r.data)) ++ [(id, d)] ∧
      h'.heap.length = h.heap.length + 1) : Grow cap h h' := by
  obtain ⟨hc, hN, hR, hH⟩ := hp
  obtain ⟨h1, h2⟩ := RawInv_insert hi hw hc hN hR hH
  refine ⟨h1, h2, ?_⟩
  intro hn
  rw [NoStall_iff] at hn ⊢
  rw [hR]
  intro x hx
  simp only [List.mem_append, List.mem_singleton] at hx
  rcases hx with hx | rfl
  · exact hn x hx
  · exact hd

/-- The part of `initHeap` and of the relaxation that stores a state. -/
theorem store_safe {cap : Nat} {h : Heap} (hi : RawInv cap h) (k : Nat) (w : Int)
    (data : HeapData) (hd : data.stalled = false) (c : Int → Prop) [DecidablePred c] :
    Safe (Grow cap h) (do
      let ins ← h.WasInserted k
      if !ins then h.Insert k w data
      else
        let key ← h.GetKey k
        if c key then
          let heap1 ← h.DecreaseKey k w
          heap1.SetData k data
        else pure h) := by
  refine Safe_bind (WasInserted_safe _ _) (fun ins _ hins => ?_)
  split
  · rename_i hne
    have : ins = false := by simpa using hne
    subst this
    exact Safe_mono (Insert_safe _ _ _ _) (fun h' hp => Grow_insert hi hd hins hp)
  · refine Safe_bind (GetKey_safe _ _) (fun key _ _ => ?_)
    split
    · refine Safe_bind (DecreaseKey_safe _ _ _) (fun h1 hk _ => ?_)
      refine Safe_mono (SetData_safe _ _ _) (fun h2 hs => ?_)
      exact Grow_trans (Grow_kept hi hk) (Grow_setData (RawInv_kept hi hk) hd hs)
    · exact Safe_pure (Grow_refl hi)

theorem seed_safe {cap : Nat} {h : Heap} (hi : RawInv cap h) (k w : Nat) (data : HeapData)
    (hd : data.stalled = false) : Safe (Grow cap h) (seed h k w data) :=
  store_safe hi k (i32 w) data hd (fun key => i32 w < key)

theorem relaxEdge_safe {cap : Nat} {h : Heap} (hi : RawInv cap h) (g : Graph) (d : Dir)
    (oe : Nat) (dist : Int) (data : HeapData) (e : Nat) :
    Safe (Grow cap h) (relaxEdge g d oe dist data e h) := by
  unfold relaxEdge
  dsimp only
  split
  · split
    · exact Safe_pure (Grow_refl hi)
    · exact store_safe hi _ _ _ rfl _
  · exact Safe_pure (Grow_refl hi)

end TurnQuery
end MoNav

namespace MoNav
namespace TurnQuery
open BinaryHeap

theorem initBody1_safe {cap : Nat} {h : Heap} (hi : RawInv cap h) (g : Graph) (node2 : Nat)
    (ea : Bool → Bool → Bool) (e : Nat) :
    Safe (fun r => Grow cap h r.1) (initBody1 g node2 ea e h) := by
  unfold initBody1
  dsimp only
  split
  · exact Safe_pure (Grow_refl hi)
  · refine Safe_bind (seed_safe hi _ _ _ rfl) (fun h1 hg _ => ?_)
    exact Safe_pure hg

theorem initBody2_safe {cap : Nat} {h : Heap} (hi : RawInv cap h) (g : Graph)
    (node node2 : Nat) (ea : Bool → Bool → Bool) (e : Nat) :
    Safe (fun r => Grow cap h r.1) (initBody2 g node node2 ea e h) := by
  unfold initBody2
  dsimp only
  split
  · exact Safe_pure (Grow_refl hi)
  · refine Safe_bind (seed_safe hi _ _ _ rfl) (fun h1 hg _ => ?_)
    exact Safe_pure hg

theorem initHeap_safe {cap : Nat} {h : Heap} (hi : RawInv cap h) (g : Graph)
    (node node2 : Nat) (ea : Bool → Bool → Bool) :
    Safe (Grow cap h) (initHeap g h node node2 ea) := by
  unfold initHeap
  refine Safe_bind (forLoop_safe _ (Grow cap h) _ _ (Grow_refl hi)
    (fun e _ s hs => Safe_mono (initBody1_safe hs.inv g node2 ea e)
      (fun r hr => Grow_trans hs hr))) (fun h1 hg1 _ => ?_)
  exact forLoop_safe _ (Grow cap h) _ _ hg1
    (fun e _ s hs => Safe_mono (initBody2_safe hs.inv g node node2 ea e)
      (fun r hr => Grow_trans hs hr))

theorem meetBody_safe (g : Graph) (d : Dir) (hb : Heap) (oe : Nat) (dist : Int)
    (data : HeapData) (fo out : Nat) (st : Middle × Int) :
    Safe (fun _ => True) (meetBody g d hb oe dist data fo out st) := by
  unfold meetBody
  dsimp only
  refine Safe_bind (WasInserted_safe _ _) (fun ins _ _ => ?_)
  have tail : ∀ live : Bool, Safe (fun _ => True)
      (if live = true then
        if d.penaltyFunction g data.node data.originalEdge out = RESTRICTED_TURN then
          (pure (st, false) : Except Fault ((Middle × Int) × Bool))
        else do
          let key ← hb.GetKey (u32 (fo + out))
          if i32 (key + ↑(d.penaltyFunction g data.node data.originalEdge out) + dist) < st.2
          then pure ((d.middleFunction data.node oe (u32 (fo + out)),
            i32 (key + ↑(d.penaltyFunction g data.node data.originalEdge out) + dist)), false)
          else pure (st, false)
      else pure (st, false)) := by
    intro live
    split
    · split
      · exact Safe_pure trivial
      · refine Safe_bind (GetKey_safe _ _) (fun key _ _ => ?_)
        split <;> exact Safe_pure trivial
    · exact Safe_pure trivial
  split
  · exact Safe_bind (GetData_safe _ _) (fun od _ _ => tail (!od.stalled))
  · exact tail false

theorem shorterBody_safe (g : Graph) (d : Dir) (h : Heap) (toNode fo lo : Nat) (ed : Nat)
    (i : Nat) (sd : Int) :
    Safe (fun _ => True) (shorterBody g d h toNode fo lo ed i sd) := by
  unfold shorterBody
  dsimp only
  refine Safe_bind (WasInserted_safe _ _) (fun ins _ _ => ?_)
  split
  · split
    · exact Safe_pure trivial
    · refine Safe_bind (GetKey_safe _ _) (fun key _ _ => ?_)
      exact Safe_pure trivial
  · exact Safe_pure trivial

theorem Stalls_refl {cap : Nat} {st : Heap × List StallQueueItem} (hi : RawInv cap st.1) :
    Stalls cap st st := ⟨hi, rfl, rfl, le_refl _⟩

theorem Stalls_trans {cap : Nat} {a b c : Heap × List StallQueueItem} (h1 : Stalls cap a b)
    (h2 : Stalls cap b c) : Stalls cap a c :=
  ⟨h2.inv, h2.count.trans h1.count, h2.size.trans h1.size, le_trans h2.paid h1.paid⟩

theorem RawInv_setData {cap : Nat} {h : Heap} (hi : RawInv cap h) {k : Nat}
    {r : HeapNode HeapData} (hr : h.insertedNodes[k]? = some r) (d : HeapData) :
    RawInv cap { h with insertedNodes := h.insertedNodes.set k { r with data := d } } := by
  refine ⟨?_, hi.cap, by simp only [List.length_set]; exact hi.size⟩
  intro j r' hr'
  simp only [List.getElem?_set] at hr'
  by_cases hkj : k = j
  · subst hkj
    simp only [if_true, lt_of_get hr] at hr'
    rw [← Option.some.inj hr']
    exact hi.ids k r hr
  · rw [if_neg hkj] at hr'
    exact hi.ids j r' hr'

/-- Marking a payload stalled: the number of unstalled payloads does not grow, and it
falls by one when the payload was not stalled. -/
theorem unstalled_mark {h : Heap} {k : Nat} {r : HeapNode HeapData}
    (hr : h.insertedNodes[k]? = some r) :
    unstalled { h with insertedNodes :=
        h.insertedNodes.set k { r with data := { r.data with stalled := true } } } +
      (if r.data.stalled = false then 1 else 0) = unstalled h := by
  have := countP_set (fun r : HeapNode HeapData => !r.data.stalled) h.insertedNodes k r
    { r with data := { r.data with stalled := true } } hr
  unfold unstalled
  dsimp only at this ⊢
  have e1 : (if (!true) = true then 1 else 0) = 0 := rfl
  rw [e1, Nat.add_zero] at this
  rw [← this]
  congr 1
  by_cases hst : r.data.stalled = false
  · simp [hst]
  · simp [hst]

theorem stallBody_safe {cap : Nat} (g : Graph) (d : Dir) (item : StallQueueItem) (e : Nat)
    (st : Heap × List StallQueueItem) (hi : RawInv cap st.1) :
    Safe (fun r => Stalls cap st r.1) (stallBody g d item e st) := by
  obtain ⟨h, queue⟩ := st
  unfold stallBody
  dsimp only
  split
  · exact Safe_pure (Stalls_refl hi)
  · refine Safe_bind (WasInserted_safe _ _) (fun ins _ _ => ?_)
    split
    · exact Safe_pure (Stalls_refl hi)
    · refine Safe_bind (GetData_safe _ _) (fun sd hsd _ => ?_)
      split
      · exact Safe_pure (Stalls_refl hi)
      · rename_i hns
        split
        · exact Safe_pure (Stalls_refl hi)
        · refine Safe_bind (GetKey_safe _ _) (fun key _ _ => ?_)
          split
          · refine Safe_bind (WasRemoved_safe _ _) (fun removed _ _ => ?_)
            have tail : ∀ h1 : Heap, Kept h h1 → Safe (fun r => Stalls cap (h, queue) r.1)
                (do
                  let sd1 ← h1.GetData (u32 (g.GetFirstOriginalEdge (g.GetTarget item.node) +
                    g.GetOriginalEdgeTarget e))
                  let heap2 ← h1.SetData (u32 (g.GetFirstOriginalEdge (g.GetTarget item.node) +
                    g.GetOriginalEdgeTarget e)) { sd1 with stalled := true }
                  pure ((heap2, queue ++ [⟨g.GetTarget item.node, g.GetOriginalEdgeTarget e,
                    i32 (item.distance + ↑(d.penaltyFunction g item.node item.originalEdge
                      (g.GetOriginalEdgeSource e)) + ↑(g.GetEdgeData e).distance)⟩]), false)) := by
              intro h1 hk
              refine Safe_bind (GetData_safe _ _) (fun sd1 hsd1 _ => ?_)
              refine Safe_bind (SetData_safe _ _ _) (fun h2 hs2 _ => ?_)
              refine Safe_pure ?_
              obtain ⟨k, r, hk1, hr, rfl⟩ := hs2
              obtain ⟨k', r', hk1', hr', hd1⟩ := hsd1
              rw [hk1] at hk1'
              have hkk := Option.some.inj hk1'
              subst hkk
              rw [hr] at hr'
              have hrr := Option.some.inj hr'
              subst hrr
              obtain ⟨k0, r0, hk0, hr0, hd0⟩ := hsd
              obtain ⟨r1, hr1, _, hdd⟩ := recs_get hk.recs hr
              rw [hk.index, hk0] at hk1
              have hkk := Option.some.inj hk1
              subst hkk
              rw [hr0] at hr1
              have hrr := Option.some.inj hr1
              subst hrr
              have hst : r.data.stalled = false := by
                rw [← hdd, hd0]
                simpa using hns
              have hmark := unstalled_mark hr
              rw [if_pos hst, unstalled_of_recs hk.recs] at hmark
              refine ⟨?_, ?_, ?_, ?_⟩
              · rw [← hd1]
                exact RawInv_setData (RawInv_kept hi hk) hr _
              · show (List.set _ _ _).length = _
                rw [List.length_set, recs_length hk.recs]
              · exact hk.size
              · show (queue ++ [_]).length + unstalled _ ≤ queue.length + unstalled h
                rw [← hd1]
                simp only [List.length_append, List.length_singleton]
                dsimp only at hmark
                omega
            split
            · exact Safe_bind (SetKey_safe _ _ _) (fun h1 hk _ => tail h1 hk)
            · exact Safe_bind (DecreaseKey_safe _ _ _) (fun h1 hk _ => tail h1 hk)
          · exact Safe_pure (Stalls_refl hi)

theorem stallLoop_safe {cap : Nat} (g : Graph) (d : Dir) :
    ∀ (fuel : Nat) (st : Heap × List StallQueueItem), RawInv cap st.1 →
      st.2.length + unstalled st.1 ≤ fuel →
      Safe (fun st' => Stalls cap st st' ∧ st'.2 = []) (stallLoop g d fuel st) := by
  intro fuel
  induction fuel with
  | zero =>
    intro st hi hm
    rw [stallLoop]
    split
    · rename_i hq
      exact Safe_pure ⟨Stalls_refl hi, hq⟩
    · rename_i hq
      rw [hq] at hm
      simp at hm
  | succ fuel ih =>
    intro st hi hm
    rw [stallLoop]
    split
    · rename_i hq
      exact Safe_pure ⟨Stalls_refl hi, hq⟩
    · rename_i item queue hq
      refine Safe_bind (forLoop_safe _ (fun st1 => Stalls cap (st.1, queue) st1) _ _
        (Stalls_refl hi) (fun e _ s hs => Safe_mono (stallBody_safe g d item e s hs.inv)
          (fun r hr => Stalls_trans hs hr))) (fun st1 h1 _ => ?_)
      have hp := h1.paid
      simp only at hp
      rw [hq] at hm
      simp only [List.length_cons] at hm
      refine Safe_mono (ih st1 h1.inv (by omega)) (fun st' h2 => ⟨?_, h2.2⟩)
      refine ⟨h2.1.inv, h2.1.count.trans h1.count, h2.1.size.trans h1.size, ?_⟩
      have := h2.1.paid
      rw [hq]
      simp only [List.length_cons]
      omega

end TurnQuery
end MoNav

namespace MoNav
namespace TurnQuery
open BinaryHeap

theorem edgeBody_safe (g : Graph) (d : Dir) (sod : Bool) (oe : Nat) (dist : Int)
    (data : HeapData) (e : Nat) {h : Heap} (hi : RawInv g.GetNumberOfOriginalEdges h) :
    Safe (fun r => RawInv g.GetNumberOfOriginalEdges r.1.1 ∧ Prog h r.1.1 ∧ r.1.2 = [] ∧
        (sod = false → NoStall h → NoStall r.1.1))
      (edgeBody g d sod oe dist data e (h, [])) := by
  unfold edgeBody
  dsimp only
  refine Safe_bind Safe_assert (fun _ _ _ => ?_)
  have relax : Safe (fun r : (Heap × List StallQueueItem) × Bool =>
        RawInv g.GetNumberOfOriginalEdges r.1.1 ∧ Prog h r.1.1 ∧ r.1.2 = [] ∧
        (sod = false → NoStall h → NoStall r.1.1))
      (do
        let heap1 ← relaxEdge g d oe dist data e h
        pure ((heap1, []), false)) :=
    Safe_bind (relaxEdge_safe hi g d oe dist data e)
      (fun h1 hg _ => Safe_pure ⟨hg.inv, hg.prog, rfl, fun _ => hg.nostall⟩)
  split
  · rename_i hc
    refine Safe_bind (P := fun _ => True) (forLoop_safe _ (fun _ => True) _ _ trivial
      (fun i _ s _ => Safe_mono (shorterBody_safe g d h _ _ _ _ i s) (fun _ _ => trivial)))
      (fun sh _ _ => ?_)
    split
    · refine Safe_bind (SetKey_safe _ _ _) (fun h1 hk _ => ?_)
      refine Safe_bind (GetData_safe _ _) (fun sd _ _ => ?_)
      refine Safe_bind (SetData_safe _ _ _) (fun h2 hs2 _ => ?_)
      obtain ⟨k, r, hk1, hr, rfl⟩ := hs2
      have hi2 := RawInv_setData (RawInv_kept hi hk) hr { sd with stalled := true }
      have hlen : (h1.insertedNodes.set k { r with data := { sd with stalled := true } }).length
          = h.insertedNodes.length := by
        rw [List.length_set, recs_length hk.recs]
      refine Safe_bind (stallLoop_safe g d _ _ hi2 ?_) (fun st1 hst _ => Safe_pure ?_)
      · have h1 := unstalled_le
          { h1 with insertedNodes :=
              h1.insertedNodes.set k { r with data := { sd with stalled := true } } }
        have h2 := RawInv_count hi2
        simp only [List.nil_append, List.length_singleton] at h1 h2 ⊢
        omega
      · refine ⟨hst.1.inv, ?_, hst.2, ?_⟩
        · have c1 := hst.1.count
          have c2 := hst.1.size
          have c3 := hk.size
          simp only at c1 c2
          rw [hlen] at c1
          unfold Prog
          simp only
          omega
        · intro hs
          rw [hs] at hc
          simp at hc
    · exact relax
  · exact relax

theorem computeStep_safe (g : Graph) (d : Dir) (sod : Bool) (hb : Heap) (st : StepState)
    (hi : RawInv g.GetNumberOfOriginalEdges st.heapForward) (hq : st.stallQueue = [])
    (hs : 1 < st.heapForward.heap.length) :
    Safe (fun r => Settles g.GetNumberOfOriginalEdges sod st.heapForward r.1.heapForward ∧
        r.1.stallQueue = [])
      (computeStep g d sod hb st) := by
  unfold computeStep
  refine Safe_bind (DeleteMin_safe _) (fun r1 h1 _ => ?_)
  obtain ⟨heap1, oe⟩ := r1
  obtain ⟨hN, hR, hL⟩ := h1
  simp only at hN hR hL
  have hi1 : RawInv g.GetNumberOfOriginalEdges heap1 := RawInv_of_recs hi hN hR (by omega)
  have hc1 := recs_length hR
  have base : Settles g.GetNumberOfOriginalEdges sod st.heapForward heap1 :=
    ⟨hi1, le_of_eq hc1.symm, by omega, fun _ hn => NoStall_of_recs hR hn⟩
  dsimp only
  refine Safe_bind (GetKey_safe _ _) (fun dist _ _ => ?_)
  refine Safe_bind (GetData_safe _ _) (fun data _ _ => ?_)
  split
  · exact Safe_pure ⟨base, hq⟩
  · refine Safe_bind (P := fun _ => True) (forLoop_safe _ (fun _ => True) _ _ trivial
      (fun i _ s _ => Safe_mono (meetBody_safe g d hb oe dist data _ i s)
        (fun _ _ => trivial))) (fun mt _ _ => ?_)
    obtain ⟨middle, T⟩ := mt
    dsimp only
    split
    · refine Safe_bind (DeleteAll_safe _) (fun h2 hd _ => Safe_pure ?_)
      obtain ⟨dN, dR, dL⟩ := hd
      have hc2 := recs_length dR
      have i2 : RawInv g.GetNumberOfOriginalEdges h2 :=
        RawInv_of_recs hi1 dN dR (by rw [dL]; omega)
      have c2 : st.heapForward.insertedNodes.length ≤ h2.insertedNodes.length := by omega
      have m2 : h2.heap.length + st.heapForward.insertedNodes.length + 1 ≤
          st.heapForward.heap.length + h2.insertedNodes.length := by omega
      exact ⟨⟨i2, c2, m2, fun _ hn => NoStall_of_recs dR (NoStall_of_recs hR hn)⟩, hq⟩
    · refine Safe_bind (forLoop_safe _ (fun s : Heap × List StallQueueItem =>
          RawInv g.GetNumberOfOriginalEdges s.1 ∧ Prog heap1 s.1 ∧ s.2 = [] ∧
          (sod = false → NoStall heap1 → NoStall s.1)) _ _
        ⟨hi1, Prog_refl _, hq, fun _ hn => hn⟩ (fun e _ s hs => ?_)) (fun r2 h2 _ => ?_)
      · obtain ⟨sh, sq⟩ := s
        obtain ⟨a, b, c, dd⟩ := hs
        simp only at a b c dd
        subst c
        exact Safe_mono (edgeBody_safe g d sod oe dist data e a)
          (fun r hr => ⟨hr.1, Prog_trans b hr.2.1, hr.2.2.1,
            fun h0 hn => hr.2.2.2 h0 (dd h0 hn)⟩)
      · obtain ⟨heap2, queue⟩ := r2
        obtain ⟨a, b, c, dd⟩ := h2
        simp only at a b c dd
        refine Safe_pure ⟨⟨a, ?_, ?_, fun h0 hn => dd h0 (NoStall_of_recs hR hn)⟩, c⟩
        · have := b.1
          simp only
          omega
        · have := b.1
          have := b.2
          simp only
          omega

end TurnQuery
end MoNav

namespace MoNav
namespace TurnQuery
open BinaryHeap

theorem stepsLeft_settles {cap : Nat} {sod : Bool} {h h' : Heap} (hs : Settles cap sod h h')
    (hl : 0 < Size h) : stepsLeft cap h' + 1 ≤ stepsLeft cap h := by
  have h1 := RawInv_count hs.inv
  have h2 := hs.count
  have h3 := hs.measure
  unfold stepsLeft Size at *
  omega

theorem stepsLeft_init {cap : Nat} {h : Heap} (hi : RawInv cap h) : stepsLeft cap h ≤ cap := by
  have h1 := RawInv_count hi
  have h2 := hi.size
  unfold stepsLeft Size
  omega

theorem stepForward_safe (g : Graph) (sod : Bool) {s : SearchState} (hi : LoopInv g s)
    (hs : 0 < Size s.query.m_heapForward) :
    Safe (fun s' => LoopInv g s' ∧
        Settles g.GetNumberOfOriginalEdges sod s.query.m_heapForward s'.query.m_heapForward ∧
        s'.query.m_heapBackward = s.query.m_heapBackward)
      (stepForward g sod s) := by
  unfold stepForward
  refine Safe_bind (computeStep_safe g Dir.fwd sod s.query.m_heapBackward
    ⟨s.query.m_heapForward, s.query.m_stallQueue, s.query.m_middle, s.targetDistance⟩
    hi.fwd hi.queue (by unfold Size at hs; simp only; omega)) (fun r hr _ => ?_)
  obtain ⟨r, u⟩ := r
  exact Safe_pure ⟨⟨hr.1.inv, hi.bwd, hr.2⟩, hr.1, rfl⟩

theorem stepBackward_safe (g : Graph) (sod : Bool) {s : SearchState} (hi : LoopInv g s)
    (hs : 0 < Size s.query.m_heapBackward) :
    Safe (fun s' => LoopInv g s' ∧
        Settles g.GetNumberOfOriginalEdges sod s.query.m_heapBackward s'.query.m_heapBackward ∧
        s'.query.m_heapForward = s.query.m_heapForward)
      (stepBackward g sod s) := by
  unfold stepBackward
  refine Safe_bind (computeStep_safe g Dir.bwd sod s.query.m_heapForward
    ⟨s.query.m_heapBackward, s.query.m_stallQueue, s.query.m_middle, s.targetDistance⟩
    hi.bwd hi.queue (by unfold Size at hs; simp only; omega)) (fun r hr _ => ?_)
  obtain ⟨r, u⟩ := r
  exact Safe_pure ⟨⟨hi.fwd, hr.1.inv, hr.2⟩, hr.1, rfl⟩

/-- The loop of `BidirSearch` ends after at most `n` iterations when the two heaps can make
at most `n` settling steps together. -/
theorem bidirLoop_safe (g : Graph) (sod : Bool) :
    ∀ (n : Nat) (s : SearchState), LoopInv g s →
      stepsLeft g.GetNumberOfOriginalEdges s.query.m_heapForward +
        stepsLeft g.GetNumberOfOriginalEdges s.query.m_heapBackward ≤ n →
      Safe (LoopInv g) (bidirLoop g sod n s) := by
  intro n
  induction n with
  | zero =>
    intro s hi hm
    rw [bidirLoop]
    split
    · rename_i h0
      unfold stepsLeft at hm
      omega
    · exact Safe_pure hi
  | succ n ih =>
    intro s hi hm
    rw [bidirLoop]
    split
    · rename_i h0
      simp only [ite_bind]
      refine Safe_bind (P := fun s1 => LoopInv g s1 ∧
          s1.query.m_heapBackward = s.query.m_heapBackward ∧
          stepsLeft g.GetNumberOfOriginalEdges s1.query.m_heapForward +
            (if Size s.query.m_heapForward > 0 then 1 else 0) ≤
            stepsLeft g.GetNumberOfOriginalEdges s.query.m_heapForward) ?_
        (fun s1 h1 _ => ?_)
      · split
        · rename_i hf
          refine Safe_mono (stepForward_safe g sod hi hf) (fun s1 h1 => ⟨h1.1, h1.2.2, ?_⟩)
          exact stepsLeft_settles h1.2.1 hf
        · exact Safe_pure ⟨hi, rfl, le_refl _⟩
      · obtain ⟨i1, e1, m1⟩ := h1
        refine Safe_bind (P := fun s2 => LoopInv g s2 ∧
            stepsLeft g.GetNumberOfOriginalEdges s2.query.m_heapForward +
              stepsLeft g.GetNumberOfOriginalEdges s2.query.m_heapBackward ≤ n) ?_
          (fun s2 h2 _ => ih s2 h2.1 h2.2)
        split
        · rename_i hb
          refine Safe_mono (stepBackward_safe g sod i1 hb) (fun s2 h2 => ⟨h2.1, ?_⟩)
          have := stepsLeft_settles h2.2.1 hb
          rw [h2.2.2]
          rw [e1] at this
          split at m1 <;> omega
        · rename_i hb
          refine Safe_pure ⟨i1, ?_⟩
          rw [e1] at hb ⊢
          have hf : Size s.query.m_heapForward > 0 := by omega
          rw [if_pos hf] at m1
          omega
    · exact Safe_pure hi

/-- The loop of `UnidirSearch` ends after at most `n` iterations when the forward heap can
make at most `n` settling steps; it leaves the backward heap alone, and without
stall-on-demand it marks no payload stalled. -/
theorem unidirLoop_safe (g : Graph) (sod : Bool) :
    ∀ (n : Nat) (s : SearchState), LoopInv g s →
      stepsLeft g.GetNumberOfOriginalEdges s.query.m_heapForward ≤ n →
      Safe (fun s' => LoopInv g s' ∧ s'.query.m_heapBackward = s.query.m_heapBackward ∧
          (sod = false → NoStall s.query.m_heapForward → NoStall s'.query.m_heapForward))
        (unidirLoop g sod n s) := by
  intro n
  induction n with
  | zero =>
    intro s hi hm
    rw [unidirLoop]
    split
    · rename_i h0
      unfold stepsLeft at hm
      omega
    · exact Safe_pure ⟨hi, rfl, fun _ hn => hn⟩
  | succ n ih =>
    intro s hi hm
    rw [unidirLoop]
    split
    · rename_i h0
      refine Safe_bind (stepForward_safe g sod hi h0) (fun s1 h1 _ => ?_)
      have := stepsLeft_settles h1.2.1 h0
      refine Safe_mono (ih s1 h1.1 (by omega)) (fun s2 h2 => ⟨h2.1, h2.2.1.trans h1.2.2, ?_⟩)
      exact fun hs hn => h2.2.2 hs (h1.2.1.nostall hs hn)
    · exact Safe_pure ⟨hi, rfl, fun _ hn => hn⟩

theorem RawInv_clear (h : Heap) : RawInv h.nodeIndex.positions.length h.Clear := by
  unfold BinaryHeap.Clear resize1
  split <;> exact ⟨fun k r hr => by simp at hr, rfl, by simp⟩

theorem NoStall_clear (h : Heap) : NoStall h.Clear := by
  unfold BinaryHeap.Clear resize1
  split <;> exact fun r hr => by simp at hr

theorem initSearch_safe (g : Graph) (q : TurnQuery) (s s2 t t2 : Nat)
    (hf : RawInv g.GetNumberOfOriginalEdges q.m_heapForward)
    (hb : RawInv g.GetNumberOfOriginalEdges q.m_heapBackward)
    (hq : q.m_stallQueue = []) :
    Safe (fun q1 => LoopInv g ⟨q1, INT_MAX⟩ ∧
        (NoStall q.m_heapForward → NoStall q1.m_heapForward) ∧
        (NoStall q.m_heapBackward → NoStall q1.m_heapBackward))
      (initSearch g q s s2 t t2) := by
  unfold initSearch
  refine Safe_bind Safe_assert (fun _ _ _ => ?_)
  refine Safe_bind Safe_assert (fun _ _ _ => ?_)
  refine Safe_bind Safe_assert (fun _ _ _ => ?_)
  refine Safe_bind Safe_assert (fun _ _ _ => ?_)
  refine Safe_bind (initHeap_safe hf g s s2 AllowForwardEdge) (fun h1 g1 _ => ?_)
  refine Safe_bind (initHeap_safe hb g t t2 AllowBackwardEdge) (fun h2 g2 _ => ?_)
  exact Safe_pure ⟨⟨g1.inv, g2.inv, hq⟩, g1.nostall, g2.nostall⟩

end TurnQuery
end MoNav

namespace MoNav
namespace TurnQuery
open BinaryHeap

theorem BidirSearch_safe (g : Graph) (sod : Bool) (q : TurnQuery) (s s2 t t2 : Nat)
    (hf : RawInv g.GetNumberOfOriginalEdges q.m_heapForward)
    (hb : RawInv g.GetNumberOfOriginalEdges q.m_heapBackward)
    (hq : q.m_stallQueue = []) :
    Safe (fun r => LoopInv g ⟨r.2, r.1⟩) (BidirSearch g sod q s s2 t t2) := by
  unfold BidirSearch
  refine Safe_bind (initSearch_safe g q s s2 t t2 hf hb hq) (fun q1 h1 _ => ?_)
  dsimp only
  split
  · exact Safe_pure h1.1
  · split
    · refine Safe_bind (MinKey_safe _) (fun kb _ _ => ?_)
      refine Safe_bind (MinKey_safe _) (fun kf _ _ => ?_)
      refine Safe_bind Safe_assert (fun _ _ _ => ?_)
      exact Safe_pure ⟨h1.1.fwd, h1.1.bwd, h1.1.queue⟩
    · have m1 := stepsLeft_init h1.1.fwd
      have m2 := stepsLeft_init h1.1.bwd
      simp only at m1 m2
      refine Safe_bind (bidirLoop_safe g sod (loopFuel g) ⟨q1, INT_MAX⟩ h1.1
        (by unfold loopFuel; simp only; omega)) (fun st hst _ => ?_)
      exact Safe_pure hst

theorem UnidirSearch_safe (g : Graph) (sod : Bool) (q : TurnQuery) (s s2 t t2 : Nat)
    (hf : RawInv g.GetNumberOfOriginalEdges q.m_heapForward)
    (hb : RawInv g.GetNumberOfOriginalEdges q.m_heapBackward)
    (hq : q.m_stallQueue = []) :
    Safe (fun r => LoopInv g ⟨r.2, r.1⟩ ∧
        (sod = false → NoStall q.m_heapForward → NoStall r.2.m_heapForward) ∧
        (NoStall q.m_heapBackward → NoStall r.2.m_heapBackward))
      (UnidirSearch g sod q s s2 t t2) := by
  unfold UnidirSearch
  refine Safe_bind (initSearch_safe g q s s2 t t2 hf hb hq) (fun q1 h1 _ => ?_)
  dsimp only
  split
  · exact Safe_pure ⟨h1.1, fun _ => h1.2.1, h1.2.2⟩
  · split
    · refine Safe_bind (MinKey_safe _) (fun kb _ _ => ?_)
      refine Safe_bind (MinKey_safe _) (fun kf _ _ => ?_)
      refine Safe_bind Safe_assert (fun _ _ _ => ?_)
      exact Safe_pure ⟨⟨h1.1.fwd, h1.1.bwd, h1.1.queue⟩, fun _ => h1.2.1, h1.2.2⟩
    · have m1 := stepsLeft_init h1.1.fwd
      simp only at m1
      refine Safe_bind (unidirLoop_safe g sod (loopFuel g) ⟨q1, INT_MAX⟩ h1.1
        (by unfold loopFuel; simp only; omega)) (fun st hst _ => ?_)
      refine Safe_pure ⟨hst.1, fun h0 hn => hst.2.2 h0 (h1.2.1 hn), fun hn => ?_⟩
      show NoStall st.query.m_heapBackward
      rw [hst.2.1]
      exact h1.2.2 hn

/-- On a graph without backward edges the test that starts stall-on-demand is never
passed in a forward step. -/
theorem edgeBody_noBackward (g : Graph) (hbk : ∀ e, (g.GetEdgeData e).backward = false)
    (oe : Nat) (dist : Int) (data : HeapData) (e : Nat) (st : Heap × List StallQueueItem) :
    edgeBody g Dir.fwd true oe dist data e st = edgeBody g Dir.fwd false oe dist data e st := by
  unfold edgeBody
  simp only [Dir.fwd, AllowBackwardEdge, hbk, Bool.and_false, Bool.false_and, Bool.false_eq_true,
    if_false]

theorem computeStep_noStall (g : Graph) (hbk : ∀ e, (g.GetEdgeData e).backward = false)
    (hb : Heap) (st : StepState) (hn : NoStall st.heapForward) :
    computeStep g Dir.fwd true hb st = computeStep g Dir.fwd false hb st := by
  unfold computeStep
  refine bind_congr_safe (DeleteMin_safe _) (fun r1 h1 _ => ?_)
  obtain ⟨heap1, oe⟩ := r1
  obtain ⟨hN, hR, hL⟩ := h1
  simp only at hN hR hL
  dsimp only
  refine bind_congr_safe (GetKey_safe _ _) (fun dist _ _ => ?_)
  refine bind_congr_safe (GetData_safe _ _) (fun data hd _ => ?_)
  obtain ⟨k, r, _, hr, rfl⟩ := hd
  have hst : r.data.stalled = false :=
    NoStall_of_recs hR hn r (List.getElem?_mem hr)
  have he : edgeBody g Dir.fwd true oe dist r.data = edgeBody g Dir.fwd false oe dist r.data :=
    funext fun e => funext fun s => edgeBody_noBackward g hbk oe dist r.data e s
  simp only [hst, Bool.and_false, Bool.false_and, Bool.false_eq_true, if_false, he]

theorem stepForward_noStall (g : Graph) (hbk : ∀ e, (g.GetEdgeData e).backward = false)
    (s : SearchState) (hn : NoStall s.query.m_heapForward) :
    stepForward g true s = stepForward g false s := by
  unfold stepForward
  rw [computeStep_noStall g hbk _ _ hn]

theorem unidirLoop_noStall (g : Graph) (hbk : ∀ e, (g.GetEdgeData e).backward = false) :
    ∀ (n : Nat) (s : SearchState), LoopInv g s → NoStall s.query.m_heapForward →
      unidirLoop g true n s = unidirLoop g false n s := by
  intro n
  induction n with
  | zero => intro s _ _; rw [unidirLoop, unidirLoop]
  | succ n ih =>
    intro s hi hn
    rw [unidirLoop, unidirLoop]
    split
    · rename_i h0
      rw [stepForward_noStall g hbk s hn]
      exact bind_congr_safe (stepForward_safe g false hi h0)
        (fun s1 h1 _ => ih s1 h1.1 (h1.2.1.nostall rfl hn))
    · rfl

theorem UnidirSearch_noStall (g : Graph) (hbk : ∀ e, (g.GetEdgeData e).backward = false)
    (q : TurnQuery) (s s2 t t2 : Nat)
    (hf : RawInv g.GetNumberOfOriginalEdges q.m_heapForward)
    (hb : RawInv g.GetNumberOfOriginalEdges q.m_heapBackward)
    (hq : q.m_stallQueue = []) (hn : NoStall q.m_heapForward) :
    UnidirSearch g true q s s2 t t2 = UnidirSearch g false q s s2 t t2 := by
  unfold UnidirSearch
  refine bind_congr_safe (initSearch_safe g q s s2 t t2 hf hb hq) (fun q1 h1 _ => ?_)
  dsimp only
  rw [unidirLoop_noStall g hbk (loopFuel g) ⟨q1, INT_MAX⟩ h1.1 (h1.2.1 hn)]

theorem LoopInv_clear (g : Graph) (q : TurnQuery)
    (hf : q.m_heapForward.nodeIndex.positions.length = g.GetNumberOfOriginalEdges)
    (hb : q.m_heapBackward.nodeIndex.positions.length = g.GetNumberOfOriginalEdges) :
    RawInv g.GetNumberOfOriginalEdges q.Clear.m_heapForward ∧
    RawInv g.GetNumberOfOriginalEdges q.Clear.m_heapBackward := by
  constructor
  · rw [← hf]; exact RawInv_clear _
  · rw [← hb]; exact RawInv_clear _

end TurnQuery
end MoNav
namespace MoNav

namespace TurnQuery
open BinaryHeap

/-- An id that `WasInserted` reports has a payload, and the payload is that of a record. -/
theorem GetData_of_inserted {h : Heap} {k : Nat} (hi : h.WasInserted k = .ok true) :
    ∃ r ∈ h.insertedNodes, h.GetData k = .ok r.data := by
  unfold WasInserted at hi
  obtain ⟨idx, hidx, hrest⟩ := bind_ok_iff.1 hi
  by_cases hge : idx ≥ h.insertedNodes.length
  · rw [if_pos hge] at hrest
    exact absurd hrest (by simp [pure, Except.pure])
  · rw [if_neg hge] at hrest
    obtain ⟨r, hr, _⟩ := bind_ok_iff.1 hrest
    refine ⟨r, List.getElem?_mem (rd_ok_iff.1 hr), ?_⟩
    simp only [GetData, hidx, hr, bind, Except.bind, pure, Except.pure]

/-- Against a heap without a stalled payload the meeting loop makes no use of the
`stalled` flag. -/
theorem meetBody_noStall (g : Graph) (d : Dir) {hb : Heap} (hn : NoStall hb) (oe : Nat)
    (dist : Int) (data : HeapData) (first out : Nat) (st : Middle × Int) :
    meetBody g d hb oe dist data first out st =
      meetBodyNoStall g d hb oe dist data first out st := by
  simp only [meetBody, meetBodyNoStall]
  cases hi : hb.WasInserted (u32 (first + out)) with
  | error e => simp only [bind, Except.bind]
  | ok ins =>
    cases ins with
    | false => simp [bind, Except.bind, pure, Except.pure]
    | true =>
      obtain ⟨r, hr, hd⟩ := GetData_of_inserted hi
      have hs : r.data.stalled = false := hn r hr
      simp [hd, hs, bind, Except.bind, pure, Except.pure]

/-- Without stall-on-demand the body of the edge loop is the assertion and the relaxation
of the edge, whatever the state. -/
theorem edgeBody_noStall (g : Graph) (d : Dir) (oe : Nat) (dist : Int) (data : HeapData)
    (e : Nat) (st : Heap × List StallQueueItem) :
    edgeBody g d false oe dist data e st = edgeBodyNoStall g d oe dist data e st := by
  unfold edgeBody edgeBodyNoStall
  simp only [Bool.false_and, Bool.false_eq_true, if_false]

/-- Without stall-on-demand, against a heap without a stalled payload, `computeStep` is
the step that has no stall-on-demand in it. -/
theorem computeStep_plain (g : Graph) (d : Dir) {hb : Heap} (hn : NoStall hb)
    (st : StepState) :
    computeStep g d false hb st = computeStepNoStall g d hb st := by
  unfold computeStep computeStepNoStall
  have hm : ∀ oe dist data first,
      meetBody g d hb oe dist data first = meetBodyNoStall g d hb oe dist data first :=
    fun oe dist data first =>
      funext fun out => funext fun st => meetBody_noStall g d hn oe dist data first out st
  have he : ∀ oe dist data,
      edgeBody g d false oe dist data = edgeBodyNoStall g d oe dist data :=
    fun oe dist data => funext fun e => funext fun st => edgeBody_noStall g d oe dist data e st
  simp only [Bool.false_and, Bool.false_eq_true, if_false, hm, he]

theorem stepForward_plain (g : Graph) {s : SearchState} (hn : NoStall s.query.m_heapBackward) :
    stepForward g false s = stepForwardNoStall g s := by
  unfold stepForward stepForwardNoStall
  rw [computeStep_plain g Dir.fwd hn]

/-- What holds in every state of the loop of `UnidirSearch` without stall-on-demand. -/
theorem UnidirReach_inv (g : Graph) {st0 : SearchState} (hi : LoopInv g st0)
    (hf : NoStall st0.query.m_heapForward) (hb : NoStall st0.query.m_heapBackward)
    {st : SearchState} (hr : UnidirReach g false st0 st) :
    LoopInv g st ∧ NoStall st.query.m_heapForward ∧ NoStall st.query.m_heapBackward := by
  induction hr with
  | start => exact ⟨hi, hf, hb⟩
  | step _ hsz hstep ih =>
    obtain ⟨i1, i2, i3⟩ := ih
    have h := (stepForward_safe g false i1 hsz).2 _ hstep
    exact ⟨h.1, h.2.1.nostall rfl i2, by rw [h.2.2]; exact i3⟩

/-- On a graph without backward edges the states of the loop with stall-on-demand are
states of the loop without it. -/
theorem UnidirReach_noBackward (g : Graph) (hbk : ∀ e, (g.GetEdgeData e).backward = false)
    {st0 : SearchState} (hi : LoopInv g st0) (hf : NoStall st0.query.m_heapForward)
    (hb : NoStall st0.query.m_heapBackward) {st : SearchState}
    (hr : UnidirReach g true st0 st) : UnidirReach g false st0 st := by
  induction hr with
  | start => exact UnidirReach.start
  | step _ hsz hstep ih =>
    obtain ⟨_, i2, _⟩ := UnidirReach_inv g hi hf hb ih
    rw [stepForward_noStall g hbk _ i2] at hstep
    exact UnidirReach.step ih hsz hstep

/-- The state in which the loop of `UnidirSearch` ends is one of its states. -/
theorem unidirLoop_reach (g : Graph) (sod : Bool) :
    ∀ (n : Nat) (st st' : SearchState), unidirLoop g sod n st = .ok st' →
      UnidirReach g sod st st' := by
  intro n
  induction n with
  | zero =>
    intro st st' h
    rw [unidirLoop] at h
    split at h
    · exact absurd h (by simp)
    · rw [pure_ok_iff] at h
      subst h
      exact UnidirReach.start
  | succ n ih =>
    intro st st' h
    rw [unidirLoop] at h
    split at h
    · rename_i h0
      obtain ⟨s1, h1, h2⟩ := bind_ok_iff.1 h
      have hr := ih s1 st' h2
      clear h h2 ih
      induction hr with
      | start => exact UnidirReach.step UnidirReach.start h0 h1
      | step _ hsz hstep ih' => exact UnidirReach.step ih' hsz hstep
    · rw [pure_ok_iff] at h
      subst h
      exact UnidirReach.start

theorem unidirLoop_plain (g : Graph) :
    ∀ (n : Nat) (s : SearchState), LoopInv g s → NoStall s.query.m_heapBackward →
      unidirLoop g false n s = unidirLoopNoStall g n s := by
  intro n
  induction n with
  | zero => intro s _ _; rw [unidirLoop, unidirLoopNoStall]
  | succ n ih =>
    intro s hi hn
    rw [unidirLoop, unidirLoopNoStall]
    split
    · rename_i h0
      rw [← stepForward_plain g hn]
      exact bind_congr_safe (stepForward_safe g false hi h0)
        (fun s1 h1 _ => ih s1 h1.1 (by rw [h1.2.2]; exact hn))
    · rfl

theorem UnidirSearch_plain (g : Graph) (q : TurnQuery) (s s2 t t2 : Nat)
    (hf : RawInv g.GetNumberOfOriginalEdges q.m_heapForward)
    (hb : RawInv g.GetNumberOfOriginalEdges q.m_heapBackward)
    (hq : q.m_stallQueue = []) (hn : NoStall q.m_heapBackward) :
    UnidirSearch g false q s s2 t t2 = UnidirSearchNoStall g q s s2 t t2 := by
  unfold UnidirSearch UnidirSearchNoStall
  refine bind_congr_safe (initSearch_safe g q s s2 t t2 hf hb hq) (fun q1 h1 _ => ?_)
  dsimp only
  rw [unidirLoop_plain g (loopFuel g) ⟨q1, INT_MAX⟩ h1.1 (h1.2.2 hn)]

end TurnQuery
end MoNav

namespace MoNav
open TurnQuery BinaryHeap

/-- C18: on every graph, `BidirSearch` started from a freshly cleared query over index
arrays of `GetNumberOfOriginalEdges()` cells, with the stall queue empty as the constructor
and every completed step leave it, terminates: it never runs out of the iterations the
model allows its loops (a failed assertion ends the run, too).  After seeding, each heap
can make at most `GetNumberOfOriginalEdges()` settling steps: `stepsLeft` counts the ids not
yet inserted plus the entries in the tree, an id enters a heap at most once and a removed
entry never returns to the tree, so every settling step lowers `stepsLeft` of its heap and
leaves the other heap alone, and the main loop ends within `2 * GetNumberOfOriginalEdges()`
iterations.  Every stall BFS ends, with an empty queue and without adding or removing an
entry, within as many rounds as there are queued items and unstalled payloads, because an
edge of a popped item enqueues an item only when it marks an unstalled payload stalled. -/
theorem C18_bidir_terminates (g : Graph) (stallOnDemand : Bool) (q : TurnQuery)
    (s s2 t t2 : Nat)
    (hcf : q.m_heapForward.nodeIndex.positions.length = g.GetNumberOfOriginalEdges)
    (hcb : q.m_heapBackward.nodeIndex.positions.length = g.GetNumberOfOriginalEdges)
    (hq : q.m_stallQueue = []) :
    BidirSearch g stallOnDemand q.Clear s s2 t t2 ≠ .error .fuel ∧
    (∀ q1, initSearch g q.Clear s s2 t t2 = .ok q1 →
      stepsLeft g.GetNumberOfOriginalEdges q1.m_heapForward ≤ g.GetNumberOfOriginalEdges ∧
      stepsLeft g.GetNumberOfOriginalEdges q1.m_heapBackward ≤ g.GetNumberOfOriginalEdges ∧
      LoopInv g ⟨q1, INT_MAX⟩ ∧
      ∀ n, 2 * g.GetNumberOfOriginalEdges ≤ n →
        bidirLoop g stallOnDemand n ⟨q1, INT_MAX⟩ ≠ .error .fuel) ∧
    (∀ st : SearchState, LoopInv g st →
      (0 < Size st.query.m_heapForward →
        Safe (fun st' => LoopInv g st' ∧
            stepsLeft g.GetNumberOfOriginalEdges st'.query.m_heapForward + 1 ≤
              stepsLeft g.GetNumberOfOriginalEdges st.query.m_heapForward ∧
            st'.query.m_heapBackward = st.query.m_heapBackward)
          (stepForward g stallOnDemand st)) ∧
      (0 < Size st.query.m_heapBackward →
        Safe (fun st' => LoopInv g st' ∧
            stepsLeft g.GetNumberOfOriginalEdges st'.query.m_heapBackward + 1 ≤
              stepsLeft g.GetNumberOfOriginalEdges st.query.m_heapBackward ∧
            st'.query.m_heapForward = st.query.m_heapForward)
          (stepBackward g stallOnDemand st))) ∧
    (∀ (d : Dir) (h : Heap) (queue : List StallQueueItem),
      RawInv g.GetNumberOfOriginalEdges h →
      (∀ fuel, queue.length + unstalled h ≤ fuel →
        Safe (fun r => r.2 = [] ∧ r.1.insertedNodes.length = h.insertedNodes.length ∧
            r.1.heap.length = h.heap.length ∧ RawInv g.GetNumberOfOriginalEdges r.1)
          (stallLoop g d fuel (h, queue))) ∧
      ∀ (stallItem : StallQueueItem) (stallEdge : Nat),
        Safe (fun r => r.1.2.length + unstalled r.1.1 ≤ queue.length + unstalled h)
          (stallBody g d stallItem stallEdge (h, queue))) := by
  obtain ⟨hf, hb⟩ := LoopInv_clear g q hcf hcb
  refine ⟨(BidirSearch_safe g stallOnDemand q.Clear s s2 t t2 hf hb hq).1, ?_, ?_, ?_⟩
  · intro q1 hrun
    have h1 := (initSearch_safe g q.Clear s s2 t t2 hf hb hq).2 q1 hrun
    have m1 := stepsLeft_init h1.1.fwd
    have m2 := stepsLeft_init h1.1.bwd
    refine ⟨m1, m2, h1.1, fun n hn => ?_⟩
    simp only at m1 m2
    exact (bidirLoop_safe g stallOnDemand n ⟨q1, INT_MAX⟩ h1.1 (by simp only; omega)).1
  · intro st hi
    constructor
    · intro h0
      exact Safe_mono (stepForward_safe g stallOnDemand hi h0)
        (fun st' h1 => ⟨h1.1, stepsLeft_settles h1.2.1 h0, h1.2.2⟩)
    · intro h0
      exact Safe_mono (stepBackward_safe g stallOnDemand hi h0)
        (fun st' h1 => ⟨h1.1, stepsLeft_settles h1.2.1 h0, h1.2.2⟩)
  · intro d h queue hi
    constructor
    · intro fuel hfuel
      exact Safe_mono (stallLoop_safe g d fuel (h, queue) hi hfuel)
        (fun r hr => ⟨hr.2, hr.1.count, hr.1.size, hr.1.inv⟩)
    · intro stallItem stallEdge
      exact Safe_mono (stallBody_safe g d stallItem stallEdge (h, queue) hi)
        (fun r hr => hr.paid)

/-- On `stallGraph 8 9`, where stall-on-demand fires, `BidirSearch(0, 1, 5, 4)` on a fresh
query does not run out of iterations. -/
theorem C18_bidir_terminates_witness :
    (TurnQuery.new (List.replicate 10 0) (List.replicate 10 0)).m_heapForward.nodeIndex.positions.length
      = (stallGraph 8 9).GetNumberOfOriginalEdges ∧
    (TurnQuery.new (List.replicate 10 0) (List.replicate 10 0)).m_stallQueue = [] ∧
    BidirSearch (stallGraph 8 9) true (freshQuery 10) 0 1 5 4 ≠ .error .fuel :=
  ⟨by decide, rfl,
    (C18_bidir_terminates (stallGraph 8 9) true
      (TurnQuery.new (List.replicate 10 0) (List.replicate 10 0)) 0 1 5 4
      (by decide) (by decide) rfl).1⟩

theorem diamond_noBackward (pen : Nat → Nat → Nat → Nat) (e : Nat) :
    ((diamond pen).GetEdgeData e).backward = false := by
  rcases e with _ | _ | _ | _ | e <;> rfl

end MoNav
namespace MoNav
open TurnQuery

/-- C20 (amended): `UnidirSearch` on a freshly cleared query over index arrays of
`GetNumberOfOriginalEdges()` cells, the stall queue being empty, on every graph.  With
`StallOnDemand = false`, and with `StallOnDemand = true` when no edge of the graph has the
flag `backward`: the run is the run of `UnidirSearchNoStall`, the search in which no step
tests or writes a `stalled` flag, compares a key with a shorter distance, overwrites a key
or calls the stall BFS; and in every state that the loop passes through no payload of
either heap is marked stalled, the stall queue is empty, and the next forward step is the
step without stall-on-demand.  The state in which the loop ends is such a state.  The run
does not run out of iterations, a run that completes leaves no payload stalled and the
stall queue empty, and on a graph without backward edges the run with stall-on-demand is
the run without it. -/
theorem C20_unidir_no_stall (g : Graph) (q : TurnQuery) (s s2 t t2 : Nat)
    (hcf : q.m_heapForward.nodeIndex.positions.length = g.GetNumberOfOriginalEdges)
    (hcb : q.m_heapBackward.nodeIndex.positions.length = g.GetNumberOfOriginalEdges)
    (hq : q.m_stallQueue = []) :
    (∀ stallOnDemand : Bool,
      (stallOnDemand = true → ∀ e, (g.GetEdgeData e).backward = false) →
      UnidirSearch g stallOnDemand q.Clear s s2 t t2 =
        UnidirSearchNoStall g q.Clear s s2 t t2 ∧
      (∀ q1 : TurnQuery, initSearch g q.Clear s s2 t t2 = .ok q1 →
        ∀ st : SearchState, UnidirReach g stallOnDemand ⟨q1, INT_MAX⟩ st →
          NoStall st.query.m_heapForward ∧ NoStall st.query.m_heapBackward ∧
          st.query.m_stallQueue = [] ∧
          stepForward g stallOnDemand st = stepForwardNoStall g st) ∧
      ∀ (n : Nat) (st st' : SearchState), unidirLoop g stallOnDemand n st = .ok st' →
        UnidirReach g stallOnDemand st st') ∧
    UnidirSearch g false q.Clear s s2 t t2 ≠ .error .fuel ∧
    (∀ (r : Int) (q1 : TurnQuery), UnidirSearch g false q.Clear s s2 t t2 = .ok (r, q1) →
      NoStall q1.m_heapForward ∧ NoStall q1.m_heapBackward ∧ q1.m_stallQueue = []) ∧
    ((∀ e, (g.GetEdgeData e).backward = false) →
      UnidirSearch g true q.Clear s s2 t t2 = UnidirSearch g false q.Clear s s2 t t2) := by
  obtain ⟨hf, hb⟩ := LoopInv_clear g q hcf hcb
  have hs := UnidirSearch_safe g false q.Clear s s2 t t2 hf hb hq
  have hplain := UnidirSearch_plain g q.Clear s s2 t t2 hf hb hq (NoStall_clear _)
  have hstart : ∀ q1 : TurnQuery, initSearch g q.Clear s s2 t t2 = .ok q1 →
      LoopInv g ⟨q1, INT_MAX⟩ ∧ NoStall q1.m_heapForward ∧ NoStall q1.m_heapBackward := by
    intro q1 hinit
    have h := (initSearch_safe g q.Clear s s2 t t2 hf hb hq).2 q1 hinit
    exact ⟨h.1, h.2.1 (NoStall_clear _), h.2.2 (NoStall_clear _)⟩
  refine ⟨fun sod hsod => ⟨?_, fun q1 hinit st hr => ?_, unidirLoop_reach g sod⟩, hs.1,
    fun r q1 hrun => ?_, fun hbk => ?_⟩
  · cases sod with
    | false => exact hplain
    | true =>
      rw [UnidirSearch_noStall g (hsod rfl) q.Clear s s2 t t2 hf hb hq (NoStall_clear _)]
      exact hplain
  · obtain ⟨i0, f0, b0⟩ := hstart q1 hinit
    cases sod with
    | false =>
      obtain ⟨i1, f1, b1⟩ := UnidirReach_inv g i0 f0 b0 hr
      exact ⟨f1, b1, i1.queue, stepForward_plain g b1⟩
    | true =>
      obtain ⟨i1, f1, b1⟩ := UnidirReach_inv g i0 f0 b0
        (UnidirReach_noBackward g (hsod rfl) i0 f0 b0 hr)
      refine ⟨f1, b1, i1.queue, ?_⟩
      rw [stepForward_noStall g (hsod rfl) st f1]
      exact stepForward_plain g b1
  · have h1 := hs.2 (r, q1) hrun
    exact ⟨h1.2.1 rfl (NoStall_clear _), h1.2.2 (NoStall_clear _), h1.1.queue⟩
  · exact UnidirSearch_noStall g hbk q.Clear s s2 t t2 hf hb hq (NoStall_clear _)

/-- On the diamond, which has no backward edge, `UnidirSearch(0, 1, 2, 1)` with
stall-on-demand is the run of the search that has no stall-on-demand in it, and returns
35. -/
theorem C20_unidir_no_stall_witness :
    (TurnQuery.new (List.replicate 6 0) (List.replicate 6 0)).m_stallQueue = [] ∧
    (UnidirSearch (diamond diamondPenalty5) true (freshQuery 6) 0 1 2 1).map Prod.fst =
      .ok 35 ∧
    UnidirSearch (diamond diamondPenalty5) true (freshQuery 6) 0 1 2 1 =
      UnidirSearchNoStall (diamond diamondPenalty5) (freshQuery 6) 0 1 2 1 :=
  ⟨rfl, by decide,
    ((C20_unidir_no_stall (diamond diamondPenalty5)
      (TurnQuery.new (List.replicate 6 0) (List.replicate 6 0)) 0 1 2 1
      (by decide) (by decide) rfl).1 true
        (fun _ => diamond_noBackward diamondPenalty5)).1⟩

end MoNav

namespace MoNav
namespace TurnQuery
open BinaryHeap

end TurnQuery
end MoNav

namespace MoNav
open TurnQuery

end MoNav

namespace MoNav
namespace TurnQuery
open BinaryHeap

section General
variable {g : Graph} {s s2 t t2 : Nat} {run : Prop} {d : Dir} {node node2 : Nat}

end General
end TurnQuery
end MoNav

namespace MoNav
namespace TurnQuery
open BinaryHeap

section General
variable {g : Graph} {s s2 t t2 : Nat} {run : Prop} {d : Dir} {node node2 : Nat}

end General
end TurnQuery
end MoNav

namespace MoNav
namespace TurnQuery
open BinaryHeap

section General
variable {g : Graph} {s s2 t t2 : Nat} {run : Prop} {d : Dir} {node node2 : Nat}

end General
end TurnQuery
end MoNav

namespace MoNav
namespace TurnQuery
open BinaryHeap

section General
variable {g : Graph} {s s2 t t2 : Nat} {run : Prop} {d : Dir} {node node2 : Nat}

end General
end TurnQuery
end MoNav

namespace MoNav
namespace TurnQuery
open BinaryHeap

section General
variable {g : Graph} {s s2 t t2 : Nat} {run : Prop} {d : Dir}

end General
end TurnQuery
end MoNav

namespace MoNav
namespace TurnQuery
open BinaryHeap

section General
variable {g : Graph} {s s2 t t2 : Nat} {run : Prop} {d : Dir} {node node2 : Nat}

end General
end TurnQuery
end MoNav

namespace MoNav
namespace TurnQuery
open BinaryHeap

section General
variable {g : Graph} {s s2 t t2 : Nat} {run : Prop}

end General
end TurnQuery
end MoNav

namespace MoNav
namespace TurnQuery
open BinaryHeap

section GSeeding
variable {g : Graph} {node2 : Nat}

end GSeeding

section General
variable {g : Graph} {s s2 t t2 : Nat} {run : Prop} {d : Dir} {node node2 : Nat}

end General
end TurnQuery
end MoNav

namespace MoNav
namespace TurnQuery
open BinaryHeap

section General
variable {g : Graph} {s s2 t t2 : Nat} {run : Prop} {d : Dir} {node node2 : Nat}

end General
end TurnQuery
end MoNav

namespace MoNav
namespace TurnQuery
open BinaryHeap

section General
variable {g : Graph} {s s2 t t2 : Nat} {run : Prop} {d : Dir} {node node2 : Nat}

end General
end TurnQuery
end MoNav

namespace MoNav
namespace TurnQuery
open BinaryHeap

section General
variable {g : Graph} {s s2 t t2 : Nat} {run : Prop}

end General
end TurnQuery
end MoNav

namespace MoNav
open TurnQuery

theorem stallGraphR98_wellFormed : WellFormed (stallGraphR 9 8) := by
  refine ⟨by decide, by decide, by decide, by decide, by decide, by decide, by decide, ?_,
    by decide⟩
  intro n i o
  show restrictedAt4 n i o ≤ 255
  unfold restrictedAt4
  split <;> omega

/-- Every backward chain of `stallGraphR 9 8` from the edge `4 -> 5` stays at node 4. -/
theorem stallGraphR98_bwd_walk {n i : Nat} {es : List Nat} {c : Nat}
    (hw : GWalk (stallGraphR 9 8) Dir.bwd 5 4 n i es c) : n = 4 := by
  induction hw with
  | seed1 _ _ _ => rfl
  | seed2 _ _ _ => rfl
  | step n i es c e _ he ha _ ih =>
    subst ih
    have h : ∀ e ∈ (stallGraphR 9 8).edgesOf 4,
        Dir.bwd.edgeAllowed ((stallGraphR 9 8).GetEdgeData e).forward
          ((stallGraphR 9 8).GetEdgeData e).backward = true → False := by
      decide
    exact (h e he ha).elim

/-- C12 fails: `stallGraphR 9 8` is well formed, its distances are at most 50, and every
chain of forward-allowed edges from the edge `0 -> 1` and chain of backward-allowed edges
from the edge `4 -> 5` that meet do so at node 4, in a turn whose penalty is 255 (the
forward chain `0 -> 1 -> 4` of cost 60 and the backward chain `4 -> 5` of cost 1 do
meet there), so that every path has a restricted turn and the claim requires `INT_MAX`.
`BidirSearch(0, 1, 5, 4)` on a freshly cleared query returns `INT_MAX` without
stall-on-demand, but with `StallOnDemand = true`, the default, it fails an assertion and
returns nothing: the third forward step stalls the state of node 2 and its stall BFS calls
`WasInserted` with the key `FirstOriginalEdge(GetTarget(2)) + GetOriginalEdgeTarget(5) =
9 + 1 = 10`, computed from the node of the popped item instead of the edge examined,
outside the heap of 10 cells. -/
theorem C12_stall_bfs_abort :
    WellFormed (stallGraphR 9 8) ∧ NoOverflow (stallGraphR 9 8) 50 ∧
    GWalk (stallGraphR 9 8) Dir.fwd 0 1 4 0 [0, 3] 60 ∧
    GWalk (stallGraphR 9 8) Dir.bwd 5 4 4 0 [6] 1 ∧
    (∀ (n i o : Nat) (esF : List Nat) (cF : Nat) (esB : List Nat) (cB : Nat),
      GWalk (stallGraphR 9 8) Dir.fwd 0 1 n i esF cF →
      GWalk (stallGraphR 9 8) Dir.bwd 5 4 n o esB cB →
      (stallGraphR 9 8).GetPenaltyData n i o = 255) ∧
    (stallGraphR 9 8).GetNumberOfOriginalEdges = 10 ∧
    (stallGraphR 9 8).GetFirstOriginalEdge ((stallGraphR 9 8).GetTarget 2) +
      (stallGraphR 9 8).GetOriginalEdgeTarget 5 = 10 ∧
    (BidirSearch (stallGraphR 9 8) false (freshQuery 10) 0 1 5 4).map Prod.fst =
      .ok INT_MAX ∧
    BidirSearch (stallGraphR 9 8) true (freshQuery 10) 0 1 5 4 = .error .assertion := by
  refine ⟨stallGraphR98_wellFormed, ?_, ?_, ?_, ?_, by decide, by decide, by decide,
    by decide⟩
  · unfold NoOverflow
    decide
  · exact GWalk.step 1 0 [0] 10 3
      (GWalk.seed1 0 (by decide) ⟨by decide, by decide, by decide⟩) (by decide) (by decide)
      (by decide)
  · exact GWalk.seed2 6 (by decide) ⟨by decide, by decide, by decide⟩
  · intro n i o esF cF esB cB _ hwB
    rw [stallGraphR98_bwd_walk hwB]
    rfl

end MoNav

namespace MoNav

section OkLemmas
variable {α β : Type}

theorem Ok_pure {P : α → Prop} {a : α} (h : P a) : Ok P (pure a : Except Fault α) := by
  intro b hb
  rw [pure_ok_iff] at hb
  exact hb ▸ h

theorem Ok_error {P : α → Prop} (e : Fault) : Ok P (.error e : Except Fault α) := by
  intro b hb
  exact absurd hb (by simp)

theorem Ok_bind {P : α → Prop} {Q : β → Prop} {x : Except Fault α} {f : α → Except Fault β}
    (hx : Ok P x) (hf : ∀ a, x = .ok a → P a → Ok Q (f a)) : Ok Q (x >>= f) := by
  intro b hb
  obtain ⟨a, ha, hfa⟩ := bind_ok_iff.1 hb
  exact hf a ha (hx a ha) b hfa

theorem Ok_mono {P Q : α → Prop} {x : Except Fault α} (h : Ok P x) (hPQ : ∀ a, P a → Q a) :
    Ok Q x :=
  fun a ha => hPQ a (h a ha)

theorem Ok_of_eq {P : α → Prop} {x : Except Fault α} {a : α} (hx : x = .ok a) (h : P a) :
    Ok P x := by
  intro b hb
  rw [hx] at hb
  exact (Except.ok.inj hb) ▸ h

theorem Ok_eq {x : Except Fault α} {a : α} (hx : x = .ok a) : Ok (fun b => b = a) x := by
  intro b hb
  rw [hx] at hb
  exact (Except.ok.inj hb).symm

/-- A `for` loop whose body keeps `I` whenever it returns keeps `I`. -/
theorem forLoop_ok {σ : Type} (body : α → σ → Except Fault (σ × Bool)) (I : σ → Prop)
    (hbody : ∀ a s, I s → Ok (fun r => I r.1) (body a s)) :
    ∀ (l : List α) (s : σ), I s → Ok I (forLoop body l s) := by
  intro l
  induction l with
  | nil =>
    intro s hs
    exact Ok_pure hs
  | cons a rest ih =>
    intro s hs
    rw [forLoop]
    refine Ok_bind (hbody a s hs) ?_
    rintro ⟨s1, brk⟩ _ h1
    cases brk with
    | true => exact Ok_pure h1
    | false => exact ih s1 h1

end OkLemmas

namespace BinaryHeap
variable {δ : Type}

/-- The loop of `Upheap` does not return when it carries a negative weight over entries
that are not negative: it reaches the sentinel and fails the assertion there. -/
theorem UpheapLoop_neg (w : Int) (hw : w < 0) :
    ∀ (fuel : Nat) (s : BinaryHeap δ) (key : Nat) (x : BinaryHeap δ × Nat),
      (∀ (j : Nat) (e : HeapElement), j ≤ key / 2 → s.heap[j]? = some e → 0 ≤ e.weight) →
      UpheapLoop w fuel s key ≠ .ok x := by
  intro fuel
  induction fuel with
  | zero => intro s key x _ h; simp [UpheapLoop] at h
  | succ fuel ih =>
    intro s key x hnn h
    simp only [UpheapLoop, bind_ok_iff, rd_ok_iff] at h
    obtain ⟨p, hp, h⟩ := h
    split at h
    · simp only [bind_ok_iff, rd_ok_iff, wr_ok_iff, assert_ok_iff] at h
      obtain ⟨_, h0, _, _, H1, ⟨hkl, hH1⟩, _, _, r, hr, R1, ⟨_, hR1⟩, h⟩ := h
      subst hH1 hR1
      refine ih _ _ _ ?_ h
      intro j e hj he
      simp only at he
      rw [List.getElem?_set_ne (by omega)] at he
      exact hnn j e (by omega) he
    · rename_i hgt
      have := hnn (key / 2) p (le_refl _) hp
      exact hgt (by omega)

theorem Upheap_neg {s : BinaryHeap δ} {key : Nat} {e : HeapElement}
    (he : s.heap[key]? = some e) (hw : e.weight < 0)
    (hnn : ∀ (j : Nat) (e : HeapElement), j ≤ key / 2 → s.heap[j]? = some e → 0 ≤ e.weight)
    (s' : BinaryHeap δ) : Upheap s key ≠ .ok s' := by
  intro h
  simp only [Upheap, bind_ok_iff, rd_ok_iff, wr_ok_iff, assert_ok_iff, pure_ok_iff] at h
  obtain ⟨_, _, e', he', _, _, ⟨s1, key1⟩, hloop, _⟩ := h
  rw [he] at he'
  have := Option.some.inj he'
  subst this
  exact UpheapLoop_neg _ hw _ _ _ _ hnn hloop

/-- `Insert` on a heap in its invariant returns only for an id inside the index array and
a weight that is not negative. -/
theorem Insert_ok {s s' : BinaryHeap δ} (hi : Inv s) {id : Nat} {w : Int} {d : δ}
    (h : Insert s id w d = .ok s') : id < s.nodeIndex.positions.length ∧ 0 ≤ w := by
  have hc := (Insert_nodes h).1
  refine ⟨hc, ?_⟩
  by_contra hneg
  simp only [Insert, ArrayStorage.put, bind_ok_iff, wr_ok_iff, assert_ok_iff, pure_ok_iff] at h
  obtain ⟨idx, ⟨_, _, P1, ⟨_, hP1⟩, hidx⟩, h⟩ := h
  subst hP1 hidx
  refine Upheap_neg (e := ⟨s.insertedNodes.length, w⟩) ?_ (by simpa using hneg) ?_ _ h
  · simp
  · intro j e hj he
    obtain ⟨e0, he0, _⟩ := hi.ord.1
    have hlen := lt_of_get he0
    simp only at he
    rw [List.getElem?_append_left (by omega)] at he
    exact Ord_nonneg hi.ord j e he

/-- `DecreaseKey` on a heap in its invariant returns only for a live id and a weight that
is not negative. -/
theorem DecreaseKey_ok {s s' : BinaryHeap δ} (hi : Inv s) {id : Nat} {w c : Int} {d : δ}
    {l : Bool} (hv : view s id = some (c, d, l)) (h : DecreaseKey s id w = .ok s') :
    l = true ∧ 0 ≤ w := by
  obtain ⟨k, r, hN, hR, hn, hvv⟩ := view_some_iff.1 hv
  simp only [Prod.mk.injEq] at hvv
  obtain ⟨_, _, h3⟩ := hvv
  simp only [DecreaseKey, get_ok hN, rd_ok hR, bind, Except.bind] at h
  have h' : (assert (r.key ≠ 0) >>= fun _ =>
      wr s.insertedNodes k { r with weight := w } >>= fun ins =>
      rd s.heap r.key >>= fun e =>
      wr s.heap r.key { e with weight := w } >>= fun heap =>
      Upheap { s with insertedNodes := ins, heap := heap } r.key) = .ok s' := h
  simp only [bind_ok_iff, rd_ok_iff, wr_ok_iff, assert_ok_iff] at h'
  obtain ⟨_, hk0, R1, ⟨_, hR1⟩, e, he, H1, ⟨hkl, hH1⟩, hup⟩ := h'
  subst hR1 hH1
  refine ⟨by rw [h3]; simpa using hk0, ?_⟩
  by_contra hneg
  refine Upheap_neg (e := { e with weight := w }) ?_ (by simpa using hneg) ?_ _ hup
  · simp only
    rw [List.getElem?_set_self hkl]
  · intro j e' hj he'
    simp only at he'
    rw [List.getElem?_set_ne (by omega)] at he'
    exact Ord_nonneg hi.ord j e' he'

/-- `GetKey( node ) = weight` for a removed id changes the weight of its record and
nothing else. -/
theorem SetKey_view {s : BinaryHeap δ} (hi : Inv s) {id : Nat} {c : Int} {d : δ}
    (hv : view s id = some (c, d, false)) (w : Int) :
    ∃ s', SetKey s id w = .ok s' ∧ Inv s' ∧ Size s' = Size s ∧
      s'.nodeIndex.positions.length = s.nodeIndex.positions.length ∧
      s'.insertedNodes.length = s.insertedNodes.length ∧
      view s' = Function.update (view s) id (some (w, d, false)) := by
  obtain ⟨k, r, hN, hR, hn, hvv⟩ := view_some_iff.1 hv
  simp only [Prod.mk.injEq] at hvv
  obtain ⟨h1, h2, h3⟩ := hvv
  have hk0 : r.key = 0 := by
    by_contra hne
    have : (r.key != 0) = true := by simpa using hne
    rw [this] at h3
    exact absurd h3 (by simp)
  subst h1 h2
  have hkl := lt_of_get hR
  have hrec : ∀ (j : Nat) (r1 : HeapNode δ), s.insertedNodes[j]? = some r1 →
      ∃ r' : HeapNode δ, (s.insertedNodes.set k { r with weight := w })[j]? = some r' ∧
        r'.node = r1.node ∧ r'.key = r1.key ∧ r'.data = r1.data ∧
        r'.weight = if j = k then w else r1.weight := by
    intro j r1 hr1
    by_cases hjk : j = k
    · subst hjk
      rw [hR] at hr1
      have := Option.some.inj hr1
      subst this
      exact ⟨_, get_set_self _ hkl, rfl, rfl, rfl, by simp⟩
    · exact ⟨r1, by rw [get_set_other _ (Ne.symm hjk)]; exact hr1, rfl, rfl, rfl, by simp [hjk]⟩
  refine ⟨{ s with insertedNodes := s.insertedNodes.set k { r with weight := w } }, ?_,
    ⟨⟨?_, ?_, ?_⟩, hi.ord⟩, rfl, rfl, by simp, ?_⟩
  · simp only [SetKey, get_ok hN, rd_ok hR, wr_ok _ hkl, bind, Except.bind, pure, Except.pure]
  · intro i e h1 he
    obtain ⟨a, r0, hr0, b, c⟩ := hi.idx.tree i e h1 he
    obtain ⟨r', hr', _, b', _, c'⟩ := hrec _ r0 hr0
    have hne : e.index ≠ k := by
      intro hh
      rw [hh, hR] at hr0
      have := Option.some.inj hr0
      subst this
      omega
    rw [if_neg hne] at c'
    exact ⟨a, r', hr', b'.trans b, c'.trans c⟩
  · intro j r' hr' h0 hx
    obtain ⟨r0, hr0⟩ := get_of_lt (show j < s.insertedNodes.length by
      have := lt_of_get hr'; simpa using this)
    obtain ⟨r2, hr2, _, b, _⟩ := hrec j r0 hr0
    rw [hr'] at hr2
    have := Option.some.inj hr2
    subst this
    rw [b] at h0 ⊢
    exact hi.idx.record j r0 hr0 h0 hx
  · intro j r' hr'
    obtain ⟨r0, hr0⟩ := get_of_lt (show j < s.insertedNodes.length by
      have := lt_of_get hr'; simpa using this)
    obtain ⟨r2, hr2, a, _⟩ := hrec j r0 hr0
    rw [hr'] at hr2
    have := Option.some.inj hr2
    subst this
    rw [a]
    exact hi.idx.ids j r0 hr0
  · funext id'
    rcases @view_cases δ s
        { s with insertedNodes := s.insertedNodes.set k { r with weight := w } } rfl
        (by simp) (fun j r1 hr1 => by
          obtain ⟨r', hr', a, _⟩ := hrec j r1 hr1
          exact ⟨r', hr', a⟩) id' with ⟨h1, h2⟩ | ⟨j, r1, r', hr1, hr', hrn, h1, h2⟩
    · by_cases hid : id' = id
      · subst hid; rw [hv] at h1; exact absurd h1 (by simp)
      · rw [Function.update_noteq hid, h1, h2]
    · obtain ⟨r2, hr2, _, b, c, e⟩ := hrec j r1 hr1
      rw [hr'] at hr2
      have := Option.some.inj hr2
      subst this
      have hNj := hi.idx.ids j r1 hr1
      rw [hrn] at hNj
      by_cases hid : id' = id
      · subst hid
        rw [hN] at hNj
        have hjk := (Option.some.inj hNj).symm
        subst hjk
        rw [hR] at hr1
        have := Option.some.inj hr1
        subst this
        rw [Function.update_same, h2, b, c, e]
        simp [hk0]
      · have hjk : j ≠ k := by
          intro hh
          subst hh
          rw [hR] at hr1
          have := Option.some.inj hr1
          subst this
          exact hid (hrn.symm.trans hn)
        rw [Function.update_noteq hid, h1, h2, b, c, e, if_neg hjk]

end BinaryHeap
end MoNav

namespace MoNav
namespace BinaryHeap
variable {δ : Type}

theorem WasInserted_okv {s : BinaryHeap δ} {id : Nat} {b : Bool}
    (h : WasInserted s id = .ok b) :
    id < s.nodeIndex.positions.length ∧ b = (view s id).isSome := by
  have hc : id < s.nodeIndex.positions.length := by
    simp only [WasInserted, ArrayStorage.get, bind_ok_iff, assert_ok_iff] at h
    obtain ⟨_, ⟨_, hc, _⟩, _⟩ := h
    exact hc
  rw [WasInserted_view hc] at h
  exact ⟨hc, (Except.ok.inj h).symm⟩

/-- `Insert` of an id that is not inserted, when it returns. -/
theorem Insert_okv {s : BinaryHeap δ} (hi : Inv s) {id : Nat} (hn : view s id = none)
    (w : Int) (d : δ) :
    Ok (fun s' => 0 ≤ w ∧ Inv s' ∧ Size s' = Size s + 1 ∧
      s'.nodeIndex.positions.length = s.nodeIndex.positions.length ∧
      s'.insertedNodes.length = s.insertedNodes.length + 1 ∧
      view s' = Function.update (view s) id (some (w, d, true))) (Insert s id w d) := by
  intro s' h
  obtain ⟨hc, hw⟩ := Insert_ok hi h
  obtain ⟨s'', h'', rest⟩ := Insert_view hi hc hn hw d
  rw [h] at h''
  rw [Except.ok.inj h'']
  exact ⟨hw, rest⟩

/-- `DecreaseKey` of an inserted id to a weight that is not above its weight, when it
returns. -/
theorem DecreaseKey_okv {s : BinaryHeap δ} (hi : Inv s) {id : Nat} {c : Int} {d : δ} {l : Bool}
    (hv : view s id = some (c, d, l)) {w : Int} (hle : w ≤ c) :
    Ok (fun s' => l = true ∧ 0 ≤ w ∧ Inv s' ∧ Size s' = Size s ∧
      s'.nodeIndex.positions.length = s.nodeIndex.positions.length ∧
      s'.insertedNodes.length = s.insertedNodes.length ∧
      view s' = Function.update (view s) id (some (w, d, true))) (DecreaseKey s id w) := by
  intro s' h
  obtain ⟨hl, hw⟩ := DecreaseKey_ok hi hv h
  subst hl
  obtain ⟨s'', h'', rest⟩ := DecreaseKey_view hi hv hw hle
  rw [h] at h''
  rw [Except.ok.inj h'']
  exact ⟨rfl, hw, rest⟩

end BinaryHeap

namespace TurnQuery
open BinaryHeap

theorem Ext_refl (h : Heap) : Ext h h :=
  fun _ c d l hv => ⟨c, d, l, hv, fun hl => hl⟩

theorem Ext_trans {a b c : Heap} (h1 : Ext a b) (h2 : Ext b c) : Ext a c := by
  intro k w d l hv
  obtain ⟨w1, d1, l1, hv1, hl1⟩ := h1 k w d l hv
  obtain ⟨w2, d2, l2, hv2, hl2⟩ := h2 k w1 d1 l1 hv1
  exact ⟨w2, d2, l2, hv2, fun hl => hl2 (hl1 hl)⟩

theorem Removed_ext {h h' : Heap} {k : Nat} (hr : Removed h k) (he : Ext h h') :
    Removed h' k := by
  obtain ⟨c, d, hv⟩ := hr
  obtain ⟨c', d', l', hv', hl⟩ := he k c d false hv
  rw [hl rfl] at hv'
  exact ⟨c', d', hv'⟩

theorem isSome_ext {h h' : Heap} {k : Nat} (hs : (view h k).isSome) (he : Ext h h') :
    (view h' k).isSome := by
  obtain ⟨⟨c, d, l⟩, hv⟩ := Option.isSome_iff_exists.1 hs
  obtain ⟨c', d', l', hv', _⟩ := he k c d l hv
  rw [hv']
  rfl

/-- An update of one entry that keeps whether it is in the tree extends the heap. -/
theorem Ext_update {h h' : Heap} {k : Nat} {c' : Int} {d' : HeapData} {l : Bool}
    (hview : view h' = Function.update (view h) k (some (c', d', l)))
    (hl : ∀ (c0 : Int) (d0 : HeapData) (l0 : Bool), view h k = some (c0, d0, l0) → l0 = l) :
    Ext h h' := by
  intro j c d lj hv
  rw [hview]
  by_cases hjk : j = k
  · subst hjk
    rw [Function.update_same]
    exact ⟨c', d', l, rfl, fun h0 => by rw [← hl c d lj hv]; exact h0⟩
  · rw [Function.update_noteq hjk]
    exact ⟨c, d, lj, hv, fun h0 => h0⟩

/-- An update of one entry that keeps whether the entry is in the tree and gives it a
parent that is removed, of smaller rank when the entry is removed, keeps the chains. -/
theorem ChainR_update {h h' : Heap} {rank : Nat → Nat} (hC : ChainR h rank) {k : Nat}
    {c' : Int} {d' : HeapData} {l : Bool}
    (hview : view h' = Function.update (view h) k (some (c', d', l)))
    (hR : removedCount h' = removedCount h)
    (hl : ∀ (c0 : Int) (d0 : HeapData) (l0 : Bool), view h k = some (c0, d0, l0) → l0 = l)
    (hnew : l = false → ∃ (c0 : Int) (d0 : HeapData), view h k = some (c0, d0, false))
    (hpar : d'.parentOrig ≠ NONE → ∃ (cp : Int) (dp : HeapData),
      view h d'.parentOrig = some (cp, dp, false) ∧ (l = false → rank d'.parentOrig < rank k)) :
    ChainR h' rank := by
  intro j c d lj hv
  rw [hview] at hv
  by_cases hjk : j = k
  · subst hjk
    rw [Function.update_same] at hv
    simp only [Option.some.injEq, Prod.mk.injEq] at hv
    obtain ⟨h1, h2, h3⟩ := hv
    subst h1 h2 h3
    refine ⟨?_, ?_⟩
    · intro hf
      obtain ⟨c0, d0, hv0⟩ := hnew hf
      rw [hR]
      exact (hC j c0 d0 false hv0).1 rfl
    · intro hp
      obtain ⟨cp, dp, hvp, hrk⟩ := hpar hp
      have hne : d'.parentOrig ≠ j := by
        intro heq
        rw [heq] at hvp hrk
        have hlf := (hl cp dp false hvp).symm
        have := hrk hlf
        omega
      rw [hview, Function.update_noteq hne]
      exact ⟨cp, dp, hvp, hrk⟩
  · rw [Function.update_noteq hjk] at hv
    obtain ⟨a1, a2⟩ := hC j c d lj hv
    refine ⟨by rw [hR]; exact a1, ?_⟩
    intro hp
    obtain ⟨cp, dp, hvp, hrk⟩ := a2 hp
    by_cases hpk : d.parentOrig = k
    · rw [hpk] at hvp hrk ⊢
      have hlf := (hl cp dp false hvp).symm
      subst hlf
      rw [hview, Function.update_same]
      exact ⟨c', d', rfl, hrk⟩
    · rw [hview, Function.update_noteq hpk]
      exact ⟨cp, dp, hvp, hrk⟩

/-- An entry enters the tree or is rewritten in the tree, with a parent that is removed. -/
theorem CInv_live {h h' : Heap} (hI : CInv h) (hinv : Inv h') {k : Nat} {c' : Int}
    {d' : HeapData}
    (hview : view h' = Function.update (view h) k (some (c', d', true)))
    (hsz : Size h' ≤ h'.insertedNodes.length) (hR : removedCount h' = removedCount h)
    (hl : ∀ (c0 : Int) (d0 : HeapData) (l0 : Bool), view h k = some (c0, d0, l0) → l0 = true)
    (hpar : d'.parentOrig ≠ NONE → Removed h d'.parentOrig) :
    CInv h' ∧ Ext h h' := by
  obtain ⟨rank, hC⟩ := hI.chain
  refine ⟨⟨hinv, hsz, rank, ChainR_update hC hview hR hl (fun h0 => absurd h0 (by simp)) ?_⟩,
    Ext_update hview hl⟩
  intro hp
  obtain ⟨cp, dp, hvp⟩ := hpar hp
  exact ⟨cp, dp, hvp, fun h0 => absurd h0 (by simp)⟩

/-- An entry is rewritten with the parent it had. -/
theorem CInv_same {h h' : Heap} (hI : CInv h) (hinv : Inv h') {k : Nat} {c c' : Int}
    {d d' : HeapData} {l : Bool} (hv : view h k = some (c, d, l))
    (hview : view h' = Function.update (view h) k (some (c', d', l)))
    (hsz : Size h' ≤ h'.insertedNodes.length) (hR : removedCount h' = removedCount h)
    (hpar : d'.parentOrig = d.parentOrig) :
    CInv h' ∧ Ext h h' := by
  obtain ⟨rank, hC⟩ := hI.chain
  have hl : ∀ (c0 : Int) (d0 : HeapData) (l0 : Bool), view h k = some (c0, d0, l0) → l0 = l := by
    intro c0 d0 l0 h0
    rw [hv] at h0
    simp only [Option.some.injEq, Prod.mk.injEq] at h0
    exact h0.2.2.symm
  refine ⟨⟨hinv, hsz, rank, ChainR_update hC hview hR hl ?_ ?_⟩, Ext_update hview hl⟩
  · intro h0
    subst h0
    exact ⟨c, d, hv⟩
  · intro hp
    rw [hpar] at hp ⊢
    exact (hC k c d l hv).2 hp

/-- `DeleteMin` gives the id that leaves the tree the next rank. -/
theorem CInv_deleteMin {h h' : Heap} (hI : CInv h) (hinv : Inv h') {u : Nat} {c : Int}
    {d : HeapData} (hv : view h u = some (c, d, true))
    (hview : view h' = Function.update (view h) u (some (c, d, false)))
    (hsz : Size h' + 1 = Size h) (hcnt : h'.insertedNodes.length = h.insertedNodes.length) :
    CInv h' ∧ Ext h h' ∧ Removed h' u := by
  obtain ⟨rank, hC⟩ := hI.chain
  have hs := hI.size
  have hR : removedCount h' = removedCount h + 1 := by
    unfold removedCount
    omega
  refine ⟨⟨hinv, by omega, Function.update rank u (removedCount h), ?_⟩, ?_,
    ⟨c, d, by rw [hview, Function.update_same]⟩⟩
  · intro j cj dj lj hvj
    rw [hview] at hvj
    by_cases hju : j = u
    · subst hju
      rw [Function.update_same] at hvj
      simp only [Option.some.injEq, Prod.mk.injEq] at hvj
      obtain ⟨h1, h2, h3⟩ := hvj
      subst h1 h2 h3
      rw [Function.update_same]
      refine ⟨fun _ => by omega, ?_⟩
      intro hp
      obtain ⟨cp, dp, hvp, _⟩ := (hC j c d true hv).2 hp
      have hne : d.parentOrig ≠ j := by
        intro heq
        rw [heq, hv] at hvp
        simp at hvp
      rw [hview, Function.update_noteq hne, Function.update_noteq hne]
      exact ⟨cp, dp, hvp, fun _ => (hC _ cp dp false hvp).1 rfl⟩
    · rw [Function.update_noteq hju] at hvj
      obtain ⟨a1, a2⟩ := hC j cj dj lj hvj
      rw [Function.update_noteq hju]
      refine ⟨fun h0 => by have := a1 h0; omega, ?_⟩
      intro hp
      obtain ⟨cp, dp, hvp, hrk⟩ := a2 hp
      have hne : dj.parentOrig ≠ u := by
        intro heq
        rw [heq, hv] at hvp
        simp at hvp
      rw [hview, Function.update_noteq hne, Function.update_noteq hne]
      exact ⟨cp, dp, hvp, hrk⟩
  · intro j cj dj lj hvj
    rw [hview]
    by_cases hju : j = u
    · subst hju
      rw [Function.update_same]
      exact ⟨c, d, false, rfl, fun _ => rfl⟩
    · rw [Function.update_noteq hju]
      exact ⟨cj, dj, lj, hvj, fun h0 => h0⟩

/-- `DeleteAll` gives all ids that leave the tree the next rank. -/
theorem CInv_deleteAll {h h' : Heap} (hI : CInv h) (hinv : Inv h')
    (hview : ∀ id, view h' id = (view h id).map fun v => (v.1, v.2.1, false))
    (hsz : Size h' = 0) (hcnt : h'.insertedNodes.length = h.insertedNodes.length) :
    CInv h' ∧ Ext h h' := by
  obtain ⟨rank, hC⟩ := hI.chain
  have hs := hI.size
  have hRle : removedCount h ≤ removedCount h' := by
    unfold removedCount
    omega
  have hback : ∀ (j : Nat) (cj : Int) (dj : HeapData) (lj : Bool),
      view h' j = some (cj, dj, lj) → lj = false ∧ ∃ l0, view h j = some (cj, dj, l0) := by
    intro j cj dj lj hvj
    rw [hview] at hvj
    cases hv0 : view h j with
    | none => rw [hv0] at hvj; simp at hvj
    | some v =>
      obtain ⟨c0, d0, l0⟩ := v
      rw [hv0] at hvj
      simp only [Option.map_some', Option.some.injEq, Prod.mk.injEq] at hvj
      obtain ⟨h1, h2, h3⟩ := hvj
      subst h1 h2 h3
      exact ⟨rfl, l0, rfl⟩
  refine ⟨⟨hinv, by omega,
    fun j => if (view h j).map (fun v => v.2.2) = some true then removedCount h else rank j,
    ?_⟩, ?_⟩
  · intro j cj dj lj hvj
    obtain ⟨hlj, l0, hv0⟩ := hback j cj dj lj hvj
    subst hlj
    have hpos : l0 = true → removedCount h < removedCount h' := by
      intro hl0
      subst hl0
      have h1 := Size_pos_of_live hI.inv hv0
      unfold removedCount
      omega
    obtain ⟨a1, a2⟩ := hC j cj dj l0 hv0
    refine ⟨fun _ => ?_, ?_⟩
    · simp only [hv0, Option.map_some', Option.some.injEq]
      cases l0 with
      | true => simpa using hpos rfl
      | false =>
        simp only [Bool.false_eq_true, if_false]
        have := a1 rfl
        omega
    · intro hp
      obtain ⟨cp, dp, hvp, hrk⟩ := a2 hp
      refine ⟨cp, dp, by rw [hview, hvp]; rfl, fun _ => ?_⟩
      simp only [hv0, hvp, Option.map_some', Option.some.injEq, Bool.false_eq_true, if_false]
      cases l0 with
      | true =>
        simp only [if_true]
        exact (hC _ cp dp false hvp).1 rfl
      | false =>
        simp only [Bool.false_eq_true, if_false]
        exact hrk rfl
  · intro j cj dj lj hvj
    exact ⟨cj, dj, false, by rw [hview, hvj]; rfl, fun _ => rfl⟩

theorem CInv_clear (h0 : Heap) : CInv (BinaryHeap.Clear h0) := by
  obtain ⟨i, hi⟩ := Clear_heap h0
  refine ⟨Clear_inv h0, by rw [hi]; exact Nat.zero_le _, fun _ => 0, ?_⟩
  intro k c d l hv
  rw [Clear_view] at hv
  exact absurd hv (by simp)

/-- The loop of `GetPath` over the parent pointers of a heap returns, from any inserted
id. -/
theorem chainLoop_total {h : Heap} {rank : Nat → Nat} (hC : ChainR h rank) :
    ∀ (fuel k : Nat) (c : Int) (d : HeapData) (l : Bool) (acc : List Nat),
      view h k = some (c, d, l) →
      (if l = true then removedCount h + 1 else rank k + 1) ≤ fuel →
      ∃ es : List Nat, chainLoop h fuel k acc = .ok (acc ++ es) := by
  intro fuel
  induction fuel with
  | zero =>
    intro k c d l acc _ hm
    exfalso
    split at hm <;> omega
  | succ fuel ih =>
    intro k c d l acc hv hm
    obtain ⟨hins, _, hdata, _, _⟩ := observers_view hv
    by_cases hp : d.parentOrig = NONE
    · refine ⟨[d.parentEdge], ?_⟩
      simp [chainLoop, hins, hdata, assert, hp, bind, Except.bind, pure, Except.pure]
    · obtain ⟨a1, a2⟩ := hC k c d l hv
      obtain ⟨cp, dp, hvp, hrk⟩ := a2 hp
      have hbound := (hC _ cp dp false hvp).1 rfl
      obtain ⟨es, hrun⟩ := ih d.parentOrig cp dp false (acc ++ [d.parentEdge]) hvp (by
        simp only [Bool.false_eq_true, if_false]
        cases l with
        | true =>
          simp only [if_true] at hm
          omega
        | false =>
          simp only [Bool.false_eq_true, if_false] at hm
          have := hrk rfl
          omega)
      refine ⟨d.parentEdge :: es, ?_⟩
      have hb : (d.parentOrig != NONE) = true := by simpa using hp
      simp only [chainLoop, hins, hdata, assert, hb, bind, Except.bind, pure, Except.pure]
      simp only [if_true]
      rw [hrun]
      simp

/-- With the fuel that `GetPath` passes. -/
theorem chainLoop_returns {h : Heap} (hI : CInv h) {k : Nat} (hs : (view h k).isSome)
    (acc : List Nat) :
    ∃ es : List Nat, chainLoop h (h.insertedNodes.length + 1) k acc = .ok (acc ++ es) := by
  obtain ⟨⟨c, d, l⟩, hv⟩ := Option.isSome_iff_exists.1 hs
  obtain ⟨rank, hC⟩ := hI.chain
  refine chainLoop_total hC _ k c d l acc hv ?_
  have : removedCount h ≤ h.insertedNodes.length := Nat.sub_le _ _
  split
  · omega
  · rename_i hl
    have hl' : l = false := by simpa using hl
    have := (hC k c d l hv).1 hl'
    omega

/-- The chains of a heap in its invariant have no cycle. -/
theorem CInv_acyclic {h : Heap} (hI : CInv h) : Acyclic h := by
  obtain ⟨rank, hC⟩ := hI.chain
  refine ⟨fun k => if (view h k).map (fun v => v.2.2) = some true then removedCount h
    else rank k, ?_⟩
  intro k d hins hdata hp
  have hsome : view h k ≠ none := fun hn => view_none_iff.1 hn hins
  obtain ⟨⟨c, d0, l⟩, hv⟩ := Option.ne_none_iff_exists'.1 hsome
  obtain ⟨_, _, hdata', _, _⟩ := observers_view hv
  rw [hdata] at hdata'
  have hd := Except.ok.inj hdata'
  subst hd
  obtain ⟨cp, dp, hvp, hrk⟩ := (hC k c d l hv).2 hp
  refine ⟨(observers_view hvp).1, ?_⟩
  simp only [hv, hvp, Option.map_some', Option.some.injEq, Bool.false_eq_true, if_false]
  cases l with
  | true =>
    simp only [if_true]
    exact (hC _ cp dp false hvp).1 rfl
  | false =>
    simp only [Bool.false_eq_true, if_false]
    exact hrk rfl

end TurnQuery
end MoNav

namespace MoNav
namespace BinaryHeap
variable {δ : Type}

/-- `DeleteMin` on a heap in its invariant, when it returns. -/
theorem DeleteMin_okv {s : BinaryHeap δ} (hi : Inv s) :
    Ok (fun r => ∃ (c : Int) (d : δ), Inv r.1 ∧ view s r.2 = some (c, d, true) ∧
      (∀ (id' : Nat) (c' : Int) (d' : δ), view s id' = some (c', d', true) → c ≤ c') ∧
      view r.1 = Function.update (view s) r.2 (some (c, d, false)) ∧
      Size r.1 + 1 = Size s ∧
      r.1.nodeIndex.positions.length = s.nodeIndex.positions.length ∧
      r.1.insertedNodes.length = s.insertedNodes.length) (DeleteMin s) := by
  intro r h
  have hs : 0 < Size s := by
    simp only [DeleteMin, bind_ok_iff, assert_ok_iff] at h
    obtain ⟨_, hl, _⟩ := h
    unfold Size
    omega
  obtain ⟨s', id, c, d, hrun, rest⟩ := DeleteMin_view hi hs
  rw [h] at hrun
  rw [Except.ok.inj hrun]
  exact ⟨c, d, rest⟩

theorem GetKey_okv {s : BinaryHeap δ} {id : Nat} {c : Int} {d : δ} {l : Bool}
    (hv : view s id = some (c, d, l)) : Ok (fun key => key = c) (GetKey s id) := by
  intro key h
  rw [(observers_view hv).2.1] at h
  exact (Except.ok.inj h).symm

theorem GetData_okv {s : BinaryHeap δ} {id : Nat} {c : Int} {d : δ} {l : Bool}
    (hv : view s id = some (c, d, l)) : Ok (fun data => data = d) (GetData s id) := by
  intro data h
  rw [(observers_view hv).2.2.1] at h
  exact (Except.ok.inj h).symm

theorem WasRemoved_okv {s : BinaryHeap δ} {id : Nat} {c : Int} {d : δ} {l : Bool}
    (hv : view s id = some (c, d, l)) : Ok (fun b => b = !l) (WasRemoved s id) := by
  intro b h
  rw [(observers_view hv).2.2.2.1] at h
  exact (Except.ok.inj h).symm

/-- The part of `initHeap` and of the relaxation that stores a state, when it returns:
the heap is as it was, with an entry that the comparison `c` leaves alone, or it has the
new entry in the tree, with a weight that is not negative. -/
theorem store_okv {h : BinaryHeap δ} (hi : Inv h) (k : Nat) (w : Int) (data : δ)
    (c : Int → Prop) [DecidablePred c] (hc : ∀ key, c key → w ≤ key) :
    Ok (fun h' =>
        (h' = h ∧ ∃ (c0 : Int) (d0 : δ) (l0 : Bool), view h k = some (c0, d0, l0) ∧ ¬ c c0) ∨
        (0 ≤ w ∧ Inv h' ∧ view h' = Function.update (view h) k (some (w, data, true)) ∧
          (∀ (c0 : Int) (d0 : δ) (l0 : Bool), view h k = some (c0, d0, l0) →
            c c0 ∧ l0 = true) ∧
          Size h' + h.insertedNodes.length = Size h + h'.insertedNodes.length ∧
          h.insertedNodes.length ≤ h'.insertedNodes.length ∧
          h'.nodeIndex.positions.length = h.nodeIndex.positions.length))
      (do
        let ins ← h.WasInserted k
        if !ins then h.Insert k w data
        else
          let key ← h.GetKey k
          if c key then
            let heap1 ← h.DecreaseKey k w
            heap1.SetData k data
          else pure h) := by
  refine Ok_bind (P := fun b => b = (view h k).isSome)
    (fun b hb => (WasInserted_okv hb).2) (fun ins _ hins => ?_)
  split
  · rename_i hne
    have hin : ins = false := by simpa using hne
    rw [hin] at hins
    have hn : view h k = none := by
      cases hv : view h k with
      | none => rfl
      | some v => rw [hv] at hins; simp at hins
    refine Ok_mono (Insert_okv hi hn w data) ?_
    rintro h' ⟨hw, hinv, hsz, hcap, hcnt, hview⟩
    refine Or.inr ⟨hw, hinv, hview, ?_, by omega, by omega, hcap⟩
    intro c0 d0 l0 hv
    rw [hn] at hv
    exact absurd hv (by simp)
  · rename_i hne
    have hin : ins = true := by simpa using hne
    rw [hin] at hins
    obtain ⟨⟨c0, d0, l0⟩, hv⟩ := Option.isSome_iff_exists.1 hins.symm
    refine Ok_bind (GetKey_okv hv) (fun key _ hkey => ?_)
    rw [hkey]
    split
    · rename_i hck
      refine Ok_bind (DecreaseKey_okv hi hv (hc _ hck)) ?_
      rintro h1 _ ⟨hl, hw, hinv1, hsz1, hcap1, hcnt1, hview1⟩
      have hv1 : view h1 k = some (w, d0, true) := by rw [hview1, Function.update_same]
      obtain ⟨h2, hrun2, hinv2, hsz2, hcap2, hcnt2, hview2⟩ := SetData_view hinv1 hv1 data
      refine Ok_of_eq hrun2 (Or.inr ⟨hw, hinv2, by rw [hview2, hview1, Function.update_idem],
        ?_, by omega, by omega, by omega⟩)
      intro c1 d1 l1 hv'
      rw [hv] at hv'
      simp only [Option.some.injEq, Prod.mk.injEq] at hv'
      obtain ⟨e1, _, e3⟩ := hv'
      subst e1 e3
      exact ⟨hck, hl⟩
    · rename_i hck
      exact Ok_pure (Or.inl ⟨rfl, c0, d0, l0, hv, hck⟩)

end BinaryHeap

namespace TurnQuery
open BinaryHeap

theorem removedCount_eq {h h' : Heap} (hs : Size h ≤ h.insertedNodes.length)
    (h1 : Size h' + h.insertedNodes.length = Size h + h'.insertedNodes.length) :
    removedCount h' = removedCount h ∧ Size h' ≤ h'.insertedNodes.length := by
  unfold removedCount
  omega

/-- Storing a state whose parent, if it has one, is removed keeps the chains. -/
theorem store_ok {h : Heap} (hI : CInv h) (k : Nat) (w : Int) (data : HeapData)
    (c : Int → Prop) [DecidablePred c] (hc : ∀ key, c key → w ≤ key)
    (hpar : data.parentOrig ≠ NONE → Removed h data.parentOrig) :
    Ok (fun h' => CInv h' ∧ Ext h h')
      (do
        let ins ← h.WasInserted k
        if !ins then h.Insert k w data
        else
          let key ← h.GetKey k
          if c key then
            let heap1 ← h.DecreaseKey k w
            heap1.SetData k data
          else pure h) := by
  refine Ok_mono (store_okv hI.inv k w data c hc) ?_
  rintro h' (⟨rfl, _⟩ | ⟨_, hinv, hview, hl, hsz, _, _⟩)
  · exact ⟨hI, Ext_refl _⟩
  · obtain ⟨hR, hs⟩ := removedCount_eq hI.size hsz
    exact CInv_live hI hinv hview hs hR (fun c0 d0 l0 hv => (hl c0 d0 l0 hv).2) hpar

theorem seed_ok {h : Heap} (hI : CInv h) (k w : Nat) (data : HeapData)
    (hpar : data.parentOrig = NONE) : Ok (fun h' => CInv h' ∧ Ext h h') (seed h k w data) :=
  store_ok hI k (i32 w) data (fun key => i32 w < key) (fun _ hk => le_of_lt hk)
    (fun hp => absurd hpar hp)

theorem relaxEdge_ok {h : Heap} (hI : CInv h) (g : Graph) (d : Dir) (oe : Nat) (dist : Int)
    (data : HeapData) (e : Nat) (hu : Removed h oe) :
    Ok (fun h' => CInv h' ∧ Ext h h') (relaxEdge g d oe dist data e h) := by
  unfold relaxEdge
  dsimp only
  split
  · split
    · exact Ok_pure ⟨hI, Ext_refl _⟩
    · exact store_ok hI _ _ _ _ (fun _ hk => hk) (fun _ => hu)
  · exact Ok_pure ⟨hI, Ext_refl _⟩

theorem initBody1_ok {h : Heap} (hI : CInv h) (g : Graph) (node2 : Nat)
    (ea : Bool → Bool → Bool) (e : Nat) :
    Ok (fun r => CInv r.1 ∧ Ext h r.1) (initBody1 g node2 ea e h) := by
  unfold initBody1
  dsimp only
  split
  · exact Ok_pure ⟨hI, Ext_refl _⟩
  · exact Ok_bind (seed_ok hI _ _ _ rfl) (fun h1 _ hg => Ok_pure hg)

theorem initBody2_ok {h : Heap} (hI : CInv h) (g : Graph) (node node2 : Nat)
    (ea : Bool → Bool → Bool) (e : Nat) :
    Ok (fun r => CInv r.1 ∧ Ext h r.1) (initBody2 g node node2 ea e h) := by
  unfold initBody2
  dsimp only
  split
  · exact Ok_pure ⟨hI, Ext_refl _⟩
  · exact Ok_bind (seed_ok hI _ _ _ rfl) (fun h1 _ hg => Ok_pure hg)

theorem initHeap_ok {h : Heap} (hI : CInv h) (g : Graph) (node node2 : Nat)
    (ea : Bool → Bool → Bool) : Ok CInv (initHeap g h node node2 ea) := by
  unfold initHeap
  refine Ok_bind (forLoop_ok _ CInv (fun e s hs => Ok_mono (initBody1_ok hs g node2 ea e)
    (fun r hr => hr.1)) _ _ hI) (fun h1 _ hg1 => ?_)
  exact forLoop_ok _ CInv (fun e s hs => Ok_mono (initBody2_ok hs g node node2 ea e)
    (fun r hr => hr.1)) _ _ hg1

/-- The meeting check records nothing, or a meeting of the settled id with an id inserted
in the other heap. -/
theorem meetBody_ok (g : Graph) (d : Dir) (hb : Heap) (oe : Nat) (dist : Int)
    (data : HeapData) (fo out : Nat) (st : Middle × Int) :
    Ok (fun r => r.1.1 = st.1 ∨
        ∃ o, r.1.1 = d.middleFunction data.node oe o ∧ (view hb o).isSome)
      (meetBody g d hb oe dist data fo out st) := by
  unfold meetBody
  dsimp only
  refine Ok_bind (P := fun b => b = (view hb (u32 (fo + out))).isSome)
    (fun b hb' => (WasInserted_okv hb').2) (fun ins _ hins => ?_)
  have tail : ∀ live : Bool, (live = true → (view hb (u32 (fo + out))).isSome) →
      Ok (fun r : (Middle × Int) × Bool => r.1.1 = st.1 ∨
          ∃ o, r.1.1 = d.middleFunction data.node oe o ∧ (view hb o).isSome)
      (if live = true then
        if d.penaltyFunction g data.node data.originalEdge out = RESTRICTED_TURN then
          (pure (st, false) : Except Fault ((Middle × Int) × Bool))
        else do
          let key ← hb.GetKey (u32 (fo + out))
          if i32 (key + ↑(d.penaltyFunction g data.node data.originalEdge out) + dist) < st.2
          then pure ((d.middleFunction data.node oe (u32 (fo + out)),
            i32 (key + ↑(d.penaltyFunction g data.node data.originalEdge out) + dist)), false)
          else pure (st, false)
      else pure (st, false)) := by
    intro live hlive
    split
    · rename_i hl
      split
      · exact Ok_pure (Or.inl rfl)
      · refine Ok_bind (P := fun _ => True) (fun _ _ => trivial) (fun key _ _ => ?_)
        split
        · exact Ok_pure (Or.inr ⟨_, rfl, hlive hl⟩)
        · exact Ok_pure (Or.inl rfl)
    · exact Ok_pure (Or.inl rfl)
  split
  · rename_i hi
    refine Ok_bind (P := fun _ => True) (fun _ _ => trivial) (fun od _ _ => ?_)
    exact tail (!od.stalled) (fun _ => by rw [← hins]; exact hi)
  · exact tail false (fun h0 => absurd h0 (by simp))

/-- An edge of the popped stall item, when its body returns: keys and stall marks change,
parents do not. -/
theorem stallBody_ok (g : Graph) (d : Dir) (item : StallQueueItem) (e : Nat)
    (st : Heap × List StallQueueItem) (hI : CInv st.1) :
    Ok (fun r => CInv r.1.1 ∧ Ext st.1 r.1.1) (stallBody g d item e st) := by
  obtain ⟨h, queue⟩ := st
  unfold stallBody
  dsimp only
  split
  · exact Ok_pure ⟨hI, Ext_refl _⟩
  · refine Ok_bind (P := fun b => b = (view h (u32 (g.GetFirstOriginalEdge
      (g.GetTarget item.node) + g.GetOriginalEdgeTarget e))).isSome)
      (fun b hb' => (WasInserted_okv hb').2) (fun ins _ hins => ?_)
    split
    · exact Ok_pure ⟨hI, Ext_refl _⟩
    · rename_i hne
      have hin : ins = true := by simpa using hne
      rw [hin] at hins
      obtain ⟨⟨c0, d0, l0⟩, hv⟩ := Option.isSome_iff_exists.1 hins.symm
      refine Ok_bind (GetData_okv hv) (fun sd _ hsd => ?_)
      subst hsd
      split
      · exact Ok_pure ⟨hI, Ext_refl _⟩
      · split
        · exact Ok_pure ⟨hI, Ext_refl _⟩
        · refine Ok_bind (GetKey_okv hv) (fun key _ hkey => ?_)
          subst hkey
          split
          · rename_i hlt
            refine Ok_bind (WasRemoved_okv hv) (fun removed _ hrem => ?_)
            subst hrem
            have tail : ∀ (h1 : Heap) (w : Int), Inv h1 →
                view h1 = Function.update (view h) (u32 (g.GetFirstOriginalEdge
                  (g.GetTarget item.node) + g.GetOriginalEdgeTarget e)) (some (w, sd, l0)) →
                Size h1 = Size h → h1.insertedNodes.length = h.insertedNodes.length →
                Ok (fun r : (Heap × List StallQueueItem) × Bool => CInv r.1.1 ∧ Ext h r.1.1)
                (do
                  let sd1 ← h1.GetData (u32 (g.GetFirstOriginalEdge (g.GetTarget item.node) +
                    g.GetOriginalEdgeTarget e))
                  let heap2 ← h1.SetData (u32 (g.GetFirstOriginalEdge (g.GetTarget item.node) +
                    g.GetOriginalEdgeTarget e)) { sd1 with stalled := true }
                  pure ((heap2, queue ++ [⟨g.GetTarget item.node, g.GetOriginalEdgeTarget e,
                    i32 (item.distance + ↑(d.penaltyFunction g item.node item.originalEdge
                      (g.GetOriginalEdgeSource e)) + ↑(g.GetEdgeData e).distance)⟩]), false)) := by
              intro h1 w hinv1 hview1 hsz1 hcnt1
              have hv1 : view h1 (u32 (g.GetFirstOriginalEdge (g.GetTarget item.node) +
                  g.GetOriginalEdgeTarget e)) = some (w, sd, l0) := by
                rw [hview1, Function.update_same]
              refine Ok_bind (GetData_okv hv1) (fun sd1 _ hsd1 => ?_)
              subst hsd1
              obtain ⟨h2, hrun2, hinv2, hsz2, _, hcnt2, hview2⟩ :=
                SetData_view hinv1 hv1 { sd1 with stalled := true }
              refine Ok_bind (Ok_eq hrun2) (fun heap2 _ h2eq => ?_)
              rw [h2eq]
              refine Ok_pure ?_
              have hs : Size h ≤ h.insertedNodes.length := hI.size
              have hview : view h2 = Function.update (view h) (u32 (g.GetFirstOriginalEdge
                  (g.GetTarget item.node) + g.GetOriginalEdgeTarget e))
                  (some (w, { sd1 with stalled := true }, l0)) := by
                rw [hview2, hview1, Function.update_idem]
              have hsz : Size h2 ≤ h2.insertedNodes.length := by omega
              have hR : removedCount h2 = removedCount h := by
                unfold removedCount
                omega
              exact CInv_same hI hinv2 hv hview hsz hR rfl
            split
            · rename_i hrm
              have hl0 : l0 = false := by simpa using hrm
              subst hl0
              obtain ⟨h1, hrun1, hinv1, hsz1, _, hcnt1, hview1⟩ := SetKey_view hI.inv hv
                (i32 (item.distance + ↑(d.penaltyFunction g item.node item.originalEdge
                  (g.GetOriginalEdgeSource e)) + ↑(g.GetEdgeData e).distance))
              refine Ok_bind (Ok_eq hrun1) (fun heap1 _ h1eq => ?_)
              rw [h1eq]
              exact tail _ _ hinv1 hview1 hsz1 hcnt1
            · refine Ok_bind (DecreaseKey_okv hI.inv hv (le_of_lt hlt)) ?_
              rintro h1 _ ⟨hl, _, hinv1, hsz1, _, hcnt1, hview1⟩
              subst hl
              exact tail _ _ hinv1 hview1 hsz1 hcnt1
          · exact Ok_pure ⟨hI, Ext_refl _⟩

theorem stallLoop_ok (g : Graph) (d : Dir) :
    ∀ (fuel : Nat) (st : Heap × List StallQueueItem), CInv st.1 →
      Ok (fun st' => CInv st'.1 ∧ Ext st.1 st'.1) (stallLoop g d fuel st) := by
  intro fuel
  induction fuel with
  | zero =>
    intro st hI
    rw [stallLoop]
    split
    · exact Ok_pure ⟨hI, Ext_refl _⟩
    · exact Ok_error _
  | succ fuel ih =>
    intro st hI
    rw [stallLoop]
    split
    · exact Ok_pure ⟨hI, Ext_refl _⟩
    · rename_i item queue hq
      refine Ok_bind (forLoop_ok _ (fun s : Heap × List StallQueueItem =>
          CInv s.1 ∧ Ext st.1 s.1)
        (fun e s hs => Ok_mono (stallBody_ok g d item e s hs.1)
          (fun r hr => ⟨hr.1, Ext_trans hs.2 hr.2⟩)) _ (st.1, queue) ⟨hI, Ext_refl _⟩)
        (fun st1 _ h1 => ?_)
      exact Ok_mono (ih st1 h1.1) (fun st' h2 => ⟨h2.1, Ext_trans h1.2 h2.2⟩)

/-- One edge of the settled id, when its body returns. -/
theorem edgeBody_ok (g : Graph) (d : Dir) (sod : Bool) (oe : Nat) (dist : Int)
    (data : HeapData) (e : Nat) (st : Heap × List StallQueueItem) (hI : CInv st.1)
    (hu : Removed st.1 oe) :
    Ok (fun r => CInv r.1.1 ∧ Ext st.1 r.1.1) (edgeBody g d sod oe dist data e st) := by
  obtain ⟨h, queue⟩ := st
  unfold edgeBody
  dsimp only
  refine Ok_bind (P := fun _ => True) (fun _ _ => trivial) (fun _ _ _ => ?_)
  have relax : Ok (fun r : (Heap × List StallQueueItem) × Bool => CInv r.1.1 ∧ Ext h r.1.1)
      (do
        let heap1 ← relaxEdge g d oe dist data e h
        pure ((heap1, queue), false)) :=
    Ok_bind (relaxEdge_ok hI g d oe dist data e hu) (fun h1 _ hg => Ok_pure hg)
  split
  · refine Ok_bind (P := fun _ => True) (fun _ _ => trivial) (fun sh _ _ => ?_)
    split
    · obtain ⟨cu, du, hvu⟩ := hu
      obtain ⟨h1, hrun1, hinv1, hsz1, _, hcnt1, hview1⟩ := SetKey_view hI.inv hvu sh
      refine Ok_bind (Ok_eq hrun1) (fun heap1 _ h1eq => ?_)
      rw [h1eq]
      have hv1 : view h1 oe = some (sh, du, false) := by rw [hview1, Function.update_same]
      refine Ok_bind (GetData_okv hv1) (fun sd _ hsd => ?_)
      subst hsd
      obtain ⟨h2, hrun2, hinv2, hsz2, _, hcnt2, hview2⟩ :=
        SetData_view hinv1 hv1 { sd with stalled := true }
      refine Ok_bind (Ok_eq hrun2) (fun heap2 _ h2eq => ?_)
      rw [h2eq]
      have hs : Size h ≤ h.insertedNodes.length := hI.size
      have hview : view h2 = Function.update (view h) oe
          (some (sh, { sd with stalled := true }, false)) := by
        rw [hview2, hview1, Function.update_idem]
      have t1 : Size h2 = Size h1 := hsz2
      have t2 : Size h1 = Size h := hsz1
      have t3 : h2.insertedNodes.length = h1.insertedNodes.length := hcnt2
      have t4 : h1.insertedNodes.length = h.insertedNodes.length := hcnt1
      have hsz : Size h2 ≤ h2.insertedNodes.length := by omega
      have hR : removedCount h2 = removedCount h := by
        unfold removedCount
        omega
      obtain ⟨hI2, hE2⟩ := CInv_same hI hinv2 hvu hview hsz hR rfl
      refine Ok_bind (stallLoop_ok g d _ (h2, queue ++ [⟨data.node, data.originalEdge, sh⟩])
        hI2) (fun st1 _ hst => Ok_pure ⟨hst.1, Ext_trans hE2 hst.2⟩)
    · exact relax
  · exact relax

end TurnQuery
end MoNav

namespace MoNav
namespace TurnQuery
open BinaryHeap

/-- One call of `computeStep`, when it returns: the heap it settles from keeps its
invariant and is extended, and `m_middle` is as it was or records a meeting of an id
inserted in that heap with an id inserted in the other heap. -/
theorem computeStep_ok (g : Graph) (d : Dir) (sod : Bool) (ho : Heap) (st : StepState)
    (hI : CInv st.heapForward) :
    Ok (fun r => CInv r.1.heapForward ∧ Ext st.heapForward r.1.heapForward ∧
        (r.1.middle = st.middle ∨ ∃ n u o, r.1.middle = d.middleFunction n u o ∧
          (view st.heapForward u).isSome ∧ (view ho o).isSome))
      (computeStep g d sod ho st) := by
  unfold computeStep
  refine Ok_bind (DeleteMin_okv hI.inv) ?_
  rintro ⟨heap1, oe⟩ _ ⟨c, du, hinv1, hvu, _, hview1, hsz1, _, hcnt1⟩
  simp only at hinv1 hvu hview1 hsz1 hcnt1
  obtain ⟨hI1, hE1, hrem1⟩ := CInv_deleteMin hI hinv1 hvu hview1 hsz1 hcnt1
  have hv1 : view heap1 oe = some (c, du, false) := by rw [hview1, Function.update_same]
  have hsome : (view st.heapForward oe).isSome := by rw [hvu]; rfl
  dsimp only
  refine Ok_bind (GetKey_okv hv1) (fun dist _ hdist => ?_)
  refine Ok_bind (GetData_okv hv1) (fun data _ hdata => ?_)
  split
  · exact Ok_pure ⟨hI1, hE1, Or.inl rfl⟩
  · refine Ok_bind (forLoop_ok _ (fun mt : Middle × Int => mt.1 = st.middle ∨
        ∃ o, mt.1 = d.middleFunction data.node oe o ∧ (view ho o).isSome)
      (fun i s hs => Ok_mono (meetBody_ok g d ho oe dist data _ i s) (fun r hr => by
        rcases hr with hr | hr
        · rw [hr]; exact hs
        · exact Or.inr hr)) _ _ (Or.inl rfl)) ?_
    rintro ⟨middle, T⟩ _ hmid
    simp only at hmid
    have hmid' : middle = st.middle ∨ ∃ n u o, middle = d.middleFunction n u o ∧
        (view st.heapForward u).isSome ∧ (view ho o).isSome := by
      rcases hmid with hm | ⟨o, hm, ho'⟩
      · exact Or.inl hm
      · exact Or.inr ⟨_, _, o, hm, hsome, ho'⟩
    dsimp only
    split
    · obtain ⟨h2, hrun2, hinv2, hsz2, _, hcnt2, hview2⟩ := DeleteAll_view hI1.inv
      refine Ok_bind (Ok_eq hrun2) (fun heap2 _ h2eq => ?_)
      rw [h2eq]
      obtain ⟨hI2, hE2⟩ := CInv_deleteAll hI1 hinv2 hview2 hsz2 hcnt2
      exact Ok_pure ⟨hI2, Ext_trans hE1 hE2, hmid'⟩
    · refine Ok_bind (forLoop_ok _ (fun s : Heap × List StallQueueItem =>
          CInv s.1 ∧ Ext heap1 s.1)
        (fun e s hs => Ok_mono (edgeBody_ok g d sod oe dist data e s hs.1
          (Removed_ext hrem1 hs.2)) (fun r hr => ⟨hr.1, Ext_trans hs.2 hr.2⟩)) _
        (heap1, st.stallQueue) ⟨hI1, Ext_refl _⟩) ?_
      rintro ⟨heap2, queue⟩ _ ⟨hI2, hE2⟩
      exact Ok_pure ⟨hI2, Ext_trans hE1 hE2, hmid'⟩

/-- The invariant of the loops of both searches on any graph. -/
theorem MiddleInserted_ext {hf hb hf' hb' : Heap} {mid : Middle}
    (h : MiddleInserted hf hb mid) (hF : Ext hf hf') (hB : Ext hb hb') :
    MiddleInserted hf' hb' mid := by
  rcases h with h | ⟨h1, h2⟩
  · exact Or.inl h
  · exact Or.inr ⟨isSome_ext h1 hF, isSome_ext h2 hB⟩

theorem stepForward_ok (g : Graph) (sod : Bool) (s : SearchState)
    (hF : CInv s.query.m_heapForward) (hB : CInv s.query.m_heapBackward)
    (hM : MiddleInserted s.query.m_heapForward s.query.m_heapBackward s.query.m_middle) :
    Ok (fun s' => CInv s'.query.m_heapForward ∧ CInv s'.query.m_heapBackward ∧
        MiddleInserted s'.query.m_heapForward s'.query.m_heapBackward s'.query.m_middle)
      (stepForward g sod s) := by
  unfold stepForward
  refine Ok_bind (computeStep_ok g Dir.fwd sod s.query.m_heapBackward
    ⟨s.query.m_heapForward, s.query.m_stallQueue, s.query.m_middle, s.targetDistance⟩ hF) ?_
  rintro ⟨r, u⟩ _ ⟨hI, hE, hmid⟩
  simp only at hI hE hmid
  refine Ok_pure ⟨hI, hB, ?_⟩
  rcases hmid with hm | ⟨n, u', o, hm, h1, h2⟩
  · show MiddleInserted r.heapForward s.query.m_heapBackward r.middle
    rw [hm]
    exact MiddleInserted_ext hM hE (Ext_refl _)
  · show MiddleInserted r.heapForward s.query.m_heapBackward r.middle
    rw [hm]
    exact Or.inr ⟨isSome_ext h1 hE, h2⟩

theorem stepBackward_ok (g : Graph) (sod : Bool) (s : SearchState)
    (hF : CInv s.query.m_heapForward) (hB : CInv s.query.m_heapBackward)
    (hM : MiddleInserted s.query.m_heapForward s.query.m_heapBackward s.query.m_middle) :
    Ok (fun s' => CInv s'.query.m_heapForward ∧ CInv s'.query.m_heapBackward ∧
        MiddleInserted s'.query.m_heapForward s'.query.m_heapBackward s'.query.m_middle)
      (stepBackward g sod s) := by
  unfold stepBackward
  refine Ok_bind (computeStep_ok g Dir.bwd sod s.query.m_heapForward
    ⟨s.query.m_heapBackward, s.query.m_stallQueue, s.query.m_middle, s.targetDistance⟩ hB) ?_
  rintro ⟨r, u⟩ _ ⟨hI, hE, hmid⟩
  simp only at hI hE hmid
  refine Ok_pure ⟨hF, hI, ?_⟩
  rcases hmid with hm | ⟨n, u', o, hm, h1, h2⟩
  · show MiddleInserted s.query.m_heapForward r.heapForward r.middle
    rw [hm]
    exact MiddleInserted_ext hM (Ext_refl _) hE
  · show MiddleInserted s.query.m_heapForward r.heapForward r.middle
    rw [hm]
    exact Or.inr ⟨h2, isSome_ext h1 hE⟩

theorem bidirLoop_ok (g : Graph) (sod : Bool) :
    ∀ (fuel : Nat) (s : SearchState), CInv s.query.m_heapForward →
      CInv s.query.m_heapBackward →
      MiddleInserted s.query.m_heapForward s.query.m_heapBackward s.query.m_middle →
      Ok (fun s' => CInv s'.query.m_heapForward ∧ CInv s'.query.m_heapBackward ∧
          MiddleInserted s'.query.m_heapForward s'.query.m_heapBackward s'.query.m_middle)
        (bidirLoop g sod fuel s) := by
  intro fuel
  induction fuel with
  | zero =>
    intro s hF hB hM
    rw [bidirLoop]
    split
    · exact Ok_error _
    · exact Ok_pure ⟨hF, hB, hM⟩
  | succ fuel ih =>
    intro s hF hB hM
    rw [bidirLoop]
    split
    · simp only [ite_bind]
      refine Ok_bind (P := fun s1 : SearchState => CInv s1.query.m_heapForward ∧
          CInv s1.query.m_heapBackward ∧
          MiddleInserted s1.query.m_heapForward s1.query.m_heapBackward s1.query.m_middle)
        ?_ (fun s1 _ h1 => ?_)
      · split
        · exact stepForward_ok g sod s hF hB hM
        · exact Ok_pure ⟨hF, hB, hM⟩
      · refine Ok_bind (P := fun s2 : SearchState => CInv s2.query.m_heapForward ∧
            CInv s2.query.m_heapBackward ∧
            MiddleInserted s2.query.m_heapForward s2.query.m_heapBackward s2.query.m_middle)
          ?_ (fun s2 _ h2 => ih s2 h2.1 h2.2.1 h2.2.2)
        split
        · exact stepBackward_ok g sod s1 h1.1 h1.2.1 h1.2.2
        · exact Ok_pure h1
    · exact Ok_pure ⟨hF, hB, hM⟩

theorem unidirLoop_ok (g : Graph) (sod : Bool) :
    ∀ (fuel : Nat) (s : SearchState), CInv s.query.m_heapForward →
      CInv s.query.m_heapBackward →
      MiddleInserted s.query.m_heapForward s.query.m_heapBackward s.query.m_middle →
      Ok (fun s' => CInv s'.query.m_heapForward ∧ CInv s'.query.m_heapBackward ∧
          MiddleInserted s'.query.m_heapForward s'.query.m_heapBackward s'.query.m_middle)
        (unidirLoop g sod fuel s) := by
  intro fuel
  induction fuel with
  | zero =>
    intro s hF hB hM
    rw [unidirLoop]
    split
    · exact Ok_error _
    · exact Ok_pure ⟨hF, hB, hM⟩
  | succ fuel ih =>
    intro s hF hB hM
    rw [unidirLoop]
    split
    · exact Ok_bind (stepForward_ok g sod s hF hB hM) (fun s1 _ h1 => ih s1 h1.1 h1.2.1 h1.2.2)
    · exact Ok_pure ⟨hF, hB, hM⟩

theorem initSearch_ok (g : Graph) (q : TurnQuery) (s s2 t t2 : Nat)
    (hF : CInv q.m_heapForward) (hB : CInv q.m_heapBackward) :
    Ok (fun q1 => CInv q1.m_heapForward ∧ CInv q1.m_heapBackward ∧ q1.m_middle = q.m_middle)
      (initSearch g q s s2 t t2) := by
  unfold initSearch
  refine Ok_bind (P := fun _ => True) (fun _ _ => trivial) (fun _ _ _ => ?_)
  refine Ok_bind (P := fun _ => True) (fun _ _ => trivial) (fun _ _ _ => ?_)
  refine Ok_bind (P := fun _ => True) (fun _ _ => trivial) (fun _ _ _ => ?_)
  refine Ok_bind (P := fun _ => True) (fun _ _ => trivial) (fun _ _ _ => ?_)
  refine Ok_bind (initHeap_ok hF g s s2 AllowForwardEdge) (fun hf _ h1 => ?_)
  refine Ok_bind (initHeap_ok hB g t t2 AllowBackwardEdge) (fun hb _ h2 => ?_)
  exact Ok_pure ⟨h1, h2, rfl⟩

/-- Both searches on a cleared query, when they return: both heaps are in their invariant
and a recorded meeting names inserted ids. -/
theorem BidirSearch_ok (g : Graph) (sod : Bool) (q : TurnQuery) (s s2 t t2 : Nat) :
    Ok (fun r => CInv r.2.m_heapForward ∧ CInv r.2.m_heapBackward ∧
        MiddleInserted r.2.m_heapForward r.2.m_heapBackward r.2.m_middle)
      (BidirSearch g sod q.Clear s s2 t t2) := by
  unfold BidirSearch
  refine Ok_bind (initSearch_ok g q.Clear s s2 t t2 (CInv_clear _) (CInv_clear _)) ?_
  rintro q1 _ ⟨h1, h2, h3⟩
  have hM : MiddleInserted q1.m_heapForward q1.m_heapBackward q1.m_middle := by
    rw [h3]
    exact Or.inl rfl
  dsimp only
  split
  · exact Ok_pure ⟨h1, h2, hM⟩
  · split
    · refine Ok_bind (P := fun _ => True) (fun _ _ => trivial) (fun _ _ _ => ?_)
      refine Ok_bind (P := fun _ => True) (fun _ _ => trivial) (fun _ _ _ => ?_)
      refine Ok_bind (P := fun _ => True) (fun _ _ => trivial) (fun _ _ _ => ?_)
      exact Ok_pure ⟨h1, h2, hM⟩
    · exact Ok_bind (bidirLoop_ok g sod _ ⟨q1, INT_MAX⟩ h1 h2 hM) (fun s' _ hs => Ok_pure hs)

theorem UnidirSearch_ok (g : Graph) (sod : Bool) (q : TurnQuery) (s s2 t t2 : Nat) :
    Ok (fun r => CInv r.2.m_heapForward ∧ CInv r.2.m_heapBackward ∧
        MiddleInserted r.2.m_heapForward r.2.m_heapBackward r.2.m_middle)
      (UnidirSearch g sod q.Clear s s2 t t2) := by
  unfold UnidirSearch
  refine Ok_bind (initSearch_ok g q.Clear s s2 t t2 (CInv_clear _) (CInv_clear _)) ?_
  rintro q1 _ ⟨h1, h2, h3⟩
  have hM : MiddleInserted q1.m_heapForward q1.m_heapBackward q1.m_middle := by
    rw [h3]
    exact Or.inl rfl
  dsimp only
  split
  · exact Ok_pure ⟨h1, h2, hM⟩
  · split
    · refine Ok_bind (P := fun _ => True) (fun _ _ => trivial) (fun _ _ _ => ?_)
      refine Ok_bind (P := fun _ => True) (fun _ _ => trivial) (fun _ _ _ => ?_)
      refine Ok_bind (P := fun _ => True) (fun _ _ => trivial) (fun _ _ _ => ?_)
      exact Ok_pure ⟨h1, h2, hM⟩
    · exact Ok_bind (unidirLoop_ok g sod _ ⟨q1, INT_MAX⟩ h1 h2 hM) (fun s' _ hs => Ok_pure hs)

/-- `GetPath` returns on a query whose heaps are in their invariant and whose `m_middle`
records a meeting of inserted ids; it appends to both lists. -/
theorem GetPath_total {q : TurnQuery} (hF : CInv q.m_heapForward) (hB : CInv q.m_heapBackward)
    (hM : MiddleInserted q.m_heapForward q.m_heapBackward q.m_middle)
    (hn : q.m_middle.node ≠ NONE) (path : Path) :
    ∃ up down : List Nat, GetPath q path = .ok ⟨path.up ++ up, path.down ++ down⟩ := by
  rcases hM with h | ⟨h1, h2⟩
  · exact absurd h hn
  obtain ⟨up, hup⟩ := chainLoop_returns hF h1 path.up
  obtain ⟨down, hdown⟩ := chainLoop_returns hB h2 path.down
  refine ⟨up, down, ?_⟩
  simp only [GetPath, assert_ok hn, hup, hdown, bind, Except.bind, pure, Except.pure]

end TurnQuery
end MoNav

namespace MoNav

/-- A `for` loop that never leaves with `break` and whose body, whenever it returns, takes
the invariant of the values visited so far to the invariant with one value more. -/
theorem forLoop_okd {α σ : Type} (body : α → σ → Except Fault (σ × Bool))
    (I : List α → σ → Prop) (l : List α)
    (hbody : ∀ (done : List α) (a : α) (rest : List α) (s : σ), l = done ++ a :: rest →
      I done s → Ok (fun r => I (done ++ [a]) r.1 ∧ r.2 = false) (body a s)) :
    ∀ (rest done : List α) (s : σ), l = done ++ rest → I done s →
      Ok (I l) (forLoop body rest s) := by
  intro rest
  induction rest with
  | nil =>
    intro done s hl hs
    rw [List.append_nil] at hl
    rw [hl]
    exact Ok_pure hs
  | cons a rest ih =>
    intro done s hl hs
    rw [forLoop]
    refine Ok_bind (hbody done a rest s hl hs) ?_
    rintro ⟨s1, brk⟩ _ ⟨h1, h2⟩
    simp only at h1 h2
    subst h2
    exact ih (done ++ [a]) s1 (by rw [hl]; simp) h1

namespace TurnQuery
open BinaryHeap

theorem WSeed_congr {W W' : Int → Prop} {h : Heap} (hJ : WSeed W h)
    (hW : ∀ w, W w ↔ W' w) : WSeed W' h :=
  ⟨hJ.inv, fun k c d l hv => ⟨(hJ.live k c d l hv).1, (hW c).1 (hJ.live k c d l hv).2⟩,
    fun w hw => hJ.seen w ((hW w).2 hw)⟩

theorem WSeed_clear (h0 : Heap) : WSeed (fun _ => False) (BinaryHeap.Clear h0) := by
  refine ⟨Clear_inv h0, ?_, fun w hw => hw.elim⟩
  intro k c d l hv
  rw [Clear_view] at hv
  exact absurd hv (by simp)

/-- One call of the storing part of `initHeap`, when it returns, on any graph. -/
theorem seed_okw {W : Int → Prop} {h : Heap} (hJ : WSeed W h) (k w : Nat) (data : HeapData) :
    Ok (WSeed (fun x => W x ∨ x = i32 w)) (seed h k w data) := by
  refine Ok_mono (store_okv hJ.inv k (i32 w) data (fun key => i32 w < key)
    (fun _ hk => le_of_lt hk)) ?_
  rintro h' (⟨rfl, c0, d0, l0, hv, hc⟩ | ⟨_, hinv, hview, hold, _, _, _⟩)
  · refine ⟨hJ.inv, fun k' c d l hv' => ⟨(hJ.live k' c d l hv').1,
      Or.inl (hJ.live k' c d l hv').2⟩, ?_⟩
    rintro x (hx | hx)
    · exact hJ.seen x hx
    · exact ⟨k, c0, d0, l0, hv, by rw [hx]; exact not_lt.1 hc⟩
  · refine ⟨hinv, ?_, ?_⟩
    · intro k' c d l hv'
      rw [hview] at hv'
      by_cases hk : k' = k
      · subst hk
        rw [Function.update_same] at hv'
        simp only [Option.some.injEq, Prod.mk.injEq] at hv'
        obtain ⟨h1, _, h3⟩ := hv'
        exact ⟨h3.symm, Or.inr h1.symm⟩
      · rw [Function.update_noteq hk] at hv'
        exact ⟨(hJ.live k' c d l hv').1, Or.inl (hJ.live k' c d l hv').2⟩
    · rintro x (hx | hx)
      · obtain ⟨k1, c1, d1, l1, hv1, hc1⟩ := hJ.seen x hx
        by_cases hk : k1 = k
        · subst hk
          refine ⟨k1, i32 w, data, true, by rw [hview, Function.update_same], ?_⟩
          exact le_trans (le_of_lt (hold c1 d1 l1 hv1).1) hc1
        · exact ⟨k1, c1, d1, l1, by rw [hview, Function.update_noteq hk]; exact hv1, hc1⟩
      · exact ⟨k, i32 w, data, true, by rw [hview, Function.update_same], by rw [hx]⟩

/-- `initHeap` on a cleared heap, when it returns, on any graph: the heap holds the weights
that the two loops store. -/
theorem initHeap_okw (g : Graph) (h0 : Heap) (node node2 : Nat) (ea : Bool → Bool → Bool) :
    Ok (WSeed (SeedWeight g node node2 ea))
      (initHeap g (BinaryHeap.Clear h0) node node2 ea) := by
  unfold initHeap
  refine Ok_bind (forLoop_okd (initBody1 g node2 ea)
    (fun done h => WSeed (fun w => ∃ e ∈ done, Act1 g node2 ea e ∧
      w = i32 (g.GetEdgeData e).distance) h) (g.edgesOf node) ?_ (g.edgesOf node) []
    (BinaryHeap.Clear h0) rfl (WSeed_congr (WSeed_clear h0) (fun w => by simp)))
    (fun h1 _ hJ1 => ?_)
  · intro done e rest h hl hJ
    by_cases ha : Act1 g node2 ea e
    · rw [initBody1_act g node2 ea e h ha]
      refine Ok_bind (seed_okw hJ _ _ _) (fun h' _ hJ' => Ok_pure ⟨?_, rfl⟩)
      refine WSeed_congr hJ' (fun w => ?_)
      simp only [List.mem_append, List.mem_singleton]
      constructor
      · rintro (⟨e', he', ha', hw⟩ | hw)
        · exact ⟨e', Or.inl he', ha', hw⟩
        · exact ⟨e, Or.inr rfl, ha, hw⟩
      · rintro ⟨e', he' | he', ha', hw⟩
        · exact Or.inl ⟨e', he', ha', hw⟩
        · rw [he'] at hw
          exact Or.inr hw
    · rw [initBody1_skip g node2 ea e h ha]
      refine Ok_of_eq rfl ⟨WSeed_congr hJ (fun w => ?_), rfl⟩
      simp only [List.mem_append, List.mem_singleton]
      constructor
      · rintro ⟨e', he', ha', hw⟩
        exact ⟨e', Or.inl he', ha', hw⟩
      · rintro ⟨e', he' | he', ha', hw⟩
        · exact ⟨e', he', ha', hw⟩
        · rw [he'] at ha'
          exact absurd ha' ha
  · refine forLoop_okd (initBody2 g node node2 ea)
      (fun done h => WSeed (fun w => (∃ e ∈ g.edgesOf node, Act1 g node2 ea e ∧
          w = i32 (g.GetEdgeData e).distance) ∨
        (∃ e ∈ done, Act2 g node ea e ∧ w = i32 (g.GetEdgeData e).distance)) h)
      (g.edgesOf node2) ?_ (g.edgesOf node2) [] h1 rfl
      (WSeed_congr hJ1 (fun w => by simp))
    intro done e rest h hl hJ
    by_cases ha : Act2 g node ea e
    · rw [initBody2_act g node node2 ea e h ha]
      refine Ok_bind (seed_okw hJ _ _ _) (fun h' _ hJ' => Ok_pure ⟨?_, rfl⟩)
      refine WSeed_congr hJ' (fun w => ?_)
      simp only [List.mem_append, List.mem_singleton]
      constructor
      · rintro ((h1 | ⟨e', he', ha', hw⟩) | hw)
        · exact Or.inl h1
        · exact Or.inr ⟨e', Or.inl he', ha', hw⟩
        · exact Or.inr ⟨e, Or.inr rfl, ha, hw⟩
      · rintro (h1 | ⟨e', he' | he', ha', hw⟩)
        · exact Or.inl (Or.inl h1)
        · exact Or.inl (Or.inr ⟨e', he', ha', hw⟩)
        · rw [he'] at hw
          exact Or.inr hw
    · rw [initBody2_skip g node node2 ea e h ha]
      refine Ok_of_eq rfl ⟨WSeed_congr hJ (fun w => ?_), rfl⟩
      simp only [List.mem_append, List.mem_singleton]
      constructor
      · rintro (h1 | ⟨e', he', ha', hw⟩)
        · exact Or.inl h1
        · exact Or.inr ⟨e', Or.inl he', ha', hw⟩
      · rintro (h1 | ⟨e', he' | he', ha', hw⟩)
        · exact Or.inl h1
        · exact Or.inr ⟨e', he', ha', hw⟩
        · rw [he'] at ha'
          exact absurd ha' ha

/-- The least weight of a seeded heap that is not empty is the least stored weight. -/
theorem WSeed_min {W : Int → Prop} {h : Heap} (hJ : WSeed W h) (hsz : 0 < Size h) :
    ∃ c : Int, MinKey h = .ok c ∧ W c ∧ ∀ w, W w → c ≤ w := by
  obtain ⟨m, c, d, hrun, hv, hmin⟩ := MinKey_view hJ.inv hsz
  refine ⟨c, hrun, (hJ.live _ _ _ _ hv).2, ?_⟩
  intro w hw
  obtain ⟨k', c', d', l', hv', hc'⟩ := hJ.seen w hw
  obtain ⟨hl, _⟩ := hJ.live _ _ _ _ hv'
  subst hl
  exact le_trans (hmin _ _ _ hv') hc'

/-- For the arguments of the seed collision, the two calls of `initHeap` store the same
edges: an edge that the forward call stores in its first loop is stored by the backward
call in its second loop, and the other way round. -/
theorem collision_edges (g : Graph) (s s2 : Nat) (e : Nat) :
    (Act1 g s2 AllowForwardEdge e ↔ Act2 g s2 AllowBackwardEdge e) ∧
      (Act2 g s AllowForwardEdge e ↔ Act1 g s AllowBackwardEdge e) :=
  ⟨Iff.rfl, Iff.rfl⟩

theorem collision_weights (g : Graph) (s s2 : Nat) (w : Int) :
    SeedWeight g s s2 AllowForwardEdge w ↔ SeedWeight g s2 s AllowBackwardEdge w := by
  unfold SeedWeight
  constructor
  · rintro (⟨e, he, ha, hw⟩ | ⟨e, he, ha, hw⟩)
    · exact Or.inr ⟨e, he, (collision_edges g s s2 e).1.1 ha, hw⟩
    · exact Or.inl ⟨e, he, (collision_edges g s s2 e).2.1 ha, hw⟩
  · rintro (⟨e, he, ha, hw⟩ | ⟨e, he, ha, hw⟩)
    · exact Or.inr ⟨e, he, (collision_edges g s s2 e).2.2 ha, hw⟩
    · exact Or.inl ⟨e, he, (collision_edges g s s2 e).1.2 ha, hw⟩

/-- The common start of both searches on a cleared query, when it returns, on any
graph. -/
theorem initSearch_okw (g : Graph) (q : TurnQuery) (s s2 t t2 : Nat) :
    Ok (fun q1 => WSeed (SeedWeight g s s2 AllowForwardEdge) q1.m_heapForward ∧
        WSeed (SeedWeight g t t2 AllowBackwardEdge) q1.m_heapBackward)
      (initSearch g q.Clear s s2 t t2) := by
  unfold initSearch
  refine Ok_bind (P := fun _ => True) (fun _ _ => trivial) (fun _ _ _ => ?_)
  refine Ok_bind (P := fun _ => True) (fun _ _ => trivial) (fun _ _ _ => ?_)
  refine Ok_bind (P := fun _ => True) (fun _ _ => trivial) (fun _ _ _ => ?_)
  refine Ok_bind (P := fun _ => True) (fun _ _ => trivial) (fun _ _ _ => ?_)
  refine Ok_bind (initHeap_okw g q.m_heapForward s s2 AllowForwardEdge) (fun hf _ h1 => ?_)
  refine Ok_bind (initHeap_okw g q.m_heapBackward t t2 AllowBackwardEdge) (fun hb _ h2 => ?_)
  exact Ok_pure ⟨h1, h2⟩

/-- In the seed-collision branch both heaps have the same least weight, the assertion of
the branch holds, and both searches return that weight. -/
theorem collision_branch (g : Graph) (sod : Bool) (q : TurnQuery) (s s2 : Nat) (q1 : TurnQuery)
    (hinit : initSearch g q.Clear s s2 s2 s = .ok q1) (hf : 0 < Size q1.m_heapForward)
    (hb : 0 < Size q1.m_heapBackward) :
    ∃ k : Int, MinKey q1.m_heapForward = .ok k ∧ MinKey q1.m_heapBackward = .ok k ∧
      SeedWeight g s s2 AllowForwardEdge k ∧
      (∀ w, SeedWeight g s s2 AllowForwardEdge w → k ≤ w) ∧
      BidirSearch g sod q.Clear s s2 s2 s = .ok (k, q1) ∧
      UnidirSearch g sod q.Clear s s2 s2 s = .ok (k, q1) := by
  obtain ⟨hJf, hJb⟩ := initSearch_okw g q s s2 s2 s q1 hinit
  obtain ⟨kf, hkf, hWf, hminf⟩ := WSeed_min hJf hf
  obtain ⟨kb, hkb, hWb, hminb⟩ := WSeed_min hJb hb
  have h1 : kf ≤ kb := hminf kb ((collision_weights g s s2 kb).2 hWb)
  have h2 : kb ≤ kf := hminb kf ((collision_weights g s s2 kf).1 hWf)
  have hk : kb = kf := le_antisymm h2 h1
  have h0 : ¬ (Size q1.m_heapBackward = 0 ∨ Size q1.m_heapForward = 0) := by omega
  refine ⟨kf, hkf, by rw [hkb, hk], hWf, hminf, ?_, ?_⟩
  · simp only [BidirSearch, hinit, bind, Except.bind, pure, Except.pure]
    simp [h0, hkf, hkb, hk, assert, pure, Except.pure]
  · simp only [UnidirSearch, hinit, bind, Except.bind, pure, Except.pure]
    simp [h0, hkf, hkb, hk, assert, pure, Except.pure]

end TurnQuery
end MoNav

namespace MoNav
namespace TurnQuery
open BinaryHeap

/-- C21: on every graph, with or without stall-on-demand, when `BidirSearch` or
`UnidirSearch` on a cleared query returns and has recorded a meeting
(`m_middle.node != NONE`), `m_middle.in` is a key inserted in the forward heap and
`m_middle.out` a key inserted in the backward heap; in each heap every inserted key whose
`parentOrig` is not `NONE` has an inserted key as `parentOrig`, of smaller rank, so the
parent chains have no cycle; and `GetPath` returns a path: neither loop runs out and no
assertion fails. -/
theorem C21_getpath_safe (g : Graph) (stallOnDemand : Bool) (q : TurnQuery)
    (s s2 t t2 : Nat) (r : Int) (q1 : TurnQuery) (path : Path)
    (hrun : BidirSearch g stallOnDemand q.Clear s s2 t t2 = .ok (r, q1) ∨
      UnidirSearch g stallOnDemand q.Clear s s2 t t2 = .ok (r, q1))
    (hmid : q1.m_middle.node ≠ NONE) :
    q1.m_heapForward.WasInserted q1.m_middle.inOrig = .ok true ∧
      q1.m_heapBackward.WasInserted q1.m_middle.outOrig = .ok true ∧
      Acyclic q1.m_heapForward ∧ Acyclic q1.m_heapBackward ∧
      ∃ up down : List Nat, GetPath q1 path = .ok ⟨path.up ++ up, path.down ++ down⟩ := by
  have hall : CInv q1.m_heapForward ∧ CInv q1.m_heapBackward ∧
      MiddleInserted q1.m_heapForward q1.m_heapBackward q1.m_middle := by
    rcases hrun with h | h
    · exact BidirSearch_ok g stallOnDemand q s s2 t t2 (r, q1) h
    · exact UnidirSearch_ok g stallOnDemand q s s2 t t2 (r, q1) h
  obtain ⟨hF, hB, hM⟩ := hall
  rcases hM with h | ⟨h1, h2⟩
  · exact absurd h hmid
  obtain ⟨⟨c1, d1, l1⟩, hv1⟩ := Option.isSome_iff_exists.1 h1
  obtain ⟨⟨c2, d2, l2⟩, hv2⟩ := Option.isSome_iff_exists.1 h2
  exact ⟨(observers_view hv1).1, (observers_view hv2).1, CInv_acyclic hF, CInv_acyclic hB,
    GetPath_total hF hB (Or.inr ⟨h1, h2⟩) hmid path⟩

/-- On the four-node hierarchy `BidirSearch(0, 1, 3, 2)` with stall-on-demand returns 37
and leaves `hierarchyResult`, whose meeting is at node 1: the keys 1 and 1 of the meeting
are inserted, and `GetPath` returns. -/
theorem C21_getpath_safe_witness :
    (BidirSearch hierarchyGraph true (freshQuery 4).Clear 0 1 3 2 = .ok (37, hierarchyResult) ∨
      UnidirSearch hierarchyGraph true (freshQuery 4).Clear 0 1 3 2 =
        .ok (37, hierarchyResult)) ∧
    hierarchyResult.m_middle.node ≠ NONE ∧
    (hierarchyResult.m_heapForward.WasInserted hierarchyResult.m_middle.inOrig = .ok true ∧
      hierarchyResult.m_heapBackward.WasInserted hierarchyResult.m_middle.outOrig = .ok true ∧
      Acyclic hierarchyResult.m_heapForward ∧ Acyclic hierarchyResult.m_heapBackward ∧
      ∃ up down : List Nat, GetPath hierarchyResult ⟨[], []⟩ = .ok ⟨[] ++ up, [] ++ down⟩) :=
  ⟨Or.inl (by decide), by decide,
    C21_getpath_safe hierarchyGraph true (freshQuery 4) 0 1 3 2 37 hierarchyResult ⟨[], []⟩
      (Or.inl (by decide)) (by decide)⟩

/-- C22: on every graph, when the seeding of `BidirSearch(s, s2, s2, s)` or
`UnidirSearch(s, s2, s2, s)` on a cleared query returns with both heaps non-empty, the two
calls of `initHeap` have stored the same edges (the first loop of one is the second loop of
the other), both heaps hold exactly the weights of those edges, so
`m_heapForward.MinKey() == m_heapBackward.MinKey()`, the assertion of the seed-collision
branch holds, and both searches return that least weight. -/
theorem C22_collision_assert (g : Graph) (stallOnDemand : Bool) (q : TurnQuery) (s s2 : Nat)
    (q1 : TurnQuery) (hinit : initSearch g q.Clear s s2 s2 s = .ok q1)
    (hf : 0 < Size q1.m_heapForward) (hb : 0 < Size q1.m_heapBackward) :
    (∀ e, (Act1 g s2 AllowForwardEdge e ↔ Act2 g s2 AllowBackwardEdge e) ∧
      (Act2 g s AllowForwardEdge e ↔ Act1 g s AllowBackwardEdge e)) ∧
    WSeed (SeedWeight g s s2 AllowForwardEdge) q1.m_heapForward ∧
    WSeed (SeedWeight g s s2 AllowForwardEdge) q1.m_heapBackward ∧
    ∃ k : Int, MinKey q1.m_heapForward = .ok k ∧ MinKey q1.m_heapBackward = .ok k ∧
      BidirSearch g stallOnDemand q.Clear s s2 s2 s = .ok (k, q1) ∧
      UnidirSearch g stallOnDemand q.Clear s s2 s2 s = .ok (k, q1) := by
  obtain ⟨hJf, hJb⟩ := initSearch_okw g q s s2 s2 s q1 hinit
  obtain ⟨k, h1, h2, _, _, h3, h4⟩ := collision_branch g stallOnDemand q s s2 q1 hinit hf hb
  exact ⟨collision_edges g s s2, hJf,
    WSeed_congr hJb (fun w => (collision_weights g s s2 w).symm), k, h1, h2, h3, h4⟩

/-- On the diamond without penalties the seeding for `(0, 1, 1, 0)` leaves `diamondSeeded`:
both heaps hold the edge `0 -> 1` with weight 10, and both searches return 10. -/
theorem C22_collision_assert_witness :
    initSearch (diamond fun _ _ _ => 0) (freshQuery 6).Clear 0 1 1 0 = .ok diamondSeeded ∧
    0 < Size diamondSeeded.m_heapForward ∧ 0 < Size diamondSeeded.m_heapBackward ∧
    ((∀ e, (Act1 (diamond fun _ _ _ => 0) 1 AllowForwardEdge e ↔
          Act2 (diamond fun _ _ _ => 0) 1 AllowBackwardEdge e) ∧
        (Act2 (diamond fun _ _ _ => 0) 0 AllowForwardEdge e ↔
          Act1 (diamond fun _ _ _ => 0) 0 AllowBackwardEdge e)) ∧
      WSeed (SeedWeight (diamond fun _ _ _ => 0) 0 1 AllowForwardEdge)
        diamondSeeded.m_heapForward ∧
      WSeed (SeedWeight (diamond fun _ _ _ => 0) 0 1 AllowForwardEdge)
        diamondSeeded.m_heapBackward ∧
      ∃ k : Int, MinKey diamondSeeded.m_heapForward = .ok k ∧
        MinKey diamondSeeded.m_heapBackward = .ok k ∧
        BidirSearch (diamond fun _ _ _ => 0) true (freshQuery 6).Clear 0 1 1 0 =
          .ok (k, diamondSeeded) ∧
        UnidirSearch (diamond fun _ _ _ => 0) true (freshQuery 6).Clear 0 1 1 0 =
          .ok (k, diamondSeeded)) :=
  ⟨by decide, by decide, by decide,
    C22_collision_assert (diamond fun _ _ _ => 0) true (freshQuery 6) 0 1 diamondSeeded
      (by decide) (by decide) (by decide)⟩

end TurnQuery
end MoNav

